import Mathlib

/-!
# tensor4 kernels: a shallow embedding and its verification

The development embeds the tensor class and the numerical kernels of
`tensor4.h` (views, copies and `Reshape`, blocked GEMM, im2col/col2im, Conv2d,
ConvTranspose2d, Linear, the pooling functions, the pointwise macros, the
broadcasting engine, Softmax, BatchNormalization, Argsort, Flip, Concat, Gather
and the weight file loader and writer) as Lean functions and proves or refutes statements
about them.

Modelling conventions

* The element type `T` of the C++ templates is a commutative ring `R`
  (exact arithmetic; rounding of `float`/`double` is not modelled).  Where the
  source holds a sum in a `float` and stores it by `memcpy` of `sizeof(T)`
  bytes (`do_block_nt`), the value left in the cell is `float_as_T v`, with
  `float_as_T` an argument; it is the identity for `T = float`.
* A C `int`/`int64` is a Lean `Int`; overflow of the arithmetic is not
  modelled.  An explicit conversion `(int)x` of a 64 bit value is
  `tensor.cast_int`.  Integer division is C division, `Int.tdiv` (truncation
  toward zero), remainder is `Int.tmod`.
* A raw buffer is a total function `Int → R` from element addresses to values, and
  a pointer is a buffer together with an integer element offset.  Buffers
  that the source declares `__restrict` (or allocates separately) are separate
  functions.  Freshly allocated, uninitialised memory is an arbitrary buffer
  passed as an argument.  The scratch arena of `Argsort` has its allocated
  size: a call with an iteration that stores outside of it is `none`.
* Loops run in program order (the `T4_USE_OMP 0` reading of `parallel_for`,
  `OMP_THREAD_ID` being an arbitrary per-iteration thread number).  `main.cpp`
  builds with `T4_USE_OMP 1`; there the program order gives the result of a
  `parallel_for` whose iterations store to disjoint cells.  The loop over the
  rows of `col2im` is not of that kind when kernel taps overlap (its rows add
  to shared pixels): `details.col2im` and `ConvTranspose2d` are the program
  order, `details.col2im_row` is one iteration, and statements about runs
  with OpenMP are made about the rows.
* A failed `assert` is the result `none`.
* Library functions (`expf`, `sqrtf`, the sorting behind `std::sort`) are
  arbitrary functions passed as arguments, with their contract as a hypothesis
  where a statement needs it.
* A weight file is the list of its bytes; the loader reads it front to back,
  and a read that leaves a variable without a defined value is the result
  `none`; `save` appends to the list, one `fwrite` after the other.
* Where the identity of a buffer matters (a copy against an alias), the blocks
  obtained from `new T[]` are numbered, see `heap`.
* The multi-index addressing of the data model, `spec_row_major`, is defined
  next to the code; the code itself reaches elements through `ptr()` and `Sub`.
-/

namespace t4

universe u

/-! ## Loops -/

/-- The loop `for (i = 0; i < n; ++i) body(i)` acting on an explicit state. -/
def forLoop {σ : Type u} : Nat → (Nat → σ → σ) → σ → σ
  | 0, _, s => s
  | n + 1, body, s => body n (forLoop n body s)

/-- The loop `for (int i = lo; i < hi; ++i) body(i)` with C integer bounds. -/
def forInt {σ : Type u} (lo hi : Int) (body : Int → σ → σ) (s : σ) : σ :=
  forLoop (hi - lo).toNat (fun k => body (lo + (k : Int))) s

/-- The loop `for (int j = 0; j < n; j += step) body(j)`; it runs
`ceil(n / step)` times, with `j = 0, step, 2 * step, ...`. -/
def forStep {σ : Type u} (step : Nat) (n : Int) (body : Int → σ → σ) (s : σ) : σ :=
  forLoop ((n.toNat + step - 1) / step) (fun jb => body ((step : Int) * (jb : Int))) s

/-- The value of the loop variable when `for (j = 0; j < n; j += step)` exits. -/
def forStepEnd (step : Nat) (n : Int) : Int :=
  (step : Int) * (((n.toNat + step - 1) / step : Nat) : Int)

/-- The library call `memset(dst, 0, count * sizeof(T))` on the buffer `m`. -/
def memset0 {R : Type} [Zero R] (m : Int → R) (dst : Int) (count : Int) : Int → R :=
  fun p => if dst ≤ p ∧ p < dst + count then 0 else m p

/-- The library call `memcpy(dst, src, count * sizeof(T))` from the buffer `srcm`
at element offset `src` into the buffer `m` at element offset `dst`. -/
def memcpy {R : Type} (m : Int → R) (dst : Int) (srcm : Int → R) (src : Int) (count : Int) :
    Int → R :=
  fun p => if dst ≤ p ∧ p < dst + count then srcm (src + (p - dst)) else m p

namespace memory

/-- The enumerator `memory::PAGE_4K`. -/
def PAGE_4K : Nat := 4096

/-- The enumerator `memory::BLOCK_SIZE`. -/
def BLOCK_SIZE : Nat := 128

end memory

/-! ## Blocked GEMM -/

namespace details

variable {R : Type} [CommRing R]

/-- The kernel `details::do_block`: for every column `j` of the block the strip
`B[j + l*LDB]`, `l < K`, is packed into `Bcopy`, then every row `i` accumulates
`cij += _A[l] * Bcopy[l]` starting from `C[j + i*LDC]`.  The state is the pair
of the `C` buffer and the scratch buffer. -/
def do_block (LDA LDB LDC M N K : Int) (A : Int → R) (a : Int) (B : Int → R) (b : Int)
    (c : Int) (bc : Int) (st : (Int → R) × (Int → R)) : (Int → R) × (Int → R) :=
  forInt 0 N (fun j st =>
    let Bcopy := forInt 0 K (fun l m => Function.update m (bc + l) (B (b + j + l * LDB))) st.2
    let C := forInt 0 M (fun i C =>
      let cij := forInt 0 K (fun l cij => cij + A (a + i * LDA + l) * Bcopy (bc + l))
        (C (c + (j + i * LDC)))
      Function.update C (c + (j + i * LDC)) cij) st.1
    (C, Bcopy)) st

/-- The kernel `details::do_block_nt`: rows of `A` dot rows of `B`, accumulated
in the local `float cij` starting from `C[j + i*LDC]`.  The result is not
assigned but stored by `memcpy(C + j + i*LDC, &cij, sizeof(T))`: the cell
receives the value of type `T` whose object representation is the `sizeof(T)`
bytes found at the address of the `float`.  That value is `float_as_T cij`;
for `T = float` the function `float_as_T` is the identity, for every other
element type it is not (for `int32_t` it is the IEEE bit pattern of the float
read as an integer, for an 8 byte type the bytes behind `cij` are read too). -/
def do_block_nt (float_as_T : R → R) (LDA LDB LDC M N K : Int) (A : Int → R) (a : Int)
    (B : Int → R) (b : Int) (c : Int) (C : Int → R) : Int → R :=
  forInt 0 N (fun j C =>
    forInt 0 M (fun i C =>
      let cij := forInt 0 K (fun l cij => cij + A (a + i * LDA + l) * B (b + j * LDB + l))
        (C (c + (j + i * LDC)))
      Function.update C (c + (j + i * LDC)) (float_as_T cij)) C) C

/-- The function `details::gemm_nn` (the branch without `USE_MKL`).  The
arguments `a`, `b`, `c` are the element offsets of the pointers `A`, `B`, `C` in
their buffers; `copy_buffers` is the content of the freshly allocated scratch
arena, `sizeofT` is `sizeof(T)` and `thread_id j` the thread that runs the
iteration `j` of the parallel loop. -/
def gemm_nn (M N K : Int) (A : Int → R) (a : Int) (LDA : Int) (B : Int → R) (b : Int)
    (LDB : Int) (C : Int → R) (c : Int) (LDC : Int)
    (copy_buffers : Int → R) (sizeofT : Nat) (thread_id : Int → Nat) : Int → R :=
  let size_per_thr : Nat :=
    ((memory.BLOCK_SIZE * sizeofT + memory.PAGE_4K - 1) / memory.PAGE_4K) * memory.PAGE_4K
  (forStep memory.BLOCK_SIZE N (fun j st =>
    let _N := min (memory.BLOCK_SIZE : Int) (N - j)
    forStep memory.BLOCK_SIZE M (fun i st =>
      let _M := min (memory.BLOCK_SIZE : Int) (M - i)
      forStep memory.BLOCK_SIZE K (fun l st =>
        let _K := min (memory.BLOCK_SIZE : Int) (K - l)
        do_block LDA LDB LDC _M _N _K A (a + l + i * LDA) B (b + j + l * LDB)
          (c + j + i * LDC) ((size_per_thr / sizeofT * thread_id j : Nat) : Int) st) st) st)
    (C, copy_buffers)).1

/-- The function `details::gemm_nt`; `float_as_T` is the reinterpretation of
the `float` accumulator by the `memcpy` of `do_block_nt`. -/
def gemm_nt (float_as_T : R → R) (M N K : Int) (A : Int → R) (a : Int) (LDA : Int)
    (B : Int → R) (b : Int) (LDB : Int) (C : Int → R) (c : Int) (LDC : Int) : Int → R :=
  forStep memory.BLOCK_SIZE N (fun j C =>
    let _N := min (memory.BLOCK_SIZE : Int) (N - j)
    forStep memory.BLOCK_SIZE M (fun i C =>
      let _M := min (memory.BLOCK_SIZE : Int) (M - i)
      forStep memory.BLOCK_SIZE K (fun l C =>
        let _K := min (memory.BLOCK_SIZE : Int) (K - l)
        do_block_nt float_as_T LDA LDB LDC _M _N _K A (a + l + i * LDA) B (b + l + j * LDB)
          (c + j + i * LDC) C) C) C) C

end details

/-! ## Tensor views -/

/-- The class `tensor<T, D>`: `m_ptr` is the content of the shared buffer the
view points into, `m_shape` the `D` axis sizes, `m_offset` the element offset
of the view in the buffer.  `m_null` records a null `m_ptr` (a default
constructed tensor such as the default `bias` argument). -/
structure tensor (R : Type) where
  m_ptr : Int → R
  m_shape : List Int
  m_offset : Int
  m_null : Bool

namespace tensor

variable {R : Type}

/-- The method `tensor::size`: the product of the axis sizes. -/
def size (t : tensor R) : Int := t.m_shape.foldl (fun size s => size * s) 1

/-- The factory `tensor::New(shape)`; `fresh` is the content of the newly
allocated, uninitialised buffer. -/
def New (shape : List Int) (fresh : Int → R) : tensor R :=
  { m_ptr := fresh, m_shape := shape, m_offset := 0, m_null := false }

/-- The factory `tensor::New(shape, data, offset)` taking a shared buffer. -/
def NewShared (shape : List Int) (data : Int → R) (offset : Int) : tensor R :=
  { m_ptr := data, m_shape := shape, m_offset := offset, m_null := false }

/-- The factory `tensor::Zeros(shape)`. -/
def Zeros [Zero R] (shape : List Int) (fresh : Int → R) : tensor R :=
  let t := New shape fresh
  { t with m_ptr := memset0 t.m_ptr t.m_offset t.size }

/-- The method `tensor::SameAs`. -/
def SameAs (t : tensor R) (fresh : Int → R) : tensor R := New t.m_shape fresh

/-- The method `tensor::Fill`; the result is the view with the buffer content
after the call.  The main loop stores four values per iteration while
`i < l - 4`, the tail loop continues from the same `i`. -/
def Fill (t : tensor R) (value : R) : tensor R :=
  let l := t.size
  let x := forStep 4 (l - 4) (fun i x =>
    let x := Function.update x (t.m_offset + (i + 0)) value
    let x := Function.update x (t.m_offset + (i + 1)) value
    let x := Function.update x (t.m_offset + (i + 2)) value
    Function.update x (t.m_offset + (i + 3)) value) t.m_ptr
  let i := forStepEnd 4 (l - 4)
  { t with m_ptr := forInt i l (fun i x => Function.update x (t.m_offset + i) value) x }

/-- The method `tensor::Assign`: `memcpy(ptr(), x.ptr(), size() * sizeof(T))`. -/
def Assign (t x : tensor R) : tensor R :=
  { t with m_ptr := memcpy t.m_ptr t.m_offset x.m_ptr x.m_offset t.size }

/-- The method `tensor::Sub(n)`: the view of slice `n` of the outermost axis. -/
def Sub (t : tensor R) (n : Int) : tensor R :=
  let s : tensor R := { t with m_shape := t.m_shape.tail }
  { s with m_offset := t.m_offset + n * s.size }

/-- The method `tensor::Sub(n1, n2)`: the view of slice `(n1, n2)` of the two
outermost axes. -/
def Sub2 (t : tensor R) (n1 n2 : Int) : tensor R :=
  let s : tensor R := { t with m_shape := t.m_shape.tail.tail }
  { s with m_offset := t.m_offset + n1 * s.size * t.m_shape.getD 1 0 + n2 * s.size }

/-- Element `i` of a rank 1 view, `ptr()[i]`. -/
def get1 (t : tensor R) (i : Int) : R := t.m_ptr (t.m_offset + i)

/-- Element `(i0, i1)` of a rank 2 view, reached as `Sub(i0).ptr()[i1]`. -/
def get2 (t : tensor R) (i0 i1 : Int) : R :=
  let s := t.Sub i0
  s.m_ptr (s.m_offset + i1)

/-- Element `(n, c, h, w)` of a rank 4 view, reached as
`Sub(n, c).Sub(h).ptr()[w]`. -/
def get4 (t : tensor R) (n c h w : Int) : R :=
  let s := (t.Sub2 n c).Sub h
  s.m_ptr (s.m_offset + w)

end tensor

/-- The function `width`: the last axis size. -/
def width {R : Type} (t : tensor R) : Int := t.m_shape.getD (t.m_shape.length - 1) 0

/-- The function `height`: the size of the axis before the last. -/
def height {R : Type} (t : tensor R) : Int := t.m_shape.getD (t.m_shape.length - 2) 0

/-- The function `channels`: the size of axis 1. -/
def channels {R : Type} (t : tensor R) : Int := t.m_shape.getD 1 0

/-- The function `number`: the size of axis 0. -/
def number {R : Type} (t : tensor R) : Int := t.m_shape.getD 0 0

/-! ## Linear -/

/-- The function `Linear`: the output rows are preset to the bias (or to
zero when the bias pointer is null) and `gemm_nt` accumulates
`in · weightᵀ` into them.  The two `assert`s are the two failure cases;
`float_as_T` is the reinterpretation of the `float` accumulator by the `memcpy`
of `do_block_nt` (the identity for `T = float`). -/
def Linear {R : Type} [CommRing R] (float_as_T : R → R) (input weight bias : tensor R)
    (fresh : Int → R) : Option (tensor R) :=
  if width input ≠ width weight then none
  else if height weight ≠ width bias then none
  else
    let N := number input
    let Inputs := width weight
    let Outputs := height weight
    let out : tensor R :=
      if bias.m_null = false then
        let out := tensor.New [N, Outputs] fresh
        { out with m_ptr := forInt 0 N (fun n m =>
            (({ out with m_ptr := m }.Sub n).Assign bias).m_ptr) out.m_ptr }
      else tensor.Zeros [N, Outputs] fresh
    let C := details.gemm_nt float_as_T N Outputs Inputs input.m_ptr input.m_offset Inputs
      weight.m_ptr weight.m_offset Inputs out.m_ptr out.m_offset Outputs
    some { out with m_ptr := C }

/-! ## Convolution lowering -/

/-- The eight integer template arguments shared by `im2col`, `col2im`, `Conv2d`
and `ConvTranspose2d`. -/
structure conv_params where
  kernel_h : Int
  kernel_w : Int
  stride_h : Int
  stride_w : Int
  pad_h : Int
  pad_w : Int
  dilation_h : Int
  dilation_w : Int

namespace details

variable {R : Type}

/-- The function `memcpy_extended<src_stride, T>::strided`.  The specialisation
for `src_stride == 1` is one `memcpy` of `count` elements (a negative `count`
is undefined behaviour in C; here it copies nothing).  The general template is
the four-way unrolled loop followed by the tail loop over the same `x`. -/
def memcpy_extended_strided (src_stride : Int) (m : Int → R) (dst : Int) (srcm : Int → R)
    (src : Int) (count : Int) : Int → R :=
  if src_stride = 1 then memcpy m dst srcm src count
  else
    let m := forStep 4 (count - 4) (fun x m =>
      let m := Function.update m (dst + (x + 0)) (srcm (src + (x + 0) * src_stride))
      let m := Function.update m (dst + (x + 1)) (srcm (src + (x + 1) * src_stride))
      let m := Function.update m (dst + (x + 2)) (srcm (src + (x + 2) * src_stride))
      Function.update m (dst + (x + 3)) (srcm (src + (x + 3) * src_stride))) m
    let x := forStepEnd 4 (count - 4)
    forInt x count (fun x m => Function.update m (dst + x) (srcm (src + x * src_stride))) m

/-- The function `im2col_process_row<...>::apply`: the specialisation for
`pad_h == 0 && pad_w == 0` (a strided copy per output row) and the general
template (clipping with zero fill). -/
def im2col_process_row_apply [Zero R] (hp : conv_params) (dstm : Int → R) (dst : Int)
    (srcm : Int → R) (src : Int) (fh fw inputWidth inputHeight outputWidth outputHeight : Int) :
    Int → R :=
  if hp.pad_h = 0 ∧ hp.pad_w = 0 then
    forInt 0 outputHeight (fun y m =>
      let input_y := y * hp.stride_h + fh * hp.dilation_h
      memcpy_extended_strided hp.stride_w m (dst + y * outputWidth) srcm
        (src + input_y * inputWidth + fw * hp.dilation_w) outputWidth) dstm
  else
    let start := Int.tdiv (hp.pad_w - fw * hp.dilation_w + hp.stride_w - 1) hp.stride_w
    let end_ := Int.tdiv (inputWidth + hp.pad_w - fw * hp.dilation_w + hp.stride_w - 1) hp.stride_w
    let start_clipped := max start 0
    let end_clipped := min end_ outputWidth
    forInt 0 outputHeight (fun y m =>
      let input_y := y * hp.stride_h + fh * hp.dilation_h - hp.pad_h
      if input_y ≥ 0 ∧ input_y < inputHeight then
        let m := if start > 0 then memset0 m (dst + y * outputWidth) start else m
        let m := memcpy_extended_strided hp.stride_w m (dst + y * outputWidth + start_clipped) srcm
          (src + input_y * inputWidth + start_clipped * hp.stride_w + fw * hp.dilation_w - hp.pad_w)
          (end_clipped - start_clipped)
        if end_ < outputWidth then memset0 m (dst + y * outputWidth + end_) (outputWidth - end_)
        else m
      else memset0 m (dst + y * outputWidth) outputWidth) dstm

/-- The function `details::im2col`: one call of `im2col_process_row::apply` per
row `(channel, fh, fw)` of the columns matrix. -/
def im2col [Zero R] (hp : conv_params) (output : Int → R) (o : Int) (input : Int → R) (i : Int)
    (channels inputWidth inputHeight outputWidth outputHeight : Int) : Int → R :=
  let channel_stride_in := inputHeight * inputWidth
  let channel_stride_out := outputHeight * outputWidth
  let column_size := channels * hp.kernel_h * hp.kernel_w
  forInt 0 column_size (fun row m =>
    let channel := (row.tdiv hp.kernel_h).tdiv hp.kernel_w
    let fh := (row.tdiv hp.kernel_w).tmod hp.kernel_h
    let fw := row.tmod hp.kernel_w
    im2col_process_row_apply hp m (o + row * channel_stride_out) input
      (i + channel * channel_stride_in) fh fw inputWidth inputHeight outputWidth outputHeight) output

/-- The function `details::col2im`: every column element is added (`+=`) to the
image position it was gathered from; `output` is the image, `input` the
columns.  The rows are run in program order here, which is the build with
`T4_USE_OMP 0` (or one thread).  The loop over the rows is a `parallel_for` and
the rows of one channel add to the same pixels (see `col2im_row`), so with
OpenMP the updates of a shared pixel are not ordered and this function gives
the result of the call only where no two rows share a pixel. -/
def col2im [Add R] (hp : conv_params) (output : Int → R) (o : Int) (input : Int → R) (i : Int)
    (channels inputWidth inputHeight outputWidth outputHeight : Int) : Int → R :=
  let channel_stride_in := inputHeight * inputWidth
  let channel_stride_out := outputHeight * outputWidth
  let column_size := channels * hp.kernel_h * hp.kernel_w
  forInt 0 column_size (fun row m =>
    let channel := (row.tdiv hp.kernel_h).tdiv hp.kernel_w
    let fh := (row.tdiv hp.kernel_w).tmod hp.kernel_h
    let fw := row.tmod hp.kernel_w
    let start := max (Int.tdiv (hp.pad_w - fw * hp.dilation_w + hp.stride_w - 1) hp.stride_w) 0
    let end_ := min (Int.tdiv (inputWidth + hp.pad_w - fw * hp.dilation_w + hp.stride_w - 1)
      hp.stride_w) outputWidth
    let dst := o + channel * channel_stride_in
    let src := i + row * channel_stride_out
    forInt 0 outputHeight (fun y m =>
      let input_y := y * hp.stride_h + fh * hp.dilation_h - hp.pad_h
      if input_y ≥ 0 ∧ input_y < inputHeight then
        forInt start end_ (fun x m =>
          let input_x := x * hp.stride_w + fw * hp.dilation_w - hp.pad_w
          Function.update m (dst + (input_y * inputWidth + input_x))
            (m (dst + (input_y * inputWidth + input_x)) + input (src + (y * outputWidth + x)))) m
      else m) m) output

end details

/-- The function `Conv2d<kernel_h, ..., dilation_w>`: im2col of `in.ptr()` into
the freshly allocated `columns`, output initialisation, one `gemm_nn`.  The
three `assert`s are the failure cases. -/
def Conv2d {R : Type} [CommRing R] (hp : conv_params) (input kernel bias : tensor R)
    (columns_fresh out_fresh copy_buffers : Int → R) (sizeofT : Nat) (thread_id : Int → Nat) :
    Option (tensor R) :=
  if channels kernel ≠ channels input then none
  else if hp.kernel_h ≠ height kernel then none
  else if hp.kernel_w ≠ width kernel then none
  else
    let N := number input
    let K := number kernel
    let C := channels kernel
    let Hin := height input
    let Win := width input
    let Hout := Int.tdiv (Hin + 2 * hp.pad_h - hp.dilation_h * (hp.kernel_h - 1) - 1) hp.stride_h + 1
    let Wout := Int.tdiv (Win + 2 * hp.pad_w - hp.dilation_w * (hp.kernel_w - 1) - 1) hp.stride_w + 1
    let columns := details.im2col hp columns_fresh 0 input.m_ptr input.m_offset (channels input)
      Win Hin Wout Hout
    let out : tensor R :=
      if bias.m_null = false then
        let out := tensor.New [N, K, Hout, Wout] out_fresh
        let pbias := fun c : Int => bias.m_ptr (bias.m_offset + c)
        let m := forInt 0 N (fun n m => forInt 0 K (fun c m =>
          (({ out with m_ptr := m }.Sub2 n c).Fill (pbias c)).m_ptr) m) out.m_ptr
        { out with m_ptr := m }
      else tensor.Zeros [N, K, Hout, Wout] out_fresh
    let m := details.gemm_nn K (Hout * Wout) (hp.kernel_h * hp.kernel_w * C) kernel.m_ptr
      kernel.m_offset (hp.kernel_h * hp.kernel_w * C) columns 0 (Hout * Wout) out.m_ptr
      out.m_offset (Hout * Wout) copy_buffers sizeofT thread_id
    some { out with m_ptr := m }

/-- The function `ConvTranspose2d<kernel_h, ..., dilation_w>`: the kernel matrix
is transposed into `AT`, `gemm_nn` produces the zero-initialised `columns`,
the output is initialised and `col2im` scatters the columns into it (its rows
in program order, see `details.col2im`). -/
def ConvTranspose2d {R : Type} [CommRing R] (hp : conv_params) (input kernel bias : tensor R)
    (columns_fresh AT_fresh out_fresh copy_buffers : Int → R) (sizeofT : Nat)
    (thread_id : Int → Nat) : Option (tensor R) :=
  if number kernel ≠ channels input then none
  else if hp.kernel_h ≠ height kernel then none
  else if hp.kernel_w ≠ width kernel then none
  else
    let N := number input
    let K := channels kernel
    let Hin := height input
    let Win := width input
    let Hout := (Hin - 1) * hp.stride_h - 2 * hp.pad_h + hp.dilation_h * (hp.kernel_h - 1) + 1
    let Wout := (Win - 1) * hp.stride_w - 2 * hp.pad_w + hp.dilation_w * (hp.kernel_w - 1) + 1
    let columns := memset0 columns_fresh 0 (K * hp.kernel_h * hp.kernel_w * Hin * Win)
    let _M := K * hp.kernel_h * hp.kernel_w
    let _K := number kernel
    let AT := forInt 0 _M (fun i m => forInt 0 _K (fun j m =>
      Function.update m (j + i * _K) (kernel.m_ptr (kernel.m_offset + (i + j * _M)))) m) AT_fresh
    let columns := details.gemm_nn (K * hp.kernel_h * hp.kernel_w) (Hin * Win) (number kernel)
      AT 0 _K input.m_ptr input.m_offset (Hin * Win) columns 0 (Hin * Win) copy_buffers sizeofT
      thread_id
    let out : tensor R :=
      if bias.m_null = false then
        let out := tensor.New [N, K, Hout, Wout] out_fresh
        let pbias := fun c : Int => bias.m_ptr (bias.m_offset + c)
        let m := forInt 0 N (fun n m => forInt 0 K (fun c m =>
          (({ out with m_ptr := m }.Sub2 n c).Fill (pbias c)).m_ptr) m) out.m_ptr
        { out with m_ptr := m }
      else tensor.Zeros [N, K, Hout, Wout] out_fresh
    let m := details.col2im hp out.m_ptr out.m_offset columns 0 K Wout Hout Win Hin
    some { out with m_ptr := m }

/-! ## Pointwise operations and broadcasting -/

/-- The function `BroadCastShape<D>`: axis by axis, sizes that differ must
contain a 1 (the `assert`), the result size is the maximum.  The loop over the
axes `i < D` of the two arrays is the recursion over the two lists. -/
def BroadCastShape : List Int → List Int → Option (List Int)
  | x :: a, y :: b =>
    if x ≠ y ∧ ¬ (x = 1 ∨ y = 1) then none
    else (BroadCastShape a b).map (fun result => max x y :: result)
  | _, _ => some []

/-- The function `ExpandShape<D>`: starting from `{1, 1, 1, 1}` the entries
`out[D - i - 1] = x[D - i - 1]` are assigned for `i < D`. -/
def ExpandShape (x : List Int) : List Int :=
  let D := x.length
  forLoop D (fun i out => out.set (D - i - 1) (x.getD (D - i - 1) 0)) [1, 1, 1, 1]

/-- The macro `POINT_WISE(OP)`: `OP` applied to every element of `in`, stored
in a new tensor of the same shape.  The main loop handles four elements per
iteration while `i < l - 4`, the tail loop starts at `4 * ((l - 4) / 4)`. -/
def POINT_WISE {R : Type} (OP : R → R) (input : tensor R) (fresh : Int → R) : tensor R :=
  let out := input.SameAs fresh
  let l := input.size
  let dst := forStep 4 (l - 4) (fun i dst =>
    let dst := Function.update dst (out.m_offset + (i + 0)) (OP (input.m_ptr (input.m_offset + (i + 0))))
    let dst := Function.update dst (out.m_offset + (i + 1)) (OP (input.m_ptr (input.m_offset + (i + 1))))
    let dst := Function.update dst (out.m_offset + (i + 2)) (OP (input.m_ptr (input.m_offset + (i + 2))))
    Function.update dst (out.m_offset + (i + 3)) (OP (input.m_ptr (input.m_offset + (i + 3))))) out.m_ptr
  let dst := forInt (4 * Int.tdiv (l - 4) 4) l (fun i dst =>
    Function.update dst (out.m_offset + i) (OP (input.m_ptr (input.m_offset + i)))) dst
  { out with m_ptr := dst }

/-- The macro `POINT_INPLACE(OP)`: the same two loops, reading and writing the
buffer of `in` itself. -/
def POINT_INPLACE {R : Type} (OP : R → R) (input : tensor R) : tensor R :=
  let l := input.size
  let ptr := forStep 4 (l - 4) (fun i ptr =>
    let ptr := Function.update ptr (input.m_offset + (i + 0)) (OP (ptr (input.m_offset + (i + 0))))
    let ptr := Function.update ptr (input.m_offset + (i + 1)) (OP (ptr (input.m_offset + (i + 1))))
    let ptr := Function.update ptr (input.m_offset + (i + 2)) (OP (ptr (input.m_offset + (i + 2))))
    Function.update ptr (input.m_offset + (i + 3)) (OP (ptr (input.m_offset + (i + 3))))) input.m_ptr
  let ptr := forInt (4 * Int.tdiv (l - 4) 4) l (fun i ptr =>
    Function.update ptr (input.m_offset + i) (OP (ptr (input.m_offset + i)))) ptr
  { input with m_ptr := ptr }

/-- The macro `POINT_WISE_BINARY(OP)`: the flat loop for equal shapes, and
otherwise the broadcasting loop nest over the rank 4 result shape, with every
operand index taken modulo the operand's axis size and three variants of the
innermost loop. -/
def POINT_WISE_BINARY {R : Type} (OP : R → R → R) (a b : tensor R) (fresh : Int → R) :
    Option (tensor R) :=
  if a.m_shape = b.m_shape then
    let out := a.SameAs fresh
    let l := a.size
    let srcA := fun i : Int => a.m_ptr (a.m_offset + i)
    let srcB := fun i : Int => b.m_ptr (b.m_offset + i)
    let dst := forStep 4 (l - 4) (fun i dst =>
      let dst := Function.update dst (out.m_offset + (i + 0)) (OP (srcA (i + 0)) (srcB (i + 0)))
      let dst := Function.update dst (out.m_offset + (i + 1)) (OP (srcA (i + 1)) (srcB (i + 1)))
      let dst := Function.update dst (out.m_offset + (i + 2)) (OP (srcA (i + 2)) (srcB (i + 2)))
      Function.update dst (out.m_offset + (i + 3)) (OP (srcA (i + 3)) (srcB (i + 3)))) out.m_ptr
    let dst := forInt (4 * Int.tdiv (l - 4) 4) l (fun i dst =>
      Function.update dst (out.m_offset + i) (OP (srcA i) (srcB i))) dst
    some { out with m_ptr := dst }
  else
    match BroadCastShape a.m_shape b.m_shape with
    | none => none
    | some resultShape =>
      let s := fun i : Nat => (ExpandShape resultShape).getD i 0
      let out := tensor.New (ExpandShape resultShape) fresh
      let sa := fun i : Nat => a.m_shape.getD i 0
      let sb := fun i : Nat => b.m_shape.getD i 0
      let dst := forInt 0 (s 0) (fun n dst =>
        let srcAn := a.m_offset + n.tmod (sa 0) * sa 3 * sa 2 * sa 1
        let srcBn := b.m_offset + n.tmod (sb 0) * sb 3 * sb 2 * sb 1
        let dstn := out.m_offset + n * s 3 * s 2 * s 1
        forInt 0 (s 1) (fun c dst =>
          let srcAc := srcAn + c.tmod (sa 1) * sa 3 * sa 2
          let srcBc := srcBn + c.tmod (sb 1) * sb 3 * sb 2
          let dstc := dstn + c * s 3 * s 2
          forInt 0 (s 2) (fun h dst =>
            let srcAh := srcAc + h.tmod (sa 2) * sa 3
            let srcBh := srcBc + h.tmod (sb 2) * sb 3
            let dsth := dstc + h * s 3
            if sa 3 = 1 then
              forInt 0 (s 3) (fun w dst =>
                Function.update dst (dsth + w) (OP (a.m_ptr srcAh) (b.m_ptr (srcBh + w)))) dst
            else if sb 3 = 1 then
              forInt 0 (s 3) (fun w dst =>
                Function.update dst (dsth + w) (OP (a.m_ptr (srcAh + w)) (b.m_ptr srcBh))) dst
            else
              forInt 0 (s 3) (fun w dst =>
                Function.update dst (dsth + w)
                  (OP (a.m_ptr (srcAh + w.tmod (sa 3))) (b.m_ptr (srcBh + w.tmod (sb 3))))) dst)
            dst) dst) out.m_ptr
      some (tensor.NewShared resultShape dst out.m_offset)

/-- The function `LeakyRelu`: `out = (v < 0) ? alpha * v : v` through
`POINT_WISE`. -/
def LeakyRelu {R : Type} [LinearOrderedCommRing R] (input : tensor R) (alpha : R)
    (fresh : Int → R) : tensor R :=
  POINT_WISE (fun v => if v < 0 then alpha * v else v) input fresh

/-- The function `LeakyReluInplace`: the same `OP` through `POINT_INPLACE`. -/
def LeakyReluInplace {R : Type} [LinearOrderedCommRing R] (input : tensor R) (alpha : R) :
    tensor R :=
  POINT_INPLACE (fun v => if v < 0 then alpha * v else v) input

namespace pointwise

/-- The binary function `Add`: `out = a + b` through `POINT_WISE_BINARY`. -/
def Add {R : Type} [CommRing R] (a b : tensor R) (fresh : Int → R) : Option (tensor R) :=
  POINT_WISE_BINARY (fun a b => a + b) a b fresh

/-- The binary function `Sub`: `out = a - b` through `POINT_WISE_BINARY`. -/
def Sub {R : Type} [CommRing R] (a b : tensor R) (fresh : Int → R) : Option (tensor R) :=
  POINT_WISE_BINARY (fun a b => a - b) a b fresh

/-- The binary function `Mul`: `out = a * b` through `POINT_WISE_BINARY`. -/
def Mul {R : Type} [CommRing R] (a b : tensor R) (fresh : Int → R) : Option (tensor R) :=
  POINT_WISE_BINARY (fun a b => a * b) a b fresh

/-- The binary function `Div`: `out = a / b` through `POINT_WISE_BINARY`. -/
def Div {R : Type} [Field R] (a b : tensor R) (fresh : Int → R) : Option (tensor R) :=
  POINT_WISE_BINARY (fun a b => a / b) a b fresh

end pointwise

/-! ## Multi-indices -/

/-- The addressing formula of the data model (it is not a function of the
source): the row-major position of a multi-index in a shape, the sum of
`i_k * prod_{j > k} shape[j]`. -/
def spec_row_major : List Int → List Int → Int
  | _ :: shape, i :: idx => i * shape.prod + spec_row_major shape idx
  | _, _ => 0

/-- A multi-index is in range for a shape: as many entries as axes, each
`0 ≤ i_k < shape[k]`. -/
def in_range : List Int → List Int → Bool
  | s :: shape, i :: idx => decide (0 ≤ i ∧ i < s) && in_range shape idx
  | [], [] => true
  | _, _ => false

/-- The element of a view at a multi-index as the data model addresses it,
`buffer[offset + spec_row_major shape idx]`. -/
def tensor.elem {R : Type} (t : tensor R) (idx : List Int) : R :=
  t.m_ptr (t.m_offset + spec_row_major t.m_shape idx)

/-! ## Copies, flattening and reshaping -/

namespace tensor

variable {R : Type}

/-- The method `tensor::Contiguous`: the rank 1 view of the same buffer at the
same offset, of shape `[size()]`. -/
def Contiguous (t : tensor R) : tensor R :=
  { m_ptr := t.m_ptr, m_shape := [t.size], m_offset := t.m_offset, m_null := t.m_null }

/-- The conversion `(int)x` of an `int64`: the value of `x` modulo `2 ^ 32`
in the range `[-2 ^ 31, 2 ^ 31)` of `int`. -/
def cast_int (x : Int) : Int := (x + 2 ^ 31) % 2 ^ 32 - 2 ^ 31

/-- The method `tensor::Flatten(d)`: the axes before `d` and the axes from `d`
on are multiplied into `sizeA` and `sizeB`, a new tensor of shape
`{ (int)sizeA, (int)sizeB }` is allocated and the `size()` elements of the new
tensor are copied into it.  The reads `m_shape[i]` are inside the array for
`0 ≤ d ≤ ndim`. -/
def Flatten (t : tensor R) (d : Int) (fresh : Int → R) : tensor R :=
  let ndim : Int := t.m_shape.length
  let sizeA := forInt 0 d (fun i sizeA => sizeA * t.m_shape.getD i.toNat 0) 1
  let sizeB := forInt d ndim (fun i sizeB => sizeB * t.m_shape.getD i.toNat 0) 1
  let r := New [cast_int sizeA, cast_int sizeB] fresh
  { r with m_ptr := memcpy r.m_ptr r.m_offset t.m_ptr t.m_offset r.size }

end tensor

/-- The function `Reshape<outDim>(x, shape)`.  The first loop copies the
requested sizes `shape.ptr()[i]` and records the position of a `-1` (a second
`-1` fails the `assert`); when the product of the sizes is negative the axis
`unspecified_dim` is replaced by `x.size() / size` (`rem == 0` is asserted);
the result shares the buffer and offset of `x`, and its size is asserted to be
the size of `x`.  A store `result_shape[unspecified_dim]` with
`unspecified_dim == -1` is outside the array and has no defined result; it is
`none` here.  The array `result_shape` starts as zeros, every entry is
assigned before it is read. -/
def Reshape {R : Type} (outDim : Nat) (x : tensor R) (shape : tensor Int) :
    Option (tensor R) :=
  let st := forLoop outDim (fun i st =>
      st.bind (fun st : List Int × Int =>
        let result_shape := st.1.set i (shape.m_ptr (shape.m_offset + (i : Int)))
        if result_shape.getD i 0 = -1 then
          if st.2 ≠ -1 then none else some (result_shape, (i : Int))
        else some (result_shape, st.2)))
    (some (List.replicate outDim 0, -1))
  st.bind (fun st =>
    let result_shape := st.1
    let unspecified_dim := st.2
    let size := forLoop outDim (fun i size => size * result_shape.getD i 0) 1
    let resolved : Option (List Int) :=
      if size < 0 then
        let size := -size
        let d := x.size.tdiv size
        let rem := x.size.tmod size
        if rem ≠ 0 then none
        else if unspecified_dim < 0 then none
        else some (result_shape.set unspecified_dim.toNat d)
      else some result_shape
    resolved.bind (fun result_shape =>
      let out_tensor := tensor.NewShared result_shape x.m_ptr x.m_offset
      if out_tensor.size ≠ x.size then none else some out_tensor))

/-! ## Allocations -/

/-- The memory the tensors live in: `cells k` is the content of the block
number `k` obtained from `new T[]`, and `count` is the number of blocks
allocated so far (the blocks `k < count` are in use, the content of a later
block is what an allocation will find there). -/
structure heap (R : Type) where
  cells : Nat → Int → R
  count : Nat

/-- A tensor object together with the identity of the block its `m_ptr`
refers to. -/
structure handle where
  alloc : Nat
  m_shape : List Int
  m_offset : Int

namespace heap

variable {R : Type}

/-- The tensor behind a handle, with the present content of its block. -/
def view (h : heap R) (t : handle) : tensor R :=
  { m_ptr := h.cells t.alloc, m_shape := t.m_shape, m_offset := t.m_offset, m_null := false }

/-- A call that returns a tensor on a block of its own (`New`, `Flatten`, a
copy variant of an operation): the block gets the next number, `body` is the
call as a function of the uninitialised content of the block. -/
def create (h : heap R) (body : (Int → R) → tensor R) : heap R × handle :=
  let t := body (h.cells h.count)
  ({ cells := Function.update h.cells h.count t.m_ptr, count := h.count + 1 },
    { alloc := h.count, m_shape := t.m_shape, m_offset := t.m_offset })

/-- The factory `tensor::New(shape)` on the heap: `m_ptr.reset(new T[size()])`
takes the next block, whose content is not initialised, and the tensor views
it at offset 0. -/
def New (h : heap R) (shape : List Int) : heap R × handle :=
  ({ h with count := h.count + 1 }, { alloc := h.count, m_shape := shape, m_offset := 0 })

/-- The library call `memcpy(t.ptr(), src, count * sizeof(T))` on the heap,
where `src` is the element `s` of the block `src`: the block of `t` receives
`count` elements. -/
def memcpy_to (h : heap R) (t : handle) (src : Nat) (s : Int) (count : Int) : heap R :=
  let block := memcpy (h.cells t.alloc) t.m_offset (h.cells src) s count
  { h with cells := Function.update h.cells t.alloc block }

/-- The method `tensor::Flatten(d)` on the heap, called on the tensor `x`: the
result of `tensor<T, 2>::New({ (int)sizeA, (int)sizeB })` is filled by
`memcpy(t.ptr(), ptr(), t.size() * sizeof(T))` and returned. -/
def Flatten (h : heap R) (x : handle) (d : Int) : heap R × handle :=
  let ndim : Int := x.m_shape.length
  let sizeA := forInt 0 d (fun i sizeA => sizeA * x.m_shape.getD i.toNat 0) 1
  let sizeB := forInt d ndim (fun i sizeB => sizeB * x.m_shape.getD i.toNat 0) 1
  let ht := h.New [tensor.cast_int sizeA, tensor.cast_int sizeB]
  (ht.1.memcpy_to ht.2 x.alloc x.m_offset (ht.1.view ht.2).size, ht.2)

end heap

/-! ## Unary operations, Softmax and BatchNormalization -/

/-- The function `Relu`: `out = (v > 0) ? v : T(0)` through `POINT_WISE`. -/
def Relu {R : Type} [LinearOrderedCommRing R] (input : tensor R) (fresh : Int → R) : tensor R :=
  POINT_WISE (fun v => if v > 0 then v else 0) input fresh

/-- The function `Neg`: `out = -v` through `POINT_WISE`. -/
def Neg {R : Type} [CommRing R] (input : tensor R) (fresh : Int → R) : tensor R :=
  POINT_WISE (fun v => -v) input fresh

/-- The function `Exp`: `out = details::exp_f(v)` through `POINT_WISE`; the
library function behind `exp_f` is the argument `exp_f`. -/
def Exp {R : Type} (exp_f : R → R) (input : tensor R) (fresh : Int → R) : tensor R :=
  POINT_WISE (fun v => exp_f v) input fresh

namespace scalar

/-- The function `Mul(in, x)` with a scalar: `out = v * x` through `POINT_WISE`. -/
def Mul {R : Type} [CommRing R] (input : tensor R) (x : R) (fresh : Int → R) : tensor R :=
  POINT_WISE (fun v => v * x) input fresh

/-- The function `Add(in, x)` with a scalar: `out = v + x` through `POINT_WISE`. -/
def Add {R : Type} [CommRing R] (input : tensor R) (x : R) (fresh : Int → R) : tensor R :=
  POINT_WISE (fun v => v + x) input fresh

/-- The function `Div(in, x)` with a scalar: `out = v / x` through `POINT_WISE`. -/
def Div {R : Type} [Field R] (input : tensor R) (x : R) (fresh : Int → R) : tensor R :=
  POINT_WISE (fun v => v / x) input fresh

end scalar

/-- The function `Softmax<axis>`: `Exp` of the input, then for every one of
the `elementCount / count` slices along the axis the sum of the slice is
accumulated and every element of the slice is divided by it.  The template
argument `axis` is `-1` or an axis below the rank (the `static_assert`). -/
def Softmax {R : Type} [Field R] (exp_f : R → R) (axis : Int) (input : tensor R)
    (fresh : Int → R) : tensor R :=
  let D : Int := input.m_shape.length
  let _axis := if axis = -1 then D - 1 else axis
  let output := Exp exp_f input fresh
  let elementCount := input.size
  let count := input.m_shape.getD _axis.toNat 0
  let sortInstances := elementCount.tdiv count
  let stride : Int :=
    if axis ≠ -1 then
      forInt (_axis + 1) D (fun i stride => stride * input.m_shape.getD i.toNat 0) 1
    else 1
  let dst := forInt 0 sortInstances (fun i dst =>
    let start := output.m_offset + i.tdiv stride * count * stride + i.tmod stride
    let sum := forInt 0 count (fun j sum => sum + dst (start + j * stride)) 0
    forInt 0 count (fun j dst =>
      Function.update dst (start + j * stride) (dst (start + j * stride) / sum)) dst)
    output.m_ptr
  { output with m_ptr := dst }

/-- The function `BatchNormalization`: for every image `n` and channel `c` the
plane `in.Sub(n, c)` is mapped through `v * mul + add` into `out.Sub(n, c)`,
with `invstd = 1 / sqrtf(running_var[c] + epsilon)`,
`add = bias[c] - mean * invstd * weight[c]` and `mul = weight[c] * invstd`.  The
main loop handles four elements while `i < l - 4`, the tail loop continues from
the same `i`.  The library function `sqrtf` is the argument `sqrtf`. -/
def BatchNormalization {R : Type} [Field R] (sqrtf : R → R)
    (input weight bias running_mean running_var : tensor R) (epsilon : R)
    (fresh : Int → R) : tensor R :=
  let out := input.SameAs fresh
  let dst := forInt 0 (number input) (fun n dst =>
    forInt 0 (channels input) (fun c dst =>
      let sub_in := input.Sub2 n c
      let sub_out := ({ out with m_ptr := dst } : tensor R).Sub2 n c
      let mul := weight.m_ptr (weight.m_offset + c)
      let add := bias.m_ptr (bias.m_offset + c)
      let mean := running_mean.m_ptr (running_mean.m_offset + c)
      let invstd := 1 / sqrtf (running_var.m_ptr (running_var.m_offset + c) + epsilon)
      let add := add - mean * invstd * mul
      let mul := mul * invstd
      let l := sub_in.size
      let dst := forStep 4 (l - 4) (fun i dst =>
        let dst := Function.update dst (sub_out.m_offset + (i + 0))
          (sub_in.m_ptr (sub_in.m_offset + (i + 0)) * mul + add)
        let dst := Function.update dst (sub_out.m_offset + (i + 1))
          (sub_in.m_ptr (sub_in.m_offset + (i + 1)) * mul + add)
        let dst := Function.update dst (sub_out.m_offset + (i + 2))
          (sub_in.m_ptr (sub_in.m_offset + (i + 2)) * mul + add)
        Function.update dst (sub_out.m_offset + (i + 3))
          (sub_in.m_ptr (sub_in.m_offset + (i + 3)) * mul + add)) dst
      let i := forStepEnd 4 (l - 4)
      forInt i l (fun i dst =>
        Function.update dst (sub_out.m_offset + i)
          (sub_in.m_ptr (sub_in.m_offset + i) * mul + add)) dst) dst) out.m_ptr
  { out with m_ptr := dst }

/-- The function `BatchNormalizationInplace`: the same map, read from and
stored to the plane `in.Sub(n, c)` itself. -/
def BatchNormalizationInplace {R : Type} [Field R] (sqrtf : R → R)
    (input weight bias running_mean running_var : tensor R) (epsilon : R) : tensor R :=
  let src := forInt 0 (number input) (fun n src =>
    forInt 0 (channels input) (fun c src =>
      let sub := ({ input with m_ptr := src } : tensor R).Sub2 n c
      let mul := weight.m_ptr (weight.m_offset + c)
      let add := bias.m_ptr (bias.m_offset + c)
      let mean := running_mean.m_ptr (running_mean.m_offset + c)
      let invstd := 1 / sqrtf (running_var.m_ptr (running_var.m_offset + c) + epsilon)
      let add := add - mean * invstd * mul
      let mul := mul * invstd
      let l := sub.size
      let src := forStep 4 (l - 4) (fun i src =>
        let src := Function.update src (sub.m_offset + (i + 0))
          (src (sub.m_offset + (i + 0)) * mul + add)
        let src := Function.update src (sub.m_offset + (i + 1))
          (src (sub.m_offset + (i + 1)) * mul + add)
        let src := Function.update src (sub.m_offset + (i + 2))
          (src (sub.m_offset + (i + 2)) * mul + add)
        Function.update src (sub.m_offset + (i + 3))
          (src (sub.m_offset + (i + 3)) * mul + add)) src
      let i := forStepEnd 4 (l - 4)
      forInt i l (fun i src =>
        Function.update src (sub.m_offset + i) (src (sub.m_offset + i) * mul + add)) src)
      src) input.m_ptr
  { input with m_ptr := src }

/-! ## Argsort, Flip, Concat and Gather -/

namespace std

/-- The library call `std::sort(first, first + count, comp)` on the buffer `m`:
the `count` cells from `first` on are replaced by what the sorting function
`sort_f` of the library makes of their content. -/
def sort {α : Type} (sort_f : (α → α → Bool) → List α → List α) (m : Int → α) (first : Int)
    (count : Int) (comp : α → α → Bool) : Int → α :=
  let sorted := sort_f comp ((List.range count.toNat).map (fun (j : Nat) => m (first + (j : Int))))
  fun p => if first ≤ p ∧ p < first + count then sorted.getD (p - first).toNat (m p) else m p

end std

namespace tensor

variable {R : Type}

/-- The local `size_per_thr` of `Argsort`, the scratch bytes of one thread:
`((count * sizeof(int64) + PAGE_4K - 1) / PAGE_4K) * PAGE_4K`. -/
def Argsort_size_per_thr (count : Int) : Int :=
  ((count * 8 + (memory.PAGE_4K : Int) - 1).tdiv (memory.PAGE_4K : Int)) * (memory.PAGE_4K : Int)

/-- The local `copy_buff` of `Argsort`, as an element offset in the `int64`
arena `copy_buffers`: `copy_buffers + size_per_thr / sizeof(T) * thread_id`. -/
def Argsort_copy_buff (count : Int) (sizeofT : Nat) (thread_id : Nat) : Int :=
  (Argsort_size_per_thr count).tdiv (sizeofT : Int) * (thread_id : Int)

/-- The method `tensor::Argsort(axis)`.  For each of the `elementCount / count`
slices along the axis the scratch cells `copy_buff[0 .. count)` are set to
`0 .. count - 1`, sorted with the comparison
`start[i1 * stride] < start[i2 * stride]` and stored into the slice of
`indixes`.  The state of the loop is the pair of the buffer of `indixes` and the
scratch arena `copy_buffers`; `sort_f` is the sorting function behind
`std::sort`.  The arena is the block of `threads_n * size_per_thr` bytes from
`aligned_malloc`, `threads_n * size_per_thr / 8` cells of `int64`: when the
cells `copy_buff[0 .. count)` of an iteration do not all lie in it, the
iteration stores outside the block, the call has no defined result and is
`none`. -/
def Argsort [LT R] [DecidableRel (fun a b : R => a < b)]
    (sort_f : (Int → Int → Bool) → List Int → List Int) (t : tensor R) (axis : Int)
    (fresh copy_buffers : Int → Int) (threads_n : Nat) (sizeofT : Nat) (thread_id : Int → Nat) :
    Option (tensor Int) :=
  let ndim : Int := t.m_shape.length
  if ¬ (axis = -1 ∨ axis < ndim) then none
  else
    let axis := if axis = -1 then ndim - 1 else axis
    let indixes : tensor Int := New t.m_shape fresh
    let elementCount := t.size
    let count := t.m_shape.getD axis.toNat 0
    let sortInstances := elementCount.tdiv count
    let stride : Int :=
      if axis ≠ -1 then
        forInt (axis + 1) ndim (fun i stride => stride * t.m_shape.getD i.toNat 0) 1
      else 1
    if ¬ (∀ i ∈ List.range sortInstances.toNat,
        0 ≤ Argsort_copy_buff count sizeofT (thread_id (i : Int)) ∧
        8 * (Argsort_copy_buff count sizeofT (thread_id (i : Int)) + count)
          ≤ (threads_n : Int) * Argsort_size_per_thr count) then none
    else
    let st := forInt 0 sortInstances (fun i (st : (Int → Int) × (Int → Int)) =>
      let copy_buff := Argsort_copy_buff count sizeofT (thread_id i)
      let scratch := forInt 0 count (fun j scratch => Function.update scratch (copy_buff + j) j)
        st.2
      let start := t.m_offset + i.tdiv stride * count * stride + i.tmod stride
      let scratch := std.sort sort_f scratch copy_buff count
        (fun i1 i2 => decide (t.m_ptr (start + i1 * stride) < t.m_ptr (start + i2 * stride)))
      let ind := forInt 0 count (fun j ind =>
        Function.update ind
          (indixes.m_offset + (i.tdiv stride * count * stride + i.tmod stride + j * stride))
          (scratch (copy_buff + j))) st.1
      (ind, scratch)) (indixes.m_ptr, copy_buffers)
    some { indixes with m_ptr := st.1 }

/-- The method `tensor::Flip(axis)`: a negative axis is counted from the end,
`axis > 0 && axis < ndim` is asserted, and in each of the
`flipInstances / stride` blocks the `count` runs of `stride` elements are
copied in reverse order. -/
def Flip (t : tensor R) (axis : Int) (fresh : Int → R) : Option (tensor R) :=
  let ndim : Int := t.m_shape.length
  let axis := if axis < 0 then axis + ndim else axis
  if ¬ (axis > 0 ∧ axis < ndim) then none
  else
    let output : tensor R := New t.m_shape fresh
    let elementCount := t.size
    let count := t.m_shape.getD axis.toNat 0
    let flipInstances := elementCount.tdiv count
    let stride : Int :=
      if axis ≠ -1 then
        forInt (axis + 1) ndim (fun i stride => stride * t.m_shape.getD i.toNat 0) 1
      else 1
    let dst := forInt 0 (flipInstances.tdiv stride) (fun i dst =>
      let dstp := output.m_offset + i * count * stride
      let srcp := t.m_offset + i * count * stride
      forInt 0 count (fun j dst =>
        memcpy dst (dstp + j * stride) t.m_ptr (srcp + (count - 1 - j) * stride) stride) dst)
      output.m_ptr
    some { output with m_ptr := dst }

end tensor

/-- The function `Concat<axis>(a, b)`.  The shape loop compares `i` with the
template argument `axis` itself (the local `_axis`, which resolves `-1`, is not
used afterwards), as does the loop for `blockCount`; each of the `blockCount`
blocks of the result is `strideA` elements of `a` followed by `strideB`
elements of `b`.  The array `result_shape` starts as zeros, every entry is
assigned. -/
def Concat {R : Type} (axis : Int) (a b : tensor R) (fresh : Int → R) : Option (tensor R) :=
  let D : Nat := a.m_shape.length
  let _axis := if axis = -1 then (D : Int) - 1 else axis
  let elementCountA := a.size
  let elementCountB := b.size
  let result_shape : Option (List Int) := forLoop D (fun i rs =>
    rs.bind (fun result_shape : List Int =>
      if (i : Int) = axis then
        some (result_shape.set i (a.m_shape.getD i 0 + b.m_shape.getD i 0))
      else if a.m_shape.getD i 0 ≠ b.m_shape.getD i 0 then none
      else some (result_shape.set i (a.m_shape.getD i 0)))) (some (List.replicate D 0))
  result_shape.bind (fun result_shape =>
    let blockCount := forInt 0 axis (fun i blockCount => blockCount * a.m_shape.getD i.toNat 0) 1
    let strideA := elementCountA.tdiv blockCount
    let strideB := elementCountB.tdiv blockCount
    let strideR := strideA + strideB
    let out : tensor R := tensor.New result_shape fresh
    let dst := forInt 0 blockCount (fun i dst =>
      let dst := memcpy dst (out.m_offset + strideR * i) a.m_ptr (a.m_offset + strideA * i)
        strideA
      memcpy dst (out.m_offset + strideR * i + strideA) b.m_ptr (b.m_offset + strideB * i)
        strideB) out.m_ptr
    some { out with m_ptr := dst })

/-- The function `Gather(x, idx, axis)` with a tensor of indices, for ranks
`q` of `x` and `r ≥ 1` of `idx`.  The result shape is filled by the two loops
of the source (the array starts as zeros, every entry is assigned); block
`(i, j, k)` of the result is the run of `blockSize` elements of `x` at block
`j`, position `idx.ptr()[gatherAxisDstSize * i + k]` of the gathered axis. -/
def Gather {R : Type} (x : tensor R) (idx : tensor Int) (axis : Int) (fresh : Int → R) :
    tensor R :=
  let q : Nat := x.m_shape.length
  let r : Nat := idx.m_shape.length
  let result_shape := forInt 0 ((r : Int) - 1) (fun i result_shape =>
    result_shape.set i.toNat (idx.m_shape.getD i.toNat 0)) (List.replicate (q + r - 1) (0 : Int))
  let result_shape := forInt 0 (q : Int) (fun i result_shape =>
    if i ≠ axis then result_shape.set (i + (r : Int) - 1).toNat (x.m_shape.getD i.toNat 0)
    else if r > 0 then result_shape.set (i + (r : Int) - 1).toNat (idx.m_shape.getD (r - 1) 0)
    else result_shape) result_shape
  let result : tensor R := tensor.New result_shape fresh
  let subblockCount := forInt 0 ((r : Int) - 1) (fun i subblockCount =>
    subblockCount * idx.m_shape.getD i.toNat 0) 1
  let blockSize := forInt (axis + 1) (q : Int) (fun i blockSize =>
    blockSize * x.m_shape.getD i.toNat 0) 1
  let blockCount := forInt 0 axis (fun i blockCount => blockCount * x.m_shape.getD i.toNat 0) 1
  let gatherAxisDstSize := if r > 0 then idx.m_shape.getD (r - 1) 0 else 1
  let gatherAxisSrcSize := x.m_shape.getD axis.toNat 0
  let dst := forInt 0 subblockCount (fun i dst =>
    forInt 0 blockCount (fun j dst =>
      forInt 0 gatherAxisDstSize (fun k dst =>
        let index := idx.m_ptr (idx.m_offset + (gatherAxisDstSize * i + k))
        memcpy dst
          (result.m_offset + (blockSize * gatherAxisDstSize * blockCount * i
            + blockSize * gatherAxisDstSize * j + blockSize * k))
          x.m_ptr (x.m_offset + (blockSize * gatherAxisSrcSize * j + blockSize * index))
          blockSize) dst) dst) result.m_ptr
  { result with m_ptr := dst }

/-! ## col2im: the body of the parallel loop -/

namespace details

/-- The body of the `parallel_for` of `details::col2im` for one `row` of the
columns matrix, acting on the image buffer `m`. -/
def col2im_row {R : Type} [Add R] (hp : conv_params) (o : Int) (input : Int → R) (i : Int)
    (inputWidth inputHeight outputWidth outputHeight : Int) (row : Int) (m : Int → R) :
    Int → R :=
  let channel_stride_in := inputHeight * inputWidth
  let channel_stride_out := outputHeight * outputWidth
  let channel := (row.tdiv hp.kernel_h).tdiv hp.kernel_w
  let fh := (row.tdiv hp.kernel_w).tmod hp.kernel_h
  let fw := row.tmod hp.kernel_w
  let start := max (Int.tdiv (hp.pad_w - fw * hp.dilation_w + hp.stride_w - 1) hp.stride_w) 0
  let end_ := min (Int.tdiv (inputWidth + hp.pad_w - fw * hp.dilation_w + hp.stride_w - 1)
    hp.stride_w) outputWidth
  let dst := o + channel * channel_stride_in
  let src := i + row * channel_stride_out
  forInt 0 outputHeight (fun y m =>
    let input_y := y * hp.stride_h + fh * hp.dilation_h - hp.pad_h
    if input_y ≥ 0 ∧ input_y < inputHeight then
      forInt start end_ (fun x m =>
        let input_x := x * hp.stride_w + fw * hp.dilation_w - hp.pad_w
        Function.update m (dst + (input_y * inputWidth + input_x))
          (m (dst + (input_y * inputWidth + input_x)) + input (src + (y * outputWidth + x)))) m
    else m) m

end details

/-! ## The weight file loader

A file is the list of its bytes (values below 256) and a `std::string` is the
list of its character codes.  Integers are stored in the byte order of the
machine, which is little-endian here. -/

/-- The character codes of a string literal. -/
def chars (s : String) : List Nat := s.toList.map Char.toNat

/-- The value of an unsigned integer stored as the bytes `bs`. -/
def le_value : List Nat → Nat
  | [] => 0
  | b :: bs => b + 256 * le_value bs

/-- The `n` bytes an unsigned integer `v` is stored as. -/
def le_bytes : Nat → Nat → List Nat
  | 0, _ => []
  | n + 1, v => v % 256 :: le_bytes n (v / 256)

/-- The library call `fread(dst, 1, n, file)`: the bytes read (`n` of them, or
what is left of the file) and the rest of the file. -/
def fread (n : Nat) (file : List Nat) : List Nat × List Nat := (file.take n, file.drop n)

namespace data_loading

/-- The function `check_type<float>`. -/
def check_type_float (str : List Nat) : Bool := decide (str = chars "float")

/-- The function `check_type<double>`. -/
def check_type_double (str : List Nat) : Bool := decide (str = chars "doubl")

/-- The function `check_type<int32_t>`. -/
def check_type_int32_t (str : List Nat) : Bool := decide (str = chars "int32")

/-- The function `check_type<int16_t>`. -/
def check_type_int16_t (str : List Nat) : Bool := decide (str = chars "int16")

/-- The function `get_size`: the element width the loader uses for a type
tag. -/
def get_size (type : List Nat) : Nat :=
  if type = chars "float" then 4
  else if type = chars "doubl" then 6
  else if type = chars "int32" then 4
  else if type = chars "int16" then 2
  else 0

end data_loading

/-- The struct `model_dict::Entry`; `ptr` is the content of the byte buffer as
far as `load` has stored to it. -/
structure Entry where
  type : List Nat
  ndim : Nat
  shape : List Nat
  size : Nat
  compressed_size : Nat
  ptr : List Nat
deriving DecidableEq

/-- The class `model_dict`: `m_parameters` is the `std::map` from names to
entries, the list of its pairs in the order of the keys. -/
structure model_dict where
  m_parameters : List (List Nat × Entry)
deriving DecidableEq

namespace model_dict

/-- The assignment `m[name] = e` on a `std::map`: the entry of an existing key
is replaced, a new key is inserted at its place in the order of the keys. -/
def map_assign (name : List Nat) (e : Entry) : List (List Nat × Entry) → List (List Nat × Entry)
  | [] => [(name, e)]
  | (k, v) :: m =>
    if name < k then (name, e) :: (k, v) :: m
    else if name = k then (name, e) :: m
    else (k, v) :: map_assign name e m

/-- The read `m[name]` on a `std::map`: the entry of the key, a
value-initialised entry for a key that is not present. -/
def map_read (name : List Nat) : List (List Nat × Entry) → Entry
  | [] => { type := [], ndim := 0, shape := [0, 0, 0, 0], size := 0, compressed_size := 0,
            ptr := [] }
  | (k, v) :: m => if name = k then v else map_read name m

/-- The method `model_dict::add_parameter`. -/
def add_parameter (md : model_dict) (name type : List Nat) (ndim : Nat) (shape : List Nat)
    (size compressed_size : Nat) (ptr : List Nat) : model_dict :=
  { m_parameters := map_assign name
      { type := type, ndim := ndim,
        shape := [shape.getD 0 0, shape.getD 1 0, shape.getD 2 0, shape.getD 3 0],
        size := size, compressed_size := compressed_size, ptr := ptr } md.m_parameters }

/-- The method `model_dict::load` for a rank 4 tensor.  `check_type` is the
specialisation `check_type<T>` and `reinterpret_pointer_cast` the view of the
byte buffer as elements of `T`.  The `int` arguments are compared with the
`uint32_t` shape as unsigned values. -/
def load {R : Type} (check_type : List Nat → Bool)
    (reinterpret_pointer_cast : List Nat → Int → R) (md : model_dict) (name : List Nat)
    (n c h w : Int) : Option (tensor R) :=
  let entry := map_read name md.m_parameters
  if ((entry.shape.getD 0 0 : Nat) : Int) ≠ n % 2 ^ 32 then none
  else if ((entry.shape.getD 1 0 : Nat) : Int) ≠ c % 2 ^ 32 then none
  else if ((entry.shape.getD 2 0 : Nat) : Int) ≠ h % 2 ^ 32 then none
  else if ((entry.shape.getD 3 0 : Nat) : Int) ≠ w % 2 ^ 32 then none
  else if check_type entry.type = false then none
  else if entry.compressed_size ≠ 0 then none
  else some (tensor.NewShared [n, c, h, w] (reinterpret_pointer_cast entry.ptr) 0)

end model_dict

/-- The loop `while (fread(&buff, 1, 1, file), buff != 0) weight_name.push_back(buff)`:
the name read so far and the rest of the file after the terminating NUL.  At
the end of the file `buff` keeps a value that is not NUL (or was never set) and
the loop does not end: `none`. -/
def read_name : List Nat → List Nat → Option (List Nat × List Nat)
  | [], _ => none
  | buff :: file, weight_name =>
    if buff ≠ 0 then read_name file (weight_name ++ [buff]) else some (weight_name, file)

/-- One iteration of the `while (true)` loop of `load`: the dictionary with the
record added and the rest of the file.  The results that are `none`: the end of
the file inside the name, a type tag cut short before a NUL, a rank above 4
(a store outside `shape[4]`), a size field cut short, the failed
`assert(param_size == size)`, and a payload that is larger than the allocated
buffer or is cut short.  At the very end of the file `ndim`, `size` and
`compressed_size` keep their initial 0 and a dimension keeps the bytes that
were not read. -/
def load_record (file : List Nat) (md : model_dict) : Option (model_dict × List Nat) :=
  (read_name file []).bind (fun name_rest =>
    let weight_name := name_rest.1
    let type_rest := fread 5 name_rest.2
    if type_rest.1.length < 5 ∧ 0 ∉ type_rest.1 then none
    else
      let type := type_rest.1.takeWhile (fun b => decide (b ≠ 0))
      let ndim_rest := fread 1 type_rest.2
      let ndim := ndim_rest.1.headD 0
      if ndim > 4 then none
      else
        let shape_rest := forLoop ndim (fun i (st : List Nat × List Nat) =>
          let r := fread 4 st.2
          (st.1.set i (le_value (r.1 ++ (le_bytes 4 (st.1.getD i 0)).drop r.1.length)), r.2))
          ([1, 1, 1, 1], ndim_rest.2)
        let shape := shape_rest.1
        let param_size := (data_loading.get_size type * shape.getD 0 0 * shape.getD 1 0
          * shape.getD 2 0 * shape.getD 3 0) % 2 ^ 64
        let size_rest := fread 8 shape_rest.2
        if 0 < size_rest.1.length ∧ size_rest.1.length < 8 then none
        else
          let size := le_value size_rest.1
          let csize_rest := fread 8 size_rest.2
          if 0 < csize_rest.1.length ∧ csize_rest.1.length < 8 then none
          else
            let compressed_size := le_value csize_rest.1
            if param_size ≠ size then none
            else
              let allocated := param_size
              let param_size := if compressed_size = 0 then param_size else compressed_size
              if param_size > allocated then none
              else
                let payload_rest := fread param_size csize_rest.2
                if payload_rest.1.length < param_size then none
                else
                  some (md.add_parameter weight_name type ndim shape size compressed_size
                    payload_rest.1, payload_rest.2))

/-- The `while (true)` loop of `load`, with the number of iterations bounded by
`fuel`: after each record the loop ends when the file position is the file
size. -/
def load_loop : Nat → List Nat → model_dict → Option model_dict
  | 0, _, _ => none
  | fuel + 1, file, md =>
    (load_record file md).bind (fun md_rest =>
      if md_rest.2 = [] then some md_rest.1 else load_loop fuel md_rest.2 md_rest.1)

/-- The function `load(filename)` on the content of the file.  Every iteration
reads at least the NUL of a name, so `file.length + 1` iterations are never
used up. -/
def load (file : List Nat) : Option model_dict :=
  load_loop (file.length + 1) file { m_parameters := [] }

/-! ## The two templates of `im2col_process_row` -/

namespace details

/-- The primary template of `im2col_process_row<...>::apply` (the one the
source marks "padding non-zero"), for every value of `pad_h` and `pad_w`: the
columns of a row are clipped to `[start_clipped, end_clipped)`, the cells
before and behind are zero filled, and a row of the output whose `input_y` is
outside the image is zero filled. -/
def im2col_process_row_primary {R : Type} [Zero R] (hp : conv_params) (dstm : Int → R)
    (dst : Int) (srcm : Int → R) (src : Int)
    (fh fw inputWidth inputHeight outputWidth outputHeight : Int) : Int → R :=
  let start := Int.tdiv (hp.pad_w - fw * hp.dilation_w + hp.stride_w - 1) hp.stride_w
  let end_ := Int.tdiv (inputWidth + hp.pad_w - fw * hp.dilation_w + hp.stride_w - 1) hp.stride_w
  let start_clipped := max start 0
  let end_clipped := min end_ outputWidth
  forInt 0 outputHeight (fun y m =>
    let input_y := y * hp.stride_h + fh * hp.dilation_h - hp.pad_h
    if input_y ≥ 0 ∧ input_y < inputHeight then
      let m := if start > 0 then memset0 m (dst + y * outputWidth) start else m
      let m := memcpy_extended_strided hp.stride_w m (dst + y * outputWidth + start_clipped) srcm
        (src + input_y * inputWidth + start_clipped * hp.stride_w + fw * hp.dilation_w - hp.pad_w)
        (end_clipped - start_clipped)
      if end_ < outputWidth then memset0 m (dst + y * outputWidth + end_) (outputWidth - end_)
      else m
    else memset0 m (dst + y * outputWidth) outputWidth) dstm

/-- The partial specialisation of `im2col_process_row<...>::apply` for
`pad_h == 0` and `pad_w == 0` (the one the source marks "padding zero"): one
strided copy of `outputWidth` elements per output row. -/
def im2col_process_row_zero_pad {R : Type} (hp : conv_params) (dstm : Int → R)
    (dst : Int) (srcm : Int → R) (src : Int)
    (fh fw inputWidth _inputHeight outputWidth outputHeight : Int) : Int → R :=
  forInt 0 outputHeight (fun y m =>
    let input_y := y * hp.stride_h + fh * hp.dilation_h
    memcpy_extended_strided hp.stride_w m (dst + y * outputWidth) srcm
      (src + input_y * inputWidth + fw * hp.dilation_w) outputWidth) dstm

end details

/-! ## Pooling -/

/-- The loop `for (int y = lo; y < hi; y += step) body(y)` for a step of at
least 1: it runs `ceil((hi - lo) / step)` times, with
`y = lo, lo + step, lo + 2 * step, ...`. -/
def forIntStep {σ : Type u} (lo hi step : Int) (body : Int → σ → σ) (s : σ) : σ :=
  forLoop (((hi - lo).toNat + step.toNat - 1) / step.toNat)
    (fun k => body (lo + step * (k : Int))) s

/-- The function `AveragePool2d<kernel_h, ..., dilation_w>`: for every output
position the window is clipped to the image (`end_h`, `end_w` by `std::min`,
`start_h`, `start_w` moved forward by whole dilation steps to the first sample
that is not negative), the samples are summed with the steps `dilation_h` and
`dilation_w`, and the sum is divided by `end_h - start_h` and then by
`end_w - start_w`. -/
def AveragePool2d {R : Type} [Field R] (hp : conv_params) (input : tensor R) (fresh : Int → R) :
    tensor R :=
  let N := number input
  let C := channels input
  let Hin := height input
  let Win := width input
  let Hout := Int.tdiv (Hin + 2 * hp.pad_h - hp.dilation_h * (hp.kernel_h - 1) - 1) hp.stride_h + 1
  let Wout := Int.tdiv (Win + 2 * hp.pad_w - hp.dilation_w * (hp.kernel_w - 1) - 1) hp.stride_w + 1
  let out : tensor R := tensor.New [N, C, Hout, Wout] fresh
  let m := forInt 0 N (fun n m => forInt 0 C (fun c m =>
    let src := (input.Sub2 n c).m_offset
    let dst := (({ out with m_ptr := m } : tensor R).Sub2 n c).m_offset
    forInt 0 Hout (fun i m => forInt 0 Wout (fun j m =>
      let start_h := i * hp.stride_h - hp.pad_h
      let start_w := j * hp.stride_w - hp.pad_w
      let end_h := min (start_h + (hp.kernel_h - 1) * hp.dilation_h + 1) Hin
      let end_w := min (start_w + (hp.kernel_w - 1) * hp.dilation_w + 1) Win
      let start_h := start_h
        + Int.tdiv (max (-start_h) 0 + hp.dilation_h - 1) hp.dilation_h * hp.dilation_h
      let start_w := start_w
        + Int.tdiv (max (-start_w) 0 + hp.dilation_w - 1) hp.dilation_w * hp.dilation_w
      let sum := forIntStep start_h end_h hp.dilation_h (fun y sum =>
        forIntStep start_w end_w hp.dilation_w (fun x sum =>
          sum + input.m_ptr (src + (y * Win + x))) sum) (0 : R)
      Function.update m (dst + (i * Wout + j))
        (sum / ((end_h - start_h : Int) : R) / ((end_w - start_w : Int) : R))) m) m) m) out.m_ptr
  { out with m_ptr := m }

/-- The function `GlobalAveragePool2d`: per `(n, c)` the rows of the plane are
summed, each row by the loop `for (j = 0; j < (Win-6)/6; j += 6)` over six
elements per iteration followed by the tail loop that continues from the same
`j`, and the sum is divided by `Hin * Win`. -/
def GlobalAveragePool2d {R : Type} [Field R] (input : tensor R) (fresh : Int → R) : tensor R :=
  let N := number input
  let C := channels input
  let Hin := height input
  let Win := width input
  let out : tensor R := tensor.New [N, C, 1, 1] fresh
  let m := forInt 0 N (fun n m => forInt 0 C (fun c m =>
    let src := (input.Sub2 n c).m_offset
    let dst := (({ out with m_ptr := m } : tensor R).Sub2 n c).m_offset
    let sum := forInt 0 Hin (fun i sum =>
      let p := src + i * Win
      let sum := forStep 6 (Int.tdiv (Win - 6) 6) (fun j sum =>
        sum + (input.m_ptr (p + (j + 0)) + input.m_ptr (p + (j + 1)) + input.m_ptr (p + (j + 2))
          + input.m_ptr (p + (j + 3)) + input.m_ptr (p + (j + 4)) + input.m_ptr (p + (j + 5)))) sum
      let j := forStepEnd 6 (Int.tdiv (Win - 6) 6)
      forInt j Win (fun j sum => sum + input.m_ptr (p + j)) sum) (0 : R)
    Function.update m dst (sum / ((Hin * Win : Int) : R))) m) out.m_ptr
  { out with m_ptr := m }

/-! ## The weight file: the other `load` overloads and `save` -/

namespace model_dict

/-- The method `model_dict::load(tensor<T, 3>&, name, c, h, w)` (the overloads
of `load` are told apart by the rank in the name): the three entries of the
recorded shape, the type tag and `compressed_size == 0` are asserted, and the
view is built by `tensor<T, 3>::New({ w }, ...)`, whose shape array is
`{ w, 0, 0 }`. -/
def load_rank3 {R : Type} (check_type : List Nat → Bool)
    (reinterpret_pointer_cast : List Nat → Int → R) (md : model_dict) (name : List Nat)
    (c h w : Int) : Option (tensor R) :=
  let entry := map_read name md.m_parameters
  if ((entry.shape.getD 0 0 : Nat) : Int) ≠ c % 2 ^ 32 then none
  else if ((entry.shape.getD 1 0 : Nat) : Int) ≠ h % 2 ^ 32 then none
  else if ((entry.shape.getD 2 0 : Nat) : Int) ≠ w % 2 ^ 32 then none
  else if check_type entry.type = false then none
  else if entry.compressed_size ≠ 0 then none
  else some (tensor.NewShared [w, 0, 0] (reinterpret_pointer_cast entry.ptr) 0)

/-- The method `model_dict::load(tensor<T, 2>&, name, h, w)`: the view is built
by `tensor<T, 2>::New({ h, w }, ...)`. -/
def load_rank2 {R : Type} (check_type : List Nat → Bool)
    (reinterpret_pointer_cast : List Nat → Int → R) (md : model_dict) (name : List Nat)
    (h w : Int) : Option (tensor R) :=
  let entry := map_read name md.m_parameters
  if ((entry.shape.getD 0 0 : Nat) : Int) ≠ h % 2 ^ 32 then none
  else if ((entry.shape.getD 1 0 : Nat) : Int) ≠ w % 2 ^ 32 then none
  else if check_type entry.type = false then none
  else if entry.compressed_size ≠ 0 then none
  else some (tensor.NewShared [h, w] (reinterpret_pointer_cast entry.ptr) 0)

/-- The method `model_dict::load(tensor<T, 1>&, name, w)`: the view is built by
`tensor<T, 1>::New({ w }, ...)`. -/
def load_rank1 {R : Type} (check_type : List Nat → Bool)
    (reinterpret_pointer_cast : List Nat → Int → R) (md : model_dict) (name : List Nat)
    (w : Int) : Option (tensor R) :=
  let entry := map_read name md.m_parameters
  if ((entry.shape.getD 0 0 : Nat) : Int) ≠ w % 2 ^ 32 then none
  else if check_type entry.type = false then none
  else if entry.compressed_size ≠ 0 then none
  else some (tensor.NewShared [w] (reinterpret_pointer_cast entry.ptr) 0)

end model_dict

/-- The body of the range-for loop of `save`: the bytes one entry appends to
the file.  The name goes out with its terminating NUL, the type tag must have
5 characters (the `assert`), `fwrite(&ndim, 1, 1, file)` writes the low byte of
the `int`, the first `ndim` entries of the shape follow as 4 bytes each, then
`param_size`, recomputed from the type and the four shape entries in 64 bit
arithmetic, and `compressed_size` as 8 bytes each, and last `param_size` bytes
of the payload (`compressed_size` bytes for a compressed entry). -/
def save_entry (entry : List Nat × Entry) (file : List Nat) : Option (List Nat) :=
  let file := file ++ (entry.1 ++ [0])
  if entry.2.type.length ≠ 5 then none
  else
    let file := file ++ entry.2.type
    let file := file ++ [entry.2.ndim % 256]
    let file := forLoop entry.2.ndim (fun i (file : List Nat) =>
      file ++ le_bytes 4 (entry.2.shape.getD i 0)) file
    let shape := entry.2.shape
    let param_size := (data_loading.get_size entry.2.type * shape.getD 0 0 * shape.getD 1 0
      * shape.getD 2 0 * shape.getD 3 0) % 2 ^ 64
    let file := file ++ le_bytes 8 param_size
    let file := file ++ le_bytes 8 entry.2.compressed_size
    let param_size := if entry.2.compressed_size = 0 then param_size else entry.2.compressed_size
    some (file ++ entry.2.ptr.take param_size)

/-- The range-for loop of `save` over the entries of the map, in key order. -/
def save_loop : List (List Nat × Entry) → List Nat → Option (List Nat)
  | [], file => some file
  | entry :: rest, file => (save_entry entry file).bind (save_loop rest)

/-- The function `save(md, filename)`: the content of the file written. -/
def save (md : model_dict) : Option (List Nat) := save_loop md.m_parameters []

/-! ## Loop lemmas -/

theorem forLoop_succ {σ : Type u} (n : Nat) (body : Nat → σ → σ) (s : σ) :
    forLoop (n + 1) body s = body n (forLoop n body s) := rfl

theorem forInt_zero {σ : Type u} (hi : Int) (body : Int → σ → σ) (s : σ) :
    forInt 0 hi body s = forLoop hi.toNat (fun k => body (k : Int)) s := by
  simp [forInt]

/-- A loop whose body adds a state-independent amount to every cell adds the
sum of the amounts. -/
theorem forLoop_accum {σ : Type u} {R : Type} [AddCommMonoid R] (get : σ → Int → R)
    (body : Nat → σ → σ) (δ : Nat → Int → R) (n : Nat)
    (h : ∀ i, i < n → ∀ s p, get (body i s) p = get s p + δ i p) (s : σ) (p : Int) :
    get (forLoop n body s) p = get s p + ∑ i in Finset.range n, δ i p := by
  induction n with
  | zero => simp [forLoop]
  | succ n ih =>
    rw [forLoop_succ, h n (Nat.lt_succ_self n), ih (fun i hi => h i (Nat.lt_succ_of_lt hi)),
      Finset.sum_range_succ, add_assoc]

/-- A scalar accumulation loop computes the initial value plus the sum. -/
theorem forLoop_sum {R : Type} [AddCommMonoid R] (f : Nat → R) (n : Nat) (x : R) :
    forLoop n (fun l acc => acc + f l) x = x + ∑ l in Finset.range n, f l := by
  induction n with
  | zero => simp [forLoop]
  | succ n ih => rw [forLoop_succ, ih, Finset.sum_range_succ, add_assoc]

/-- A loop whose body leaves a component of the state alone leaves it alone. -/
theorem forLoop_keep {σ : Type u} {α : Type} (get : σ → α) (body : Nat → σ → σ) (n : Nat)
    (h : ∀ i, i < n → ∀ s, get (body i s) = get s) (s : σ) :
    get (forLoop n body s) = get s := by
  induction n with
  | zero => rfl
  | succ n ih => rw [forLoop_succ, h n (Nat.lt_succ_self n), ih (fun i hi => h i (Nat.lt_succ_of_lt hi))]

/-- The value at an address is the one left by the last iteration that changes
it. -/
theorem forLoop_last_writer {σ : Type u} {α : Type} (get : σ → α) (body : Nat → σ → σ)
    (N n : Nat) (hn : n < N) (v : α) (hw : ∀ s, get (body n s) = v)
    (hkeep : ∀ k, n < k → k < N → ∀ s, get (body k s) = get s) (s : σ) :
    get (forLoop N body s) = v := by
  induction N with
  | zero => omega
  | succ N ih =>
    rw [forLoop_succ]
    by_cases h : n = N
    · subst h; exact hw _
    · rw [hkeep N (by omega) (Nat.lt_succ_self N)]
      exact ih (by omega) (fun k h1 h2 => hkeep k h1 (Nat.lt_succ_of_lt h2))

/-- A loop that stores `v k` at `base + k` leaves `v l` at `base + l`. -/
theorem forLoop_store_get {R : Type} (v : Nat → R) (base : Int) (n : Nat) (m : Int → R)
    (l : Nat) (hl : l < n) :
    forLoop n (fun k m => Function.update m (base + (k : Int)) (v k)) m (base + (l : Int)) = v l := by
  induction n with
  | zero => omega
  | succ n ih =>
    rw [forLoop_succ]
    by_cases h : l = n
    · subst h; simp
    · have hne : base + (l : Int) ≠ base + (n : Int) := by omega
      rw [Function.update_noteq hne]
      exact ih (by omega)

/-- A loop that stores at `base + k`, `k < n`, changes no other address. -/
theorem forLoop_store_other {R : Type} (v : Nat → R) (base : Int) (n : Nat) (m : Int → R)
    (p : Int) (hp : ∀ k, k < n → p ≠ base + (k : Int)) :
    forLoop n (fun k m => Function.update m (base + (k : Int)) (v k)) m p = m p := by
  induction n with
  | zero => rfl
  | succ n ih =>
    rw [forLoop_succ, Function.update_noteq (hp n (Nat.lt_succ_self n))]
    exact ih (fun k hk => hp k (Nat.lt_succ_of_lt hk))

/-- Blocks of `O` consecutive addresses, one per iteration: if iteration `n`
changes only block `n`, the loop changes only the `N` blocks, and the value
left in block `n` is the value iteration `n` leaves there. -/
theorem forLoop_block {R : Type} (N : Nat) (O : Int) (hO : 0 ≤ O) (base : Int)
    (body : Nat → (Int → R) → (Int → R))
    (hframe : ∀ n, n < N → ∀ m p, (p < base + (n : Int) * O ∨ base + ((n : Int) + 1) * O ≤ p) →
      body n m p = m p) :
    (∀ m p, (p < base ∨ base + (N : Int) * O ≤ p) → forLoop N body m p = m p) ∧
    (∀ n, n < N → ∀ p v, base + (n : Int) * O ≤ p → p < base + ((n : Int) + 1) * O →
      (∀ m, body n m p = v) → ∀ m, forLoop N body m p = v) := by
  constructor
  · intro m p hp
    refine forLoop_keep (fun m : Int → R => m p) body N ?_ m
    intro n hn s
    refine hframe n hn s p ?_
    have h1 : (0 : Int) ≤ (n : Int) * O := mul_nonneg (by omega) hO
    have h2 : ((n : Int) + 1) * O ≤ (N : Int) * O :=
      mul_le_mul_of_nonneg_right (by omega) hO
    rcases hp with hp | hp
    · left; linarith
    · right; linarith
  · intro n hn p v h1 h2 hv m
    refine forLoop_last_writer (fun m : Int → R => m p) body N n hn v hv ?_ m
    intro k hk hkN s
    refine hframe k hkN s p (Or.inl ?_)
    have h3 : ((n : Int) + 1) * O ≤ (k : Int) * O :=
      mul_le_mul_of_nonneg_right (by omega) hO
    linarith

/-- The four-way unrolled store loop: the cells `base + i`, `0 ≤ i < 4 * q`,
receive `g i`. -/
theorem forLoop_store4 {R : Type} (g : Int → R) (base : Int) (q : Nat) (m : Int → R) (p : Int) :
    forLoop q (fun jb x =>
      Function.update (Function.update (Function.update (Function.update x
        (base + (((4 : Nat) : Int) * (jb : Int) + 0)) (g (((4 : Nat) : Int) * (jb : Int) + 0)))
        (base + (((4 : Nat) : Int) * (jb : Int) + 1)) (g (((4 : Nat) : Int) * (jb : Int) + 1)))
        (base + (((4 : Nat) : Int) * (jb : Int) + 2)) (g (((4 : Nat) : Int) * (jb : Int) + 2)))
        (base + (((4 : Nat) : Int) * (jb : Int) + 3)) (g (((4 : Nat) : Int) * (jb : Int) + 3))) m p
      = if base ≤ p ∧ p < base + 4 * (q : Int) then g (p - base) else m p := by
  induction q with
  | zero =>
    rw [if_neg (by omega)]; rfl
  | succ q ih =>
    rw [forLoop_succ]
    simp only [Function.update_apply, ih]
    by_cases h3 : p = base + (((4 : Nat) : Int) * (q : Int) + 3)
    · rw [if_pos h3, if_pos (by omega)]; congr 1; omega
    · rw [if_neg h3]
      by_cases h2 : p = base + (((4 : Nat) : Int) * (q : Int) + 2)
      · rw [if_pos h2, if_pos (by omega)]; congr 1; omega
      · rw [if_neg h2]
        by_cases h1 : p = base + (((4 : Nat) : Int) * (q : Int) + 1)
        · rw [if_pos h1, if_pos (by omega)]; congr 1; omega
        · rw [if_neg h1]
          by_cases h0 : p = base + (((4 : Nat) : Int) * (q : Int) + 0)
          · rw [if_pos h0, if_pos (by omega)]; congr 1; omega
          · rw [if_neg h0]
            by_cases hr : base ≤ p ∧ p < base + 4 * (q : Int)
            · rw [if_pos hr, if_pos (by omega)]
            · rw [if_neg hr, if_neg (by omega)]

/-- The store loop `for (i = lo; i < hi; ++i) x[base + i] = g i`. -/
theorem forInt_store {R : Type} (g : Int → R) (base lo hi : Int) (m : Int → R) (p : Int) :
    forInt lo hi (fun i x => Function.update x (base + i) (g i)) m p
      = if base + lo ≤ p ∧ p < base + hi then g (p - base) else m p := by
  unfold forInt
  generalize hn : (hi - lo).toNat = n
  have key : ∀ n : Nat, forLoop n (fun k x => Function.update x (base + (lo + (k : Int))) (g (lo + (k : Int)))) m p
      = if base + lo ≤ p ∧ p < base + lo + (n : Int) then g (p - base) else m p := by
    intro n
    induction n with
    | zero => rw [if_neg (by omega)]; rfl
    | succ n ih =>
      rw [forLoop_succ, Function.update_apply, ih]
      by_cases h : p = base + (lo + (n : Int))
      · rw [if_pos h, if_pos (by omega)]; congr 1; omega
      · rw [if_neg h]
        by_cases hr : base + lo ≤ p ∧ p < base + lo + (n : Int)
        · rw [if_pos hr, if_pos (by omega)]
        · rw [if_neg hr, if_neg (by omega)]
  rw [key n]
  by_cases hr : base + lo ≤ p ∧ p < base + hi
  · rw [if_pos hr, if_pos (by omega)]
  · rw [if_neg hr, if_neg (by omega)]

/-- The method `Fill` stores the value in the `size()` cells of the view and
nowhere else. -/
theorem tensor.Fill_apply {R : Type} (t : tensor R) (value : R) (p : Int) :
    (t.Fill value).m_ptr p
      = if t.m_offset ≤ p ∧ p < t.m_offset + t.size then value else t.m_ptr p := by
  unfold tensor.Fill
  simp only
  rw [forInt_store (fun _ => value)]
  unfold forStep forStepEnd
  rw [forLoop_store4 (fun _ => value)]
  generalize t.size = l
  by_cases h : t.m_offset ≤ p ∧ p < t.m_offset + l
  · rw [if_pos h]
    split_ifs <;> first | rfl | (exfalso; omega)
  · rw [if_neg h]
    rw [if_neg (by omega), if_neg (by omega)]

/-- Summing block by block is summing over the whole range. -/
theorem sum_blocks {R : Type} [AddCommMonoid R] (bs : Nat) (hbs : 0 < bs) (f : Nat → R) (n : Nat) :
    ∑ jb in Finset.range ((n + bs - 1) / bs),
      ∑ j in Finset.range (min bs (n - bs * jb)), f (bs * jb + j)
      = ∑ j in Finset.range n, f j := by
  induction n using Nat.strong_induction_on generalizing f with
  | _ n ih =>
    by_cases hn : n = 0
    · subst hn
      have : (0 + bs - 1) / bs = 0 := by
        apply Nat.div_eq_of_lt; omega
      simp [this]
    · by_cases hle : n ≤ bs
      · have h1 : (n + bs - 1) / bs = 1 := by
          apply Nat.div_eq_of_lt_le <;> omega
        simp [h1, Nat.min_eq_right hle]
      · have hlt : bs < n := by omega
        have hq : (n + bs - 1) / bs = (n - bs + bs - 1) / bs + 1 := by
          have : n + bs - 1 = (n - bs + bs - 1) + bs := by omega
          rw [this, Nat.add_div_right _ hbs]
        rw [hq, Finset.sum_range_succ']
        have ih2 := ih (n - bs) (by omega) (fun j => f (bs + j))
        have hsplit : ∑ j in Finset.range n, f j
            = ∑ j in Finset.range bs, f j + ∑ j in Finset.range (n - bs), f (bs + j) := by
          have : n = bs + (n - bs) := by omega
          conv_lhs => rw [this]
          exact Finset.sum_range_add f bs (n - bs)
        rw [hsplit, add_comm]
        congr 1
        · simp [Nat.min_eq_left (Nat.le_of_lt hlt)]
        · rw [← ih2]
          refine Finset.sum_congr rfl (fun k _ => ?_)
          have e1 : n - bs * (k + 1) = n - bs - bs * k := by
            rw [Nat.mul_succ]; omega
          rw [e1]
          refine Finset.sum_congr rfl (fun j _ => ?_)
          congr 1
          rw [Nat.mul_succ]; omega

/-- Three nested blocked sums (the loop nest of the GEMM drivers) are the sums
over the full index ranges. -/
theorem sum_blocks3 {R : Type} [AddCommMonoid R] (bs : Nat) (hbs : 0 < bs)
    (G : Nat → Nat → Nat → R) (M N K : Nat) :
    ∑ jb in Finset.range ((N + bs - 1) / bs), ∑ ib in Finset.range ((M + bs - 1) / bs),
      ∑ lb in Finset.range ((K + bs - 1) / bs),
        ∑ j in Finset.range (min bs (N - bs * jb)), ∑ i in Finset.range (min bs (M - bs * ib)),
          ∑ l in Finset.range (min bs (K - bs * lb)), G (bs * ib + i) (bs * jb + j) (bs * lb + l)
      = ∑ J in Finset.range N, ∑ I in Finset.range M, ∑ L in Finset.range K, G I J L := by
  have hK : ∀ I J, ∑ lb in Finset.range ((K + bs - 1) / bs),
      ∑ l in Finset.range (min bs (K - bs * lb)), G I J (bs * lb + l)
      = ∑ L in Finset.range K, G I J L := fun I J => sum_blocks bs hbs (fun L => G I J L) K
  have hM : ∀ J, ∑ ib in Finset.range ((M + bs - 1) / bs),
      ∑ i in Finset.range (min bs (M - bs * ib)), ∑ L in Finset.range K, G (bs * ib + i) J L
      = ∑ I in Finset.range M, ∑ L in Finset.range K, G I J L :=
    fun J => sum_blocks bs hbs (fun I => ∑ L in Finset.range K, G I J L) M
  rw [← sum_blocks bs hbs (fun J => ∑ I in Finset.range M, ∑ L in Finset.range K, G I J L) N]
  refine Finset.sum_congr rfl (fun jb _ => ?_)
  calc ∑ ib in Finset.range ((M + bs - 1) / bs), ∑ lb in Finset.range ((K + bs - 1) / bs),
        ∑ j in Finset.range (min bs (N - bs * jb)), ∑ i in Finset.range (min bs (M - bs * ib)),
          ∑ l in Finset.range (min bs (K - bs * lb)), G (bs * ib + i) (bs * jb + j) (bs * lb + l)
      = ∑ ib in Finset.range ((M + bs - 1) / bs),
        ∑ j in Finset.range (min bs (N - bs * jb)), ∑ i in Finset.range (min bs (M - bs * ib)),
          ∑ L in Finset.range K, G (bs * ib + i) (bs * jb + j) L := by
        refine Finset.sum_congr rfl (fun ib _ => ?_)
        rw [Finset.sum_comm]
        refine Finset.sum_congr rfl (fun j _ => ?_)
        rw [Finset.sum_comm]
        refine Finset.sum_congr rfl (fun i _ => ?_)
        exact hK _ _
    _ = ∑ j in Finset.range (min bs (N - bs * jb)), ∑ I in Finset.range M,
          ∑ L in Finset.range K, G I (bs * jb + j) L := by
        rw [Finset.sum_comm]
        refine Finset.sum_congr rfl (fun j _ => ?_)
        exact hM _

/-- A condition that does not depend on the summation index can be moved out
of the sum. -/
theorem sum_ite_cond {ι R : Type} [AddCommMonoid R] (s : Finset ι) (c : Prop) [Decidable c]
    (f : ι → R) : (∑ l in s, if c then f l else 0) = if c then ∑ l in s, f l else 0 := by
  by_cases h : c <;> simp [h]

/-- Row-major addresses with column index below the leading dimension determine
the row and the column. -/
theorem addr_inj (L I J i j : Nat) (hJ : J < L) (hj : j < L)
    (h : (J : Int) + (I : Int) * (L : Int) = (j : Int) + (i : Int) * (L : Int)) :
    I = i ∧ J = j := by
  have h2 : J + I * L = j + i * L := by exact_mod_cast h
  have d1 : (J + I * L) / L = I := by
    rw [Nat.add_mul_div_right _ _ (by omega), Nat.div_eq_of_lt hJ, Nat.zero_add]
  have d2 : (j + i * L) / L = i := by
    rw [Nat.add_mul_div_right _ _ (by omega), Nat.div_eq_of_lt hj, Nat.zero_add]
  have hI : I = i := by rw [← d1, ← d2, h2]
  subst hI
  exact ⟨rfl, by omega⟩

/-- The sum over all matrix cells of the terms aimed at the cell `(i, j)` is the
term of that cell. -/
theorem sum_cell {R : Type} [AddCommMonoid R] (M N L : Nat) (hL : N ≤ L) (c : Int)
    (F : Nat → Nat → R) (i j : Nat) (hi : i < M) (hj : j < N) :
    (∑ J in Finset.range N, ∑ I in Finset.range M,
      if c + ((j : Int) + (i : Int) * (L : Int)) = c + ((J : Int) + (I : Int) * (L : Int))
      then F I J else 0) = F i j := by
  rw [Finset.sum_eq_single j]
  · rw [Finset.sum_eq_single i]
    · simp
    · intro I _ hI
      rw [if_neg]
      intro h
      exact hI (addr_inj L I j i j (by omega) (by omega) (by omega)).1
    · intro h; exact absurd (Finset.mem_range.mpr hi) h
  · intro J hJ hne
    refine Finset.sum_eq_zero (fun I _ => ?_)
    rw [if_neg]
    intro h
    exact hne (addr_inj L I J i j (by have := Finset.mem_range.mp hJ; omega) (by omega)
      (by omega)).2
  · intro h; exact absurd (Finset.mem_range.mpr hj) h

/-- The sum over all matrix cells of the terms aimed at an address that is no
cell of the matrix is zero. -/
theorem sum_no_cell {R : Type} [AddCommMonoid R] (M N : Nat) (L c : Int)
    (F : Nat → Nat → R) (p : Int)
    (hp : ∀ i j : Nat, i < M → j < N → p ≠ c + ((j : Int) + (i : Int) * L)) :
    (∑ J in Finset.range N, ∑ I in Finset.range M,
      if p = c + ((J : Int) + (I : Int) * L) then F I J else 0) = 0 := by
  refine Finset.sum_eq_zero (fun J hJ => Finset.sum_eq_zero (fun I hI => ?_))
  exact if_neg (hp I J (Finset.mem_range.mp hI) (Finset.mem_range.mp hJ))

/-- A cell of row `n` lies before every later row `k`. -/
theorem row_lt (n k o O : Nat) (hk : n < k) (ho : o < O) :
    (o : Int) + (n : Int) * (O : Int) < (k : Int) * (O : Int) := by
  have h : (n + 1) * O ≤ k * O := Nat.mul_le_mul_right O hk
  have h2 : o + n * O < k * O := by
    have : (n + 1) * O = n * O + O := by ring
    omega
  exact_mod_cast h2

/-! ## GEMM: the blocked kernels compute the naive product -/

namespace details

variable {R : Type} [CommRing R]

/-- One assignment `C[q] = C[q] + v` read at an arbitrary address. -/
theorem update_add_apply (C : Int → R) (q : Int) (v : R) (p : Int) :
    Function.update C q (C q + v) p = C p + if p = q then v else 0 := by
  by_cases h : p = q
  · subst h; simp
  · simp [Function.update_noteq h, h]

/-- Effect of `do_block` on the `C` buffer, read at an arbitrary address. -/
theorem do_block_fst (LDA LDB LDC M N K : Int) (A : Int → R) (a : Int) (B : Int → R) (b : Int)
    (c bc : Int) (st : (Int → R) × (Int → R)) (p : Int) :
    (do_block LDA LDB LDC M N K A a B b c bc st).1 p = st.1 p +
      ∑ j in Finset.range N.toNat, ∑ i in Finset.range M.toNat,
        if p = c + ((j : Int) + (i : Int) * LDC) then
          ∑ l in Finset.range K.toNat, A (a + (i : Int) * LDA + (l : Int)) * B (b + (j : Int) + (l : Int) * LDB)
        else 0 := by
  unfold do_block
  rw [forInt_zero]
  refine forLoop_accum (fun st => st.1) _
    (fun j q => ∑ i in Finset.range M.toNat,
      if q = c + ((j : Int) + (i : Int) * LDC) then
        ∑ l in Finset.range K.toNat, A (a + (i : Int) * LDA + (l : Int)) * B (b + (j : Int) + (l : Int) * LDB)
      else 0) _ ?_ st p
  intro j _ s q
  simp only
  rw [forInt_zero]
  refine forLoop_accum (fun C => C) _
    (fun i q => if q = c + ((j : Int) + (i : Int) * LDC) then
        ∑ l in Finset.range K.toNat, A (a + (i : Int) * LDA + (l : Int)) * B (b + (j : Int) + (l : Int) * LDB)
      else 0) _ ?_ s.1 q
  intro i _ C r
  simp only
  rw [forInt_zero, forLoop_sum, update_add_apply]
  congr 1
  by_cases h : r = c + ((j : Int) + (i : Int) * LDC)
  · simp only [h, if_true]
    refine Finset.sum_congr rfl (fun l hl => ?_)
    rw [forInt_zero, forLoop_store_get (fun k => B (b + (j : Int) + (k : Int) * LDB)) bc K.toNat s.2 l
      (Finset.mem_range.mp hl)]
  · simp [h]

/-- The blocked driver `gemm_nn` adds, at every address, the products whose
destination `c + (J + I*LDC)` is that address. -/
theorem gemm_nn_apply (M N K : Nat) (A : Int → R) (a LDA : Int) (B : Int → R) (b LDB : Int)
    (C : Int → R) (c LDC : Int) (copy_buffers : Int → R) (sizeofT : Nat) (thread_id : Int → Nat)
    (p : Int) :
    gemm_nn M N K A a LDA B b LDB C c LDC copy_buffers sizeofT thread_id p = C p +
      ∑ J in Finset.range N, ∑ I in Finset.range M, ∑ L in Finset.range K,
        if p = c + ((J : Int) + (I : Int) * LDC) then
          A (a + (I : Int) * LDA + (L : Int)) * B (b + (J : Int) + (L : Int) * LDB)
        else 0 := by
  have hbs : 0 < memory.BLOCK_SIZE := by decide
  rw [← sum_blocks3 memory.BLOCK_SIZE hbs (fun I J L =>
    if p = c + ((J : Int) + (I : Int) * LDC) then
      A (a + (I : Int) * LDA + (L : Int)) * B (b + (J : Int) + (L : Int) * LDB) else 0) M N K]
  unfold gemm_nn forStep
  simp only [Int.toNat_natCast]
  refine forLoop_accum (fun st => st.1) _ (fun jb q =>
    ∑ ib in Finset.range ((M + memory.BLOCK_SIZE - 1) / memory.BLOCK_SIZE),
      ∑ lb in Finset.range ((K + memory.BLOCK_SIZE - 1) / memory.BLOCK_SIZE),
        ∑ j in Finset.range (min memory.BLOCK_SIZE (N - memory.BLOCK_SIZE * jb)),
          ∑ i in Finset.range (min memory.BLOCK_SIZE (M - memory.BLOCK_SIZE * ib)),
            ∑ l in Finset.range (min memory.BLOCK_SIZE (K - memory.BLOCK_SIZE * lb)),
              if q = c + (((memory.BLOCK_SIZE * jb + j : Nat) : Int)
                  + ((memory.BLOCK_SIZE * ib + i : Nat) : Int) * LDC) then
                A (a + ((memory.BLOCK_SIZE * ib + i : Nat) : Int) * LDA
                    + ((memory.BLOCK_SIZE * lb + l : Nat) : Int))
                  * B (b + ((memory.BLOCK_SIZE * jb + j : Nat) : Int)
                    + ((memory.BLOCK_SIZE * lb + l : Nat) : Int) * LDB)
              else 0) _ ?_ (C, copy_buffers) p
  intro jb _ s q
  refine forLoop_accum (fun st => st.1) _ (fun ib q =>
      ∑ lb in Finset.range ((K + memory.BLOCK_SIZE - 1) / memory.BLOCK_SIZE),
        ∑ j in Finset.range (min memory.BLOCK_SIZE (N - memory.BLOCK_SIZE * jb)),
          ∑ i in Finset.range (min memory.BLOCK_SIZE (M - memory.BLOCK_SIZE * ib)),
            ∑ l in Finset.range (min memory.BLOCK_SIZE (K - memory.BLOCK_SIZE * lb)),
              if q = c + (((memory.BLOCK_SIZE * jb + j : Nat) : Int)
                  + ((memory.BLOCK_SIZE * ib + i : Nat) : Int) * LDC) then
                A (a + ((memory.BLOCK_SIZE * ib + i : Nat) : Int) * LDA
                    + ((memory.BLOCK_SIZE * lb + l : Nat) : Int))
                  * B (b + ((memory.BLOCK_SIZE * jb + j : Nat) : Int)
                    + ((memory.BLOCK_SIZE * lb + l : Nat) : Int) * LDB)
              else 0) _ ?_ s q
  intro ib _ s q
  refine forLoop_accum (fun st => st.1) _ (fun lb q =>
        ∑ j in Finset.range (min memory.BLOCK_SIZE (N - memory.BLOCK_SIZE * jb)),
          ∑ i in Finset.range (min memory.BLOCK_SIZE (M - memory.BLOCK_SIZE * ib)),
            ∑ l in Finset.range (min memory.BLOCK_SIZE (K - memory.BLOCK_SIZE * lb)),
              if q = c + (((memory.BLOCK_SIZE * jb + j : Nat) : Int)
                  + ((memory.BLOCK_SIZE * ib + i : Nat) : Int) * LDC) then
                A (a + ((memory.BLOCK_SIZE * ib + i : Nat) : Int) * LDA
                    + ((memory.BLOCK_SIZE * lb + l : Nat) : Int))
                  * B (b + ((memory.BLOCK_SIZE * jb + j : Nat) : Int)
                    + ((memory.BLOCK_SIZE * lb + l : Nat) : Int) * LDB)
              else 0) _ ?_ s q
  intro lb _ s q
  simp only
  rw [do_block_fst]
  have e1 : (min (memory.BLOCK_SIZE : Int) ((N : Int) - (memory.BLOCK_SIZE : Int) * (jb : Int))).toNat
      = min memory.BLOCK_SIZE (N - memory.BLOCK_SIZE * jb) := by
    simp only [memory.BLOCK_SIZE]; omega
  have e2 : (min (memory.BLOCK_SIZE : Int) ((M : Int) - (memory.BLOCK_SIZE : Int) * (ib : Int))).toNat
      = min memory.BLOCK_SIZE (M - memory.BLOCK_SIZE * ib) := by
    simp only [memory.BLOCK_SIZE]; omega
  have e3 : (min (memory.BLOCK_SIZE : Int) ((K : Int) - (memory.BLOCK_SIZE : Int) * (lb : Int))).toNat
      = min memory.BLOCK_SIZE (K - memory.BLOCK_SIZE * lb) := by
    simp only [memory.BLOCK_SIZE]; omega
  rw [e1, e2, e3]
  congr 1
  refine Finset.sum_congr rfl (fun j _ => Finset.sum_congr rfl (fun i _ => ?_))
  have ha : c + (memory.BLOCK_SIZE : Int) * (jb : Int) + (memory.BLOCK_SIZE : Int) * (ib : Int) * LDC
        + ((j : Int) + (i : Int) * LDC)
      = c + (((memory.BLOCK_SIZE * jb + j : Nat) : Int)
        + ((memory.BLOCK_SIZE * ib + i : Nat) : Int) * LDC) := by
    push_cast; ring
  rw [ha]
  by_cases hq : q = c + (((memory.BLOCK_SIZE * jb + j : Nat) : Int)
      + ((memory.BLOCK_SIZE * ib + i : Nat) : Int) * LDC)
  · rw [if_pos hq]
    refine Finset.sum_congr rfl (fun l _ => ?_)
    rw [if_pos hq]
    congr 2
    · push_cast; ring
    · push_cast; ring
  · rw [if_neg hq]
    exact (Finset.sum_eq_zero (fun l _ => if_neg hq)).symm

/-- Entry form of `gemm_nn_apply`: with `N ≤ LDC` the cell `(i, j)` receives the
dot product of row `i` of `A` and column `j` of `B`. -/
theorem gemm_nn_cell (M N K LDC : Nat) (hC : N ≤ LDC) (A : Int → R) (a LDA : Int)
    (B : Int → R) (b LDB : Int) (C : Int → R) (c : Int) (copy_buffers : Int → R)
    (sizeofT : Nat) (thread_id : Int → Nat) (i j : Nat) (hi : i < M) (hj : j < N) :
    gemm_nn M N K A a LDA B b LDB C c LDC copy_buffers sizeofT thread_id
        (c + ((j : Int) + (i : Int) * (LDC : Int)))
      = C (c + ((j : Int) + (i : Int) * (LDC : Int)))
        + ∑ l in Finset.range K, A (a + (i : Int) * LDA + (l : Int)) * B (b + (j : Int) + (l : Int) * LDB) := by
  rw [gemm_nn_apply]
  congr 1
  simp only [sum_ite_cond]
  exact sum_cell M N LDC hC c
    (fun I J => ∑ l in Finset.range K, A (a + (I : Int) * LDA + (l : Int)) * B (b + (J : Int) + (l : Int) * LDB))
    i j hi hj

/-- Frame form of `gemm_nn_apply`: an address that is no cell of the `M × N`
matrix keeps its value. -/
theorem gemm_nn_frame (M N K : Nat) (A : Int → R) (a LDA : Int)
    (B : Int → R) (b LDB : Int) (C : Int → R) (c LDC : Int) (copy_buffers : Int → R)
    (sizeofT : Nat) (thread_id : Int → Nat) (p : Int)
    (hp : ∀ i j : Nat, i < M → j < N → p ≠ c + ((j : Int) + (i : Int) * LDC)) :
    gemm_nn M N K A a LDA B b LDB C c LDC copy_buffers sizeofT thread_id p = C p := by
  rw [gemm_nn_apply]
  simp only [sum_ite_cond]
  rw [sum_no_cell M N LDC c _ p hp, add_zero]

/-- Effect of `do_block_nt` on the `C` buffer for `T = float`, where the
`memcpy` stores the accumulator itself, read at an arbitrary address. -/
theorem do_block_nt_apply (LDA LDB LDC M N K : Int) (A : Int → R) (a : Int) (B : Int → R)
    (b c : Int) (C : Int → R) (p : Int) :
    do_block_nt id LDA LDB LDC M N K A a B b c C p = C p +
      ∑ j in Finset.range N.toNat, ∑ i in Finset.range M.toNat,
        if p = c + ((j : Int) + (i : Int) * LDC) then
          ∑ l in Finset.range K.toNat, A (a + (i : Int) * LDA + (l : Int)) * B (b + (j : Int) * LDB + (l : Int))
        else 0 := by
  unfold do_block_nt
  rw [forInt_zero]
  refine forLoop_accum (fun C => C) _
    (fun j q => ∑ i in Finset.range M.toNat,
      if q = c + ((j : Int) + (i : Int) * LDC) then
        ∑ l in Finset.range K.toNat, A (a + (i : Int) * LDA + (l : Int)) * B (b + (j : Int) * LDB + (l : Int))
      else 0) _ ?_ C p
  intro j _ s q
  simp only
  rw [forInt_zero]
  refine forLoop_accum (fun C => C) _
    (fun i q => if q = c + ((j : Int) + (i : Int) * LDC) then
        ∑ l in Finset.range K.toNat, A (a + (i : Int) * LDA + (l : Int)) * B (b + (j : Int) * LDB + (l : Int))
      else 0) _ ?_ s q
  intro i _ C r
  simp only [id_eq]
  rw [forInt_zero, forLoop_sum, update_add_apply]

/-- The blocked driver `gemm_nt` for `T = float` adds, at every address, the
row-by-row products whose destination `c + (J + I*LDC)` is that address. -/
theorem gemm_nt_apply (M N K : Nat) (A : Int → R) (a LDA : Int) (B : Int → R) (b LDB : Int)
    (C : Int → R) (c LDC : Int) (p : Int) :
    gemm_nt id M N K A a LDA B b LDB C c LDC p = C p +
      ∑ J in Finset.range N, ∑ I in Finset.range M, ∑ L in Finset.range K,
        if p = c + ((J : Int) + (I : Int) * LDC) then
          A (a + (I : Int) * LDA + (L : Int)) * B (b + (J : Int) * LDB + (L : Int))
        else 0 := by
  have hbs : 0 < memory.BLOCK_SIZE := by decide
  rw [← sum_blocks3 memory.BLOCK_SIZE hbs (fun I J L =>
    if p = c + ((J : Int) + (I : Int) * LDC) then
      A (a + (I : Int) * LDA + (L : Int)) * B (b + (J : Int) * LDB + (L : Int)) else 0) M N K]
  unfold gemm_nt forStep
  simp only [Int.toNat_natCast]
  refine forLoop_accum (fun C => C) _ (fun jb q =>
    ∑ ib in Finset.range ((M + memory.BLOCK_SIZE - 1) / memory.BLOCK_SIZE),
      ∑ lb in Finset.range ((K + memory.BLOCK_SIZE - 1) / memory.BLOCK_SIZE),
        ∑ j in Finset.range (min memory.BLOCK_SIZE (N - memory.BLOCK_SIZE * jb)),
          ∑ i in Finset.range (min memory.BLOCK_SIZE (M - memory.BLOCK_SIZE * ib)),
            ∑ l in Finset.range (min memory.BLOCK_SIZE (K - memory.BLOCK_SIZE * lb)),
              if q = c + (((memory.BLOCK_SIZE * jb + j : Nat) : Int)
                  + ((memory.BLOCK_SIZE * ib + i : Nat) : Int) * LDC) then
                A (a + ((memory.BLOCK_SIZE * ib + i : Nat) : Int) * LDA
                    + ((memory.BLOCK_SIZE * lb + l : Nat) : Int))
                  * B (b + ((memory.BLOCK_SIZE * jb + j : Nat) : Int) * LDB
                    + ((memory.BLOCK_SIZE * lb + l : Nat) : Int))
              else 0) _ ?_ C p
  intro jb _ s q
  refine forLoop_accum (fun C => C) _ (fun ib q =>
      ∑ lb in Finset.range ((K + memory.BLOCK_SIZE - 1) / memory.BLOCK_SIZE),
        ∑ j in Finset.range (min memory.BLOCK_SIZE (N - memory.BLOCK_SIZE * jb)),
          ∑ i in Finset.range (min memory.BLOCK_SIZE (M - memory.BLOCK_SIZE * ib)),
            ∑ l in Finset.range (min memory.BLOCK_SIZE (K - memory.BLOCK_SIZE * lb)),
              if q = c + (((memory.BLOCK_SIZE * jb + j : Nat) : Int)
                  + ((memory.BLOCK_SIZE * ib + i : Nat) : Int) * LDC) then
                A (a + ((memory.BLOCK_SIZE * ib + i : Nat) : Int) * LDA
                    + ((memory.BLOCK_SIZE * lb + l : Nat) : Int))
                  * B (b + ((memory.BLOCK_SIZE * jb + j : Nat) : Int) * LDB
                    + ((memory.BLOCK_SIZE * lb + l : Nat) : Int))
              else 0) _ ?_ s q
  intro ib _ s q
  refine forLoop_accum (fun C => C) _ (fun lb q =>
        ∑ j in Finset.range (min memory.BLOCK_SIZE (N - memory.BLOCK_SIZE * jb)),
          ∑ i in Finset.range (min memory.BLOCK_SIZE (M - memory.BLOCK_SIZE * ib)),
            ∑ l in Finset.range (min memory.BLOCK_SIZE (K - memory.BLOCK_SIZE * lb)),
              if q = c + (((memory.BLOCK_SIZE * jb + j : Nat) : Int)
                  + ((memory.BLOCK_SIZE * ib + i : Nat) : Int) * LDC) then
                A (a + ((memory.BLOCK_SIZE * ib + i : Nat) : Int) * LDA
                    + ((memory.BLOCK_SIZE * lb + l : Nat) : Int))
                  * B (b + ((memory.BLOCK_SIZE * jb + j : Nat) : Int) * LDB
                    + ((memory.BLOCK_SIZE * lb + l : Nat) : Int))
              else 0) _ ?_ s q
  intro lb _ s q
  simp only
  rw [do_block_nt_apply]
  have e1 : (min (memory.BLOCK_SIZE : Int) ((N : Int) - (memory.BLOCK_SIZE : Int) * (jb : Int))).toNat
      = min memory.BLOCK_SIZE (N - memory.BLOCK_SIZE * jb) := by
    simp only [memory.BLOCK_SIZE]; omega
  have e2 : (min (memory.BLOCK_SIZE : Int) ((M : Int) - (memory.BLOCK_SIZE : Int) * (ib : Int))).toNat
      = min memory.BLOCK_SIZE (M - memory.BLOCK_SIZE * ib) := by
    simp only [memory.BLOCK_SIZE]; omega
  have e3 : (min (memory.BLOCK_SIZE : Int) ((K : Int) - (memory.BLOCK_SIZE : Int) * (lb : Int))).toNat
      = min memory.BLOCK_SIZE (K - memory.BLOCK_SIZE * lb) := by
    simp only [memory.BLOCK_SIZE]; omega
  rw [e1, e2, e3]
  congr 1
  refine Finset.sum_congr rfl (fun j _ => Finset.sum_congr rfl (fun i _ => ?_))
  have ha : c + (memory.BLOCK_SIZE : Int) * (jb : Int) + (memory.BLOCK_SIZE : Int) * (ib : Int) * LDC
        + ((j : Int) + (i : Int) * LDC)
      = c + (((memory.BLOCK_SIZE * jb + j : Nat) : Int)
        + ((memory.BLOCK_SIZE * ib + i : Nat) : Int) * LDC) := by
    push_cast; ring
  rw [ha]
  by_cases hq : q = c + (((memory.BLOCK_SIZE * jb + j : Nat) : Int)
      + ((memory.BLOCK_SIZE * ib + i : Nat) : Int) * LDC)
  · rw [if_pos hq]
    refine Finset.sum_congr rfl (fun l _ => ?_)
    rw [if_pos hq]
    congr 2
    · push_cast; ring
    · push_cast; ring
  · rw [if_neg hq]
    exact (Finset.sum_eq_zero (fun l _ => if_neg hq)).symm

/-- Entry form of `gemm_nt_apply`: with `N ≤ LDC` the cell `(i, j)` receives the
dot product of row `i` of `A` and row `j` of `B`. -/
theorem gemm_nt_cell (M N K LDC : Nat) (hC : N ≤ LDC) (A : Int → R) (a LDA : Int)
    (B : Int → R) (b LDB : Int) (C : Int → R) (c : Int) (i j : Nat) (hi : i < M) (hj : j < N) :
    gemm_nt id M N K A a LDA B b LDB C c LDC (c + ((j : Int) + (i : Int) * (LDC : Int)))
      = C (c + ((j : Int) + (i : Int) * (LDC : Int)))
        + ∑ l in Finset.range K, A (a + (i : Int) * LDA + (l : Int)) * B (b + (j : Int) * LDB + (l : Int)) := by
  rw [gemm_nt_apply]
  congr 1
  simp only [sum_ite_cond]
  exact sum_cell M N LDC hC c
    (fun I J => ∑ l in Finset.range K, A (a + (I : Int) * LDA + (l : Int)) * B (b + (J : Int) * LDB + (l : Int)))
    i j hi hj

/-- Frame form of `gemm_nt_apply`. -/
theorem gemm_nt_frame (M N K : Nat) (A : Int → R) (a LDA : Int)
    (B : Int → R) (b LDB : Int) (C : Int → R) (c LDC : Int) (p : Int)
    (hp : ∀ i j : Nat, i < M → j < N → p ≠ c + ((j : Int) + (i : Int) * LDC)) :
    gemm_nt id M N K A a LDA B b LDB C c LDC p = C p := by
  rw [gemm_nt_apply]
  simp only [sum_ite_cond]
  rw [sum_no_cell M N LDC c _ p hp, add_zero]

end details

/-! ## Broadcast shapes -/

/-- An axis on which the two shapes are incompatible for broadcasting. -/
theorem BroadCastShape_none_iff (a b : List Int) (h : a.length = b.length) :
    BroadCastShape a b = none ↔
      ∃ i, i < a.length ∧ a.getD i 0 ≠ b.getD i 0 ∧ a.getD i 0 ≠ 1 ∧ b.getD i 0 ≠ 1 := by
  induction a generalizing b with
  | nil =>
    cases b with
    | nil => simp [BroadCastShape]
    | cons y b => simp at h
  | cons x a ih =>
    cases b with
    | nil => simp at h
    | cons y b =>
      have hl : a.length = b.length := by simpa using h
      unfold BroadCastShape
      by_cases hxy : x ≠ y ∧ ¬ (x = 1 ∨ y = 1)
      · rw [if_pos hxy]
        simp only [true_iff]
        refine ⟨0, by simp, ?_⟩
        simp only [List.getD_cons_zero]
        exact ⟨hxy.1, fun h1 => hxy.2 (Or.inl h1), fun h1 => hxy.2 (Or.inr h1)⟩
      · rw [if_neg hxy, Option.map_eq_none', ih b hl]
        constructor
        · rintro ⟨i, hi, h1⟩
          exact ⟨i + 1, by simpa using hi, by simpa using h1⟩
        · rintro ⟨i, hi, h1, h2, h3⟩
          cases i with
          | zero =>
            exfalso
            simp only [List.getD_cons_zero] at h1 h2 h3
            exact hxy ⟨h1, fun h => h.elim h2 h3⟩
          | succ i =>
            exact ⟨i, by simpa using hi, by simpa using h1, by simpa using h2, by simpa using h3⟩

/-- When it does not fail, `BroadCastShape` returns the per-axis maximum. -/
theorem BroadCastShape_some (a b : List Int) (h : a.length = b.length) (r : List Int)
    (hr : BroadCastShape a b = some r) : r = List.zipWith max a b := by
  induction a generalizing b r with
  | nil =>
    cases b with
    | nil => simp [BroadCastShape] at hr; simp [hr]
    | cons y b => simp at h
  | cons x a ih =>
    cases b with
    | nil => simp at h
    | cons y b =>
      have hl : a.length = b.length := by simpa using h
      unfold BroadCastShape at hr
      by_cases hxy : x ≠ y ∧ ¬ (x = 1 ∨ y = 1)
      · rw [if_pos hxy] at hr; simp at hr
      · rw [if_neg hxy] at hr
        cases hab : BroadCastShape a b with
        | none => rw [hab] at hr; simp at hr
        | some r2 =>
          rw [hab] at hr
          simp only [Option.map_some', Option.some.injEq] at hr
          rw [← hr, ih b hl r2 hab]
          simp

/-! ## Convolution lemmas -/

/-- The bias loops of `Conv2d` and `ConvTranspose2d`: plane `(n, c)` of the
output is filled with `pbias c`, and nothing outside the `N * K` planes is
written. -/
theorem bias_fill_apply {R : Type} (N K Ho Wo : Nat) (out : tensor R) (pbias : Int → R)
    (hs : out.m_shape = [(N : Int), (K : Int), (Ho : Int), (Wo : Int)]) (m0 : Int → R) :
    (∀ n c : Nat, n < N → c < K → ∀ q : Int, 0 ≤ q → q < (Ho : Int) * (Wo : Int) →
      forInt 0 (N : Int) (fun n m => forInt 0 (K : Int) (fun c m =>
        (({ out with m_ptr := m }.Sub2 n c).Fill (pbias c)).m_ptr) m) m0
        (out.m_offset + (((n : Int) * (K : Int) + (c : Int)) * ((Ho : Int) * (Wo : Int)) + q))
      = pbias c) := by
  intro n c hn hc q hq0 hq1
  simp only [forInt_zero, Int.toNat_natCast, tensor.Sub2, tensor.size, hs, List.tail_cons,
    List.foldl_cons, List.foldl_nil, one_mul, List.getD_cons_succ, List.getD_cons_zero]
  have hS0 : (0 : Int) ≤ (Ho : Int) * (Wo : Int) := by positivity
  obtain ⟨S, hS⟩ : ∃ S : Int, S = (Ho : Int) * (Wo : Int) := ⟨_, rfl⟩
  rw [← hS] at hq1 hS0 ⊢
  have hSK : (0 : Int) ≤ S * (K : Int) := by positivity
  have inner : ∀ n : Nat,
      (∀ m p, (p < out.m_offset + (n : Int) * S * (K : Int)
          ∨ out.m_offset + (n : Int) * S * (K : Int) + (K : Int) * S ≤ p) →
        forLoop K (fun c m => (tensor.Fill (tensor.mk m [(Ho : Int), (Wo : Int)]
          (out.m_offset + (n : Int) * S * (K : Int) + (c : Int) * S) out.m_null) (pbias c)).m_ptr) m p = m p) ∧
      (∀ c, c < K → ∀ p v, out.m_offset + (n : Int) * S * (K : Int) + (c : Int) * S ≤ p →
        p < out.m_offset + (n : Int) * S * (K : Int) + ((c : Int) + 1) * S →
        (∀ m, (tensor.Fill (tensor.mk m [(Ho : Int), (Wo : Int)]
          (out.m_offset + (n : Int) * S * (K : Int) + (c : Int) * S) out.m_null) (pbias c)).m_ptr p = v) →
        ∀ m, forLoop K (fun c m => (tensor.Fill (tensor.mk m [(Ho : Int), (Wo : Int)]
          (out.m_offset + (n : Int) * S * (K : Int) + (c : Int) * S) out.m_null) (pbias c)).m_ptr) m p = v) := by
    intro n
    refine forLoop_block K S hS0 (out.m_offset + (n : Int) * S * (K : Int)) _ ?_
    intro c _ m p hp
    rw [tensor.Fill_apply]
    simp only [tensor.size, List.foldl_cons, List.foldl_nil, one_mul, ← hS]
    rw [add_mul, one_mul] at hp
    rw [if_neg (by omega)]
  have houter := forLoop_block N (S * (K : Int)) hSK out.m_offset
    (fun n m => forLoop K (fun c m => (tensor.Fill (tensor.mk m [(Ho : Int), (Wo : Int)]
          (out.m_offset + (n : Int) * S * (K : Int) + (c : Int) * S) out.m_null) (pbias c)).m_ptr) m)
    (by
      intro n _ m p hp
      refine (inner n).1 m p ?_
      rw [add_mul, one_mul] at hp
      have e1 : (n : Int) * (S * (K : Int)) = (n : Int) * S * (K : Int) := by ring
      have e2 : S * (K : Int) = (K : Int) * S := by ring
      rw [e1, e2] at hp
      omega)
  have e0 : out.m_offset + (((n : Int) * (K : Int) + (c : Int)) * S + q)
      = out.m_offset + (n : Int) * S * (K : Int) + (c : Int) * S + q := by ring
  refine houter.2 n hn _ (pbias c) ?_ ?_ ?_ m0
  · rw [e0]
    have : (0 : Int) ≤ (c : Int) * S := by positivity
    have e1 : (n : Int) * (S * (K : Int)) = (n : Int) * S * (K : Int) := by ring
    rw [e1]; omega
  · rw [e0, add_mul, one_mul]
    have h1 : ((c : Int) + 1) * S ≤ (K : Int) * S := mul_le_mul_of_nonneg_right (by omega) hS0
    rw [add_mul, one_mul] at h1
    have e1 : (n : Int) * (S * (K : Int)) = (n : Int) * S * (K : Int) := by ring
    have e2 : S * (K : Int) = (K : Int) * S := by ring
    rw [e1, e2]; omega
  · intro m
    refine (inner n).2 c hc _ (pbias c) ?_ ?_ ?_ m
    · rw [e0]; omega
    · rw [e0, add_mul, one_mul]; omega
    · intro m
      rw [tensor.Fill_apply]
      simp only [tensor.size, List.foldl_cons, List.foldl_nil, one_mul, ← hS]
      rw [e0, if_pos (by omega)]


/-- The zero-padding, unit-stride `1 × 1` instance of `im2col` copies the input
planes into the columns buffer. -/
theorem im2col_1x1_apply {R : Type} [Zero R] (C H W : Nat) (output input : Int → R) (i : Int)
    (c : Nat) (hc : c < C) (q : Int) (hq0 : 0 ≤ q) (hq1 : q < (H : Int) * (W : Int)) :
    details.im2col ⟨1, 1, 1, 1, 0, 0, 1, 1⟩ output 0 input i C W H W H
        ((c : Int) * ((H : Int) * (W : Int)) + q)
      = input (i + (c : Int) * ((H : Int) * (W : Int)) + q) := by
  unfold details.im2col details.im2col_process_row_apply details.memcpy_extended_strided
  simp only [mul_one, Int.tdiv_one, Int.tmod_one, and_self, if_true, forInt_zero,
    Int.toNat_natCast, zero_add, add_zero]
  have hW : 0 < W := by
    rcases Nat.eq_zero_or_pos W with h | h
    · subst h; simp at hq1; omega
    · exact h
  have hS0 : (0 : Int) ≤ (H : Int) * (W : Int) := by positivity
  obtain ⟨S, hS⟩ : ∃ S : Int, S = (H : Int) * (W : Int) := ⟨_, rfl⟩
  rw [← hS] at hq1 hS0 ⊢
  have inner := fun n : Nat => forLoop_block H (W : Int) (by omega) ((n : Int) * S)
    (fun y m => memcpy m ((n : Int) * S + (y : Int) * (W : Int)) input
      (i + (n : Int) * S + (y : Int) * (W : Int)) (W : Int))
    (by
      intro y _ m p hp
      rw [add_mul, one_mul] at hp
      simp only [memcpy]
      rw [if_neg (by omega)])
  have outer := forLoop_block C S hS0 0
    (fun n m => forLoop H (fun y m => memcpy m ((n : Int) * S + (y : Int) * (W : Int)) input
      (i + (n : Int) * S + (y : Int) * (W : Int)) (W : Int)) m)
    (by
      intro n _ m p hp
      refine (inner n).1 m p ?_
      rw [add_mul, one_mul] at hp
      rw [← hS]
      omega)
  -- the output row that contains `q`
  have hy0 : 0 ≤ q / (W : Int) := Int.ediv_nonneg hq0 (by omega)
  obtain ⟨y, hy⟩ : ∃ y : Nat, (y : Int) = q / (W : Int) := ⟨(q / (W : Int)).toNat, by omega⟩
  have hdm := Int.ediv_add_emod q (W : Int)
  have hm0 := Int.emod_nonneg q (show (W : Int) ≠ 0 by omega)
  have hm1 := Int.emod_lt_of_pos q (show (0 : Int) < (W : Int) by omega)
  rw [← hy, mul_comm] at hdm
  have hyH : y < H := by
    by_contra hge
    have h1 : (H : Int) * (W : Int) ≤ (y : Int) * (W : Int) :=
      mul_le_mul_of_nonneg_right (by omega) (by omega)
    omega
  refine outer.2 c hc _ _ ?_ ?_ ?_ output
  · omega
  · rw [add_mul, one_mul]; omega
  · intro m
    refine (inner c).2 y hyH _ _ ?_ ?_ ?_ m
    · omega
    · rw [add_mul, one_mul]; omega
    · intro m
      simp only [memcpy]
      rw [if_pos (by omega)]
      congr 1
      omega


/-- The `1 × 1`, unit-stride, unpadded `Conv2d` of one image with a bias:
`out[0,k,y,x] = bias[k] + ∑ c, kernel[k,c,0,0] * in[0,c,y,x]`. -/
theorem Conv2d_1x1 {R : Type} [CommRing R] (C H W K : Nat) (input kernel bias : tensor R)
    (columns_fresh out_fresh copy_buffers : Int → R) (sizeofT : Nat) (thread_id : Int → Nat)
    (hin : input.m_shape = [1, (C : Int), (H : Int), (W : Int)])
    (hker : kernel.m_shape = [(K : Int), (C : Int), 1, 1]) (hnull : bias.m_null = false) :
    ∃ out, Conv2d ⟨1, 1, 1, 1, 0, 0, 1, 1⟩ input kernel bias columns_fresh out_fresh copy_buffers
        sizeofT thread_id = some out ∧
      out.m_shape = [1, (K : Int), (H : Int), (W : Int)] ∧
      ∀ k y x : Nat, k < K → y < H → x < W →
        out.get4 0 k y x
          = bias.get1 k + ∑ c in Finset.range C, kernel.get4 k c 0 0 * input.get4 0 c y x := by
  unfold Conv2d
  simp only [channels, height, width, number, hin, hker, hnull]
  simp only [List.length_cons, List.length_nil, List.getD_cons_succ, List.getD_cons_zero, ne_eq,
    not_true_eq_false, if_false, if_true, mul_zero, sub_self, add_zero, sub_zero, mul_one,
    Int.tdiv_one, sub_add_cancel, one_mul]
  refine ⟨_, rfl, rfl, ?_⟩
  intro k y x hk hy hx
  have hq := row_lt y H x W hy hx
  have hqn : y * W + x < H * W := by zify; omega
  have hbias := bias_fill_apply 1 K H W (tensor.New [1, (K : Int), (H : Int), (W : Int)] out_fresh)
    (fun c => bias.m_ptr (bias.m_offset + c)) (by simp [tensor.New]) out_fresh 0 k (by omega) hk
    ((y : Int) * (W : Int) + (x : Int)) (by positivity) (by omega)
  have hg := details.gemm_nn_cell K (H * W) C (H * W) le_rfl kernel.m_ptr kernel.m_offset (C : Int)
    (details.im2col ⟨1, 1, 1, 1, 0, 0, 1, 1⟩ columns_fresh 0 input.m_ptr input.m_offset
      (C : Int) (W : Int) (H : Int) (W : Int) (H : Int)) 0 ((H : Int) * (W : Int))
    (forInt 0 1 (fun n m => forInt 0 (K : Int) (fun c m =>
      (({ tensor.New [1, (K : Int), (H : Int), (W : Int)] out_fresh with m_ptr := m }.Sub2 n c).Fill
        (bias.m_ptr (bias.m_offset + c))).m_ptr) m) out_fresh)
    0 copy_buffers sizeofT thread_id k (y * W + x) hk hqn
  simp only [tensor.get4, tensor.get1, tensor.Sub2, tensor.Sub, tensor.size, tensor.New, hin, hker,
    List.tail_cons, List.foldl_cons, List.foldl_nil, one_mul, List.getD_cons_succ,
    List.getD_cons_zero, zero_mul, add_zero, mul_one, zero_add, Nat.cast_mul, Nat.cast_add,
    Nat.cast_one, Nat.cast_zero] at hbias hg ⊢
  have ea : (k : Int) * ((H : Int) * (W : Int)) + (y : Int) * (W : Int) + (x : Int)
      = (y : Int) * (W : Int) + (x : Int) + (k : Int) * ((H : Int) * (W : Int)) := by ring
  rw [ea, hg]
  congr 1
  · have eb : (y : Int) * (W : Int) + (x : Int) + (k : Int) * ((H : Int) * (W : Int))
        = (k : Int) * ((H : Int) * (W : Int)) + ((y : Int) * (W : Int) + (x : Int)) := by ring
    rw [eb]
    exact hbias
  · refine Finset.sum_congr rfl (fun c hc => ?_)
    congr 1
    have e2 : (y : Int) * (W : Int) + (x : Int) + (c : Int) * ((H : Int) * (W : Int))
        = (c : Int) * ((H : Int) * (W : Int)) + ((y : Int) * (W : Int) + (x : Int)) := by ring
    rw [e2, im2col_1x1_apply C H W columns_fresh input.m_ptr input.m_offset c
      (Finset.mem_range.mp hc) _ (by positivity) (by omega)]
    congr 1
    ring

/-- One assignment `m[q] = m[q] + v` read at an arbitrary address. -/
theorem update_accum_apply {R : Type} [AddCommMonoid R] (m : Int → R) (q : Int) (v : R) (p : Int) :
    Function.update m q (m q + v) p = m p + if p = q then v else 0 := by
  by_cases h : p = q
  · subst h; simp
  · simp [Function.update_noteq h, h]

/-- Summary of `col2im` with its rows in program order: every address receives
the sum of the column elements whose target it is.  The sums run over the rows, the output rows `y` and the
positions `start + t` of the clipped range `[start, end)`; `ch`, `fh`, `fw`,
`start`, `end_` name the per-row quantities of the source. -/
theorem details.col2im_apply {R : Type} [AddCommMonoid R] (hp : conv_params) (output : Int → R)
    (o : Int) (input : Int → R) (i : Int)
    (channels inputWidth inputHeight outputWidth outputHeight : Int)
    (ch fh fw start end_ : Nat → Int)
    (hch : ∀ row, ch row = ((row : Int).tdiv hp.kernel_h).tdiv hp.kernel_w)
    (hfh : ∀ row, fh row = ((row : Int).tdiv hp.kernel_w).tmod hp.kernel_h)
    (hfw : ∀ row, fw row = (row : Int).tmod hp.kernel_w)
    (hstart : ∀ row, start row
      = max (Int.tdiv (hp.pad_w - fw row * hp.dilation_w + hp.stride_w - 1) hp.stride_w) 0)
    (hend : ∀ row, end_ row
      = min (Int.tdiv (inputWidth + hp.pad_w - fw row * hp.dilation_w + hp.stride_w - 1)
          hp.stride_w) outputWidth)
    (p : Int) :
    details.col2im hp output o input i channels inputWidth inputHeight outputWidth outputHeight p
      = output p + ∑ row in Finset.range (channels * hp.kernel_h * hp.kernel_w).toNat,
        ∑ y in Finset.range outputHeight.toNat,
          if (y : Int) * hp.stride_h + fh row * hp.dilation_h - hp.pad_h ≥ 0 ∧
              (y : Int) * hp.stride_h + fh row * hp.dilation_h - hp.pad_h < inputHeight then
            ∑ t in Finset.range (end_ row - start row).toNat,
              if p = o + ch row * (inputHeight * inputWidth)
                  + (((y : Int) * hp.stride_h + fh row * hp.dilation_h - hp.pad_h) * inputWidth
                    + ((start row + (t : Int)) * hp.stride_w + fw row * hp.dilation_w - hp.pad_w))
              then input (i + (row : Int) * (outputHeight * outputWidth)
                + ((y : Int) * outputWidth + (start row + (t : Int))))
              else 0
          else 0 := by
  unfold details.col2im
  simp only [forInt_zero]
  refine forLoop_accum (fun m : Int → R => m) _ (fun row p =>
    ∑ y in Finset.range outputHeight.toNat,
      if (y : Int) * hp.stride_h + fh row * hp.dilation_h - hp.pad_h ≥ 0 ∧
          (y : Int) * hp.stride_h + fh row * hp.dilation_h - hp.pad_h < inputHeight then
        ∑ t in Finset.range (end_ row - start row).toNat,
          if p = o + ch row * (inputHeight * inputWidth)
              + (((y : Int) * hp.stride_h + fh row * hp.dilation_h - hp.pad_h) * inputWidth
                + ((start row + (t : Int)) * hp.stride_w + fw row * hp.dilation_w - hp.pad_w))
          then input (i + (row : Int) * (outputHeight * outputWidth)
            + ((y : Int) * outputWidth + (start row + (t : Int))))
          else 0
      else 0) _ ?_ output p
  intro row _ m q
  refine forLoop_accum (fun m : Int → R => m) _ (fun y p =>
      if (y : Int) * hp.stride_h + fh row * hp.dilation_h - hp.pad_h ≥ 0 ∧
          (y : Int) * hp.stride_h + fh row * hp.dilation_h - hp.pad_h < inputHeight then
        ∑ t in Finset.range (end_ row - start row).toNat,
          if p = o + ch row * (inputHeight * inputWidth)
              + (((y : Int) * hp.stride_h + fh row * hp.dilation_h - hp.pad_h) * inputWidth
                + ((start row + (t : Int)) * hp.stride_w + fw row * hp.dilation_w - hp.pad_w))
          then input (i + (row : Int) * (outputHeight * outputWidth)
            + ((y : Int) * outputWidth + (start row + (t : Int))))
          else 0
      else 0) _ ?_ m q
  intro y _ m r
  simp only [hstart, hend, hfw, hfh, hch]
  split_ifs with hv
  · unfold forInt
    refine forLoop_accum (fun m : Int → R => m) _ (fun t p =>
          if p = o + ((row : Int).tdiv hp.kernel_h).tdiv hp.kernel_w * (inputHeight * inputWidth)
              + (((y : Int) * hp.stride_h
                  + ((row : Int).tdiv hp.kernel_w).tmod hp.kernel_h * hp.dilation_h - hp.pad_h)
                  * inputWidth
                + ((max (Int.tdiv (hp.pad_w - (row : Int).tmod hp.kernel_w * hp.dilation_w
                    + hp.stride_w - 1) hp.stride_w) 0 + (t : Int)) * hp.stride_w
                  + (row : Int).tmod hp.kernel_w * hp.dilation_w - hp.pad_w))
          then input (i + (row : Int) * (outputHeight * outputWidth)
            + ((y : Int) * outputWidth
              + (max (Int.tdiv (hp.pad_w - (row : Int).tmod hp.kernel_w * hp.dilation_w
                  + hp.stride_w - 1) hp.stride_w) 0 + (t : Int))))
          else 0) _ ?_ m r
    intro t _ m u
    simp only
    rw [update_accum_apply]
  · simp

/-- The clipped range of `im2col`/`col2im`: for a stride of at least 1 the C
quotient `(a + s - 1) / s` is at most `x` exactly when `a ≤ x * s`. -/
theorem tdiv_ceil_le (a : Int) (s x : Nat) (hs : 1 ≤ s) :
    Int.tdiv (a + (s : Int) - 1) (s : Int) ≤ (x : Int) ↔ a ≤ (x : Int) * (s : Int) := by
  have hs0 : (0 : Int) < (s : Int) := by omega
  have hx0 : (0 : Int) ≤ (x : Int) * (s : Int) := by positivity
  by_cases hn : 0 ≤ a + (s : Int) - 1
  · rw [Int.tdiv_eq_ediv hn (by omega)]
    have h1 : (a + (s : Int) - 1) / (s : Int) < (x : Int) + 1
        ↔ a + (s : Int) - 1 < ((x : Int) + 1) * (s : Int) := Int.ediv_lt_iff_lt_mul hs0
    rw [add_mul, one_mul] at h1
    constructor
    · intro h; have := h1.mp (by omega); omega
    · intro h; have := h1.mpr (by omega); omega
  · have hneg : Int.tdiv (a + (s : Int) - 1) (s : Int) ≤ 0 := by
      have h2 : (0 : Int) ≤ Int.tdiv (-(a + (s : Int) - 1)) (s : Int) :=
        Int.tdiv_nonneg (by omega) (by omega)
      rw [Int.neg_tdiv] at h2
      omega
    constructor
    · intro _; omega
    · intro _; omega

/-- A sum over `a * b` consecutive indices is a double sum. -/
theorem sum_range_mul {R : Type} [AddCommMonoid R] (a b : Nat) (F : Nat → R) :
    ∑ r in Finset.range (a * b), F r
      = ∑ i in Finset.range a, ∑ j in Finset.range b, F (i * b + j) := by
  induction a with
  | zero => simp
  | succ a ih =>
    rw [Nat.succ_mul, Finset.sum_range_add, ih, Finset.sum_range_succ]

/-- The three per-row quantities of `im2col`/`col2im` at the row
`(k * kh + fh) * kw + fw`. -/
theorem row_decode (k kh fh kw fw : Nat) (hfh : fh < kh) (hfw : fw < kw) :
    ((((k * kh + fh) * kw + fw : Nat) : Int).tdiv (kh : Int)).tdiv (kw : Int) = (k : Int) ∧
    ((((k * kh + fh) * kw + fw : Nat) : Int).tdiv (kw : Int)).tmod (kh : Int) = (fh : Int) ∧
    (((k * kh + fh) * kw + fw : Nat) : Int).tmod (kw : Int) = (fw : Int) := by
  have e1 : ((k * kh + fh) * kw + fw) / kw = k * kh + fh := by
    rw [Nat.add_comm, Nat.add_mul_div_right _ _ (by omega), Nat.div_eq_of_lt hfw, Nat.zero_add]
  have e2 : ((k * kh + fh) * kw + fw) / kh / kw = k := by
    rw [Nat.div_div_eq_div_mul, Nat.mul_comm kh kw, ← Nat.div_div_eq_div_mul, e1, Nat.add_comm,
      Nat.add_mul_div_right _ _ (by omega), Nat.div_eq_of_lt hfh, Nat.zero_add]
  have e3 : (k * kh + fh) % kh = fh := by
    rw [Nat.add_comm, Nat.add_mul_mod_self_right, Nat.mod_eq_of_lt hfh]
  have e4 : ((k * kh + fh) * kw + fw) % kw = fw := by
    rw [Nat.add_comm, Nat.add_mul_mod_self_right, Nat.mod_eq_of_lt hfw]
  refine ⟨?_, ?_, ?_⟩
  · rw [← Int.ofNat_tdiv, ← Int.ofNat_tdiv, e2]
  · rw [← Int.ofNat_tdiv, ← Int.ofNat_tmod, e1, e3]
  · rw [← Int.ofNat_tmod, e4]

/-- Row-major addresses with in-range column determine row and column
(integer version). -/
theorem addr_inj_int (L I J i j : Int) (hJ0 : 0 ≤ J) (hJ : J < L) (hj0 : 0 ≤ j) (hj : j < L)
    (h : I * L + J = i * L + j) : I = i ∧ J = j := by
  have hL : (0 : Int) < L := by omega
  have d1 : (I * L + J) / L = I := by
    rw [add_comm, Int.add_mul_ediv_right _ _ (by omega), Int.ediv_eq_zero_of_lt hJ0 hJ, zero_add]
  have d2 : (i * L + j) / L = i := by
    rw [add_comm, Int.add_mul_ediv_right _ _ (by omega), Int.ediv_eq_zero_of_lt hj0 hj, zero_add]
  have hI : I = i := by rw [← d1, ← d2, h]
  subst hI
  exact ⟨rfl, by omega⟩

/-- A sum over the integer range `[s, e)` inside `[0, W)` is the sum over
`x < W` restricted to the range. -/
theorem sum_clipped_range {R : Type} [AddCommMonoid R] (s e : Int) (W : Nat) (hs : 0 ≤ s)
    (he : e ≤ (W : Int)) (G : Int → R) :
    ∑ t in Finset.range (e - s).toNat, G (s + (t : Int))
      = ∑ x in Finset.range W, if s ≤ (x : Int) ∧ (x : Int) < e then G (x : Int) else 0 := by
  induction W generalizing e with
  | zero =>
    have : (e - s).toNat = 0 := by omega
    simp [this]
  | succ W ih =>
    rw [Finset.sum_range_succ]
    by_cases hW : e ≤ (W : Int)
    · rw [ih e hW, if_neg (by omega), add_zero]
    · have heq : e = (W : Int) + 1 := by push_cast at he; omega
      by_cases hsW : s ≤ (W : Int)
      · have h1 : (e - s).toNat = ((W : Int) - s).toNat + 1 := by omega
        rw [h1, Finset.sum_range_succ, ih (W : Int) le_rfl, if_pos (by omega)]
        congr 1
        · refine Finset.sum_congr rfl (fun x hx => ?_)
          have := Finset.mem_range.mp hx
          by_cases hc : s ≤ (x : Int)
          · rw [if_pos (by omega), if_pos (by omega)]
          · rw [if_neg (by omega), if_neg (by omega)]
        · congr 1; omega
      · have h1 : (e - s).toNat = 0 := by omega
        rw [h1, if_neg (by omega), add_zero]
        simp only [Finset.range_zero, Finset.sum_empty]
        symm
        refine Finset.sum_eq_zero (fun x hx => ?_)
        have := Finset.mem_range.mp hx
        rw [if_neg (by omega)]

/-- The guards of `col2im` select exactly the column elements whose target is
the pixel `(k, oy, ox)`. -/
theorem col2im_term {R : Type} [Zero R] (Ho Wo W sw : Nat) (hsw : 1 ≤ sw)
    (sh ph pw dh dw : Int) (o : Int) (k oy ox : Nat) (hoy : oy < Ho) (hox : ox < Wo)
    (k2 fh fw y x : Nat) (hx : x < W) (v : R) :
    (if (y : Int) * sh + (fh : Int) * dh - ph ≥ 0 ∧ (y : Int) * sh + (fh : Int) * dh - ph < (Ho : Int)
      then
        if max (Int.tdiv (pw - (fw : Int) * dw + (sw : Int) - 1) (sw : Int)) 0 ≤ (x : Int) ∧
            (x : Int) < min (Int.tdiv ((Wo : Int) + pw - (fw : Int) * dw + (sw : Int) - 1) (sw : Int))
              (W : Int) then
          if o + (k : Int) * ((Ho : Int) * (Wo : Int)) + ((oy : Int) * (Wo : Int) + (ox : Int))
              = o + (k2 : Int) * ((Ho : Int) * (Wo : Int))
                + (((y : Int) * sh + (fh : Int) * dh - ph) * (Wo : Int)
                  + ((x : Int) * (sw : Int) + (fw : Int) * dw - pw)) then v else 0
        else 0
      else 0)
    = if k2 = k then
        (if (y : Int) * sh + (fh : Int) * dh - ph = (oy : Int) ∧
            (x : Int) * (sw : Int) + (fw : Int) * dw - pw = (ox : Int) then v else 0)
      else 0 := by
  have r1 := tdiv_ceil_le (pw - (fw : Int) * dw) sw x hsw
  have r2 := tdiv_ceil_le ((Wo : Int) + pw - (fw : Int) * dw) sw x hsw
  by_cases hc : k2 = k ∧ (y : Int) * sh + (fh : Int) * dh - ph = (oy : Int) ∧
      (x : Int) * (sw : Int) + (fw : Int) * dw - pw = (ox : Int)
  · obtain ⟨e1, e2, e3⟩ := hc
    subst e1
    have c1 : (y : Int) * sh + (fh : Int) * dh - ph ≥ 0 ∧
        (y : Int) * sh + (fh : Int) * dh - ph < (Ho : Int) := by omega
    have c2 : max (Int.tdiv (pw - (fw : Int) * dw + (sw : Int) - 1) (sw : Int)) 0 ≤ (x : Int) ∧
        (x : Int) < min (Int.tdiv ((Wo : Int) + pw - (fw : Int) * dw + (sw : Int) - 1) (sw : Int))
          (W : Int) := by
      constructor
      · have := r1.mpr (by omega)
        omega
      · have h3 : ¬ Int.tdiv ((Wo : Int) + pw - (fw : Int) * dw + (sw : Int) - 1) (sw : Int)
            ≤ (x : Int) := by
          intro h; have := r2.mp h; omega
        omega
    have c3 : o + (k2 : Int) * ((Ho : Int) * (Wo : Int)) + ((oy : Int) * (Wo : Int) + (ox : Int))
        = o + (k2 : Int) * ((Ho : Int) * (Wo : Int))
          + (((y : Int) * sh + (fh : Int) * dh - ph) * (Wo : Int)
            + ((x : Int) * (sw : Int) + (fw : Int) * dw - pw)) := by rw [e2, e3]
    rw [if_pos c1, if_pos c2, if_pos c3, if_pos rfl, if_pos ⟨e2, e3⟩]
  · have hz : (if k2 = k then
        (if (y : Int) * sh + (fh : Int) * dh - ph = (oy : Int) ∧
            (x : Int) * (sw : Int) + (fw : Int) * dw - pw = (ox : Int) then v else 0)
        else 0) = 0 := by
      by_cases hk : k2 = k
      · rw [if_pos hk, if_neg (fun h => hc ⟨hk, h⟩)]
      · rw [if_neg hk]
    rw [hz]
    split_ifs with hv hr ha
    · exfalso
      apply hc
      have hix0 : (0 : Int) ≤ (x : Int) * (sw : Int) + (fw : Int) * dw - pw := by
        have := r1.mp (by omega); omega
      have hix1 : (x : Int) * (sw : Int) + (fw : Int) * dw - pw < (Wo : Int) := by
        by_contra hge
        have := r2.mpr (by omega)
        omega
      have hb1 : ((y : Int) * sh + (fh : Int) * dh - ph + 1) * (Wo : Int) ≤ (Ho : Int) * (Wo : Int) :=
        mul_le_mul_of_nonneg_right (by omega) (by omega)
      have hb2 : ((oy : Int) + 1) * (Wo : Int) ≤ (Ho : Int) * (Wo : Int) :=
        mul_le_mul_of_nonneg_right (by omega) (by omega)
      have hb3 : (0 : Int) ≤ ((y : Int) * sh + (fh : Int) * dh - ph) * (Wo : Int) :=
        mul_nonneg (by omega) (by omega)
      have hb4 : (0 : Int) ≤ (oy : Int) * (Wo : Int) := by positivity
      rw [add_mul, one_mul] at hb1 hb2
      obtain ⟨g1, g2⟩ := addr_inj_int ((Ho : Int) * (Wo : Int)) (k2 : Int)
        (((y : Int) * sh + (fh : Int) * dh - ph) * (Wo : Int)
          + ((x : Int) * (sw : Int) + (fw : Int) * dw - pw)) (k : Int)
        ((oy : Int) * (Wo : Int) + (ox : Int)) (by omega) (by omega) (by omega) (by omega) (by omega)
      obtain ⟨g3, g4⟩ := addr_inj_int (Wo : Int) ((y : Int) * sh + (fh : Int) * dh - ph)
        ((x : Int) * (sw : Int) + (fw : Int) * dw - pw) (oy : Int) (ox : Int) hix0 hix1 (by omega)
        (by omega) g2
      exact ⟨by exact_mod_cast g1, g3, g4⟩
    · rfl
    · rfl
    · rfl

/-- The pixel form of `col2im` (rows in program order) for natural
hyperparameters and a stride of at least 1: pixel `(k, oy, ox)` of the image receives the column elements
`(fh, fw, y, x)` with `y*stride_h + fh*dilation_h - pad_h = oy` and
`x*stride_w + fw*dilation_w - pad_w = ox`. -/
theorem col2im_pixel {R : Type} [AddCommMonoid R] (K Ho Wo H W kh kw sh sw ph pw dh dw : Nat)
    (hsw : 1 ≤ sw) (output cols : Int → R) (o : Int) (k oy ox : Nat) (hk : k < K)
    (hoy : oy < Ho) (hox : ox < Wo) :
    details.col2im ⟨kh, kw, sh, sw, ph, pw, dh, dw⟩ output o cols 0 K Wo Ho W H
        (o + (k : Int) * ((Ho : Int) * (Wo : Int)) + ((oy : Int) * (Wo : Int) + (ox : Int)))
      = output (o + (k : Int) * ((Ho : Int) * (Wo : Int)) + ((oy : Int) * (Wo : Int) + (ox : Int)))
        + ∑ fh in Finset.range kh, ∑ fw in Finset.range kw, ∑ y in Finset.range H,
            ∑ x in Finset.range W,
              if (y : Int) * (sh : Int) + (fh : Int) * (dh : Int) - (ph : Int) = (oy : Int) ∧
                  (x : Int) * (sw : Int) + (fw : Int) * (dw : Int) - (pw : Int) = (ox : Int) then
                cols ((((k * kh + fh) * kw + fw : Nat) : Int) * ((H : Int) * (W : Int))
                  + ((y : Int) * (W : Int) + (x : Int)))
              else 0 := by
  rw [details.col2im_apply ⟨kh, kw, sh, sw, ph, pw, dh, dw⟩ output o cols 0 K Wo Ho W H
    (fun row => ((row : Int).tdiv (kh : Int)).tdiv (kw : Int))
    (fun row => ((row : Int).tdiv (kw : Int)).tmod (kh : Int))
    (fun row => (row : Int).tmod (kw : Int))
    (fun row => max (Int.tdiv ((pw : Int) - (row : Int).tmod (kw : Int) * (dw : Int) + (sw : Int) - 1)
      (sw : Int)) 0)
    (fun row => min (Int.tdiv ((Wo : Int) + (pw : Int) - (row : Int).tmod (kw : Int) * (dw : Int)
      + (sw : Int) - 1) (sw : Int)) (W : Int))
    (fun _ => rfl) (fun _ => rfl) (fun _ => rfl) (fun _ => rfl) (fun _ => rfl)]
  congr 1
  have hK : ((K : Int) * (kh : Int) * (kw : Int)).toNat = K * kh * kw := by
    rw [show (K : Int) * (kh : Int) * (kw : Int) = ((K * kh * kw : Nat) : Int) by push_cast; ring]
    exact Int.toNat_natCast _
  simp only [hK, Int.toNat_natCast]
  rw [sum_range_mul (K * kh) kw, sum_range_mul K kh]
  rw [Finset.sum_eq_single k]
  · refine Finset.sum_congr rfl (fun fh hfh => Finset.sum_congr rfl (fun fw hfw => ?_))
    obtain ⟨d1, d2, d3⟩ := row_decode k kh fh kw fw (Finset.mem_range.mp hfh)
      (Finset.mem_range.mp hfw)
    rw [d1, d2, d3]
    refine Finset.sum_congr rfl (fun y _ => ?_)
    rw [sum_clipped_range _ _ W (le_max_right _ _) (min_le_right _ _)
      (fun x : Int => if o + (k : Int) * ((Ho : Int) * (Wo : Int)) + ((oy : Int) * (Wo : Int) + (ox : Int))
          = o + (k : Int) * ((Ho : Int) * (Wo : Int))
            + (((y : Int) * (sh : Int) + (fh : Int) * (dh : Int) - (ph : Int)) * (Wo : Int)
              + (x * (sw : Int) + (fw : Int) * (dw : Int) - (pw : Int)))
        then cols (0 + (((k * kh + fh) * kw + fw : Nat) : Int) * ((H : Int) * (W : Int))
          + ((y : Int) * (W : Int) + x)) else 0)]
    rw [← sum_ite_cond]
    refine Finset.sum_congr rfl (fun x hx => ?_)
    rw [col2im_term Ho Wo W sw hsw sh ph pw dh dw o k oy ox hoy hox k fh fw y x
      (Finset.mem_range.mp hx), if_pos rfl, zero_add]
  · intro k2 hk2 hne
    refine Finset.sum_eq_zero (fun fh hfh => Finset.sum_eq_zero (fun fw hfw => ?_))
    obtain ⟨d1, d2, d3⟩ := row_decode k2 kh fh kw fw (Finset.mem_range.mp hfh)
      (Finset.mem_range.mp hfw)
    rw [d1, d2, d3]
    refine Finset.sum_eq_zero (fun y _ => ?_)
    rw [sum_clipped_range _ _ W (le_max_right _ _) (min_le_right _ _)
      (fun x : Int => if o + (k : Int) * ((Ho : Int) * (Wo : Int)) + ((oy : Int) * (Wo : Int) + (ox : Int))
          = o + (k2 : Int) * ((Ho : Int) * (Wo : Int))
            + (((y : Int) * (sh : Int) + (fh : Int) * (dh : Int) - (ph : Int)) * (Wo : Int)
              + (x * (sw : Int) + (fw : Int) * (dw : Int) - (pw : Int)))
        then cols (0 + (((k2 * kh + fh) * kw + fw : Nat) : Int) * ((H : Int) * (W : Int))
          + ((y : Int) * (W : Int) + x)) else 0)]
    rw [← sum_ite_cond]
    refine Finset.sum_eq_zero (fun x hx => ?_)
    rw [col2im_term Ho Wo W sw hsw sh ph pw dh dw o k oy ox hoy hox k2 fh fw y x
      (Finset.mem_range.mp hx), if_neg hne]
  · intro h; exact absurd (Finset.mem_range.mpr hk) h

/-- The transposition loop of `ConvTranspose2d`: `AT[j + i*Kc] = A[i + j*M]`. -/
theorem transpose_apply {R : Type} (Mi : Int) (Kc : Nat) (src : Int → R) (s : Int) (Ms : Int)
    (AT0 : Int → R) (i j : Nat) (hi : i < Mi.toNat) (hj : j < Kc) :
    forInt 0 Mi (fun i m => forInt 0 (Kc : Int) (fun j m =>
      Function.update m (j + i * (Kc : Int)) (src (s + (i + j * Ms)))) m) AT0
        ((j : Int) + (i : Int) * (Kc : Int))
      = src (s + ((i : Int) + (j : Int) * Ms)) := by
  simp only [forInt_zero, Int.toNat_natCast]
  have hbody : ∀ i : Nat, (fun (j : Nat) (m : Int → R) =>
      Function.update m ((j : Int) + (i : Int) * (Kc : Int)) (src (s + ((i : Int) + (j : Int) * Ms))))
      = (fun (j : Nat) (m : Int → R) =>
      Function.update m ((0 + (i : Int) * (Kc : Int)) + (j : Int))
        (src (s + ((i : Int) + (j : Int) * Ms)))) := by
    intro i; funext j m
    rw [show (j : Int) + (i : Int) * (Kc : Int) = (0 + (i : Int) * (Kc : Int)) + (j : Int) by ring]
  simp only [hbody]
  have L := forLoop_block Mi.toNat (Kc : Int) (by omega) 0
    (fun i m => forLoop Kc (fun (j : Nat) (m : Int → R) =>
      Function.update m ((0 + (i : Int) * (Kc : Int)) + (j : Int))
        (src (s + ((i : Int) + (j : Int) * Ms)))) m)
    (by
      intro n _ m p hp
      rw [add_mul, one_mul] at hp
      refine forLoop_store_other _ _ _ _ _ ?_
      intro k hk; omega)
  have e : (j : Int) + (i : Int) * (Kc : Int) = (0 + (i : Int) * (Kc : Int)) + (j : Int) := by ring
  rw [e]
  refine L.2 i hi _ _ (by omega) (by rw [add_mul, one_mul]; omega) ?_ AT0
  intro m
  exact forLoop_store_get (fun j : Nat => src (s + ((i : Int) + (j : Int) * Ms))) _ Kc m j hj
/-- Without a bias the output is `Zeros`: every cell of the tensor is 0. -/
theorem Zeros_apply {R : Type} [Zero R] (shape : List Int) (fresh : Int → R) (p : Int)
    (hp0 : 0 ≤ p) (hp1 : p < (tensor.New shape fresh).size) :
    (tensor.Zeros shape fresh).m_ptr p = 0 := by
  simp only [tensor.Zeros, memset0, tensor.New] at hp1 ⊢
  rw [if_pos (by omega)]

/-- The columns buffer of `ConvTranspose2d`: after the transposition and the
`gemm_nn` call, `columns[row, q] = ∑ c, kernel[c, row] * in[c, q]`. -/
theorem convT_columns {R : Type} [CommRing R] (Cin HW M : Nat) (ker inp : Int → R) (koff ioff : Int)
    (columns_fresh AT_fresh copy_buffers : Int → R) (sizeofT : Nat) (thread_id : Int → Nat)
    (row q : Nat) (hrow : row < M) (hq : q < HW) :
    details.gemm_nn (M : Int) (HW : Int) (Cin : Int)
        (forInt 0 (M : Int) (fun i m => forInt 0 (Cin : Int) (fun j m =>
          Function.update m (j + i * (Cin : Int)) (ker (koff + (i + j * (M : Int))))) m) AT_fresh)
        0 (Cin : Int) inp ioff (HW : Int)
        (memset0 columns_fresh 0 ((M : Int) * (HW : Int))) 0 (HW : Int) copy_buffers sizeofT thread_id
        ((row : Int) * (HW : Int) + (q : Int))
      = ∑ c in Finset.range Cin,
          ker (koff + ((row : Int) + (c : Int) * (M : Int))) * inp (ioff + (q : Int) + (c : Int) * (HW : Int)) := by
  have e : (row : Int) * (HW : Int) + (q : Int) = 0 + ((q : Int) + (row : Int) * (HW : Int)) := by ring
  rw [e, details.gemm_nn_cell M HW Cin HW le_rfl _ 0 _ _ _ _ _ 0 _ _ _ row q hrow hq]
  have hlt := row_lt row M q HW hrow hq
  have hz : memset0 columns_fresh 0 ((M : Int) * (HW : Int)) (0 + ((q : Int) + (row : Int) * (HW : Int)))
      = 0 := by
    simp only [memset0]
    rw [if_pos]
    constructor
    · positivity
    · omega
  rw [hz, zero_add]
  refine Finset.sum_congr rfl (fun c hc => ?_)
  congr 1
  have e2 : (0 : Int) + (row : Int) * (Cin : Int) + (c : Int) = (c : Int) + (row : Int) * (Cin : Int) := by
    ring
  rw [e2]
  exact transpose_apply (M : Int) Cin ker koff (M : Int) AT_fresh row c
    (by rw [Int.toNat_natCast]; exact hrow) (Finset.mem_range.mp hc)
/-- The scatter of `ConvTranspose2d` on one image: the pixel `(k, oy, ox)`
receives, on top of its initial value, the products `kernel[c,k,fh,fw] * in[c,y,x]`
of all `(c, fh, fw, y, x)` that land on it. -/
theorem convT_pixel {R : Type} [CommRing R] (Cin H W K kh kw sh sw ph pw dh dw Ho Wo : Nat)
    (hsw : 1 ≤ sw) (ker inp m0 : Int → R) (koff ioff : Int)
    (columns_fresh AT_fresh copy_buffers : Int → R) (sizeofT : Nat) (thread_id : Int → Nat)
    (k oy ox : Nat) (hk : k < K) (hoy : oy < Ho) (hox : ox < Wo) :
    details.col2im ⟨kh, kw, sh, sw, ph, pw, dh, dw⟩ m0 0
        (details.gemm_nn ((K * kh * kw : Nat) : Int) ((H * W : Nat) : Int) (Cin : Int)
          (forInt 0 ((K * kh * kw : Nat) : Int) (fun i m => forInt 0 (Cin : Int) (fun j m =>
            Function.update m (j + i * (Cin : Int))
              (ker (koff + (i + j * ((K * kh * kw : Nat) : Int))))) m) AT_fresh)
          0 (Cin : Int) inp ioff ((H * W : Nat) : Int)
          (memset0 columns_fresh 0 (((K * kh * kw : Nat) : Int) * ((H * W : Nat) : Int))) 0
          ((H * W : Nat) : Int) copy_buffers sizeofT thread_id)
        0 K Wo Ho W H
        (0 + (k : Int) * ((Ho : Int) * (Wo : Int)) + ((oy : Int) * (Wo : Int) + (ox : Int)))
      = m0 (0 + (k : Int) * ((Ho : Int) * (Wo : Int)) + ((oy : Int) * (Wo : Int) + (ox : Int)))
        + ∑ c in Finset.range Cin, ∑ fh in Finset.range kh, ∑ fw in Finset.range kw,
            ∑ y in Finset.range H, ∑ x in Finset.range W,
              if (y : Int) * (sh : Int) + (fh : Int) * (dh : Int) - (ph : Int) = (oy : Int) ∧
                  (x : Int) * (sw : Int) + (fw : Int) * (dw : Int) - (pw : Int) = (ox : Int) then
                ker (koff + ((((k * kh + fh) * kw + fw : Nat) : Int)
                    + (c : Int) * ((K * kh * kw : Nat) : Int)))
                  * inp (ioff + ((y * W + x : Nat) : Int) + (c : Int) * ((H * W : Nat) : Int))
              else 0 := by
  rw [col2im_pixel K Ho Wo H W kh kw sh sw ph pw dh dw hsw m0 _ 0 k oy ox hk hoy hox]
  congr 1
  have hterm : ∀ fh, fh < kh → ∀ fw, fw < kw → ∀ y, y < H → ∀ x, x < W →
      details.gemm_nn ((K * kh * kw : Nat) : Int) ((H * W : Nat) : Int) (Cin : Int)
          (forInt 0 ((K * kh * kw : Nat) : Int) (fun i m => forInt 0 (Cin : Int) (fun j m =>
            Function.update m (j + i * (Cin : Int))
              (ker (koff + (i + j * ((K * kh * kw : Nat) : Int))))) m) AT_fresh)
          0 (Cin : Int) inp ioff ((H * W : Nat) : Int)
          (memset0 columns_fresh 0 (((K * kh * kw : Nat) : Int) * ((H * W : Nat) : Int))) 0
          ((H * W : Nat) : Int) copy_buffers sizeofT thread_id
          ((((k * kh + fh) * kw + fw : Nat) : Int) * ((H : Int) * (W : Int))
            + ((y : Int) * (W : Int) + (x : Int)))
        = ∑ c in Finset.range Cin,
            ker (koff + ((((k * kh + fh) * kw + fw : Nat) : Int)
                + (c : Int) * ((K * kh * kw : Nat) : Int)))
              * inp (ioff + ((y * W + x : Nat) : Int) + (c : Int) * ((H * W : Nat) : Int)) := by
    intro fh hfh fw hfw y hy x hx
    have hrow : (k * kh + fh) * kw + fw < K * kh * kw := by
      have h1 : k * kh + fh < K * kh := by
        have := row_lt k K fh kh hk hfh
        zify; omega
      have := row_lt (k * kh + fh) (K * kh) fw kw h1 hfw
      zify at this ⊢; omega
    have hq : y * W + x < H * W := by
      have := row_lt y H x W hy hx
      zify; omega
    have e : (((k * kh + fh) * kw + fw : Nat) : Int) * ((H : Int) * (W : Int))
          + ((y : Int) * (W : Int) + (x : Int))
        = (((k * kh + fh) * kw + fw : Nat) : Int) * ((H * W : Nat) : Int) + ((y * W + x : Nat) : Int) := by
      push_cast; ring
    rw [e]
    exact convT_columns Cin (H * W) (K * kh * kw) ker inp koff ioff columns_fresh AT_fresh
      copy_buffers sizeofT thread_id _ _ hrow hq
  calc _ = ∑ fh in Finset.range kh, ∑ fw in Finset.range kw, ∑ y in Finset.range H,
            ∑ x in Finset.range W, ∑ c in Finset.range Cin,
              if (y : Int) * (sh : Int) + (fh : Int) * (dh : Int) - (ph : Int) = (oy : Int) ∧
                  (x : Int) * (sw : Int) + (fw : Int) * (dw : Int) - (pw : Int) = (ox : Int) then
                ker (koff + ((((k * kh + fh) * kw + fw : Nat) : Int)
                    + (c : Int) * ((K * kh * kw : Nat) : Int)))
                  * inp (ioff + ((y * W + x : Nat) : Int) + (c : Int) * ((H * W : Nat) : Int))
              else 0 := by
        refine Finset.sum_congr rfl (fun fh hfh => Finset.sum_congr rfl (fun fw hfw =>
          Finset.sum_congr rfl (fun y hy => Finset.sum_congr rfl (fun x hx => ?_))))
        rw [sum_ite_cond, hterm fh (Finset.mem_range.mp hfh) fw (Finset.mem_range.mp hfw) y
          (Finset.mem_range.mp hy) x (Finset.mem_range.mp hx)]
    _ = _ := by
        refine (Finset.sum_congr rfl (fun fh _ => Finset.sum_congr rfl (fun fw _ =>
          Finset.sum_congr rfl (fun y _ => Finset.sum_comm)))).trans ?_
        refine (Finset.sum_congr rfl (fun fh _ => Finset.sum_congr rfl (fun fw _ =>
          Finset.sum_comm))).trans ?_
        refine (Finset.sum_congr rfl (fun fh _ => Finset.sum_comm)).trans ?_
        exact Finset.sum_comm

/-- `ConvTranspose2d` on one image, with the rows of `col2im` in program order:
the shape of the result and every output pixel as the sum of the contributions
that land on it. -/
theorem ConvTranspose2d_spec {R : Type} [CommRing R] (Cin H W K kh kw sh sw ph pw dh dw : Nat)
    (hsw : 1 ≤ sw) (input kernel bias : tensor R)
    (columns_fresh AT_fresh out_fresh copy_buffers : Int → R) (sizeofT : Nat)
    (thread_id : Int → Nat)
    (hin : input.m_shape = [1, (Cin : Int), (H : Int), (W : Int)])
    (hker : kernel.m_shape = [(Cin : Int), (K : Int), (kh : Int), (kw : Int)]) :
    ∃ out, ConvTranspose2d ⟨kh, kw, sh, sw, ph, pw, dh, dw⟩ input kernel bias columns_fresh AT_fresh
        out_fresh copy_buffers sizeofT thread_id = some out ∧
      out.m_shape = [1, (K : Int),
        ((H : Int) - 1) * (sh : Int) - 2 * (ph : Int) + (dh : Int) * ((kh : Int) - 1) + 1,
        ((W : Int) - 1) * (sw : Int) - 2 * (pw : Int) + (dw : Int) * ((kw : Int) - 1) + 1] ∧
      ∀ k oy ox : Nat, k < K →
        (oy : Int) < ((H : Int) - 1) * (sh : Int) - 2 * (ph : Int) + (dh : Int) * ((kh : Int) - 1) + 1 →
        (ox : Int) < ((W : Int) - 1) * (sw : Int) - 2 * (pw : Int) + (dw : Int) * ((kw : Int) - 1) + 1 →
        out.get4 0 k oy ox
          = (if bias.m_null = false then bias.get1 k else 0)
            + ∑ c in Finset.range Cin, ∑ fh in Finset.range kh, ∑ fw in Finset.range kw,
                ∑ y in Finset.range H, ∑ x in Finset.range W,
                  if (y : Int) * (sh : Int) + (fh : Int) * (dh : Int) - (ph : Int) = (oy : Int) ∧
                      (x : Int) * (sw : Int) + (fw : Int) * (dw : Int) - (pw : Int) = (ox : Int) then
                    kernel.get4 c k fh fw * input.get4 0 c y x
                  else 0 := by
  unfold ConvTranspose2d
  simp only [channels, height, width, number, hin, hker]
  simp only [List.length_cons, List.length_nil, List.getD_cons_succ, List.getD_cons_zero, ne_eq,
    not_true_eq_false, if_false]
  refine ⟨_, rfl, ?_, ?_⟩
  · by_cases hb : bias.m_null = false
    · simp [hb, tensor.New]
    · simp [hb, tensor.New, tensor.Zeros]
  · intro k oy ox hk hoy hox
    obtain ⟨Ho, hHo⟩ : ∃ Ho : Nat, (Ho : Int)
        = ((H : Int) - 1) * (sh : Int) - 2 * (ph : Int) + (dh : Int) * ((kh : Int) - 1) + 1 :=
      ⟨(((H : Int) - 1) * (sh : Int) - 2 * (ph : Int) + (dh : Int) * ((kh : Int) - 1) + 1).toNat,
        by omega⟩
    obtain ⟨Wo, hWo⟩ : ∃ Wo : Nat, (Wo : Int)
        = ((W : Int) - 1) * (sw : Int) - 2 * (pw : Int) + (dw : Int) * ((kw : Int) - 1) + 1 :=
      ⟨(((W : Int) - 1) * (sw : Int) - 2 * (pw : Int) + (dw : Int) * ((kw : Int) - 1) + 1).toNat,
        by omega⟩
    simp only [← hHo, ← hWo] at hoy hox ⊢
    have hoy2 : oy < Ho := by omega
    have hox2 : ox < Wo := by omega
    have hq := row_lt oy Ho ox Wo hoy2 hox2
    have hcore := fun m0 : Int → R => convT_pixel Cin H W K kh kw sh sw ph pw dh dw Ho Wo hsw
      kernel.m_ptr input.m_ptr m0 kernel.m_offset input.m_offset columns_fresh AT_fresh copy_buffers
      sizeofT thread_id k oy ox hk hoy2 hox2
    simp only [Nat.cast_mul, Nat.cast_add] at hcore
    have ecount : (K : Int) * (kh : Int) * (kw : Int) * (H : Int) * (W : Int)
        = (K : Int) * (kh : Int) * (kw : Int) * ((H : Int) * (W : Int)) := by ring
    have eaddr : (k : Int) * ((Ho : Int) * (Wo : Int)) + (oy : Int) * (Wo : Int) + (ox : Int)
        = 0 + (k : Int) * ((Ho : Int) * (Wo : Int)) + ((oy : Int) * (Wo : Int) + (ox : Int)) := by ring
    have hsum : ∑ c in Finset.range Cin, ∑ fh in Finset.range kh, ∑ fw in Finset.range kw,
          ∑ y in Finset.range H, ∑ x in Finset.range W,
            (if (y : Int) * (sh : Int) + (fh : Int) * (dh : Int) - (ph : Int) = (oy : Int) ∧
                (x : Int) * (sw : Int) + (fw : Int) * (dw : Int) - (pw : Int) = (ox : Int) then
              kernel.m_ptr (kernel.m_offset + ((((k : Int) * (kh : Int) + (fh : Int)) * (kw : Int) + (fw : Int))
                  + (c : Int) * ((K : Int) * (kh : Int) * (kw : Int))))
                * input.m_ptr (input.m_offset + ((y : Int) * (W : Int) + (x : Int))
                  + (c : Int) * ((H : Int) * (W : Int)))
            else 0)
        = ∑ c in Finset.range Cin, ∑ fh in Finset.range kh, ∑ fw in Finset.range kw,
          ∑ y in Finset.range H, ∑ x in Finset.range W,
            (if (y : Int) * (sh : Int) + (fh : Int) * (dh : Int) - (ph : Int) = (oy : Int) ∧
                (x : Int) * (sw : Int) + (fw : Int) * (dw : Int) - (pw : Int) = (ox : Int) then
              kernel.m_ptr (kernel.m_offset + (c : Int) * ((kh : Int) * (kw : Int)) * (K : Int)
                  + (k : Int) * ((kh : Int) * (kw : Int)) + (fh : Int) * (kw : Int) + (fw : Int))
                * input.m_ptr (input.m_offset + (c : Int) * ((H : Int) * (W : Int))
                  + (y : Int) * (W : Int) + (x : Int))
            else 0) := by
      refine Finset.sum_congr rfl (fun c _ => Finset.sum_congr rfl (fun fh _ =>
        Finset.sum_congr rfl (fun fw _ => Finset.sum_congr rfl (fun y _ =>
          Finset.sum_congr rfl (fun x _ => ?_)))))
      have e1 : kernel.m_offset + ((((k : Int) * (kh : Int) + (fh : Int)) * (kw : Int) + (fw : Int))
            + (c : Int) * ((K : Int) * (kh : Int) * (kw : Int)))
          = kernel.m_offset + (c : Int) * ((kh : Int) * (kw : Int)) * (K : Int)
            + (k : Int) * ((kh : Int) * (kw : Int)) + (fh : Int) * (kw : Int) + (fw : Int) := by ring
      have e2 : input.m_offset + ((y : Int) * (W : Int) + (x : Int)) + (c : Int) * ((H : Int) * (W : Int))
          = input.m_offset + (c : Int) * ((H : Int) * (W : Int)) + (y : Int) * (W : Int) + (x : Int) := by
        ring
      rw [e1, e2]
    by_cases hb : bias.m_null = false
    · have hbias := bias_fill_apply 1 K Ho Wo
        (tensor.New [1, (K : Int), (Ho : Int), (Wo : Int)] out_fresh)
        (fun c => bias.m_ptr (bias.m_offset + c)) (by simp [tensor.New]) out_fresh 0 k (by omega) hk
        ((oy : Int) * (Wo : Int) + (ox : Int)) (by positivity) (by omega)
      simp only [hb, if_true]
      simp only [tensor.get4, tensor.get1, tensor.Sub2, tensor.Sub, tensor.size, tensor.New, hin, hker,
        List.tail_cons, List.foldl_cons, List.foldl_nil, one_mul, List.getD_cons_succ,
        List.getD_cons_zero, zero_mul, add_zero, mul_one, zero_add, Nat.cast_one, Nat.cast_zero]
        at hbias ⊢
      rw [ecount, eaddr, hcore, hsum]
      congr 1
      rw [zero_add]
      exact hbias
    · have hb2 : bias.m_null = true := by simpa using hb
      simp only [hb2, Bool.true_eq_false, if_false]
      simp only [tensor.get4, tensor.get1, tensor.Sub2, tensor.Sub, tensor.size, tensor.Zeros,
        tensor.New, hin, hker,
        List.tail_cons, List.foldl_cons, List.foldl_nil, one_mul, List.getD_cons_succ,
        List.getD_cons_zero, zero_mul, add_zero, mul_one, zero_add, Nat.cast_one, Nat.cast_zero]
      rw [ecount, eaddr, hcore, hsum]
      have hb5 : ((k : Int) + 1) * ((Ho : Int) * (Wo : Int)) ≤ (K : Int) * ((Ho : Int) * (Wo : Int)) :=
        mul_le_mul_of_nonneg_right (by omega) (by positivity)
      have hb3 : (0 : Int) ≤ (k : Int) * ((Ho : Int) * (Wo : Int)) := by positivity
      have hb4 : (0 : Int) ≤ (oy : Int) * (Wo : Int) := by positivity
      rw [add_mul, one_mul] at hb5
      have e3 : (K : Int) * (Ho : Int) * (Wo : Int) = (K : Int) * ((Ho : Int) * (Wo : Int)) := by ring
      have hc : 0 ≤ 0 + (k : Int) * ((Ho : Int) * (Wo : Int)) + ((oy : Int) * (Wo : Int) + (ox : Int)) ∧
          0 + (k : Int) * ((Ho : Int) * (Wo : Int)) + ((oy : Int) * (Wo : Int) + (ox : Int))
            < 0 + (K : Int) * (Ho : Int) * (Wo : Int) := by
        rw [e3]; omega
      simp only [memset0]
      rw [if_pos hc, zero_add]

/-! ## Broadcasting lemmas -/

/-- A nest of three block loops around a row operation: when the row operation
for `(n, c, h)` changes only the `S3` cells of its row and leaves `v n c h w` in
cell `w`, the whole nest leaves `v n c h w` in cell `(n, c, h, w)`. -/
theorem nest4_store {R : Type} (S0 S1 S2 S3 : Nat) (O1 O2 : Int)
    (hO2 : O2 = (S2 : Int) * (S3 : Int)) (hO1 : O1 = (S1 : Int) * O2) (base : Int)
    (inner : Nat → Nat → Nat → (Int → R) → Int → R) (v : Nat → Nat → Nat → Nat → R)
    (hframe : ∀ (n c h : Nat) (m : Int → R) (p : Int),
      (p < base + (n : Int) * O1 + (c : Int) * O2 + (h : Int) * (S3 : Int)
        ∨ base + (n : Int) * O1 + (c : Int) * O2 + (h : Int) * (S3 : Int) + (S3 : Int) ≤ p) →
      inner n c h m p = m p)
    (hval : ∀ n c h w : Nat, n < S0 → c < S1 → h < S2 → w < S3 → ∀ m : Int → R,
      inner n c h m (base + (n : Int) * O1 + (c : Int) * O2 + (h : Int) * (S3 : Int) + (w : Int))
        = v n c h w)
    (n c h w : Nat) (hn : n < S0) (hc : c < S1) (hh : h < S2) (hw : w < S3) (m0 : Int → R) :
    forLoop S0 (fun n m => forLoop S1 (fun c m => forLoop S2 (fun h m => inner n c h m) m) m) m0
        (base + (n : Int) * O1 + (c : Int) * O2 + (h : Int) * (S3 : Int) + (w : Int))
      = v n c h w := by
  have hO2n : (0 : Int) ≤ O2 := by rw [hO2]; positivity
  have hO1n : (0 : Int) ≤ O1 := by rw [hO1]; positivity
  have L3 := fun n c : Nat => forLoop_block S2 (S3 : Int) (by omega)
    (base + (n : Int) * O1 + (c : Int) * O2) (fun h m => inner n c h m)
    (by
      intro h _ m p hp
      rw [add_mul, one_mul] at hp
      exact hframe n c h m p (by omega))
  have L2 := fun n : Nat => forLoop_block S1 O2 hO2n (base + (n : Int) * O1)
    (fun c m => forLoop S2 (fun h m => inner n c h m) m)
    (by
      intro c _ m p hp
      rw [add_mul, one_mul] at hp
      refine (L3 n c).1 m p ?_
      rw [← hO2]; omega)
  have L1 := forLoop_block S0 O1 hO1n base
    (fun n m => forLoop S1 (fun c m => forLoop S2 (fun h m => inner n c h m) m) m)
    (by
      intro n _ m p hp
      rw [add_mul, one_mul] at hp
      refine (L2 n).1 m p ?_
      rw [← hO1]; omega)
  have b1 : (0 : Int) ≤ (h : Int) * (S3 : Int) := by positivity
  have b2 : (0 : Int) ≤ (c : Int) * O2 := by positivity
  have b3 : ((h : Int) + 1) * (S3 : Int) ≤ (S2 : Int) * (S3 : Int) :=
    mul_le_mul_of_nonneg_right (by omega) (by omega)
  have b4 : ((c : Int) + 1) * O2 ≤ (S1 : Int) * O2 :=
    mul_le_mul_of_nonneg_right (by omega) hO2n
  rw [add_mul, one_mul] at b3 b4
  rw [← hO2] at b3
  rw [← hO1] at b4
  refine L1.2 n hn _ _ (by omega) (by rw [add_mul, one_mul]; omega) ?_ m0
  intro m
  refine (L2 n).2 c hc _ _ (by omega) (by rw [add_mul, one_mul]; omega) ?_ m
  intro m
  refine (L3 n c).2 h hh _ _ (by omega) (by rw [add_mul, one_mul]; omega) ?_ m
  intro m
  exact hval n c h w hn hc hh hw m


/-- The wrapped index `n % size` of the broadcasting loops: `0` on an axis of
size 1, the index itself on an axis of full size. -/
theorem tmod_broadcast (n a b : Nat) (hn : n < max a b) (h : a = b ∨ a = 1 ∨ b = 1)
    (ha : 1 ≤ a) : (n : Int).tmod (a : Int) = if a = 1 then 0 else (n : Int) := by
  by_cases h1 : a = 1
  · subst h1; simp
  · rw [if_neg h1]
    have hna : n < a := by
      rcases h with h | h | h
      · subst h; simpa using hn
      · exact absurd h h1
      · subst h
        have : max a 1 = a := max_eq_left ha
        omega
    exact Int.tmod_eq_of_lt (by omega) (by omega)

/-- The broadcasting path of `POINT_WISE_BINARY` on rank 4 operands with
compatible, different shapes: the result shape is the per-axis maximum and
every element combines the operand elements at the wrapped indices. -/
theorem binary_broadcast {R : Type} (OP : R → R → R) (a b : tensor R) (fresh : Int → R)
    (a0 a1 a2 a3 b0 b1 b2 b3 : Nat)
    (ha : a.m_shape = [(a0 : Int), (a1 : Int), (a2 : Int), (a3 : Int)])
    (hb : b.m_shape = [(b0 : Int), (b1 : Int), (b2 : Int), (b3 : Int)])
    (hpos : 1 ≤ a0 ∧ 1 ≤ a1 ∧ 1 ≤ a2 ∧ 1 ≤ a3 ∧ 1 ≤ b0 ∧ 1 ≤ b1 ∧ 1 ≤ b2 ∧ 1 ≤ b3)
    (hne : a.m_shape ≠ b.m_shape)
    (h0 : a0 = b0 ∨ a0 = 1 ∨ b0 = 1) (h1 : a1 = b1 ∨ a1 = 1 ∨ b1 = 1)
    (h2 : a2 = b2 ∨ a2 = 1 ∨ b2 = 1) (h3 : a3 = b3 ∨ a3 = 1 ∨ b3 = 1) :
    ∃ out, POINT_WISE_BINARY OP a b fresh = some out ∧
      out.m_shape = [((max a0 b0 : Nat) : Int), ((max a1 b1 : Nat) : Int),
        ((max a2 b2 : Nat) : Int), ((max a3 b3 : Nat) : Int)] ∧
      ∀ n c h w : Nat, n < max a0 b0 → c < max a1 b1 → h < max a2 b2 → w < max a3 b3 →
        out.get4 n c h w
          = OP (a.get4 (if a0 = 1 then 0 else n) (if a1 = 1 then 0 else c)
                  (if a2 = 1 then 0 else h) (if a3 = 1 then 0 else w))
               (b.get4 (if b0 = 1 then 0 else n) (if b1 = 1 then 0 else c)
                  (if b2 = 1 then 0 else h) (if b3 = 1 then 0 else w)) := by
  obtain ⟨hp0, hp1, hp2, hp3, hq0, hq1, hq2, hq3⟩ := hpos
  have t0a := fun n hn => tmod_broadcast n a0 b0 hn h0 hp0
  have t1a := fun n hn => tmod_broadcast n a1 b1 hn h1 hp1
  have t2a := fun n hn => tmod_broadcast n a2 b2 hn h2 hp2
  have t3a := fun n hn => tmod_broadcast n a3 b3 hn h3 hp3
  have t0b := fun n (hn : n < max a0 b0) =>
    tmod_broadcast n b0 a0 (by rw [max_comm]; exact hn) (by omega) hq0
  have t1b := fun n (hn : n < max a1 b1) =>
    tmod_broadcast n b1 a1 (by rw [max_comm]; exact hn) (by omega) hq1
  have t2b := fun n (hn : n < max a2 b2) =>
    tmod_broadcast n b2 a2 (by rw [max_comm]; exact hn) (by omega) hq2
  have t3b := fun n (hn : n < max a3 b3) =>
    tmod_broadcast n b3 a3 (by rw [max_comm]; exact hn) (by omega) hq3
  have u3b : a3 = 1 → ∀ n, n < max a3 b3 → (n : Int).tmod (b3 : Int) = (n : Int) := by
    intro e n hn
    subst e
    rw [max_eq_right hq3] at hn
    exact Int.tmod_eq_of_lt (by omega) (by omega)
  have u3a : b3 = 1 → ∀ n, n < max a3 b3 → (n : Int).tmod (a3 : Int) = (n : Int) := by
    intro e n hn
    subst e
    rw [max_eq_left hp3] at hn
    exact Int.tmod_eq_of_lt (by omega) (by omega)
  have hbc : BroadCastShape a.m_shape b.m_shape
      = some [((max a0 b0 : Nat) : Int), ((max a1 b1 : Nat) : Int),
        ((max a2 b2 : Nat) : Int), ((max a3 b3 : Nat) : Int)] := by
    rw [ha, hb]
    have g0 : ¬ ((a0 : Int) ≠ (b0 : Int) ∧ ¬ ((a0 : Int) = 1 ∨ (b0 : Int) = 1)) := by omega
    have g1 : ¬ ((a1 : Int) ≠ (b1 : Int) ∧ ¬ ((a1 : Int) = 1 ∨ (b1 : Int) = 1)) := by omega
    have g2 : ¬ ((a2 : Int) ≠ (b2 : Int) ∧ ¬ ((a2 : Int) = 1 ∨ (b2 : Int) = 1)) := by omega
    have g3 : ¬ ((a3 : Int) ≠ (b3 : Int) ∧ ¬ ((a3 : Int) = 1 ∨ (b3 : Int) = 1)) := by omega
    simp only [BroadCastShape, if_neg g0, if_neg g1, if_neg g2, if_neg g3, Option.map_some',
      Nat.cast_max]
  generalize max a0 b0 = S0 at hbc t0a t0b ⊢
  generalize max a1 b1 = S1 at hbc t1a t1b ⊢
  generalize max a2 b2 = S2 at hbc t2a t2b ⊢
  generalize max a3 b3 = S3 at hbc t3a t3b u3a u3b ⊢
  have hex : ExpandShape [(S0 : Int), (S1 : Int), (S2 : Int), (S3 : Int)]
      = [(S0 : Int), (S1 : Int), (S2 : Int), (S3 : Int)] := by
    simp [ExpandShape, forLoop]
  unfold POINT_WISE_BINARY
  rw [if_neg hne, hbc]
  simp only [hex]
  refine ⟨_, rfl, rfl, ?_⟩
  intro n c h w hn hc hh hw
  simp only [tensor.get4, tensor.Sub2, tensor.Sub, tensor.size, tensor.New, tensor.NewShared, ha, hb,
    List.tail_cons, List.foldl_cons, List.foldl_nil, one_mul, List.getD_cons_succ,
    List.getD_cons_zero, zero_add, forInt_zero, Int.toNat_natCast]
  obtain ⟨O2, hO2⟩ : ∃ O : Int, O = (S2 : Int) * (S3 : Int) := ⟨_, rfl⟩
  obtain ⟨O1, hO1⟩ : ∃ O : Int, O = (S1 : Int) * O2 := ⟨_, rfl⟩
  have eB : ∀ k k1 k2 : Int, k * (S3 : Int) * (S2 : Int) * (S1 : Int) + k1 * (S3 : Int) * (S2 : Int)
      + k2 * (S3 : Int) = 0 + k * O1 + k1 * O2 + k2 * (S3 : Int) := by
    intro k k1 k2; rw [hO1, hO2]; ring
  have eaddr : (n : Int) * ((S2 : Int) * (S3 : Int)) * (S1 : Int) + (c : Int) * ((S2 : Int) * (S3 : Int))
      + (h : Int) * (S3 : Int) + (w : Int)
      = 0 + (n : Int) * O1 + (c : Int) * O2 + (h : Int) * (S3 : Int) + (w : Int) := by
    rw [hO1, hO2]; ring
  rw [eaddr]
  simp only [eB]
  refine Eq.trans (nest4_store S0 S1 S2 S3 O1 O2 hO2 hO1 0 _
    (fun n c h w => OP
      (a.m_ptr (a.m_offset + (n : Int).tmod (a0 : Int) * (a3 : Int) * (a2 : Int) * (a1 : Int)
        + (c : Int).tmod (a1 : Int) * (a3 : Int) * (a2 : Int) + (h : Int).tmod (a2 : Int) * (a3 : Int)
        + (w : Int).tmod (a3 : Int)))
      (b.m_ptr (b.m_offset + (n : Int).tmod (b0 : Int) * (b3 : Int) * (b2 : Int) * (b1 : Int)
        + (c : Int).tmod (b1 : Int) * (b3 : Int) * (b2 : Int) + (h : Int).tmod (b2 : Int) * (b3 : Int)
        + (w : Int).tmod (b3 : Int))))
    ?_ ?_ n c h w hn hc hh hw fresh) ?_
  · intro n c h m p hp
    split_ifs
    · refine forLoop_store_other _ _ _ _ _ ?_
      intro k hk; omega
    · refine forLoop_store_other _ _ _ _ _ ?_
      intro k hk; omega
    · refine forLoop_store_other _ _ _ _ _ ?_
      intro k hk; omega
  · intro n c h w hn hc hh hw m
    split_ifs with ha3 hb3
    · have e : a3 = 1 := by exact_mod_cast ha3
      refine Eq.trans (forLoop_store_get _ _ _ _ w hw) ?_
      simp only [u3b e w hw, e, Nat.cast_one, Int.tmod_one, add_zero]
    · have e : b3 = 1 := by exact_mod_cast hb3
      refine Eq.trans (forLoop_store_get _ _ _ _ w hw) ?_
      simp only [u3a e w hw, e, Nat.cast_one, Int.tmod_one, add_zero]
    · exact forLoop_store_get _ _ _ _ w hw
  · rw [t0a n hn, t1a c hc, t2a h hh, t3a w hw, t0b n hn, t1b c hc, t2b h hh, t3b w hw]
    congr 2 <;> ring

/-! ## Pointwise copies, views and copies: lemmas -/

/-- The start of the tail loop of the pointwise macros against the end of
their main loop, for at least one element. -/
theorem tail_start_bounds (l : Int) (hl : 1 ≤ l) :
    0 ≤ 4 * Int.tdiv (l - 4) 4 ∧
    4 * Int.tdiv (l - 4) 4 ≤ 4 * ((((l - 4).toNat + 4 - 1) / 4 : Nat) : Int) ∧
    4 * ((((l - 4).toNat + 4 - 1) / 4 : Nat) : Int) ≤ l := by
  by_cases h4 : 4 ≤ l
  · have h1 : Int.tdiv (l - 4) 4 = (l - 4) / 4 := Int.tdiv_eq_ediv (by omega) (by omega)
    rw [h1]
    omega
  · have h3 : l = 1 ∨ l = 2 ∨ l = 3 := by omega
    rcases h3 with h | h | h <;> subst h <;> decide

/-- The macro `POINT_WISE` on at least one element: the cells `0 ≤ p < l` of
the new buffer hold `OP` of the input elements, no other cell is stored to. -/
theorem POINT_WISE_apply {R : Type} (OP : R → R) (input : tensor R) (fresh : Int → R)
    (hl : 1 ≤ input.size) (p : Int) :
    (POINT_WISE OP input fresh).m_ptr p
      = if 0 ≤ p ∧ p < input.size then OP (input.m_ptr (input.m_offset + p)) else fresh p := by
  unfold POINT_WISE
  simp only
  rw [forInt_store (fun i => OP (input.m_ptr (input.m_offset + i)))]
  unfold forStep
  rw [forLoop_store4 (fun i => OP (input.m_ptr (input.m_offset + i)))]
  have hb := tail_start_bounds input.size hl
  generalize input.size = l at hb ⊢
  generalize Int.tdiv (l - 4) 4 = t at hb ⊢
  generalize ((l - 4).toNat + 4 - 1) / 4 = q at hb ⊢
  simp only [tensor.SameAs, tensor.New]
  by_cases h : 0 ≤ p ∧ p < l
  · rw [if_pos h]
    split_ifs <;> first | rfl | (congr 2; omega)
  · rw [if_neg h, if_neg (by omega), if_neg (by omega)]

theorem POINT_WISE_shape {R : Type} (OP : R → R) (input : tensor R) (fresh : Int → R) :
    (POINT_WISE OP input fresh).m_shape = input.m_shape ∧
    (POINT_WISE OP input fresh).m_offset = 0 := ⟨rfl, rfl⟩

theorem foldl_mul_eq (l : List Int) (a : Int) :
    l.foldl (fun size s => size * s) a = a * l.prod := by
  induction l generalizing a with
  | nil => simp
  | cons x l ih => rw [List.foldl_cons, ih, List.prod_cons, mul_assoc]

/-- The method `size` is the product of the axis sizes. -/
theorem tensor.size_eq_prod {R : Type} (t : tensor R) : t.size = t.m_shape.prod := by
  unfold tensor.size
  rw [foldl_mul_eq, one_mul]

/-- A multi-index in range has a row-major position inside the view. -/
theorem spec_row_major_bounds (shape idx : List Int) (h : in_range shape idx = true) :
    0 ≤ spec_row_major shape idx ∧ spec_row_major shape idx < shape.prod := by
  induction shape generalizing idx with
  | nil =>
    cases idx with
    | nil => simp [spec_row_major]
    | cons i idx => simp [in_range] at h
  | cons s shape ih =>
    cases idx with
    | nil => simp [in_range] at h
    | cons i idx =>
      simp only [in_range, Bool.and_eq_true, decide_eq_true_eq] at h
      obtain ⟨⟨h0, h1⟩, h2⟩ := h
      have hb := ih idx h2
      simp only [spec_row_major, List.prod_cons]
      constructor
      · have : 0 ≤ i * shape.prod := mul_nonneg h0 (by linarith)
        linarith
      · have h3 : (i + 1) * shape.prod ≤ s * shape.prod :=
          mul_le_mul_of_nonneg_right (by omega) (by linarith)
        linarith

/-- Blocks of `P` cells: the cell `k * P + r` with `0 ≤ r < P` lies in the block
`n` exactly when `k = n`. -/
theorem block_mem_iff (P k n r : Int) (h0 : 0 ≤ r) (h1 : r < P) :
    (n * P ≤ k * P + r ∧ k * P + r < n * P + P) ↔ k = n := by
  constructor
  · rintro ⟨ha, hb⟩
    by_contra hne
    rcases lt_or_gt_of_ne hne with hlt | hgt
    · have : (k + 1) * P ≤ n * P := mul_le_mul_of_nonneg_right (by omega) (by omega)
      linarith
    · have : (n + 1) * P ≤ k * P := mul_le_mul_of_nonneg_right (by omega) (by omega)
      linarith
  · rintro rfl
    constructor <;> linarith

theorem forLoop_prod_take (s : List Int) (n : Nat) (hn : n ≤ s.length) (c : Int) :
    forLoop n (fun k acc => acc * s.getD k 0) c = c * (s.take n).prod := by
  induction n with
  | zero => simp [forLoop]
  | succ n ih =>
    rw [forLoop_succ, ih (by omega), List.prod_take_succ _ _ (by omega),
      List.getD_eq_getElem _ _ (by omega)]
    ring

/-- The conversion `(int)x` keeps a value that is in the range of `int`. -/
theorem tensor.cast_int_eq (x : Int) (h : -2 ^ 31 ≤ x ∧ x < 2 ^ 31) : tensor.cast_int x = x := by
  unfold tensor.cast_int
  omega

/-- The shape of `Flatten(d)` for `0 ≤ d ≤ ndim`: the two products, each
converted to `int`. -/
theorem tensor.Flatten_shape_cast {R : Type} (t : tensor R) (d : Nat) (hd : d ≤ t.m_shape.length)
    (fresh : Int → R) :
    (t.Flatten (d : Int) fresh).m_shape
      = [tensor.cast_int (t.m_shape.take d).prod, tensor.cast_int (t.m_shape.drop d).prod] := by
  unfold tensor.Flatten
  simp only [tensor.New]
  congr 2
  · rw [forInt_zero]
    simp only [Int.toNat_ofNat]
    rw [forLoop_prod_take _ _ hd, one_mul]
  · congr 2
    unfold forInt
    have e : ((t.m_shape.length : Int) - (d : Int)).toNat = t.m_shape.length - d := by omega
    rw [e]
    have e2 : (fun (k : Nat) (sizeB : Int) => sizeB * t.m_shape.getD ((d : Int) + (k : Int)).toNat 0)
        = fun (k : Nat) (acc : Int) => acc * (t.m_shape.drop d).getD k 0 := by
      funext k acc
      have : ((d : Int) + (k : Int)).toNat = d + k := by omega
      rw [this]
      simp [List.getElem?_drop]
    rw [e2, forLoop_prod_take _ _ (by simp), one_mul]
    rw [List.take_of_length_le (by simp)]

/-- The two products of `Flatten(d)` for `0 ≤ d ≤ ndim`, when both are in the
range of `int`. -/
theorem tensor.Flatten_shape {R : Type} (t : tensor R) (d : Nat) (hd : d ≤ t.m_shape.length)
    (hA : -2 ^ 31 ≤ (t.m_shape.take d).prod ∧ (t.m_shape.take d).prod < 2 ^ 31)
    (hB : -2 ^ 31 ≤ (t.m_shape.drop d).prod ∧ (t.m_shape.drop d).prod < 2 ^ 31)
    (fresh : Int → R) :
    (t.Flatten (d : Int) fresh).m_shape = [(t.m_shape.take d).prod, (t.m_shape.drop d).prod] := by
  rw [tensor.Flatten_shape_cast t d hd, tensor.cast_int_eq _ hA, tensor.cast_int_eq _ hB]

/-- The tensor `Flatten(d)` returns has as many elements as the tensor it
copies, when the two products are in the range of `int`. -/
theorem tensor.Flatten_size {R : Type} (t : tensor R) (d : Nat) (hd : d ≤ t.m_shape.length)
    (hA : -2 ^ 31 ≤ (t.m_shape.take d).prod ∧ (t.m_shape.take d).prod < 2 ^ 31)
    (hB : -2 ^ 31 ≤ (t.m_shape.drop d).prod ∧ (t.m_shape.drop d).prod < 2 ^ 31)
    (fresh : Int → R) : (t.Flatten (d : Int) fresh).size = t.size := by
  rw [tensor.size_eq_prod, tensor.size_eq_prod, tensor.Flatten_shape t d hd hA hB]
  simp

/-- The buffer of `Flatten(d)`: as many elements of the source as the new
tensor has, from cell 0. -/
theorem tensor.Flatten_apply_own {R : Type} (t : tensor R) (d : Int) (fresh : Int → R) (p : Int) :
    (t.Flatten d fresh).m_ptr p
      = if 0 ≤ p ∧ p < (t.Flatten d fresh).size then t.m_ptr (t.m_offset + p) else fresh p := by
  unfold tensor.Flatten
  simp only [tensor.New, memcpy, tensor.size]
  simp only [zero_add, sub_zero]

/-- The buffer of `Flatten(d)`: the `size()` elements of the source, from cell
0, when the two products are in the range of `int`. -/
theorem tensor.Flatten_apply {R : Type} (t : tensor R) (d : Nat) (hd : d ≤ t.m_shape.length)
    (hA : -2 ^ 31 ≤ (t.m_shape.take d).prod ∧ (t.m_shape.take d).prod < 2 ^ 31)
    (hB : -2 ^ 31 ≤ (t.m_shape.drop d).prod ∧ (t.m_shape.drop d).prod < 2 ^ 31)
    (fresh : Int → R) (p : Int) :
    (t.Flatten (d : Int) fresh).m_ptr p
      = if 0 ≤ p ∧ p < t.size then t.m_ptr (t.m_offset + p) else fresh p := by
  rw [tensor.Flatten_apply_own, tensor.Flatten_size t d hd hA hB]

/-- The array `result_shape` of `Reshape` after `n` iterations of its first
loop: the first `n` requested sizes, then the initial zeros. -/
theorem reshape_set_step (req : Nat → Int) (D n : Nat) (hn : n < D) :
    ((List.range D).map (fun i => if i < n then req i else 0)).set n (req n)
      = (List.range D).map (fun i => if i < n + 1 then req i else 0) := by
  apply List.ext_getElem?
  intro j
  rw [List.getElem?_set]
  by_cases hj : n = j
  · subst hj
    simp [hn]
  · rw [if_neg hj]
    by_cases hjD : j < D
    · simp only [List.getElem?_map, List.getElem?_range hjD, Option.map_some']
      congr 1
      by_cases h1 : j < n
      · rw [if_pos h1, if_pos (by omega)]
      · rw [if_neg h1, if_neg (by omega)]
    · rw [List.getElem?_eq_none (by simp; omega), List.getElem?_eq_none (by simp; omega)]

theorem reshape_getD (req : Nat → Int) (D n i : Nat) (hi : i < D) :
    ((List.range D).map (fun i => if i < n then req i else 0)).getD i 0
      = if i < n then req i else 0 := by
  simp [List.getD_eq_getElem?_getD, List.getElem?_map, List.getElem?_range hi]

/-- The first loop of `Reshape` when none of the first `n` requested sizes
is `-1`. -/
theorem reshape_loop_none (req : Nat → Int) (D n : Nat) (hn : n ≤ D)
    (h : ∀ i, i < n → req i ≠ -1) :
    forLoop n (fun i st =>
      st.bind (fun st : List Int × Int =>
        let result_shape := st.1.set i (req i)
        if result_shape.getD i 0 = -1 then
          if st.2 ≠ -1 then none else some (result_shape, (i : Int))
        else some (result_shape, st.2)))
      (some (List.replicate D 0, -1))
    = some ((List.range D).map (fun i => if i < n then req i else 0), -1) := by
  induction n with
  | zero => simp [forLoop]
  | succ n ih =>
    rw [forLoop_succ, ih (by omega) (fun i hi => h i (by omega))]
    simp only [Option.some_bind]
    rw [reshape_set_step req D n (by omega), reshape_getD req D (n + 1) n (by omega),
      if_pos (Nat.lt_succ_self n), if_neg (h n (by omega))]

/-- The first loop of `Reshape` when exactly the requested size `u` among the
first `n` is `-1`. -/
theorem reshape_loop_one (req : Nat → Int) (D n u : Nat) (hn : n ≤ D) (hu : u < n)
    (h1 : req u = -1) (h : ∀ i, i < n → i ≠ u → req i ≠ -1) :
    forLoop n (fun i st =>
      st.bind (fun st : List Int × Int =>
        let result_shape := st.1.set i (req i)
        if result_shape.getD i 0 = -1 then
          if st.2 ≠ -1 then none else some (result_shape, (i : Int))
        else some (result_shape, st.2)))
      (some (List.replicate D 0, -1))
    = some ((List.range D).map (fun i => if i < n then req i else 0), (u : Int)) := by
  induction n with
  | zero => omega
  | succ n ih =>
    rw [forLoop_succ]
    by_cases hun : u = n
    · subst hun
      rw [reshape_loop_none req D u (by omega) (fun i hi => h i (by omega) (by omega))]
      simp only [Option.some_bind]
      rw [reshape_set_step req D u (by omega), reshape_getD req D (u + 1) u (by omega),
        if_pos (Nat.lt_succ_self u), if_pos h1]
      simp
    · rw [ih (by omega) (by omega) (fun i hi => h i (by omega))]
      simp only [Option.some_bind]
      rw [reshape_set_step req D n (by omega), reshape_getD req D (n + 1) n (by omega),
        if_pos (Nat.lt_succ_self n), if_neg (h n (by omega) (by omega))]

theorem reshape_full (req : Nat → Int) (D : Nat) :
    (List.range D).map (fun i => if i < D then req i else 0) = (List.range D).map req := by
  apply List.map_congr_left
  intro i hi
  rw [if_pos (List.mem_range.1 hi)]

theorem reshape_prod_loop (rs : List Int) (D : Nat) (h : rs.length = D) :
    forLoop D (fun i size => size * rs.getD i 0) 1 = rs.prod := by
  subst h
  rw [forLoop_prod_take rs rs.length (le_refl _), one_mul, List.take_length]

/-- The function `Reshape` on a request without `-1`: it returns the requested
shape on the buffer of `x` exactly when the product of the request is not
negative and equals `x.size()`. -/
theorem Reshape_no_wildcard {R : Type} (outDim : Nat) (x : tensor R) (shape : tensor Int)
    (h : ∀ i : Nat, i < outDim → shape.m_ptr (shape.m_offset + (i : Int)) ≠ -1) :
    Reshape outDim x shape
      = if ((List.range outDim).map
            (fun i : Nat => shape.m_ptr (shape.m_offset + (i : Int)))).prod < 0 then none
        else if ((List.range outDim).map
            (fun i : Nat => shape.m_ptr (shape.m_offset + (i : Int)))).prod ≠ x.size then none
        else some (tensor.NewShared ((List.range outDim).map
            (fun i : Nat => shape.m_ptr (shape.m_offset + (i : Int)))) x.m_ptr x.m_offset) := by
  unfold Reshape
  have e := reshape_loop_none (fun i : Nat => shape.m_ptr (shape.m_offset + (i : Int)))
    outDim outDim (le_refl _) h
  rw [reshape_full] at e
  simp only at e
  simp only [e, Option.some_bind]
  rw [reshape_prod_loop _ outDim (by simp)]
  generalize (List.range outDim).map (fun i : Nat => shape.m_ptr (shape.m_offset + (i : Int)))
    = rs
  by_cases hneg : rs.prod < 0
  · rw [if_pos hneg, if_pos hneg]
    by_cases hrem : x.size.tmod (-rs.prod) ≠ 0
    · rw [if_pos hrem]; rfl
    · rw [if_neg hrem, if_pos (by decide)]; rfl
  · rw [if_neg hneg, if_neg hneg]
    simp only [Option.some_bind, tensor.size_eq_prod, tensor.NewShared]

/-- The function `Reshape` on a request whose only `-1` is at `u`. -/
theorem Reshape_wildcard {R : Type} (outDim : Nat) (x : tensor R) (shape : tensor Int) (u : Nat)
    (hu : u < outDim) (h1 : shape.m_ptr (shape.m_offset + (u : Int)) = -1)
    (h : ∀ i : Nat, i < outDim → i ≠ u → shape.m_ptr (shape.m_offset + (i : Int)) ≠ -1) :
    Reshape outDim x shape
      = if ((List.range outDim).map
            (fun i : Nat => shape.m_ptr (shape.m_offset + (i : Int)))).prod < 0 then
          if x.size.tmod (-((List.range outDim).map
              (fun i : Nat => shape.m_ptr (shape.m_offset + (i : Int)))).prod) ≠ 0 then none
          else if (((List.range outDim).map
              (fun i : Nat => shape.m_ptr (shape.m_offset + (i : Int)))).set u
                (x.size.tdiv (-((List.range outDim).map
                  (fun i : Nat => shape.m_ptr (shape.m_offset + (i : Int)))).prod))).prod
              ≠ x.size then none
          else some (tensor.NewShared (((List.range outDim).map
              (fun i : Nat => shape.m_ptr (shape.m_offset + (i : Int)))).set u
                (x.size.tdiv (-((List.range outDim).map
                  (fun i : Nat => shape.m_ptr (shape.m_offset + (i : Int)))).prod)))
              x.m_ptr x.m_offset)
        else if ((List.range outDim).map
            (fun i : Nat => shape.m_ptr (shape.m_offset + (i : Int)))).prod ≠ x.size then none
        else some (tensor.NewShared ((List.range outDim).map
            (fun i : Nat => shape.m_ptr (shape.m_offset + (i : Int)))) x.m_ptr x.m_offset) := by
  unfold Reshape
  have e := reshape_loop_one (fun i : Nat => shape.m_ptr (shape.m_offset + (i : Int)))
    outDim outDim u (le_refl _) hu h1 h
  rw [reshape_full] at e
  simp only at e
  simp only [e, Option.some_bind]
  rw [reshape_prod_loop _ outDim (by simp)]
  generalize (List.range outDim).map (fun i : Nat => shape.m_ptr (shape.m_offset + (i : Int)))
    = rs
  have hu0 : ¬ ((u : Int) < 0) := by omega
  by_cases hneg : rs.prod < 0
  · rw [if_pos hneg, if_pos hneg]
    by_cases hrem : x.size.tmod (-rs.prod) ≠ 0
    · rw [if_pos hrem, if_pos hrem]; rfl
    · rw [if_neg hrem, if_neg hrem, if_neg hu0]
      simp only [Option.some_bind, tensor.size_eq_prod, tensor.NewShared, Int.toNat_ofNat]
  · rw [if_neg hneg, if_neg hneg]
    simp only [Option.some_bind, tensor.size_eq_prod, tensor.NewShared]

theorem map_getD_range (s : List Int) :
    (List.range s.length).map (fun i => s.getD i 0) = s := by
  apply List.ext_getElem?
  intro j
  by_cases hj : j < s.length
  · simp [List.getElem?_map, List.getElem?_range hj, List.getElem?_eq_getElem hj]
  · rw [List.getElem?_eq_none (by simp; omega), List.getElem?_eq_none (by omega)]

/-- The function `Reshape` with the shape of a tensor of as many elements as
`y`: the view of the buffer of `y` with that shape. -/
theorem Reshape_same_size {R : Type} (y : tensor R) (s : List Int) (shape : tensor Int)
    (hs : ∀ e ∈ s, 0 ≤ e)
    (hshape : ∀ i : Nat, i < s.length → shape.m_ptr (shape.m_offset + (i : Int)) = s.getD i 0)
    (hy : y.size = s.prod) :
    Reshape s.length y shape = some (tensor.NewShared s y.m_ptr y.m_offset) := by
  have hreq : (List.range s.length).map (fun i : Nat => shape.m_ptr (shape.m_offset + (i : Int)))
      = s := by
    refine Eq.trans (List.map_congr_left ?_) (map_getD_range s)
    intro i hi
    exact hshape i (List.mem_range.1 hi)
  rw [Reshape_no_wildcard s.length y shape, hreq]
  · have h0 : 0 ≤ s.prod := List.prod_nonneg hs
    rw [if_neg (by omega), if_neg (by simp [hy])]
  · intro i hi
    rw [hshape i hi, List.getD_eq_getElem _ _ hi]
    have := hs _ (List.getElem_mem hi)
    omega

theorem reqs_eq (shape : tensor Int) (req : List Int)
    (hreq : ∀ i : Nat, i < req.length → shape.m_ptr (shape.m_offset + (i : Int)) = req.getD i 0) :
    (List.range req.length).map (fun i : Nat => shape.m_ptr (shape.m_offset + (i : Int)))
      = req := by
  refine Eq.trans (List.map_congr_left ?_) (map_getD_range req)
  intro i hi
  exact hreq i (List.mem_range.1 hi)

theorem prod_set_eraseIdx (l : List Int) (u : Nat) (a : Int) (h : u < l.length) :
    (l.set u a).prod = a * (l.eraseIdx u).prod := by
  induction l generalizing u with
  | nil => simp at h
  | cons x xs ih =>
    cases u with
    | zero => simp
    | succ u =>
      simp only [List.set_cons_succ, List.prod_cons, List.eraseIdx_cons_succ]
      rw [ih u (by simpa using h)]
      ring

theorem prod_eq_getD_mul_eraseIdx (l : List Int) (u : Nat) (h : u < l.length) :
    l.prod = l.getD u 0 * (l.eraseIdx u).prod := by
  induction l generalizing u with
  | nil => simp at h
  | cons x xs ih =>
    cases u with
    | zero => simp
    | succ u =>
      simp only [List.prod_cons, List.eraseIdx_cons_succ, List.getD_cons_succ]
      rw [ih u (by simpa using h)]
      ring

theorem prod_eraseIdx_pos (l : List Int) (u : Nat)
    (h : ∀ i : Nat, i < l.length → i ≠ u → 0 < l.getD i 0) : 0 < (l.eraseIdx u).prod := by
  induction l generalizing u with
  | nil => simp
  | cons x xs ih =>
    cases u with
    | zero =>
      simp only [List.eraseIdx_cons_zero]
      apply List.prod_pos
      intro a ha
      obtain ⟨i, hi, rfl⟩ := List.getElem_of_mem ha
      have := h (i + 1) (by simpa using hi) (by omega)
      rw [List.getD_cons_succ, List.getD_eq_getElem _ _ hi] at this
      exact this
    | succ u =>
      simp only [List.eraseIdx_cons_succ, List.prod_cons]
      have hx : 0 < x := by simpa using h 0 (by simp) (by omega)
      have := ih u (fun i hi hne => by
        have := h (i + 1) (by simpa using hi) (by omega)
        simpa using this)
      positivity

/-- The function `Reshape` on a request with one `-1` and positive sizes
elsewhere: with `p` the product of the other sizes, it fails when `p` does not
divide `x.size()` and otherwise gives the request with `x.size() / p` in
place of the `-1`. -/
theorem Reshape_one_wildcard {R : Type} (x : tensor R) (shape : tensor Int) (req : List Int)
    (hreq : ∀ i : Nat, i < req.length → shape.m_ptr (shape.m_offset + (i : Int)) = req.getD i 0)
    (u : Nat) (hu : u < req.length) (h1 : req.getD u 0 = -1)
    (hpos : ∀ i : Nat, i < req.length → i ≠ u → 0 < req.getD i 0) :
    Reshape req.length x shape
      = if x.size.tmod (req.eraseIdx u).prod ≠ 0 then none
        else some (tensor.NewShared (req.set u (x.size.tdiv (req.eraseIdx u).prod))
          x.m_ptr x.m_offset) := by
  rw [Reshape_wildcard req.length x shape u hu (by rw [hreq u hu, h1])
    (fun i hi hne => by rw [hreq i hi]; have := hpos i hi hne; omega), reqs_eq shape req hreq]
  have hp := prod_eraseIdx_pos req u hpos
  have hprod : req.prod = -(req.eraseIdx u).prod := by
    rw [prod_eq_getD_mul_eraseIdx req u hu, h1]; ring
  rw [hprod, neg_neg, if_pos (by omega)]
  by_cases hrem : x.size.tmod (req.eraseIdx u).prod ≠ 0
  · rw [if_pos hrem, if_pos hrem]
  · rw [if_neg hrem, if_neg hrem, prod_set_eraseIdx req u _ hu]
    have := Int.tdiv_mul_cancel_of_tmod_eq_zero (not_not.1 hrem)
    rw [if_neg (by rw [not_not]; exact this)]

/-- The function `Reshape` on a request without `-1`, for a tensor whose size is
not negative: it succeeds exactly when the product of the request is
`x.size()`. -/
theorem Reshape_plain {R : Type} (x : tensor R) (shape : tensor Int) (req : List Int)
    (hreq : ∀ i : Nat, i < req.length → shape.m_ptr (shape.m_offset + (i : Int)) = req.getD i 0)
    (hx : 0 ≤ x.size) (h : ∀ e ∈ req, e ≠ -1) :
    Reshape req.length x shape
      = if req.prod ≠ x.size then none else some (tensor.NewShared req x.m_ptr x.m_offset) := by
  rw [Reshape_no_wildcard req.length x shape
    (fun i hi => by
      rw [hreq i hi, List.getD_eq_getElem _ _ hi]; exact h _ (List.getElem_mem hi)),
    reqs_eq shape req hreq]
  by_cases hneg : req.prod < 0
  · rw [if_pos hneg, if_pos (by omega)]
  · rw [if_neg hneg]

/-- Every tensor `Reshape` returns passed the last `assert` and shares the
buffer and offset of `x`. -/
theorem Reshape_size {R : Type} (outDim : Nat) (x : tensor R) (shape : tensor Int)
    (out : tensor R) (h : Reshape outDim x shape = some out) :
    out.size = x.size ∧ out.m_ptr = x.m_ptr ∧ out.m_offset = x.m_offset := by
  unfold Reshape at h
  simp only [Option.bind_eq_some] at h
  obtain ⟨st, -, rs, -, h3⟩ := h
  by_cases hs : (tensor.NewShared rs x.m_ptr x.m_offset).size ≠ x.size
  · rw [if_pos hs] at h3
    exact absurd h3 (by simp)
  · rw [if_neg hs] at h3
    have := Option.some.inj h3
    subst this
    exact ⟨not_not.1 hs, rfl, rfl⟩

/-! ## BatchNormalization lemmas -/

/-- A loop whose iteration `k` maps the `w` cells from `start + w * k` on
through `F` (the new content from the old content and the address) and keeps
the other cells maps the first `w * n` cells through `F`. -/
theorem forLoop_cells {R : Type} (w : Nat) (start : Int) (F : R → Int → R)
    (body : Nat → (Int → R) → (Int → R)) (n : Nat)
    (hbody : ∀ k, k < n → ∀ x p, body k x p
      = if start + (w : Int) * (k : Int) ≤ p ∧ p < start + (w : Int) * (k : Int) + (w : Int)
        then F (x p) p else x p)
    (m : Int → R) (p : Int) :
    forLoop n body m p
      = if start ≤ p ∧ p < start + (w : Int) * (n : Int) then F (m p) p else m p := by
  induction n with
  | zero => rw [if_neg (by simp)]; rfl
  | succ n ih =>
    rw [forLoop_succ, hbody n (Nat.lt_succ_self n), ih (fun k hk => hbody k (by omega))]
    have hwn : (0 : Int) ≤ (w : Int) * (n : Int) := by positivity
    have e : (w : Int) * ((n + 1 : Nat) : Int) = (w : Int) * (n : Int) + (w : Int) := by
      push_cast; ring
    rw [e]
    by_cases h1 : start + (w : Int) * (n : Int) ≤ p ∧ p < start + (w : Int) * (n : Int) + (w : Int)
    · rw [if_pos h1, if_neg (by omega), if_pos (by omega)]
    · rw [if_neg h1]
      by_cases h2 : start ≤ p ∧ p < start + (w : Int) * (n : Int)
      · rw [if_pos h2, if_pos (by omega)]
      · rw [if_neg h2, if_neg (by omega)]

/-- Blocks of `O` cells, one per iteration: when iteration `n` changes only
block `n` and maps the cell `p` of its block through `G`, the loop maps `p`
through `G`. -/
theorem forLoop_block_at {R : Type} (N : Nat) (O : Int) (hO : 0 ≤ O) (base : Int)
    (body : Nat → (Int → R) → (Int → R))
    (hframe : ∀ n, n < N → ∀ m p, (p < base + (n : Int) * O ∨ base + ((n : Int) + 1) * O ≤ p) →
      body n m p = m p)
    (n : Nat) (hn : n < N) (p : Int) (h1 : base + (n : Int) * O ≤ p)
    (h2 : p < base + ((n : Int) + 1) * O) (G : R → R) (hG : ∀ m, body n m p = G (m p))
    (m : Int → R) : forLoop N body m p = G (m p) := by
  induction N with
  | zero => omega
  | succ N ih =>
    rw [forLoop_succ]
    by_cases h : n = N
    · subst h
      rw [hG]
      congr 1
      refine forLoop_keep (fun m : Int → R => m p) body n ?_ m
      intro k hk s
      refine hframe k (by omega) s p (Or.inr ?_)
      have h3 : ((k : Int) + 1) * O ≤ (n : Int) * O :=
        mul_le_mul_of_nonneg_right (by omega) hO
      linarith
    · rw [hframe N (Nat.lt_succ_self N) _ p (Or.inl ?_)]
      · exact ih (fun k hk => hframe k (by omega)) (by omega)
      · have h3 : ((n : Int) + 1) * O ≤ (N : Int) * O :=
          mul_le_mul_of_nonneg_right (by omega) hO
        linarith

/-- A main loop over groups of four cells followed by the tail loop that
continues from where it stopped: together they map the `l` cells from `base`
on through `F`, once each. -/
theorem plane_apply {R : Type} (F : R → Int → R) (base l : Int)
    (main tail : Int → (Int → R) → (Int → R))
    (hmain : ∀ i x p, main i x p
      = if base + i ≤ p ∧ p < base + i + 4 then F (x p) p else x p)
    (htail : ∀ i x p, tail i x p = if p = base + i then F (x p) p else x p)
    (m : Int → R) (p : Int) :
    forInt (forStepEnd 4 (l - 4)) l tail (forStep 4 (l - 4) main m) p
      = if base ≤ p ∧ p < base + l then F (m p) p else m p := by
  unfold forInt forStep forStepEnd
  rw [forLoop_cells 1 (base + ((4 : Nat) : Int) * ((((l - 4).toNat + 4 - 1) / 4 : Nat) : Int)) F
    _ _ (fun k _ x p => by
      rw [htail]
      by_cases h : p = base + (((4 : Nat) : Int) * ((((l - 4).toNat + 4 - 1) / 4 : Nat) : Int)
          + (k : Int))
      · rw [if_pos h, if_pos (by push_cast at h ⊢; omega)]
      · rw [if_neg h, if_neg (by push_cast at h ⊢; omega)])]
  rw [forLoop_cells 4 base F _ _ (fun k _ x p => by
      rw [hmain]
      by_cases h : base + ((4 : Nat) : Int) * (k : Int) ≤ p
          ∧ p < base + ((4 : Nat) : Int) * (k : Int) + 4
      · rw [if_pos h, if_pos (by push_cast at h ⊢; omega)]
      · rw [if_neg h, if_neg (by push_cast at h ⊢; omega)])]
  have hq : (l ≤ 4 → ((l - 4).toNat + 4 - 1) / 4 = 0) ∧
      (4 < l → 4 * ((((l - 4).toNat + 4 - 1) / 4 : Nat) : Int) ≤ l - 1 ∧
        l - 4 ≤ 4 * ((((l - 4).toNat + 4 - 1) / 4 : Nat) : Int)) := by
    constructor
    · intro h; omega
    · intro h; omega
  generalize ((l - 4).toNat + 4 - 1) / 4 = q at hq ⊢
  by_cases h : base ≤ p ∧ p < base + l
  · rw [if_pos h]
    split_ifs <;> first | rfl | (exfalso; push_cast at *; omega)
  · rw [if_neg h]
    split_ifs <;> first | rfl | (exfalso; push_cast at *; omega)

/-- Two nested loops over planes of `S` cells, plane `(n, c)` starting at
`base + n * S * C + c * S`: when the body for `(n, c)` maps the cells of its own
plane through `F n c` and keeps the others, the nest maps every cell of every
plane through its `F n c` and keeps the cells outside the planes. -/
theorem nest_planes {R : Type} (N C : Nat) (S : Int) (hS : 0 ≤ S) (base : Int)
    (body : Nat → Nat → (Int → R) → (Int → R)) (F : Nat → Nat → R → Int → R)
    (hbody : ∀ n c x p, body n c x p
      = if base + (n : Int) * S * (C : Int) + (c : Int) * S ≤ p
          ∧ p < base + (n : Int) * S * (C : Int) + (c : Int) * S + S
        then F n c (x p) p else x p) :
    (∀ n c : Nat, n < N → c < C → ∀ q : Int, 0 ≤ q → q < S → ∀ m : Int → R,
      forLoop N (fun n m => forLoop C (fun c m => body n c m) m) m
          (base + (((n : Int) * (C : Int) + (c : Int)) * S + q))
        = F n c (m (base + (((n : Int) * (C : Int) + (c : Int)) * S + q)))
            (base + (((n : Int) * (C : Int) + (c : Int)) * S + q))) ∧
    (∀ (m : Int → R) (p : Int), (p < base ∨ base + (N : Int) * (C : Int) * S ≤ p) →
      forLoop N (fun n m => forLoop C (fun c m => body n c m) m) m p = m p) := by
  have hSC : (0 : Int) ≤ S * (C : Int) := by positivity
  have hframe_c : ∀ n : Nat, ∀ c, c < C → ∀ (m : Int → R) (p : Int),
      (p < base + (n : Int) * S * (C : Int) + (c : Int) * S
        ∨ base + (n : Int) * S * (C : Int) + ((c : Int) + 1) * S ≤ p) →
      body n c m p = m p := by
    intro n c _ m p hp
    rw [hbody, if_neg]
    rw [add_mul, one_mul] at hp
    omega
  have hframe_n : ∀ n, n < N → ∀ (m : Int → R) (p : Int),
      (p < base + (n : Int) * (S * (C : Int)) ∨ base + ((n : Int) + 1) * (S * (C : Int)) ≤ p) →
      forLoop C (fun c m => body n c m) m p = m p := by
    intro n _ m p hp
    refine (forLoop_block C S hS (base + (n : Int) * S * (C : Int)) (fun c m => body n c m)
      (hframe_c n)).1 m p ?_
    rw [add_mul, one_mul] at hp
    have e1 : (n : Int) * (S * (C : Int)) = (n : Int) * S * (C : Int) := by ring
    have e2 : S * (C : Int) = (C : Int) * S := by ring
    rw [e1, e2] at hp
    omega
  constructor
  · intro n c hn hc q hq0 hq1 m
    have e0 : base + (((n : Int) * (C : Int) + (c : Int)) * S + q)
        = base + (n : Int) * S * (C : Int) + (c : Int) * S + q := by ring
    have hcS : (0 : Int) ≤ (c : Int) * S := by positivity
    have hc1 : ((c : Int) + 1) * S ≤ (C : Int) * S := mul_le_mul_of_nonneg_right (by omega) hS
    rw [add_mul, one_mul] at hc1
    have e1 : (n : Int) * (S * (C : Int)) = (n : Int) * S * (C : Int) := by ring
    have e2 : S * (C : Int) = (C : Int) * S := by ring
    refine forLoop_block_at N (S * (C : Int)) hSC base
      (fun n m => forLoop C (fun c m => body n c m) m) hframe_n n hn _ ?_ ?_
      (fun v => F n c v (base + (((n : Int) * (C : Int) + (c : Int)) * S + q))) ?_ m
    · rw [e0, e1]; omega
    · rw [e0, add_mul, one_mul, e1, e2]; omega
    · intro m
      refine forLoop_block_at C S hS (base + (n : Int) * S * (C : Int))
        (fun c m => body n c m) (hframe_c n) c hc _ ?_ ?_
        (fun v => F n c v (base + (((n : Int) * (C : Int) + (c : Int)) * S + q))) ?_ m
      · rw [e0]; omega
      · rw [e0, add_mul, one_mul]; omega
      · intro m
        show body n c m _ = F n c (m _) _
        rw [hbody, if_pos]
        rw [e0]
        constructor <;> omega
  · intro m p hp
    refine (forLoop_block N (S * (C : Int)) hSC base
      (fun n m => forLoop C (fun c m => body n c m) m) hframe_n).1 m p ?_
    have e3 : (N : Int) * (S * (C : Int)) = (N : Int) * (C : Int) * S := by ring
    rw [e3]
    exact hp

/-- Four read-modify-write steps on the consecutive cells
`b + (i + 0), ..., b + (i + 3)` map each of the four cells through `f`. -/
theorem modify4_apply {R : Type} (f : R → R) (x : Int → R) (b i : Int) (p : Int) :
    (let x := Function.update x (b + (i + 0)) (f (x (b + (i + 0))))
     let x := Function.update x (b + (i + 1)) (f (x (b + (i + 1))))
     let x := Function.update x (b + (i + 2)) (f (x (b + (i + 2))))
     Function.update x (b + (i + 3)) (f (x (b + (i + 3))))) p
      = if b + i ≤ p ∧ p < b + i + 4 then f (x p) else x p := by
  have e1 : b + (i + 1) ≠ b + (i + 0) := by omega
  have e2 : b + (i + 2) ≠ b + (i + 1) := by omega
  have e3 : b + (i + 2) ≠ b + (i + 0) := by omega
  have e4 : b + (i + 3) ≠ b + (i + 2) := by omega
  have e5 : b + (i + 3) ≠ b + (i + 1) := by omega
  have e6 : b + (i + 3) ≠ b + (i + 0) := by omega
  simp only [Function.update_noteq e1, Function.update_noteq e2, Function.update_noteq e3,
    Function.update_noteq e4, Function.update_noteq e5, Function.update_noteq e6]
  simp only [Function.update_apply]
  by_cases h3 : p = b + (i + 3)
  · rw [if_pos h3, if_pos (by omega), h3]
  · rw [if_neg h3]
    by_cases h2 : p = b + (i + 2)
    · rw [if_pos h2, if_pos (by omega), h2]
    · rw [if_neg h2]
      by_cases h1 : p = b + (i + 1)
      · rw [if_pos h1, if_pos (by omega), h1]
      · rw [if_neg h1]
        by_cases h0 : p = b + (i + 0)
        · rw [if_pos h0, if_pos (by omega), h0]
        · rw [if_neg h0, if_neg (by omega)]

/-- The in-place variant of `BatchNormalization` on `in[N,C,H,W]`: the cell `q`
of the plane `(n, c)` is mapped through `v * mul + add` of the channel `c`, the
cells outside the `N * C` planes keep their content. -/
theorem BatchNormalizationInplace_apply {R : Type} [Field R] (sqrtf : R → R) (N C H W : Nat)
    (input weight bias running_mean running_var : tensor R) (epsilon : R)
    (hin : input.m_shape = [(N : Int), (C : Int), (H : Int), (W : Int)]) :
    (∀ n c : Nat, n < N → c < C → ∀ q : Int, 0 ≤ q → q < (H : Int) * (W : Int) →
      (BatchNormalizationInplace sqrtf input weight bias running_mean running_var epsilon).m_ptr
          (input.m_offset + (((n : Int) * (C : Int) + (c : Int)) * ((H : Int) * (W : Int)) + q))
        = input.m_ptr (input.m_offset
              + (((n : Int) * (C : Int) + (c : Int)) * ((H : Int) * (W : Int)) + q))
            * (weight.get1 c * (1 / sqrtf (running_var.get1 c + epsilon)))
          + (bias.get1 c
            - running_mean.get1 c * (1 / sqrtf (running_var.get1 c + epsilon)) * weight.get1 c)) ∧
    (∀ p : Int, (p < input.m_offset
        ∨ input.m_offset + (N : Int) * (C : Int) * ((H : Int) * (W : Int)) ≤ p) →
      (BatchNormalizationInplace sqrtf input weight bias running_mean running_var epsilon).m_ptr p
        = input.m_ptr p) := by
  obtain ⟨mp, ms, mo, mn⟩ := input
  simp only at hin
  subst hin
  have hS0 : (0 : Int) ≤ 1 * (H : Int) * (W : Int) := by positivity
  have key := nest_planes N C (1 * (H : Int) * (W : Int)) hS0 mo
    (fun n c src =>
      let sub := (tensor.mk src [(N : Int), (C : Int), (H : Int), (W : Int)] mo mn).Sub2 n c
      let mul := weight.m_ptr (weight.m_offset + c)
      let add := bias.m_ptr (bias.m_offset + c)
      let mean := running_mean.m_ptr (running_mean.m_offset + c)
      let invstd := 1 / sqrtf (running_var.m_ptr (running_var.m_offset + c) + epsilon)
      let add := add - mean * invstd * mul
      let mul := mul * invstd
      let l := sub.size
      let src := forStep 4 (l - 4) (fun i src =>
        let src := Function.update src (sub.m_offset + (i + 0))
          (src (sub.m_offset + (i + 0)) * mul + add)
        let src := Function.update src (sub.m_offset + (i + 1))
          (src (sub.m_offset + (i + 1)) * mul + add)
        let src := Function.update src (sub.m_offset + (i + 2))
          (src (sub.m_offset + (i + 2)) * mul + add)
        Function.update src (sub.m_offset + (i + 3))
          (src (sub.m_offset + (i + 3)) * mul + add)) src
      let i := forStepEnd 4 (l - 4)
      forInt i l (fun i src =>
        Function.update src (sub.m_offset + i) (src (sub.m_offset + i) * mul + add)) src)
    (fun _ c v _ => v * (weight.get1 c * (1 / sqrtf (running_var.get1 c + epsilon)))
      + (bias.get1 c
        - running_mean.get1 c * (1 / sqrtf (running_var.get1 c + epsilon)) * weight.get1 c))
    (by
      intro n c x p
      refine plane_apply (fun v _ => v * (weight.get1 c * (1 / sqrtf (running_var.get1 c + epsilon)))
        + (bias.get1 c
          - running_mean.get1 c * (1 / sqrtf (running_var.get1 c + epsilon)) * weight.get1 c))
        (mo + (n : Int) * (1 * (H : Int) * (W : Int)) * (C : Int) + (c : Int) * (1 * (H : Int) * (W : Int)))
        (1 * (H : Int) * (W : Int)) _ _ ?_ ?_ x p
      · intro i x p
        exact modify4_apply (fun v => v * (weight.get1 c * (1 / sqrtf (running_var.get1 c + epsilon)))
          + (bias.get1 c
            - running_mean.get1 c * (1 / sqrtf (running_var.get1 c + epsilon)) * weight.get1 c))
          x _ i p
      · intro i x p
        rw [Function.update_apply]
        simp only [tensor.Sub2, tensor.size, List.tail_cons, List.foldl_cons, List.foldl_nil,
          List.getD_cons_succ, List.getD_cons_zero, tensor.get1]
        split_ifs with h
        · rw [h]
        · rfl)
  have e : (1 : Int) * (H : Int) * (W : Int) = (H : Int) * (W : Int) := by ring
  constructor
  · intro n c hn hc q hq0 hq1
    have := key.1 n c hn hc q hq0 (by rw [e]; exact hq1) mp
    rw [e] at this
    simp only [BatchNormalizationInplace, forInt_zero, number, channels, List.getD_cons_zero,
      List.getD_cons_succ, Int.toNat_natCast]
    exact this
  · intro p hp
    have := key.2 mp p (by rw [e]; exact hp)
    simp only [BatchNormalizationInplace, forInt_zero, number, channels, List.getD_cons_zero,
      List.getD_cons_succ, Int.toNat_natCast]
    exact this

/-- Four stores to the consecutive cells `b + (i + 0), ..., b + (i + 3)` of the
values `g (i + 0), ..., g (i + 3)`. -/
theorem store4_apply {R : Type} (g : Int → R) (x : Int → R) (b i : Int) (p : Int) :
    (let x := Function.update x (b + (i + 0)) (g (i + 0))
     let x := Function.update x (b + (i + 1)) (g (i + 1))
     let x := Function.update x (b + (i + 2)) (g (i + 2))
     Function.update x (b + (i + 3)) (g (i + 3))) p
      = if b + i ≤ p ∧ p < b + i + 4 then g (p - b) else x p := by
  simp only [Function.update_apply]
  by_cases h3 : p = b + (i + 3)
  · rw [if_pos h3, if_pos (by omega)]; congr 1; omega
  · rw [if_neg h3]
    by_cases h2 : p = b + (i + 2)
    · rw [if_pos h2, if_pos (by omega)]; congr 1; omega
    · rw [if_neg h2]
      by_cases h1 : p = b + (i + 1)
      · rw [if_pos h1, if_pos (by omega)]; congr 1; omega
      · rw [if_neg h1]
        by_cases h0 : p = b + (i + 0)
        · rw [if_pos h0, if_pos (by omega)]; congr 1; omega
        · rw [if_neg h0, if_neg (by omega)]

/-- The copy variant of `BatchNormalization` on `in[N,C,H,W]`: the cell `q` of
the plane `(n, c)` of the new buffer is `v * mul + add` of the same cell of the
input, with the `mul` and `add` of the channel `c`; the cells outside the
`N * C` planes are not stored to. -/
theorem BatchNormalization_apply {R : Type} [Field R] (sqrtf : R → R) (N C H W : Nat)
    (input weight bias running_mean running_var : tensor R) (epsilon : R) (fresh : Int → R)
    (hin : input.m_shape = [(N : Int), (C : Int), (H : Int), (W : Int)]) :
    (∀ n c : Nat, n < N → c < C → ∀ q : Int, 0 ≤ q → q < (H : Int) * (W : Int) →
      (BatchNormalization sqrtf input weight bias running_mean running_var epsilon fresh).m_ptr
          (0 + (((n : Int) * (C : Int) + (c : Int)) * ((H : Int) * (W : Int)) + q))
        = input.m_ptr (input.m_offset
              + (((n : Int) * (C : Int) + (c : Int)) * ((H : Int) * (W : Int)) + q))
            * (weight.get1 c * (1 / sqrtf (running_var.get1 c + epsilon)))
          + (bias.get1 c
            - running_mean.get1 c * (1 / sqrtf (running_var.get1 c + epsilon)) * weight.get1 c)) ∧
    (∀ p : Int, (p < 0 ∨ 0 + (N : Int) * (C : Int) * ((H : Int) * (W : Int)) ≤ p) →
      (BatchNormalization sqrtf input weight bias running_mean running_var epsilon fresh).m_ptr p
        = fresh p) := by
  obtain ⟨mp, ms, mo, mn⟩ := input
  simp only at hin
  subst hin
  have hS0 : (0 : Int) ≤ 1 * (H : Int) * (W : Int) := by positivity
  have key := nest_planes N C (1 * (H : Int) * (W : Int)) hS0 0
    (fun n c dst =>
      let sub_in := (tensor.mk mp [(N : Int), (C : Int), (H : Int), (W : Int)] mo mn).Sub2 n c
      let sub_out := (tensor.mk dst [(N : Int), (C : Int), (H : Int), (W : Int)] 0 false).Sub2 n c
      let mul := weight.m_ptr (weight.m_offset + c)
      let add := bias.m_ptr (bias.m_offset + c)
      let mean := running_mean.m_ptr (running_mean.m_offset + c)
      let invstd := 1 / sqrtf (running_var.m_ptr (running_var.m_offset + c) + epsilon)
      let add := add - mean * invstd * mul
      let mul := mul * invstd
      let l := sub_in.size
      let dst := forStep 4 (l - 4) (fun i dst =>
        let dst := Function.update dst (sub_out.m_offset + (i + 0))
          (sub_in.m_ptr (sub_in.m_offset + (i + 0)) * mul + add)
        let dst := Function.update dst (sub_out.m_offset + (i + 1))
          (sub_in.m_ptr (sub_in.m_offset + (i + 1)) * mul + add)
        let dst := Function.update dst (sub_out.m_offset + (i + 2))
          (sub_in.m_ptr (sub_in.m_offset + (i + 2)) * mul + add)
        Function.update dst (sub_out.m_offset + (i + 3))
          (sub_in.m_ptr (sub_in.m_offset + (i + 3)) * mul + add)) dst
      let i := forStepEnd 4 (l - 4)
      forInt i l (fun i dst =>
        Function.update dst (sub_out.m_offset + i)
          (sub_in.m_ptr (sub_in.m_offset + i) * mul + add)) dst)
    (fun n c _ p => mp (mo + (n : Int) * (1 * (H : Int) * (W : Int)) * (C : Int)
          + (c : Int) * (1 * (H : Int) * (W : Int))
          + (p - (0 + (n : Int) * (1 * (H : Int) * (W : Int)) * (C : Int)
            + (c : Int) * (1 * (H : Int) * (W : Int)))))
        * (weight.get1 c * (1 / sqrtf (running_var.get1 c + epsilon)))
      + (bias.get1 c
        - running_mean.get1 c * (1 / sqrtf (running_var.get1 c + epsilon)) * weight.get1 c))
    (by
      intro n c x p
      refine plane_apply (fun _ p => mp (mo + (n : Int) * (1 * (H : Int) * (W : Int)) * (C : Int)
            + (c : Int) * (1 * (H : Int) * (W : Int))
            + (p - (0 + (n : Int) * (1 * (H : Int) * (W : Int)) * (C : Int)
              + (c : Int) * (1 * (H : Int) * (W : Int)))))
          * (weight.get1 c * (1 / sqrtf (running_var.get1 c + epsilon)))
        + (bias.get1 c
          - running_mean.get1 c * (1 / sqrtf (running_var.get1 c + epsilon)) * weight.get1 c))
        (0 + (n : Int) * (1 * (H : Int) * (W : Int)) * (C : Int) + (c : Int) * (1 * (H : Int) * (W : Int)))
        (1 * (H : Int) * (W : Int)) _ _ ?_ ?_ x p
      · intro i x p
        exact store4_apply (fun j => mp (mo + (n : Int) * (1 * (H : Int) * (W : Int)) * (C : Int)
            + (c : Int) * (1 * (H : Int) * (W : Int)) + j)
          * (weight.get1 c * (1 / sqrtf (running_var.get1 c + epsilon)))
          + (bias.get1 c
            - running_mean.get1 c * (1 / sqrtf (running_var.get1 c + epsilon)) * weight.get1 c))
          x _ i p
      · intro i x p
        rw [Function.update_apply]
        simp only [tensor.Sub2, tensor.size, List.tail_cons, List.foldl_cons, List.foldl_nil,
          List.getD_cons_succ, List.getD_cons_zero, tensor.get1]
        split_ifs with h
        · rw [h]
          congr 3
          ring
        · rfl)
  have e : (1 : Int) * (H : Int) * (W : Int) = (H : Int) * (W : Int) := by ring
  constructor
  · intro n c hn hc q hq0 hq1
    have := key.1 n c hn hc q hq0 (by rw [e]; exact hq1) fresh
    rw [e] at this
    simp only [BatchNormalization, forInt_zero, number, channels, List.getD_cons_zero,
      List.getD_cons_succ, Int.toNat_natCast, tensor.SameAs, tensor.New]
    rw [this]
    beta_reduce
    congr 3
    ring
  · intro p hp
    have := key.2 fresh p (by rw [e]; exact hp)
    simp only [BatchNormalization, forInt_zero, number, channels, List.getD_cons_zero,
      List.getD_cons_succ, Int.toNat_natCast, tensor.SameAs, tensor.New]
    exact this

/-! ## Softmax lemmas -/

/-- A loop over iterations with pairwise disjoint footprints, each iteration
changing only its footprint and depending only on its footprint: a cell of the
footprint of iteration `i` ends as iteration `i` alone leaves it, and a cell in
no footprint keeps its content. -/
theorem forLoop_disjoint {R : Type} (N : Nat) (body : Nat → (Int → R) → (Int → R))
    (foot : Nat → Int → Prop)
    (hframe : ∀ i, i < N → ∀ m p, ¬ foot i p → body i m p = m p)
    (hlocal : ∀ i, i < N → ∀ m m' : Int → R, (∀ p, foot i p → m p = m' p) →
      ∀ p, foot i p → body i m p = body i m' p)
    (hdisj : ∀ i, i < N → ∀ k, k < N → ∀ p, foot i p → foot k p → i = k) :
    (∀ i, i < N → ∀ p, foot i p → ∀ m, forLoop N body m p = body i m p) ∧
    (∀ p, (∀ i, i < N → ¬ foot i p) → ∀ m, forLoop N body m p = m p) := by
  induction N with
  | zero =>
    exact ⟨fun i hi => absurd hi (Nat.not_lt_zero i), fun p _ m => rfl⟩
  | succ N ih =>
    have ih' := ih (fun i hi => hframe i (by omega)) (fun i hi => hlocal i (by omega))
      (fun i hi k hk => hdisj i (by omega) k (by omega))
    constructor
    · intro i hi p hp m
      rw [forLoop_succ]
      by_cases h : i = N
      · subst h
        refine hlocal i hi _ _ ?_ p hp
        intro p' hp'
        refine ih'.2 p' ?_ m
        intro k hk hkp
        have := hdisj i hi k (by omega) p' hp' hkp
        omega
      · rw [hframe N (Nat.lt_succ_self N) _ p ?_]
        · exact ih'.1 i (by omega) p hp m
        · intro hNp
          exact h (hdisj i hi N (Nat.lt_succ_self N) p hp hNp)
    · intro p hp m
      rw [forLoop_succ, hframe N (Nat.lt_succ_self N) _ p (hp N (Nat.lt_succ_self N))]
      exact ih'.2 p (fun i hi => hp i (by omega)) m

/-- A read-modify-write loop over the cells `start + j * st`, `j < n`, with a
stride `st` that is not 0: each of the cells is mapped through `f` once. -/
theorem forLoop_modify_strided {R : Type} (f : R → R) (start st : Int) (hst : st ≠ 0) (n : Nat)
    (m : Int → R) :
    (∀ j : Nat, j < n →
      forLoop n (fun j dst => Function.update dst (start + (j : Int) * st)
        (f (dst (start + (j : Int) * st)))) m (start + (j : Int) * st)
        = f (m (start + (j : Int) * st))) ∧
    (∀ p : Int, (∀ j : Nat, j < n → p ≠ start + (j : Int) * st) →
      forLoop n (fun j dst => Function.update dst (start + (j : Int) * st)
        (f (dst (start + (j : Int) * st)))) m p = m p) := by
  induction n with
  | zero => exact ⟨fun j hj => absurd hj (Nat.not_lt_zero j), fun p _ => rfl⟩
  | succ n ih =>
    constructor
    · intro j hj
      rw [forLoop_succ]
      by_cases h : j = n
      · subst h
        rw [Function.update_same]
        congr 1
        refine ih.2 _ ?_
        intro k hk he
        have : ((j : Int) - (k : Int)) * st = 0 := by linarith
        rcases mul_eq_zero.1 this with h1 | h1
        · omega
        · exact hst h1
      · rw [Function.update_noteq]
        · exact ih.1 j (by omega)
        · intro he
          have : ((j : Int) - (n : Int)) * st = 0 := by linarith
          rcases mul_eq_zero.1 this with h1 | h1
          · omega
          · exact hst h1
    · intro p hp
      rw [forLoop_succ, Function.update_noteq (hp n (Nat.lt_succ_self n))]
      exact ih.2 p (fun j hj => hp j (by omega))

/-- One iteration of the loop of `Softmax` over the slice that starts at
`start` with stride `st`: every cell of the slice is divided by the sum of the
slice, the other cells keep their content. -/
theorem softmax_slice {R : Type} [Field R] (start st : Int) (hst : st ≠ 0) (cnt : Nat)
    (m : Int → R) :
    (∀ j : Nat, j < cnt →
      forInt 0 (cnt : Int) (fun j dst => Function.update dst (start + j * st)
        (dst (start + j * st)
          / forInt 0 (cnt : Int) (fun j sum => sum + m (start + j * st)) 0)) m
        (start + (j : Int) * st)
        = m (start + (j : Int) * st) / ∑ k in Finset.range cnt, m (start + (k : Int) * st)) ∧
    (∀ p : Int, (∀ j : Nat, j < cnt → p ≠ start + (j : Int) * st) →
      forInt 0 (cnt : Int) (fun j dst => Function.update dst (start + j * st)
        (dst (start + j * st)
          / forInt 0 (cnt : Int) (fun j sum => sum + m (start + j * st)) 0)) m p = m p) := by
  have hsum : forInt 0 (cnt : Int) (fun j sum => sum + m (start + j * st)) 0
      = ∑ k in Finset.range cnt, m (start + (k : Int) * st) := by
    rw [forInt_zero, Int.toNat_natCast,
      forLoop_sum (fun l : Nat => m (start + (l : Int) * st)), zero_add]
  rw [hsum]
  simp only [forInt_zero, Int.toNat_natCast]
  exact forLoop_modify_strided
    (fun v => v / ∑ k in Finset.range cnt, m (start + (k : Int) * st)) start st hst cnt m

theorem natCast_tdiv (k st : Nat) : ((k : Int)).tdiv (st : Int) = ((k / st : Nat) : Int) := by
  rw [Int.tdiv_eq_ediv (by positivity) (by positivity)]
  norm_cast

theorem natCast_tmod (k st : Nat) : ((k : Int)).tmod (st : Int) = ((k % st : Nat) : Int) := by
  rw [Int.tmod_eq_emod (by positivity) (by positivity)]
  norm_cast

/-- The loop of `Softmax` over all slices: with `outer * st` slices of `cnt`
cells at stride `st`, the cell `j` of the slice `(o, r)` ends as its content
divided by the sum of the slice. -/
theorem softmax_loop {R : Type} [Field R] (outer cnt st : Nat) (base : Int) (E : Int → R)
    (o j r : Nat) (ho : o < outer) (hj : j < cnt) (hr : r < st) :
    forLoop (outer * st) (fun k dst =>
      forInt 0 (cnt : Int) (fun j dst' => Function.update dst'
        (base + ((k : Int)).tdiv (st : Int) * (cnt : Int) * (st : Int) + ((k : Int)).tmod (st : Int)
          + j * (st : Int))
        (dst' (base + ((k : Int)).tdiv (st : Int) * (cnt : Int) * (st : Int)
            + ((k : Int)).tmod (st : Int) + j * (st : Int))
          / forInt 0 (cnt : Int) (fun j sum => sum
              + dst (base + ((k : Int)).tdiv (st : Int) * (cnt : Int) * (st : Int)
                + ((k : Int)).tmod (st : Int) + j * (st : Int))) 0)) dst) E
      (base + ((o : Int) * (cnt : Int) * (st : Int) + (r : Int) + (j : Int) * (st : Int)))
    = E (base + ((o : Int) * (cnt : Int) * (st : Int) + (r : Int) + (j : Int) * (st : Int)))
      / ∑ k in Finset.range cnt,
          E (base + ((o : Int) * (cnt : Int) * (st : Int) + (r : Int) + (k : Int) * (st : Int))) := by
  have hst0 : (st : Int) ≠ 0 := by omega
  simp only [natCast_tdiv, natCast_tmod]
  have hbody : ∀ (k : Nat) (m : Int → R),
      (∀ j : Nat, j < cnt →
        forInt 0 (cnt : Int) (fun j dst' => Function.update dst'
          (base + ((k / st : Nat) : Int) * (cnt : Int) * (st : Int) + ((k % st : Nat) : Int)
            + j * (st : Int))
          (dst' (base + ((k / st : Nat) : Int) * (cnt : Int) * (st : Int) + ((k % st : Nat) : Int)
              + j * (st : Int))
            / forInt 0 (cnt : Int) (fun j sum => sum
                + m (base + ((k / st : Nat) : Int) * (cnt : Int) * (st : Int)
                  + ((k % st : Nat) : Int) + j * (st : Int))) 0)) m
          (base + ((k / st : Nat) : Int) * (cnt : Int) * (st : Int) + ((k % st : Nat) : Int)
            + (j : Int) * (st : Int))
        = m (base + ((k / st : Nat) : Int) * (cnt : Int) * (st : Int) + ((k % st : Nat) : Int)
            + (j : Int) * (st : Int))
          / ∑ l in Finset.range cnt,
              m (base + ((k / st : Nat) : Int) * (cnt : Int) * (st : Int) + ((k % st : Nat) : Int)
                + (l : Int) * (st : Int))) ∧
      (∀ p : Int, (∀ j : Nat, j < cnt →
          p ≠ base + ((k / st : Nat) : Int) * (cnt : Int) * (st : Int) + ((k % st : Nat) : Int)
            + (j : Int) * (st : Int)) →
        forInt 0 (cnt : Int) (fun j dst' => Function.update dst'
          (base + ((k / st : Nat) : Int) * (cnt : Int) * (st : Int) + ((k % st : Nat) : Int)
            + j * (st : Int))
          (dst' (base + ((k / st : Nat) : Int) * (cnt : Int) * (st : Int) + ((k % st : Nat) : Int)
              + j * (st : Int))
            / forInt 0 (cnt : Int) (fun j sum => sum
                + m (base + ((k / st : Nat) : Int) * (cnt : Int) * (st : Int)
                  + ((k % st : Nat) : Int) + j * (st : Int))) 0)) m p = m p) :=
    fun k m => softmax_slice
      (base + ((k / st : Nat) : Int) * (cnt : Int) * (st : Int) + ((k % st : Nat) : Int))
      (st : Int) hst0 cnt m
  have hd := forLoop_disjoint (R := R) (outer * st) (fun k dst =>
      forInt 0 (cnt : Int) (fun j dst' => Function.update dst'
        (base + ((k / st : Nat) : Int) * (cnt : Int) * (st : Int) + ((k % st : Nat) : Int)
          + j * (st : Int))
        (dst' (base + ((k / st : Nat) : Int) * (cnt : Int) * (st : Int) + ((k % st : Nat) : Int)
            + j * (st : Int))
          / forInt 0 (cnt : Int) (fun j sum => sum
              + dst (base + ((k / st : Nat) : Int) * (cnt : Int) * (st : Int)
                + ((k % st : Nat) : Int) + j * (st : Int))) 0)) dst)
    (fun k p => ∃ j : Nat, j < cnt ∧
      p = base + ((k / st : Nat) : Int) * (cnt : Int) * (st : Int) + ((k % st : Nat) : Int)
        + (j : Int) * (st : Int))
    (by
      intro k _ m p hp
      refine (hbody k m).2 p ?_
      intro j hj he
      exact hp ⟨j, hj, he⟩)
    (by
      rintro k _ m m' hm p ⟨j, hj, rfl⟩
      beta_reduce
      rw [(hbody k m).1 j hj, (hbody k m').1 j hj, hm _ ⟨j, hj, rfl⟩]
      congr 1
      refine Finset.sum_congr rfl (fun l hl => ?_)
      exact hm _ ⟨l, Finset.mem_range.1 hl, rfl⟩)
    (by
      rintro i _ k _ p ⟨j, hj, rfl⟩ ⟨j', hj', he⟩
      have hi : i % st < st := Nat.mod_lt _ (by omega)
      have hk : k % st < st := Nat.mod_lt _ (by omega)
      have h1 := addr_inj st (j + i / st * cnt) (i % st) (j' + k / st * cnt) (k % st) hi hk
        (by simp only [Nat.cast_add, Nat.cast_mul]; linarith)
      have h2 := addr_inj cnt (i / st) j (k / st) j' hj hj' (by exact_mod_cast h1.1)
      have e1 := Nat.div_add_mod i st
      have e2 := Nat.div_add_mod k st
      rw [h2.1, h1.2] at e1
      omega)
  have hi0 : o * st + r < outer * st := by
    have : (o + 1) * st ≤ outer * st := Nat.mul_le_mul_right st ho
    have e : (o + 1) * st = o * st + st := by ring
    omega
  have hdiv : (o * st + r) / st = o := by
    rw [Nat.add_comm, Nat.add_mul_div_right _ _ (by omega), Nat.div_eq_of_lt hr, Nat.zero_add]
  have hmod : (o * st + r) % st = r := by
    rw [Nat.add_comm, Nat.add_mul_mod_self_right, Nat.mod_eq_of_lt hr]
  have ea : ∀ l : Nat, base + ((o : Int) * (cnt : Int) * (st : Int) + (r : Int) + (l : Int) * (st : Int))
      = base + (((o * st + r) / st : Nat) : Int) * (cnt : Int) * (st : Int)
        + (((o * st + r) % st : Nat) : Int) + (l : Int) * (st : Int) := by
    intro l
    rw [hdiv, hmod]
    ring
  rw [ea j, hd.1 (o * st + r) hi0 _ ⟨j, hj, rfl⟩ E]
  beta_reduce
  rw [(hbody (o * st + r) E).1 j hj]
  congr 1
  refine Finset.sum_congr rfl (fun l _ => ?_)
  rw [ea l]

theorem spec_row_major_nil_left (idx : List Int) : spec_row_major [] idx = 0 := by
  cases idx <;> rfl

theorem spec_row_major_nil_right (s : List Int) : spec_row_major s [] = 0 := by
  cases s <;> rfl

theorem in_range_length (s idx : List Int) (h : in_range s idx = true) :
    idx.length = s.length := by
  induction s generalizing idx with
  | nil =>
    cases idx with
    | nil => rfl
    | cons i idx => simp [in_range] at h
  | cons s0 s ih =>
    cases idx with
    | nil => simp [in_range] at h
    | cons i idx =>
      simp only [in_range, Bool.and_eq_true, decide_eq_true_eq] at h
      simp [ih idx h.2]

theorem in_range_take (s idx : List Int) (d : Nat) (h : in_range s idx = true) :
    in_range (s.take d) (idx.take d) = true := by
  induction d generalizing s idx with
  | zero => simp [in_range]
  | succ d ih =>
    cases s with
    | nil =>
      cases idx with
      | nil => simp [in_range]
      | cons i idx => simp [in_range] at h
    | cons s0 s =>
      cases idx with
      | nil => simp [in_range] at h
      | cons i idx =>
        simp only [in_range, Bool.and_eq_true, decide_eq_true_eq] at h
        simp only [List.take_succ_cons, in_range, Bool.and_eq_true, decide_eq_true_eq]
        exact ⟨h.1, ih s idx h.2⟩

theorem in_range_drop (s idx : List Int) (d : Nat) (h : in_range s idx = true) :
    in_range (s.drop d) (idx.drop d) = true := by
  induction d generalizing s idx with
  | zero => simpa using h
  | succ d ih =>
    cases s with
    | nil =>
      cases idx with
      | nil => simp [in_range]
      | cons i idx => simp [in_range] at h
    | cons s0 s =>
      cases idx with
      | nil => simp [in_range] at h
      | cons i idx =>
        simp only [in_range, Bool.and_eq_true, decide_eq_true_eq] at h
        simp only [List.drop_succ_cons]
        exact ih s idx h.2

/-- Replacing the entry `a` of a multi-index in range by `k` with
`0 ≤ k < s[a]` gives a multi-index in range. -/
theorem in_range_set (s idx : List Int) (a : Nat) (k : Int) (h : in_range s idx = true)
    (hk : 0 ≤ k ∧ k < s.getD a 0) : in_range s (idx.set a k) = true := by
  induction s generalizing idx a with
  | nil =>
    cases idx with
    | nil => simp [in_range]
    | cons i idx => simp [in_range] at h
  | cons s0 s ih =>
    cases idx with
    | nil => simp [in_range] at h
    | cons i idx =>
      simp only [in_range, Bool.and_eq_true, decide_eq_true_eq] at h
      cases a with
      | zero =>
        simp only [List.set_cons_zero, in_range, Bool.and_eq_true, decide_eq_true_eq]
        exact ⟨by simpa using hk, h.2⟩
      | succ a =>
        simp only [List.set_cons_succ, in_range, Bool.and_eq_true, decide_eq_true_eq]
        exact ⟨h.1, ih idx a h.2 (by simpa using hk)⟩

/-- The row-major position of a multi-index with the entry `a` replaced by `k`:
the position `o` in the axes before `a`, the entry `k` and the position `r` in
the axes after `a`. -/
theorem spec_row_major_set (s idx : List Int) (a : Nat) (k : Int) (ha : a < s.length)
    (hl : idx.length = s.length) :
    spec_row_major s (idx.set a k)
      = spec_row_major (s.take a) (idx.take a) * (s.getD a 0 * (s.drop (a + 1)).prod)
        + (k * (s.drop (a + 1)).prod + spec_row_major (s.drop (a + 1)) (idx.drop (a + 1))) := by
  induction s generalizing idx a with
  | nil => simp at ha
  | cons s0 s ih =>
    cases idx with
    | nil => simp at hl
    | cons i idx =>
      cases a with
      | zero =>
        simp [spec_row_major, spec_row_major_nil_left]
      | succ a =>
        simp only [List.set_cons_succ, List.take_succ_cons, List.drop_succ_cons, spec_row_major,
          List.getD_cons_succ]
        rw [ih idx a (by simpa using ha) (by simpa using hl),
          ← List.prod_take_mul_prod_drop s a,
          List.drop_eq_getElem_cons (by simpa using ha : a < s.length), List.prod_cons,
          List.getD_eq_getElem _ _ (by simpa using ha : a < s.length)]
        ring

theorem set_getD_self (idx : List Int) (a : Nat) : idx.set a (idx.getD a 0) = idx := by
  induction idx generalizing a with
  | nil => rfl
  | cons i idx ih =>
    cases a with
    | zero => rfl
    | succ a => rw [List.getD_cons_succ, List.set_cons_succ, ih a]

/-- The product loop `for (i = d; i < ndim; ++i) acc *= shape[i]`. -/
theorem forInt_prod_drop (s : List Int) (d : Nat) (hd : d ≤ s.length) :
    forInt (d : Int) (s.length : Int) (fun i acc => acc * s.getD i.toNat 0) 1
      = (s.drop d).prod := by
  unfold forInt
  have e : ((s.length : Int) - (d : Int)).toNat = s.length - d := by omega
  rw [e]
  have e2 : (fun (k : Nat) (acc : Int) => acc * s.getD ((d : Int) + (k : Int)).toNat 0)
      = fun (k : Nat) (acc : Int) => acc * (s.drop d).getD k 0 := by
    funext k acc
    have : ((d : Int) + (k : Int)).toNat = d + k := by omega
    rw [this]
    simp [List.getElem?_drop]
  rw [e2, forLoop_prod_take _ _ (by simp), one_mul]
  rw [List.take_of_length_le (by simp)]

theorem Softmax_apply {R : Type} [Field R] (exp_f : R → R) (axis : Int) (a : Nat)
    (input : tensor R) (fresh : Int → R) (hpos : ∀ e ∈ input.m_shape, 1 ≤ e)
    (ha : a < input.m_shape.length)
    (haxis : axis = (a : Int) ∨ (axis = -1 ∧ a + 1 = input.m_shape.length))
    (idx : List Int) (hidx : in_range input.m_shape idx = true) :
    (Softmax exp_f axis input fresh).elem idx
      = exp_f (input.elem idx)
        / ∑ k in Finset.range (input.m_shape.getD a 0).toNat,
            exp_f (input.elem (idx.set a (k : Int))) := by
  obtain ⟨mp, s, mo, mn⟩ := input
  simp only at hpos ha haxis hidx
  have hax : (if axis = -1 then (s.length : Int) - 1 else axis) = (a : Int) := by
    rcases haxis with h | ⟨h, h2⟩
    · rw [h, if_neg (by omega)]
    · rw [if_pos h]; omega
  have hsa : 1 ≤ s.getD a 0 := by
    rw [List.getD_eq_getElem _ _ ha]; exact hpos _ (List.getElem_mem ha)
  have hdrop : 0 < (s.drop (a + 1)).prod :=
    List.prod_pos (fun e he => by have := hpos e (List.mem_of_mem_drop he); omega)
  have htake : 0 < (s.take a).prod :=
    List.prod_pos (fun e he => by have := hpos e (List.mem_of_mem_take he); omega)
  have hstr : (if axis ≠ -1 then
      forInt ((a : Int) + 1) (s.length : Int) (fun i stride => stride * s.getD i.toNat 0) 1
      else 1) = (s.drop (a + 1)).prod := by
    rcases haxis with h | ⟨h, h2⟩
    · rw [if_pos (by omega)]
      exact_mod_cast forInt_prod_drop s (a + 1) (by omega)
    · rw [if_neg (by omega), List.drop_of_length_le (by omega)]
      rfl
  obtain ⟨cnt, hcnt⟩ : ∃ cnt : Nat, s.getD a 0 = (cnt : Int) :=
    ⟨(s.getD a 0).toNat, (Int.toNat_of_nonneg (by omega)).symm⟩
  obtain ⟨st, hst⟩ : ∃ st : Nat, (s.drop (a + 1)).prod = (st : Int) :=
    ⟨((s.drop (a + 1)).prod).toNat, (Int.toNat_of_nonneg (by omega)).symm⟩
  obtain ⟨outer, hout⟩ : ∃ outer : Nat, (s.take a).prod = (outer : Int) :=
    ⟨((s.take a).prod).toNat, (Int.toNat_of_nonneg (by omega)).symm⟩
  have hsize : (tensor.mk mp s mo mn).size = (outer : Int) * ((cnt : Int) * (st : Int)) := by
    rw [tensor.size_eq_prod, ← hout, ← hcnt, ← hst]
    show s.prod = _
    rw [← List.prod_take_mul_prod_drop s a, List.drop_eq_getElem_cons ha, List.prod_cons,
      List.getD_eq_getElem _ _ ha]
  have hcnt1 : 1 ≤ cnt := by omega
  have hst1 : 1 ≤ st := by omega
  have hinst : ((outer : Int) * ((cnt : Int) * (st : Int))).tdiv (cnt : Int)
      = ((outer * st : Nat) : Int) := by
    have e : (outer : Int) * ((cnt : Int) * (st : Int)) = ((outer * st * cnt : Nat) : Int) := by
      push_cast; ring
    rw [e, natCast_tdiv, Nat.mul_div_cancel _ (by omega)]
  have hEo : (Exp exp_f (tensor.mk mp s mo mn) fresh).m_offset = 0 := rfl
  have hE : ∀ p : Int, 0 ≤ p → p < (outer : Int) * ((cnt : Int) * (st : Int)) →
      (Exp exp_f (tensor.mk mp s mo mn) fresh).m_ptr p = exp_f (mp (mo + p)) := by
    intro p h0 h1
    have hl : 1 ≤ (tensor.mk mp s mo mn).size := by
      rw [hsize]
      have : (1 : Int) ≤ (outer : Int) := by omega
      have : (1 : Int) ≤ (cnt : Int) * (st : Int) := by
        have h1 : (1 : Int) ≤ (cnt : Int) := by omega
        have h2 : (1 : Int) ≤ (st : Int) := by omega
        nlinarith
      nlinarith
    have := POINT_WISE_apply (fun v => exp_f v) (tensor.mk mp s mo mn) fresh hl p
    rw [hsize, if_pos ⟨h0, h1⟩] at this
    exact this
  have hlen := in_range_length s idx hidx
  -- the three parts of the position
  have hidxa : 0 ≤ idx.getD a 0 ∧ idx.getD a 0 < s.getD a 0 := by
    have h1 := in_range_drop s idx a hidx
    rw [List.drop_eq_getElem_cons ha,
      List.drop_eq_getElem_cons (by omega : a < idx.length)] at h1
    simp only [in_range, Bool.and_eq_true, decide_eq_true_eq] at h1
    rw [List.getD_eq_getElem _ _ ha, List.getD_eq_getElem _ _ (by omega : a < idx.length)]
    exact h1.1
  have hob := spec_row_major_bounds _ _ (in_range_take s idx a hidx)
  have hrb := spec_row_major_bounds _ _ (in_range_drop s idx (a + 1) hidx)
  rw [hout] at hob
  rw [hst] at hrb
  rw [hcnt] at hidxa
  obtain ⟨oN, hoN⟩ : ∃ oN : Nat, spec_row_major (s.take a) (idx.take a) = (oN : Int) :=
    ⟨_, (Int.toNat_of_nonneg hob.1).symm⟩
  obtain ⟨rN, hrN⟩ : ∃ rN : Nat, spec_row_major (s.drop (a + 1)) (idx.drop (a + 1)) = (rN : Int) :=
    ⟨_, (Int.toNat_of_nonneg hrb.1).symm⟩
  obtain ⟨jN, hjN⟩ : ∃ jN : Nat, idx.getD a 0 = (jN : Int) :=
    ⟨_, (Int.toNat_of_nonneg hidxa.1).symm⟩
  have hpos_k : ∀ k : Int, spec_row_major s (idx.set a k)
      = (oN : Int) * (cnt : Int) * (st : Int) + (rN : Int) + k * (st : Int) := by
    intro k
    rw [spec_row_major_set s idx a k ha hlen, hcnt, hst, hoN, hrN]
    ring
  have hpos_j : spec_row_major s idx
      = (oN : Int) * (cnt : Int) * (st : Int) + (rN : Int) + (jN : Int) * (st : Int) := by
    rw [← hpos_k, ← hjN, set_getD_self]
  have hbnd : ∀ k : Nat, k < cnt →
      0 ≤ (oN : Int) * (cnt : Int) * (st : Int) + (rN : Int) + (k : Int) * (st : Int) ∧
      (oN : Int) * (cnt : Int) * (st : Int) + (rN : Int) + (k : Int) * (st : Int)
        < (outer : Int) * ((cnt : Int) * (st : Int)) := by
    intro k hk
    have hb := spec_row_major_bounds s (idx.set a (k : Int))
      (in_range_set s idx a k hidx ⟨by omega, by rw [hcnt]; omega⟩)
    rw [hpos_k, ← List.prod_take_mul_prod_drop s a, List.drop_eq_getElem_cons ha, List.prod_cons,
      ← List.getD_eq_getElem _ 0 ha, hout, hcnt, hst] at hb
    exact hb
  have hEs : (Exp exp_f (tensor.mk mp s mo mn) fresh).m_shape = s := rfl
  have hoN' : oN < outer := by omega
  have hrN' : rN < st := by omega
  have hjN' : jN < cnt := by omega
  unfold Softmax
  simp only [hax, Int.toNat_natCast, hstr, hcnt, hst, hsize, tensor.elem, hEo, hEs, hinst]
  rw [forInt_zero, Int.toNat_natCast, hpos_j,
    softmax_loop outer cnt st 0 _ oN jN rN hoN' hjN' hrN']
  simp only [zero_add]
  rw [hE _ (hbnd jN hjN').1 (hbnd jN hjN').2]
  congr 1
  refine Finset.sum_congr rfl (fun k hk => ?_)
  have hk' := Finset.mem_range.1 hk
  rw [hE _ (hbnd k hk').1 (hbnd k hk').2, hpos_k]

/-! ## Concat lemmas -/

/-- The shape loop of `Concat`: after `n` iterations the first `n` entries are
set, unless two sizes off the axis differ. -/
theorem concat_shape_loop (sa sb : List Int) (axis : Int) (D n : Nat) (hn : n ≤ D) :
    forLoop n (fun i rs => rs.bind (fun result_shape : List Int =>
      if (i : Int) = axis then some (result_shape.set i (sa.getD i 0 + sb.getD i 0))
      else if sa.getD i 0 ≠ sb.getD i 0 then none
      else some (result_shape.set i (sa.getD i 0)))) (some (List.replicate D 0))
    = if ∀ i, i < n → (i : Int) ≠ axis → sa.getD i 0 = sb.getD i 0 then
        some ((List.range D).map (fun i => if i < n then
          (if (i : Int) = axis then sa.getD i 0 + sb.getD i 0 else sa.getD i 0) else 0))
      else none := by
  induction n with
  | zero =>
    rw [if_pos (fun i hi => absurd hi (Nat.not_lt_zero i))]
    simp only [forLoop, Nat.not_lt_zero, if_false]
    congr 1
    apply List.ext_getElem?
    intro j
    by_cases hj : j < D
    · simp [List.getElem?_map, List.getElem?_range hj, List.getElem?_replicate, hj]
    · rw [List.getElem?_eq_none (by simp; omega), List.getElem?_eq_none (by simp; omega)]
  | succ n ih =>
    rw [forLoop_succ, ih (by omega)]
    by_cases hall : ∀ i, i < n → (i : Int) ≠ axis → sa.getD i 0 = sb.getD i 0
    · rw [if_pos hall, Option.some_bind]
      by_cases hax : (n : Int) = axis
      · rw [if_pos hax, if_pos (fun i hi hne => by
          rcases Nat.lt_succ_iff_lt_or_eq.1 hi with h | h
          · exact hall i h hne
          · subst h; exact absurd hax hne)]
        congr 1
        have := reshape_set_step (fun i => if (i : Int) = axis then sa.getD i 0 + sb.getD i 0
          else sa.getD i 0) D n (by omega)
        simp only [if_pos hax] at this
        exact this
      · rw [if_neg hax]
        by_cases hne : sa.getD n 0 ≠ sb.getD n 0
        · rw [if_pos hne, if_neg (fun h => hne (h n (Nat.lt_succ_self n) hax))]
        · rw [if_neg hne, if_pos (fun i hi hne' => by
            rcases Nat.lt_succ_iff_lt_or_eq.1 hi with h | h
            · exact hall i h hne'
            · subst h; exact not_not.1 hne)]
          congr 1
          have := reshape_set_step (fun i => if (i : Int) = axis then sa.getD i 0 + sb.getD i 0
            else sa.getD i 0) D n (by omega)
          simp only [if_neg hax] at this
          exact this
    · rw [if_neg hall, Option.none_bind, if_neg (fun h => hall (fun i hi => h i (by omega)))]

/-- A list that agrees with `sa` off the position `ax`. -/
theorem eq_set_of_agree (sa sb : List Int) (ax : Nat) (hlen : sb.length = sa.length)
    (h : ∀ i, i ≠ ax → sb.getD i 0 = sa.getD i 0) : sb = sa.set ax (sb.getD ax 0) := by
  apply List.ext_getElem?
  intro j
  by_cases hjl : j < sa.length
  · rw [List.getElem?_set]
    by_cases hj : ax = j
    · subst hj
      rw [if_pos rfl, if_pos hjl, List.getElem?_eq_getElem (by omega),
        List.getD_eq_getElem _ _ (by omega)]
    · rw [if_neg hj]
      have := h j (fun e => hj e.symm)
      rw [List.getD_eq_getElem _ _ (by omega), List.getD_eq_getElem _ _ hjl] at this
      rw [List.getElem?_eq_getElem (by omega), List.getElem?_eq_getElem hjl, this]
  · rw [List.getElem?_eq_none (by omega), List.getElem?_eq_none (by simp; omega)]

/-- The shape `Concat` computes is the shape of `a` with the size on the axis
replaced. -/
theorem concat_shape_eq (sa sb : List Int) (ax : Nat) :
    (List.range sa.length).map (fun i => if i < sa.length then
        (if (i : Int) = (ax : Int) then sa.getD i 0 + sb.getD i 0 else sa.getD i 0) else 0)
      = sa.set ax (sa.getD ax 0 + sb.getD ax 0) := by
  apply List.ext_getElem?
  intro j
  by_cases hjl : j < sa.length
  · rw [List.getElem?_set, List.getElem?_map, List.getElem?_range hjl, Option.map_some',
      if_pos hjl]
    by_cases hj : ax = j
    · subst hj
      rw [if_pos rfl, if_pos rfl, if_pos hjl]
    · rw [if_neg hj, if_neg (by omega), List.getElem?_eq_getElem hjl,
        List.getD_eq_getElem _ _ hjl]
  · rw [List.getElem?_eq_none (by simp; omega), List.getElem?_eq_none (by simp; omega)]

theorem take_set_self (s : List Int) (ax : Nat) (v : Int) : (s.set ax v).take ax = s.take ax := by
  induction s generalizing ax with
  | nil => simp
  | cons x s ih =>
    cases ax with
    | zero => simp
    | succ ax => simp [ih ax]

theorem drop_set_succ (s : List Int) (ax : Nat) (v : Int) :
    (s.set ax v).drop (ax + 1) = s.drop (ax + 1) := by
  induction s generalizing ax with
  | nil => simp
  | cons x s ih =>
    cases ax with
    | zero => simp
    | succ ax => simp [ih ax]

theorem getD_set_self (s : List Int) (ax : Nat) (v : Int) (h : ax < s.length) :
    (s.set ax v).getD ax 0 = v := by
  rw [List.getD_eq_getElem _ _ (by simpa using h)]
  simp

/-- The product loop `for (i = 0; i < d; ++i) acc *= shape[i]`. -/
theorem forInt_prod_take (s : List Int) (d : Nat) (hd : d ≤ s.length) :
    forInt 0 (d : Int) (fun i acc => acc * s.getD i.toNat 0) 1 = (s.take d).prod := by
  rw [forInt_zero, Int.toNat_natCast]
  simp only [Int.toNat_natCast]
  rw [forLoop_prod_take s d hd, one_mul]

/-- The entry `a` of a multi-index in range is inside the axis `a`. -/
theorem in_range_getD (s idx : List Int) (a : Nat) (h : in_range s idx = true)
    (ha : a < s.length) : 0 ≤ idx.getD a 0 ∧ idx.getD a 0 < s.getD a 0 := by
  have hl := in_range_length s idx h
  have h1 := in_range_drop s idx a h
  rw [List.drop_eq_getElem_cons ha,
    List.drop_eq_getElem_cons (by omega : a < idx.length)] at h1
  simp only [in_range, Bool.and_eq_true, decide_eq_true_eq] at h1
  rw [List.getD_eq_getElem _ _ ha, List.getD_eq_getElem _ _ (by omega : a < idx.length)]
  exact h1.1

/-- The row-major position of a multi-index split at the axis `a`. -/
theorem spec_row_major_split (s idx : List Int) (a : Nat) (ha : a < s.length)
    (hl : idx.length = s.length) :
    spec_row_major s idx
      = spec_row_major (s.take a) (idx.take a) * (s.getD a 0 * (s.drop (a + 1)).prod)
        + (idx.getD a 0 * (s.drop (a + 1)).prod
          + spec_row_major (s.drop (a + 1)) (idx.drop (a + 1))) := by
  have := spec_row_major_set s idx a (idx.getD a 0) ha hl
  rw [set_getD_self] at this
  exact this

/-- The function `Concat` along an explicit axis `ax`: shape and elements. -/
theorem Concat_explicit {R : Type} (ax : Nat) (a b : tensor R) (fresh : Int → R)
    (hax : ax < a.m_shape.length) (hlen : b.m_shape.length = a.m_shape.length)
    (hpa : ∀ e ∈ a.m_shape, 1 ≤ e) (hpb : ∀ e ∈ b.m_shape, 1 ≤ e)
    (hagree : ∀ i, i ≠ ax → b.m_shape.getD i 0 = a.m_shape.getD i 0) :
    ∃ out : tensor R, Concat (ax : Int) a b fresh = some out ∧
      out.m_shape = a.m_shape.set ax (a.m_shape.getD ax 0 + b.m_shape.getD ax 0) ∧
      ∀ idx, in_range out.m_shape idx = true →
        out.elem idx = if idx.getD ax 0 < a.m_shape.getD ax 0 then a.elem idx
          else b.elem (idx.set ax (idx.getD ax 0 - a.m_shape.getD ax 0)) := by
  obtain ⟨ap, sa, ao, an⟩ := a
  obtain ⟨bp, sb, bo, bn⟩ := b
  simp only at hax hlen hpa hpb hagree
  have hsb := eq_set_of_agree sa sb ax hlen hagree
  have hcb1 : 1 ≤ sb.getD ax 0 := by
    rw [List.getD_eq_getElem _ _ (by omega)]; exact hpb _ (List.getElem_mem _)
  have hca1 : 1 ≤ sa.getD ax 0 := by
    rw [List.getD_eq_getElem _ _ hax]; exact hpa _ (List.getElem_mem _)
  obtain ⟨cb, hcb⟩ : ∃ cb : Nat, sb.getD ax 0 = (cb : Int) :=
    ⟨(sb.getD ax 0).toNat, (Int.toNat_of_nonneg (by omega)).symm⟩
  obtain ⟨ca, hca⟩ : ∃ ca : Nat, sa.getD ax 0 = (ca : Int) :=
    ⟨(sa.getD ax 0).toNat, (Int.toNat_of_nonneg (by omega)).symm⟩
  have hdrop : 0 < (sa.drop (ax + 1)).prod :=
    List.prod_pos (fun e he => by have := hpa e (List.mem_of_mem_drop he); omega)
  have htake : 0 < (sa.take ax).prod :=
    List.prod_pos (fun e he => by have := hpa e (List.mem_of_mem_take he); omega)
  obtain ⟨st, hst⟩ : ∃ st : Nat, (sa.drop (ax + 1)).prod = (st : Int) :=
    ⟨((sa.drop (ax + 1)).prod).toNat, (Int.toNat_of_nonneg (by omega)).symm⟩
  obtain ⟨outer, hout⟩ : ∃ outer : Nat, (sa.take ax).prod = (outer : Int) :=
    ⟨((sa.take ax).prod).toNat, (Int.toNat_of_nonneg (by omega)).symm⟩
  have hprodA : sa.prod = (outer : Int) * ((ca : Int) * (st : Int)) := by
    rw [← hout, ← hca, ← hst, ← List.prod_take_mul_prod_drop sa ax,
      List.drop_eq_getElem_cons hax, List.prod_cons, List.getD_eq_getElem _ _ hax]
  have hprodB : sb.prod = (outer : Int) * ((cb : Int) * (st : Int)) := by
    rw [hsb, ← List.prod_take_mul_prod_drop _ ax,
      List.drop_eq_getElem_cons (by simpa using hax), List.prod_cons, take_set_self,
      drop_set_succ, hout, hst, List.getElem_set_self, hcb]
  have hsizeA : (tensor.mk ap sa ao an).size = (outer : Int) * ((ca : Int) * (st : Int)) := by
    rw [tensor.size_eq_prod]; exact hprodA
  have hsizeB : (tensor.mk bp sb bo bn).size = (outer : Int) * ((cb : Int) * (st : Int)) := by
    rw [tensor.size_eq_prod]; exact hprodB
  have hshape := concat_shape_loop sa sb (ax : Int) sa.length sa.length (le_refl _)
  rw [if_pos (fun i _ hne => (hagree i (by omega)).symm), concat_shape_eq] at hshape
  have hbc := forInt_prod_take sa ax (by omega)
  rw [hout] at hbc
  have ho0 : (outer : Int) ≠ 0 := by omega
  have hsA : ((outer : Int) * ((ca : Int) * (st : Int))).tdiv (outer : Int)
      = (ca : Int) * (st : Int) := Int.mul_tdiv_cancel_left _ ho0
  have hsB : ((outer : Int) * ((cb : Int) * (st : Int))).tdiv (outer : Int)
      = (cb : Int) * (st : Int) := Int.mul_tdiv_cancel_left _ ho0
  have hC : Concat (ax : Int) ⟨ap, sa, ao, an⟩ ⟨bp, sb, bo, bn⟩ fresh = some
      { m_ptr := forLoop outer (fun i dst =>
          memcpy (memcpy dst (0 + ((ca : Int) * (st : Int) + (cb : Int) * (st : Int)) * (i : Int))
            ap (ao + (ca : Int) * (st : Int) * (i : Int)) ((ca : Int) * (st : Int)))
            (0 + ((ca : Int) * (st : Int) + (cb : Int) * (st : Int)) * (i : Int)
              + (ca : Int) * (st : Int))
            bp (bo + (cb : Int) * (st : Int) * (i : Int)) ((cb : Int) * (st : Int))) fresh,
        m_shape := sa.set ax (sa.getD ax 0 + sb.getD ax 0), m_offset := 0, m_null := false } := by
    unfold Concat
    simp only [hshape, Option.some_bind, hbc, hsizeA, hsizeB, hsA, hsB, forInt_zero,
      Int.toNat_natCast]
    rfl
  refine ⟨_, hC, rfl, ?_⟩
  intro idx hidx
  simp only at hidx
  have hlr : (sa.set ax (sa.getD ax 0 + sb.getD ax 0)).length = sa.length := by simp
  have hlenI := in_range_length _ idx hidx
  rw [hlr] at hlenI
  have hidxa := in_range_getD _ idx ax hidx (by omega)
  rw [getD_set_self _ _ _ hax, hca, hcb] at hidxa
  have hob := spec_row_major_bounds _ _ (in_range_take _ idx ax hidx)
  have hrb := spec_row_major_bounds _ _ (in_range_drop _ idx (ax + 1) hidx)
  rw [take_set_self, hout] at hob
  rw [drop_set_succ, hst] at hrb
  obtain ⟨oN, hoN⟩ : ∃ oN : Nat, spec_row_major (sa.take ax) (idx.take ax) = (oN : Int) :=
    ⟨_, (Int.toNat_of_nonneg hob.1).symm⟩
  obtain ⟨rN, hrN⟩ : ∃ rN : Nat,
      spec_row_major (sa.drop (ax + 1)) (idx.drop (ax + 1)) = (rN : Int) :=
    ⟨_, (Int.toNat_of_nonneg hrb.1).symm⟩
  obtain ⟨jN, hjN⟩ : ∃ jN : Nat, idx.getD ax 0 = (jN : Int) :=
    ⟨_, (Int.toNat_of_nonneg hidxa.1).symm⟩
  rw [hoN] at hob
  rw [hrN] at hrb
  rw [hjN] at hidxa
  have hposR : spec_row_major (sa.set ax (sa.getD ax 0 + sb.getD ax 0)) idx
      = (oN : Int) * ((ca : Int) * (st : Int) + (cb : Int) * (st : Int))
        + ((jN : Int) * (st : Int) + (rN : Int)) := by
    rw [spec_row_major_split _ idx ax (by omega) (by omega), take_set_self, drop_set_succ,
      getD_set_self _ _ _ hax, hca, hcb, hst, hoN, hrN, hjN]
    ring
  have hposA : spec_row_major sa idx
      = (oN : Int) * ((ca : Int) * (st : Int)) + ((jN : Int) * (st : Int) + (rN : Int)) := by
    rw [spec_row_major_split sa idx ax hax hlenI, hca, hst, hoN, hrN, hjN]
  have htakeB : sb.take ax = sa.take ax := by rw [hsb, take_set_self]
  have hdropB : sb.drop (ax + 1) = sa.drop (ax + 1) := by rw [hsb, drop_set_succ]
  have hposB : ∀ k : Int, spec_row_major sb (idx.set ax k)
      = (oN : Int) * ((cb : Int) * (st : Int)) + (k * (st : Int) + (rN : Int)) := by
    intro k
    rw [spec_row_major_set sb idx ax k (by omega) (by omega), htakeB, hdropB, hcb, hst, hoN, hrN]
  have hSR : (0 : Int) ≤ (ca : Int) * (st : Int) + (cb : Int) * (st : Int) := by positivity
  have hblk := (forLoop_block outer ((ca : Int) * (st : Int) + (cb : Int) * (st : Int)) hSR 0
    (fun i dst =>
      memcpy (memcpy dst (0 + ((ca : Int) * (st : Int) + (cb : Int) * (st : Int)) * (i : Int))
        ap (ao + (ca : Int) * (st : Int) * (i : Int)) ((ca : Int) * (st : Int)))
        (0 + ((ca : Int) * (st : Int) + (cb : Int) * (st : Int)) * (i : Int)
          + (ca : Int) * (st : Int))
        bp (bo + (cb : Int) * (st : Int) * (i : Int)) ((cb : Int) * (st : Int)))
    (by
      intro n _ m p hp
      simp only [memcpy]
      have e : ((n : Int) + 1) * ((ca : Int) * (st : Int) + (cb : Int) * (st : Int))
          = (n : Int) * ((ca : Int) * (st : Int) + (cb : Int) * (st : Int))
            + ((ca : Int) * (st : Int) + (cb : Int) * (st : Int)) := by ring
      have e2 : ((ca : Int) * (st : Int) + (cb : Int) * (st : Int)) * (n : Int)
          = (n : Int) * ((ca : Int) * (st : Int) + (cb : Int) * (st : Int)) := by ring
      have h0 : (0 : Int) ≤ (ca : Int) * (st : Int) := by positivity
      have h0b : (0 : Int) ≤ (cb : Int) * (st : Int) := by positivity
      rw [e] at hp
      rw [e2]
      rw [if_neg (by omega), if_neg (by omega)])).2 oN (by omega)
  have hjst : (jN : Int) * (st : Int) + (rN : Int) < ((jN : Int) + 1) * (st : Int) := by
    have : ((jN : Int) + 1) * (st : Int) = (jN : Int) * (st : Int) + (st : Int) := by ring
    omega
  have hj0 : (0 : Int) ≤ (jN : Int) * (st : Int) + (rN : Int) := by positivity
  have hjtot : ((jN : Int) + 1) * (st : Int) ≤ ((ca : Int) + (cb : Int)) * (st : Int) :=
    mul_le_mul_of_nonneg_right (by omega) (by omega)
  have e2 : ((ca : Int) * (st : Int) + (cb : Int) * (st : Int)) * (oN : Int)
      = (oN : Int) * ((ca : Int) * (st : Int) + (cb : Int) * (st : Int)) := by ring
  simp only [tensor.elem]
  rw [hposR, hposA, hca, hjN]
  by_cases hj : (jN : Int) < (ca : Int)
  · rw [if_pos hj]
    refine hblk _ _ (by omega) ?_ ?_ fresh
    · have : ((oN : Int) + 1) * ((ca : Int) * (st : Int) + (cb : Int) * (st : Int))
          = (oN : Int) * ((ca : Int) * (st : Int) + (cb : Int) * (st : Int))
            + ((ca : Int) + (cb : Int)) * (st : Int) := by ring
      omega
    · intro m
      have hja : ((jN : Int) + 1) * (st : Int) ≤ (ca : Int) * (st : Int) :=
        mul_le_mul_of_nonneg_right (by omega) (by omega)
      simp only [memcpy]
      rw [e2, if_neg (by omega), if_pos (by omega)]
      congr 1
      ring
  · rw [if_neg hj, hposB]
    refine hblk _ _ (by omega) ?_ ?_ fresh
    · have : ((oN : Int) + 1) * ((ca : Int) * (st : Int) + (cb : Int) * (st : Int))
          = (oN : Int) * ((ca : Int) * (st : Int) + (cb : Int) * (st : Int))
            + ((ca : Int) + (cb : Int)) * (st : Int) := by ring
      omega
    · intro m
      have hja : (ca : Int) * (st : Int) ≤ (jN : Int) * (st : Int) :=
        mul_le_mul_of_nonneg_right (by omega) (by omega)
      have hjb : ((ca : Int) + (cb : Int)) * (st : Int)
          = (ca : Int) * (st : Int) + (cb : Int) * (st : Int) := by ring
      simp only [memcpy]
      rw [e2, if_pos (by omega)]
      congr 1
      ring

/-- The function `Concat` on shapes that differ off the axis: the `assert`
fails. -/
theorem Concat_mismatch {R : Type} (axis : Int) (a b : tensor R) (fresh : Int → R)
    (h : ∃ i, i < a.m_shape.length ∧ (i : Int) ≠ axis ∧ a.m_shape.getD i 0 ≠ b.m_shape.getD i 0) :
    Concat axis a b fresh = none := by
  obtain ⟨i, hi, hne, hd⟩ := h
  unfold Concat
  simp only [concat_shape_loop a.m_shape b.m_shape axis a.m_shape.length a.m_shape.length
    (le_refl _)]
  rw [if_neg (fun hall => hd (hall i hi hne))]
  rfl

/-! ## Gather lemmas -/

/-- The row-major position of a concatenated multi-index. -/
theorem spec_row_major_append (s1 s2 i1 i2 : List Int) (h : i1.length = s1.length) :
    spec_row_major (s1 ++ s2) (i1 ++ i2)
      = spec_row_major s1 i1 * s2.prod + spec_row_major s2 i2 := by
  induction s1 generalizing i1 with
  | nil =>
    cases i1 with
    | nil => simp [spec_row_major_nil_left]
    | cons a i1 => simp at h
  | cons a s1 ih =>
    cases i1 with
    | nil => simp at h
    | cons b i1 =>
      show b * (s1 ++ s2).prod + spec_row_major (s1 ++ s2) (i1 ++ i2) = _
      rw [ih i1 (by simpa using h), List.prod_append]
      simp only [spec_row_major]
      ring

/-- A concatenated multi-index is in range when both parts are. -/
theorem in_range_append (s1 s2 i1 i2 : List Int) (h1 : in_range s1 i1 = true)
    (h2 : in_range s2 i2 = true) : in_range (s1 ++ s2) (i1 ++ i2) = true := by
  induction s1 generalizing i1 with
  | nil =>
    cases i1 with
    | nil => simpa using h2
    | cons a i1 => simp [in_range] at h1
  | cons a s1 ih =>
    cases i1 with
    | nil => simp [in_range] at h1
    | cons b i1 =>
      simp only [in_range, Bool.and_eq_true, decide_eq_true_eq] at h1
      simp only [List.cons_append, in_range, Bool.and_eq_true, decide_eq_true_eq]
      exact ⟨h1.1, ih i1 h1.2⟩

/-- A shape that has a multi-index in range has a positive product. -/
theorem in_range_prod_pos (s idx : List Int) (h : in_range s idx = true) : 0 < s.prod := by
  induction s generalizing idx with
  | nil => simp
  | cons a s ih =>
    cases idx with
    | nil => simp [in_range] at h
    | cons b idx =>
      simp only [in_range, Bool.and_eq_true, decide_eq_true_eq] at h
      rw [List.prod_cons]
      exact mul_pos (by omega) (ih idx h.2)

theorem forLoop_set_length (f : Nat → Int) (off n : Nat) (l : List Int) :
    (forLoop n (fun k l => l.set (off + k) (f k)) l).length = l.length := by
  induction n with
  | zero => rfl
  | succ n ih => rw [forLoop_succ, List.length_set, ih]

/-- A loop that stores `f k` at the position `off + k` of an array. -/
theorem forLoop_set_getElem? (f : Nat → Int) (off n : Nat) (l : List Int) (j : Nat) :
    (forLoop n (fun k l => l.set (off + k) (f k)) l)[j]?
      = if off ≤ j ∧ j < off + n ∧ j < l.length then some (f (j - off)) else l[j]? := by
  induction n with
  | zero =>
    rw [if_neg (by omega)]
    rfl
  | succ n ih =>
    rw [forLoop_succ, List.getElem?_set, forLoop_set_length, ih]
    by_cases h : off + n = j
    · rw [if_pos h]
      by_cases hl : off + n < l.length
      · rw [if_pos hl, if_pos (by omega)]
        congr 2
        omega
      · rw [if_neg hl, if_neg (by omega), List.getElem?_eq_none (by omega)]
    · rw [if_neg h]
      by_cases h2 : off ≤ j ∧ j < off + n ∧ j < l.length
      · rw [if_pos h2, if_pos (by omega)]
      · rw [if_neg h2, if_neg (by omega)]

/-- The shape loops of `Gather`. -/
theorem gather_shape (sx si : List Int) (ax : Nat) (hax : ax < sx.length) (hr : 1 ≤ si.length) :
    forInt 0 (sx.length : Int) (fun i result_shape =>
      if i ≠ (ax : Int) then
        result_shape.set (i + (si.length : Int) - 1).toNat (sx.getD i.toNat 0)
      else if si.length > 0 then
        result_shape.set (i + (si.length : Int) - 1).toNat (si.getD (si.length - 1) 0)
      else result_shape)
      (forInt 0 ((si.length : Int) - 1) (fun i result_shape =>
        result_shape.set i.toNat (si.getD i.toNat 0))
        (List.replicate (sx.length + si.length - 1) (0 : Int)))
    = si.take (si.length - 1)
        ++ (sx.take ax ++ si.getD (si.length - 1) 0 :: sx.drop (ax + 1)) := by
  have e1 : ((si.length : Int) - 1).toNat = si.length - 1 := by omega
  rw [forInt_zero, forInt_zero, Int.toNat_natCast, e1]
  have b1 : (fun (k : Nat) (result_shape : List Int) =>
      result_shape.set ((k : Int)).toNat (si.getD ((k : Int)).toNat 0))
      = fun (k : Nat) (l : List Int) => l.set (0 + k) (si.getD k 0) := by
    funext k l
    simp
  have b2 : (fun (k : Nat) (result_shape : List Int) =>
      if (k : Int) ≠ (ax : Int) then
        result_shape.set ((k : Int) + (si.length : Int) - 1).toNat (sx.getD ((k : Int)).toNat 0)
      else if si.length > 0 then
        result_shape.set ((k : Int) + (si.length : Int) - 1).toNat (si.getD (si.length - 1) 0)
      else result_shape)
      = fun (k : Nat) (l : List Int) => l.set ((si.length - 1) + k)
          (if k = ax then si.getD (si.length - 1) 0 else sx.getD k 0) := by
    funext k l
    have e : ((k : Int) + (si.length : Int) - 1).toNat = (si.length - 1) + k := by omega
    rw [e, Int.toNat_natCast]
    by_cases h : k = ax
    · rw [if_neg (by simp [h]), if_pos (by omega), if_pos h]
    · rw [if_pos (by exact_mod_cast h), if_neg h]
  rw [b1, b2]
  apply List.ext_getElem?
  intro j
  rw [forLoop_set_getElem?, forLoop_set_length, forLoop_set_getElem?, List.length_replicate]
  by_cases hj1 : j < si.length - 1
  · rw [if_neg (by omega), if_pos (by omega), List.getElem?_append_left (by simp; omega),
      List.getElem?_take_of_lt hj1, List.getElem?_eq_getElem (by omega),
      List.getD_eq_getElem _ _ (by omega)]
    simp
  · obtain ⟨t, rfl⟩ : ∃ t, j = (si.length - 1) + t := ⟨j - (si.length - 1), by omega⟩
    have el : (si.length - 1 + t) - (List.take (si.length - 1) si).length = t := by
      simp only [List.length_take]; omega
    have et : si.length - 1 + t - (si.length - 1) = t := by omega
    rw [List.getElem?_append_right (by simp only [List.length_take]; omega), el, et]
    by_cases hj2 : t < sx.length
    · rw [if_pos (by omega)]
      by_cases hj3 : t < ax
      · rw [if_neg (by omega), List.getElem?_append_left (by simp only [List.length_take]; omega),
          List.getElem?_take_of_lt hj3, List.getElem?_eq_getElem (by omega),
          List.getD_eq_getElem _ _ (by omega)]
      · obtain ⟨d, rfl⟩ : ∃ d, t = ax + d := ⟨t - ax, by omega⟩
        have el2 : ax + d - (List.take ax sx).length = d := by
          simp only [List.length_take]; omega
        rw [List.getElem?_append_right (by simp only [List.length_take]; omega), el2]
        cases d with
        | zero => rw [if_pos (Nat.add_zero ax), List.getElem?_cons_zero]
        | succ d =>
          rw [if_neg (by omega), List.getElem?_cons_succ, List.getElem?_drop,
            List.getD_eq_getElem _ _ (by omega), List.getElem?_eq_getElem (by omega)]
          congr 2
          omega
    · rw [if_neg (by omega), if_neg (by omega), List.getElem?_eq_none (by simp; omega),
        List.getElem?_eq_none (by simp; omega)]

/-- Three nested loops that copy one run of `nB` cells per iteration `(i, j, k)`
into consecutive blocks: the cell `b` of the block `(i, j, k)` holds the cell
`b` of the run copied by that iteration. -/
theorem nest3_memcpy {R : Type} (nI nJ nK nB : Nat) (base : Int) (src : Int → R)
    (S : Nat → Nat → Nat → Int) (fresh : Int → R)
    (i j k : Nat) (hi : i < nI) (hj : j < nJ) (hk : k < nK) (b : Int) (hb0 : 0 ≤ b)
    (hb1 : b < (nB : Int)) :
    forLoop nI (fun i dst => forLoop nJ (fun j dst => forLoop nK (fun k dst =>
      memcpy dst (base + ((nB : Int) * (nK : Int) * (nJ : Int) * (i : Int)
        + (nB : Int) * (nK : Int) * (j : Int) + (nB : Int) * (k : Int))) src (S i j k) (nB : Int))
      dst) dst) fresh
      (base + ((nB : Int) * (nK : Int) * (nJ : Int) * (i : Int)
        + (nB : Int) * (nK : Int) * (j : Int) + (nB : Int) * (k : Int) + b))
      = src (S i j k + b) := by
  have hB0 : (0 : Int) ≤ (nB : Int) := by positivity
  have hBK0 : (0 : Int) ≤ (nB : Int) * (nK : Int) := by positivity
  have hBKJ0 : (0 : Int) ≤ (nB : Int) * (nK : Int) * (nJ : Int) := by positivity
  have inner := fun (i j : Nat) => forLoop_block nK (nB : Int) hB0
    (base + ((nB : Int) * (nK : Int) * (nJ : Int) * (i : Int) + (nB : Int) * (nK : Int) * (j : Int)))
    (fun k dst => memcpy dst (base + ((nB : Int) * (nK : Int) * (nJ : Int) * (i : Int)
        + (nB : Int) * (nK : Int) * (j : Int) + (nB : Int) * (k : Int))) src (S i j k) (nB : Int))
    (by
      intro k _ m p hp
      simp only [memcpy]
      rw [if_neg]
      rintro ⟨h1, h2⟩
      rcases hp with h | h
      · linarith
      · linarith)
  have middle := fun (i : Nat) => forLoop_block nJ ((nB : Int) * (nK : Int)) hBK0
    (base + (nB : Int) * (nK : Int) * (nJ : Int) * (i : Int))
    (fun j dst => forLoop nK (fun k dst =>
      memcpy dst (base + ((nB : Int) * (nK : Int) * (nJ : Int) * (i : Int)
        + (nB : Int) * (nK : Int) * (j : Int) + (nB : Int) * (k : Int))) src (S i j k) (nB : Int))
      dst)
    (by
      intro j _ m p hp
      refine (inner i j).1 m p ?_
      rcases hp with h | h
      · left; linarith
      · right; linarith)
  have outer := forLoop_block nI ((nB : Int) * (nK : Int) * (nJ : Int)) hBKJ0 base
    (fun i dst => forLoop nJ (fun j dst => forLoop nK (fun k dst =>
      memcpy dst (base + ((nB : Int) * (nK : Int) * (nJ : Int) * (i : Int)
        + (nB : Int) * (nK : Int) * (j : Int) + (nB : Int) * (k : Int))) src (S i j k) (nB : Int))
      dst) dst)
    (by
      intro i _ m p hp
      refine (middle i).1 m p ?_
      rcases hp with h | h
      · left; linarith
      · right; linarith)
  have hk1 : (nB : Int) * ((k : Int) + 1) ≤ (nB : Int) * (nK : Int) :=
    mul_le_mul_of_nonneg_left (by omega) hB0
  have hj1 : (nB : Int) * (nK : Int) * ((j : Int) + 1) ≤ (nB : Int) * (nK : Int) * (nJ : Int) :=
    mul_le_mul_of_nonneg_left (by omega) hBK0
  have hk0 : (0 : Int) ≤ (nB : Int) * (k : Int) := by positivity
  have hj0 : (0 : Int) ≤ (nB : Int) * (nK : Int) * (j : Int) := by positivity
  refine outer.2 i hi _ _ (by linarith) (by linarith) ?_ fresh
  intro m
  refine (middle i).2 j hj _ _ (by linarith) (by linarith) ?_ m
  intro m
  refine (inner i j).2 k hk _ _ (by linarith) (by linarith) ?_ m
  intro m
  simp only [memcpy]
  rw [if_pos ⟨by linarith, by linarith⟩]
  congr 1
  ring

/-- A shape split at the axis `a`. -/
theorem shape_split (s : List Int) (a : Nat) (ha : a < s.length) :
    s = s.take a ++ s.getD a 0 :: s.drop (a + 1) := by
  rw [List.getD_eq_getElem _ _ ha, ← List.drop_eq_getElem_cons ha, List.take_append_drop]

/-- A shape of rank at least 1 split before its last axis. -/
theorem shape_split_last (s : List Int) (hr : 1 ≤ s.length) :
    s = s.take (s.length - 1) ++ [s.getD (s.length - 1) 0] := by
  have h := shape_split s (s.length - 1) (by omega)
  have e : s.length - 1 + 1 = s.length := by omega
  rw [e, List.drop_length] at h
  exact h

/-- The function `Gather` with a tensor of indices of rank at least 1: the
shape of the result, and its element `(I, J, k, B)` as the element
`(J, idx[I, k], B)` of `x`. -/
theorem Gather_apply {R : Type} (x : tensor R) (idx : tensor Int) (ax : Nat) (fresh : Int → R)
    (hax : ax < x.m_shape.length) (hr : 1 ≤ idx.m_shape.length) :
    (Gather x idx (ax : Int) fresh).m_shape
      = idx.m_shape.take (idx.m_shape.length - 1)
        ++ (x.m_shape.take ax
          ++ idx.m_shape.getD (idx.m_shape.length - 1) 0 :: x.m_shape.drop (ax + 1)) ∧
    ∀ (I J B : List Int) (k : Int),
      in_range (idx.m_shape.take (idx.m_shape.length - 1)) I = true →
      in_range (x.m_shape.take ax) J = true →
      0 ≤ k → k < idx.m_shape.getD (idx.m_shape.length - 1) 0 →
      in_range (x.m_shape.drop (ax + 1)) B = true →
      in_range idx.m_shape (I ++ [k]) = true ∧
      (Gather x idx (ax : Int) fresh).elem (I ++ (J ++ k :: B))
        = x.elem (J ++ idx.elem (I ++ [k]) :: B) := by
  obtain ⟨xp, sx, xo, xn⟩ := x
  obtain ⟨ip, si, io, inn⟩ := idx
  simp only at hax hr
  have hshape : (Gather ⟨xp, sx, xo, xn⟩ ⟨ip, si, io, inn⟩ (ax : Int) fresh).m_shape
      = si.take (si.length - 1) ++ (sx.take ax ++ si.getD (si.length - 1) 0 :: sx.drop (ax + 1)) :=
    gather_shape sx si ax hax hr
  refine ⟨hshape, ?_⟩
  intro I J B k hI hJ hk0 hk1 hB
  simp only at hI hJ hk1 hB
  have hsx := shape_split sx ax hax
  have hsi := shape_split_last si hr
  have hkr : in_range [si.getD (si.length - 1) 0] [k] = true := by
    simp only [in_range, Bool.and_true, decide_eq_true_eq]
    exact ⟨hk0, hk1⟩
  have hIk : in_range si (I ++ [k]) = true := by
    have := in_range_append _ _ _ _ hI hkr
    rw [← hsi] at this
    exact this
  refine ⟨hIk, ?_⟩
  -- sizes
  have pI := in_range_prod_pos _ _ hI
  have pJ := in_range_prod_pos _ _ hJ
  have pB := in_range_prod_pos _ _ hB
  obtain ⟨nI, hnI⟩ : ∃ n : Nat, (si.take (si.length - 1)).prod = (n : Int) :=
    ⟨_, (Int.toNat_of_nonneg (by omega)).symm⟩
  obtain ⟨nJ, hnJ⟩ : ∃ n : Nat, (sx.take ax).prod = (n : Int) :=
    ⟨_, (Int.toNat_of_nonneg (by omega)).symm⟩
  obtain ⟨nB, hnB⟩ : ∃ n : Nat, (sx.drop (ax + 1)).prod = (n : Int) :=
    ⟨_, (Int.toNat_of_nonneg (by omega)).symm⟩
  obtain ⟨nK, hnK⟩ : ∃ n : Nat, si.getD (si.length - 1) 0 = (n : Int) :=
    ⟨_, (Int.toNat_of_nonneg (by omega)).symm⟩
  have hsub : forInt 0 ((si.length : Int) - 1) (fun i c => c * si.getD i.toNat 0) 1 = (nI : Int) := by
    have := forInt_prod_take si (si.length - 1) (by omega)
    rw [show ((si.length - 1 : Nat) : Int) = (si.length : Int) - 1 by omega, hnI] at this
    exact this
  have hbs : forInt ((ax : Int) + 1) (sx.length : Int) (fun i c => c * sx.getD i.toNat 0) 1
      = (nB : Int) := by
    rw [← hnB]
    exact_mod_cast forInt_prod_drop sx (ax + 1) (by omega)
  have hbc : forInt 0 (ax : Int) (fun i c => c * sx.getD i.toNat 0) 1 = (nJ : Int) := by
    rw [← hnJ]
    exact forInt_prod_take sx ax (by omega)
  have hG : Gather ⟨xp, sx, xo, xn⟩ ⟨ip, si, io, inn⟩ (ax : Int) fresh =
      { m_ptr := forLoop nI (fun i dst => forLoop nJ (fun j dst => forLoop nK (fun k dst =>
          memcpy dst (0 + ((nB : Int) * (nK : Int) * (nJ : Int) * (i : Int)
            + (nB : Int) * (nK : Int) * (j : Int) + (nB : Int) * (k : Int))) xp
            (xo + ((nB : Int) * sx.getD ax 0 * (j : Int)
              + (nB : Int) * ip (io + ((nK : Int) * (i : Int) + (k : Int))))) (nB : Int))
          dst) dst) fresh,
        m_shape := si.take (si.length - 1)
          ++ (sx.take ax ++ si.getD (si.length - 1) 0 :: sx.drop (ax + 1)),
        m_offset := 0, m_null := false } := by
    unfold Gather
    simp only [gather_shape sx si ax hax hr, hsub, hbs, hbc]
    simp only [if_pos (show si.length > 0 by omega), hnK, forInt_zero, Int.toNat_natCast]
    rfl
  rw [hG]
  simp only [tensor.elem]
  -- positions
  have hbI := spec_row_major_bounds _ _ hI
  have hbJ := spec_row_major_bounds _ _ hJ
  have hbB := spec_row_major_bounds _ _ hB
  have lI := in_range_length _ _ hI
  have lJ := in_range_length _ _ hJ
  obtain ⟨oI, hoI⟩ : ∃ n : Nat, spec_row_major (si.take (si.length - 1)) I = (n : Int) :=
    ⟨_, (Int.toNat_of_nonneg hbI.1).symm⟩
  obtain ⟨oJ, hoJ⟩ : ∃ n : Nat, spec_row_major (sx.take ax) J = (n : Int) :=
    ⟨_, (Int.toNat_of_nonneg hbJ.1).symm⟩
  obtain ⟨kN, hkN⟩ : ∃ n : Nat, k = (n : Int) := ⟨_, (Int.toNat_of_nonneg hk0).symm⟩
  have hposR : spec_row_major (si.take (si.length - 1)
        ++ (sx.take ax ++ si.getD (si.length - 1) 0 :: sx.drop (ax + 1))) (I ++ (J ++ k :: B))
      = (nB : Int) * (nK : Int) * (nJ : Int) * (oI : Int) + (nB : Int) * (nK : Int) * (oJ : Int)
        + (nB : Int) * (kN : Int) + spec_row_major (sx.drop (ax + 1)) B := by
    rw [spec_row_major_append _ _ _ _ lI, spec_row_major_append _ _ _ _ lJ]
    simp only [spec_row_major, List.prod_append, List.prod_cons]
    rw [hoI, hoJ, hnJ, hnB, hnK, hkN]
    ring
  have hposI : spec_row_major si (I ++ [k]) = (nK : Int) * (oI : Int) + (kN : Int) := by
    have h := spec_row_major_append (si.take (si.length - 1)) [si.getD (si.length - 1) 0] I [k] lI
    rw [← hsi] at h
    rw [h]
    simp only [spec_row_major, List.prod_cons, List.prod_nil, spec_row_major_nil_left]
    rw [hoI, hnK, hkN]
    ring
  have hposX : ∀ v : Int, spec_row_major sx (J ++ v :: B)
      = (nB : Int) * sx.getD ax 0 * (oJ : Int) + (nB : Int) * v
        + spec_row_major (sx.drop (ax + 1)) B := by
    intro v
    have h := spec_row_major_append (sx.take ax) (sx.getD ax 0 :: sx.drop (ax + 1)) J (v :: B) lJ
    rw [← hsx] at h
    rw [h]
    simp only [spec_row_major, List.prod_cons]
    rw [hoJ, hnB]
    ring
  rw [hposR, hposX, hposI]
  rw [hnI, hoI] at hbI
  rw [hnJ, hoJ] at hbJ
  rw [hnB] at hbB
  have key := nest3_memcpy nI nJ nK nB 0 xp
    (fun i j k => xo + ((nB : Int) * sx.getD ax 0 * (j : Int)
      + (nB : Int) * ip (io + ((nK : Int) * (i : Int) + (k : Int))))) fresh
    oI oJ kN (by omega) (by omega) (by omega) (spec_row_major (sx.drop (ax + 1)) B) hbB.1 hbB.2
  rw [key]
  congr 1
  ring

/-! ## Argsort lemmas -/

/-- Loops whose bodies agree on the iterations that run are equal. -/
theorem forLoop_congr {σ : Type u} (n : Nat) (body body2 : Nat → σ → σ)
    (h : ∀ k, k < n → ∀ s, body k s = body2 k s) (s : σ) :
    forLoop n body s = forLoop n body2 s := by
  induction n with
  | zero => rfl
  | succ n ih =>
    rw [forLoop_succ, forLoop_succ, ih (fun k hk => h k (by omega)), h n (Nat.lt_succ_self n)]

/-- The first component of a loop on a pair, when the first component of an
iteration depends only on the first component of the state. -/
theorem forLoop_fst {α β : Type} (n : Nat) (body : Nat → α × β → α × β) (body1 : Nat → α → α)
    (h : ∀ k, k < n → ∀ s, (body k s).1 = body1 k s.1) (s : α × β) :
    (forLoop n body s).1 = forLoop n body1 s.1 := by
  induction n with
  | zero => rfl
  | succ n ih =>
    rw [forLoop_succ, forLoop_succ, h n (Nat.lt_succ_self n), ih (fun k hk => h k (by omega))]

/-- The store loop `for (j = 0; j < n; ++j) m[start + j * st] = V j` with a
stride that is not 0. -/
theorem forLoop_store_strided {R : Type} (V : Nat → R) (start st : Int) (hst : st ≠ 0) (n : Nat)
    (m : Int → R) :
    (∀ j : Nat, j < n →
      forLoop n (fun j dst => Function.update dst (start + (j : Int) * st) (V j)) m
        (start + (j : Int) * st) = V j) ∧
    (∀ p : Int, (∀ j : Nat, j < n → p ≠ start + (j : Int) * st) →
      forLoop n (fun j dst => Function.update dst (start + (j : Int) * st) (V j)) m p = m p) := by
  induction n with
  | zero => exact ⟨fun j hj => absurd hj (Nat.not_lt_zero j), fun p _ => rfl⟩
  | succ n ih =>
    constructor
    · intro j hj
      rw [forLoop_succ]
      by_cases h : j = n
      · subst h
        simp
      · have hne : start + (j : Int) * st ≠ start + (n : Int) * st := by
          intro he
          have : ((j : Int) - (n : Int)) * st = 0 := by linarith
          rcases mul_eq_zero.1 this with h1 | h1
          · omega
          · exact hst h1
        rw [Function.update_noteq hne]
        exact ih.1 j (by omega)
    · intro p hp
      rw [forLoop_succ, Function.update_noteq (hp n (Nat.lt_succ_self n))]
      exact ih.2 p (fun j hj => hp j (by omega))

/-- One iteration of `Argsort` on the buffer of indices: the cells of the slice
receive the entries of the sorted list of `0 .. cnt - 1`. -/
theorem argsort_iter (sort_f : (Int → Int → Bool) → List Int → List Int)
    (cmp : Int → Int → Bool) (cb off A stI : Int) (cnt : Nat)
    (hl : (sort_f cmp ((List.range cnt).map (fun (j : Nat) => (j : Int)))).length = cnt)
    (ind scratch : Int → Int) :
    forInt 0 (cnt : Int) (fun j ind => Function.update ind (off + (A + j * stI))
      ((std.sort sort_f (forInt 0 (cnt : Int) (fun j scratch =>
        Function.update scratch (cb + j) j) scratch) cb (cnt : Int) cmp) (cb + j))) ind
    = forLoop cnt (fun j ind => Function.update ind (off + A + (j : Int) * stI)
        ((sort_f cmp ((List.range cnt).map (fun (j : Nat) => (j : Int)))).getD j 0)) ind := by
  rw [forInt_zero, Int.toNat_natCast]
  refine forLoop_congr cnt _ _ ?_ ind
  intro j hj s
  have hlist : (List.range (cnt : Int).toNat).map (fun j : Nat =>
      (forInt 0 (cnt : Int) (fun j scratch => Function.update scratch (cb + j) j) scratch)
        (cb + (j : Int)))
      = (List.range cnt).map (fun (j : Nat) => (j : Int)) := by
    rw [Int.toNat_natCast]
    refine List.map_congr_left (fun j hj => ?_)
    have hj' := List.mem_range.1 hj
    rw [forInt_store (fun i => i) cb 0 (cnt : Int) scratch, if_pos (by omega)]
    omega
  have hval : (std.sort sort_f (forInt 0 (cnt : Int) (fun j scratch =>
        Function.update scratch (cb + j) j) scratch) cb (cnt : Int) cmp) (cb + (j : Int))
      = (sort_f cmp ((List.range cnt).map (fun (j : Nat) => (j : Int)))).getD j 0 := by
    simp only [std.sort]
    rw [if_pos (by omega), hlist]
    have e : (cb + (j : Int) - cb).toNat = j := by omega
    rw [e, List.getD_eq_getElem _ _ (by omega), List.getD_eq_getElem _ _ (by omega)]
  rw [hval, add_assoc]

/-- The slices of `Argsort`: iteration `k` owns the cells
`(k / st) * cnt * st + k % st + j * st`, and no two iterations share a cell. -/
theorem slice_disjoint (cnt st : Nat) (hst : 1 ≤ st) (i k j j2 : Nat) (hj : j < cnt)
    (hj2 : j2 < cnt)
    (h : ((i / st : Nat) : Int) * (cnt : Int) * (st : Int) + ((i % st : Nat) : Int)
        + (j : Int) * (st : Int)
      = ((k / st : Nat) : Int) * (cnt : Int) * (st : Int) + ((k % st : Nat) : Int)
        + (j2 : Int) * (st : Int)) : i = k ∧ j = j2 := by
  have hi : i % st < st := Nat.mod_lt _ (by omega)
  have hk : k % st < st := Nat.mod_lt _ (by omega)
  have h1 := addr_inj st (j + i / st * cnt) (i % st) (j2 + k / st * cnt) (k % st) hi hk
    (by simp only [Nat.cast_add, Nat.cast_mul]; linarith)
  have h2 := addr_inj cnt (i / st) j (k / st) j2 hj hj2 (by exact_mod_cast h1.1)
  have e1 := Nat.div_add_mod i st
  have e2 := Nat.div_add_mod k st
  rw [h2.1, h1.2] at e1
  exact ⟨by omega, h2.2⟩

/-- The loop of `Argsort` over all slices on the buffer of indices: the cell `j`
of the slice `(o, r)` ends as the value `V (o * st + r) j` that its iteration
stores there. -/
theorem argsort_loop (outer cnt st : Nat) (base : Int) (V : Nat → Nat → Int) (E : Int → Int)
    (o j r : Nat) (ho : o < outer) (hj : j < cnt) (hr : r < st) :
    forLoop (outer * st) (fun k ind => forLoop cnt (fun j ind => Function.update ind
        (base + (((k : Int)).tdiv (st : Int) * (cnt : Int) * (st : Int)
          + ((k : Int)).tmod (st : Int)) + (j : Int) * (st : Int)) (V k j)) ind) E
      (base + ((o : Int) * (cnt : Int) * (st : Int) + (r : Int) + (j : Int) * (st : Int)))
    = V (o * st + r) j := by
  have hst0 : (st : Int) ≠ 0 := by omega
  simp only [natCast_tdiv, natCast_tmod]
  have hbody := fun (k : Nat) (m : Int → Int) => forLoop_store_strided (V k)
    (base + (((k / st : Nat) : Int) * (cnt : Int) * (st : Int) + ((k % st : Nat) : Int)))
    (st : Int) hst0 cnt m
  have hd := forLoop_disjoint (R := Int) (outer * st) (fun k ind =>
      forLoop cnt (fun j ind => Function.update ind
        (base + (((k / st : Nat) : Int) * (cnt : Int) * (st : Int) + ((k % st : Nat) : Int))
          + (j : Int) * (st : Int)) (V k j)) ind)
    (fun k p => ∃ j : Nat, j < cnt ∧
      p = base + (((k / st : Nat) : Int) * (cnt : Int) * (st : Int) + ((k % st : Nat) : Int))
        + (j : Int) * (st : Int))
    (by
      intro k _ m p hp
      refine (hbody k m).2 p ?_
      intro j hj he
      exact hp ⟨j, hj, he⟩)
    (by
      rintro k _ m m2 _ p ⟨j, hj, rfl⟩
      beta_reduce
      rw [(hbody k m).1 j hj, (hbody k m2).1 j hj])
    (by
      rintro i _ k _ p ⟨j, hj, rfl⟩ ⟨j2, hj2, he⟩
      exact (slice_disjoint cnt st (by omega) i k j j2 hj hj2 (by linarith)).1)
  have hi0 : o * st + r < outer * st := by
    have : (o + 1) * st ≤ outer * st := Nat.mul_le_mul_right st ho
    have e : (o + 1) * st = o * st + st := by ring
    omega
  have hdiv : (o * st + r) / st = o := by
    rw [Nat.add_comm, Nat.add_mul_div_right _ _ (by omega), Nat.div_eq_of_lt hr, Nat.zero_add]
  have hmod : (o * st + r) % st = r := by
    rw [Nat.add_comm, Nat.add_mul_mod_self_right, Nat.mod_eq_of_lt hr]
  have ea : base + ((o : Int) * (cnt : Int) * (st : Int) + (r : Int) + (j : Int) * (st : Int))
      = base + ((((o * st + r) / st : Nat) : Int) * (cnt : Int) * (st : Int)
        + (((o * st + r) % st : Nat) : Int)) + (j : Int) * (st : Int) := by
    rw [hdiv, hmod]
    ring
  rw [ea, hd.1 (o * st + r) hi0 _ ⟨j, hj, rfl⟩ E]
  beta_reduce
  rw [(hbody (o * st + r) E).1 j hj]

/-- The method `Argsort` along the axis `a`, when the scratch cells of every
iteration lie inside the arena: the call returns, the result has the shape of
the tensor, and the entry `j` of a slice of the result is the entry `j` of the
list that the sorting function makes of `0 .. count - 1` with the comparison of
the elements of the input slice. -/
theorem Argsort_apply {R : Type} [LinearOrder R]
    (sort_f : (Int → Int → Bool) → List Int → List Int) (t : tensor R) (axis : Int) (a : Nat)
    (fresh copy_buffers : Int → Int) (threads_n : Nat) (sizeofT : Nat) (thread_id : Int → Nat)
    (harena : ∀ i : Nat,
      0 ≤ tensor.Argsort_copy_buff (t.m_shape.getD a 0) sizeofT (thread_id (i : Int)) ∧
      8 * (tensor.Argsort_copy_buff (t.m_shape.getD a 0) sizeofT (thread_id (i : Int))
          + t.m_shape.getD a 0)
        ≤ (threads_n : Int) * tensor.Argsort_size_per_thr (t.m_shape.getD a 0))
    (hlen : ∀ (key : Int → R) (n : Nat),
      (sort_f (fun i1 i2 => decide (key i1 < key i2))
        ((List.range n).map (fun (j : Nat) => (j : Int)))).length = n)
    (hpos : ∀ e ∈ t.m_shape, 1 ≤ e) (ha : a < t.m_shape.length)
    (haxis : axis = (a : Int) ∨ (axis = -1 ∧ a + 1 = t.m_shape.length)) :
    ∃ out : tensor Int,
      t.Argsort sort_f axis fresh copy_buffers threads_n sizeofT thread_id = some out ∧
      out.m_shape = t.m_shape ∧
      ∀ idx, in_range t.m_shape idx = true → ∀ j : Nat, j < (t.m_shape.getD a 0).toNat →
        out.elem (idx.set a (j : Int))
          = (sort_f (fun i1 i2 => decide (t.elem (idx.set a i1) < t.elem (idx.set a i2)))
              ((List.range (t.m_shape.getD a 0).toNat).map (fun (j : Nat) => (j : Int)))).getD
              j 0 := by
  obtain ⟨mp, s, mo, mn⟩ := t
  simp only at hpos ha haxis harena
  have hok : axis = -1 ∨ axis < (s.length : Int) := by
    rcases haxis with h | ⟨h, _⟩
    · right; omega
    · left; exact h
  have hax : (if axis = -1 then (s.length : Int) - 1 else axis) = (a : Int) := by
    rcases haxis with h | ⟨h, h2⟩
    · rw [h, if_neg (by omega)]
    · rw [if_pos h]; omega
  have hsa : 1 ≤ s.getD a 0 := by
    rw [List.getD_eq_getElem _ _ ha]; exact hpos _ (List.getElem_mem ha)
  have hdrop : 0 < (s.drop (a + 1)).prod :=
    List.prod_pos (fun e he => by have := hpos e (List.mem_of_mem_drop he); omega)
  have htake : 0 < (s.take a).prod :=
    List.prod_pos (fun e he => by have := hpos e (List.mem_of_mem_take he); omega)
  have hstr : (if (a : Int) ≠ -1 then
      forInt ((a : Int) + 1) (s.length : Int) (fun i stride => stride * s.getD i.toNat 0) 1
      else 1) = (s.drop (a + 1)).prod := by
    rw [if_pos (by omega)]
    exact_mod_cast forInt_prod_drop s (a + 1) (by omega)
  obtain ⟨cnt, hcnt⟩ : ∃ cnt : Nat, s.getD a 0 = (cnt : Int) :=
    ⟨(s.getD a 0).toNat, (Int.toNat_of_nonneg (by omega)).symm⟩
  obtain ⟨st, hst⟩ : ∃ st : Nat, (s.drop (a + 1)).prod = (st : Int) :=
    ⟨((s.drop (a + 1)).prod).toNat, (Int.toNat_of_nonneg (by omega)).symm⟩
  obtain ⟨outer, hout⟩ : ∃ outer : Nat, (s.take a).prod = (outer : Int) :=
    ⟨((s.take a).prod).toNat, (Int.toNat_of_nonneg (by omega)).symm⟩
  have hsize : (tensor.mk mp s mo mn).size = (outer : Int) * ((cnt : Int) * (st : Int)) := by
    rw [tensor.size_eq_prod, ← hout, ← hcnt, ← hst]
    show s.prod = _
    rw [← List.prod_take_mul_prod_drop s a, List.drop_eq_getElem_cons ha, List.prod_cons,
      List.getD_eq_getElem _ _ ha]
  have hcnt1 : 1 ≤ cnt := by omega
  have hst1 : 1 ≤ st := by omega
  have hinst : ((outer : Int) * ((cnt : Int) * (st : Int))).tdiv (cnt : Int)
      = ((outer * st : Nat) : Int) := by
    have e : (outer : Int) * ((cnt : Int) * (st : Int)) = ((outer * st * cnt : Nat) : Int) := by
      push_cast; ring
    rw [e, natCast_tdiv, Nat.mul_div_cancel _ (by omega)]
  refine ⟨⟨(forLoop (outer * st)
      (fun k (st_1 : (Int → Int) × (Int → Int)) =>
        (forInt 0 (cnt : Int)
            (fun j ind =>
              Function.update ind
                ((tensor.New s fresh).m_offset
                  + (((k : Int)).tdiv (st : Int) * (cnt : Int) * (st : Int)
                    + ((k : Int)).tmod (st : Int) + j * (st : Int)))
                (std.sort sort_f
                  (forInt 0 (cnt : Int)
                    (fun j scratch =>
                      Function.update scratch
                        (tensor.Argsort_copy_buff (cnt : Int) sizeofT (thread_id (k : Int)) + j) j)
                    st_1.2)
                  (tensor.Argsort_copy_buff (cnt : Int) sizeofT (thread_id (k : Int))) (cnt : Int)
                  (fun i1 i2 =>
                    decide
                      (mp (mo + ((k : Int)).tdiv (st : Int) * (cnt : Int) * (st : Int)
                          + ((k : Int)).tmod (st : Int) + i1 * (st : Int)) <
                        mp (mo + ((k : Int)).tdiv (st : Int) * (cnt : Int) * (st : Int)
                          + ((k : Int)).tmod (st : Int) + i2 * (st : Int))))
                  (tensor.Argsort_copy_buff (cnt : Int) sizeofT (thread_id (k : Int)) + j)))
            st_1.1,
          std.sort sort_f
            (forInt 0 (cnt : Int)
              (fun j scratch =>
                Function.update scratch
                  (tensor.Argsort_copy_buff (cnt : Int) sizeofT (thread_id (k : Int)) + j) j)
              st_1.2)
            (tensor.Argsort_copy_buff (cnt : Int) sizeofT (thread_id (k : Int))) (cnt : Int)
            (fun i1 i2 =>
              decide
                (mp (mo + ((k : Int)).tdiv (st : Int) * (cnt : Int) * (st : Int)
                    + ((k : Int)).tmod (st : Int) + i1 * (st : Int)) <
                  mp (mo + ((k : Int)).tdiv (st : Int) * (cnt : Int) * (st : Int)
                    + ((k : Int)).tmod (st : Int) + i2 * (st : Int))))))
      ((tensor.New s fresh).m_ptr, copy_buffers)).1, s, 0, false⟩, ?_, rfl, ?_⟩
  · unfold tensor.Argsort
    simp only [hok, not_true_eq_false, if_false, hax, Int.toNat_natCast, hstr, hcnt, hst, hsize,
      hinst]
    rw [hcnt] at harena
    rw [if_neg (not_not.mpr (fun i _ => harena i)), forInt_zero, Int.toNat_natCast]
    rfl
  intro idx hidx j hj
  simp only at hidx
  rw [forLoop_fst (outer * st) _
    (fun k ind => forLoop cnt (fun j ind => Function.update ind
      (0 + (((k : Int)).tdiv (st : Int) * (cnt : Int) * (st : Int)
        + ((k : Int)).tmod (st : Int)) + (j : Int) * (st : Int))
      ((sort_f (fun i1 i2 =>
          decide
            (mp (mo + ((k : Int)).tdiv (st : Int) * (cnt : Int) * (st : Int)
                + ((k : Int)).tmod (st : Int) + i1 * (st : Int)) <
              mp (mo + ((k : Int)).tdiv (st : Int) * (cnt : Int) * (st : Int)
                + ((k : Int)).tmod (st : Int) + i2 * (st : Int))))
        ((List.range cnt).map (fun (j : Nat) => (j : Int)))).getD j 0)) ind)
    (fun k _ s2 => argsort_iter sort_f _ _ 0 _ (st : Int) cnt
      (hlen (fun i => mp (mo + ((k : Int)).tdiv (st : Int) * (cnt : Int) * (st : Int)
        + ((k : Int)).tmod (st : Int) + i * (st : Int))) cnt) s2.1 s2.2)]
  have hlenI := in_range_length s idx hidx
  have hob := spec_row_major_bounds _ _ (in_range_take s idx a hidx)
  have hrb := spec_row_major_bounds _ _ (in_range_drop s idx (a + 1) hidx)
  rw [hout] at hob
  rw [hst] at hrb
  obtain ⟨oN, hoN⟩ : ∃ oN : Nat, spec_row_major (s.take a) (idx.take a) = (oN : Int) :=
    ⟨_, (Int.toNat_of_nonneg hob.1).symm⟩
  obtain ⟨rN, hrN⟩ : ∃ rN : Nat, spec_row_major (s.drop (a + 1)) (idx.drop (a + 1)) = (rN : Int) :=
    ⟨_, (Int.toNat_of_nonneg hrb.1).symm⟩
  have hpos_k : ∀ k : Int, spec_row_major s (idx.set a k)
      = (oN : Int) * (cnt : Int) * (st : Int) + (rN : Int) + k * (st : Int) := by
    intro k
    rw [spec_row_major_set s idx a k ha hlenI, hcnt, hst, hoN, hrN]
    ring
  have hoN2 : oN < outer := by omega
  have hrN2 : rN < st := by omega
  have hj2 : j < cnt := by
    simp only [hcnt, Int.toNat_natCast] at hj
    exact hj
  simp only [tensor.elem, hcnt, Int.toNat_natCast, hpos_k]
  rw [argsort_loop outer cnt st 0 _ _ oN j rN hoN2 hj2 hrN2]
  have hdiv : (((oN * st + rN : Nat) : Int)).tdiv (st : Int) = (oN : Int) := by
    rw [natCast_tdiv, Nat.add_comm, Nat.add_mul_div_right _ _ (by omega),
      Nat.div_eq_of_lt hrN2, Nat.zero_add]
  have hmod : (((oN * st + rN : Nat) : Int)).tmod (st : Int) = (rN : Int) := by
    rw [natCast_tmod, Nat.add_comm, Nat.add_mul_mod_self_right, Nat.mod_eq_of_lt hrN2]
  simp only [hdiv, hmod, add_assoc]

/-- Every cell of a tensor lies in the slice of exactly one iteration of the
loop over the `size / count` slices along the axis `a`. -/
theorem slice_unique (s idx : List Int) (a : Nat) (hpos : ∀ e ∈ s, 1 ≤ e) (ha : a < s.length)
    (hidx : in_range s idx = true) :
    ∃! k : Nat, k < (s.prod.tdiv (s.getD a 0)).toNat ∧ ∃ j : Nat, j < (s.getD a 0).toNat ∧
      spec_row_major s idx
        = ((k : Int)).tdiv (s.drop (a + 1)).prod * s.getD a 0 * (s.drop (a + 1)).prod
          + ((k : Int)).tmod (s.drop (a + 1)).prod + (j : Int) * (s.drop (a + 1)).prod := by
  have hsa : 1 ≤ s.getD a 0 := by
    rw [List.getD_eq_getElem _ _ ha]; exact hpos _ (List.getElem_mem ha)
  have hdrop : 0 < (s.drop (a + 1)).prod :=
    List.prod_pos (fun e he => by have := hpos e (List.mem_of_mem_drop he); omega)
  have htake : 0 < (s.take a).prod :=
    List.prod_pos (fun e he => by have := hpos e (List.mem_of_mem_take he); omega)
  obtain ⟨cnt, hcnt⟩ : ∃ cnt : Nat, s.getD a 0 = (cnt : Int) :=
    ⟨(s.getD a 0).toNat, (Int.toNat_of_nonneg (by omega)).symm⟩
  obtain ⟨st, hst⟩ : ∃ st : Nat, (s.drop (a + 1)).prod = (st : Int) :=
    ⟨((s.drop (a + 1)).prod).toNat, (Int.toNat_of_nonneg (by omega)).symm⟩
  obtain ⟨outer, hout⟩ : ∃ outer : Nat, (s.take a).prod = (outer : Int) :=
    ⟨((s.take a).prod).toNat, (Int.toNat_of_nonneg (by omega)).symm⟩
  have hprod : s.prod = (outer : Int) * ((cnt : Int) * (st : Int)) := by
    rw [← hout, ← hcnt, ← hst, ← List.prod_take_mul_prod_drop s a, List.drop_eq_getElem_cons ha,
      List.prod_cons, List.getD_eq_getElem _ _ ha]
  have hcnt1 : 1 ≤ cnt := by omega
  have hst1 : 1 ≤ st := by omega
  have hinst : ((outer : Int) * ((cnt : Int) * (st : Int))).tdiv (cnt : Int)
      = ((outer * st : Nat) : Int) := by
    have e : (outer : Int) * ((cnt : Int) * (st : Int)) = ((outer * st * cnt : Nat) : Int) := by
      push_cast; ring
    rw [e, natCast_tdiv, Nat.mul_div_cancel _ (by omega)]
  have hlenI := in_range_length s idx hidx
  have hidxa := in_range_getD s idx a hidx ha
  have hob := spec_row_major_bounds _ _ (in_range_take s idx a hidx)
  have hrb := spec_row_major_bounds _ _ (in_range_drop s idx (a + 1) hidx)
  rw [hout] at hob
  rw [hst] at hrb
  rw [hcnt] at hidxa
  obtain ⟨oN, hoN⟩ : ∃ oN : Nat, spec_row_major (s.take a) (idx.take a) = (oN : Int) :=
    ⟨_, (Int.toNat_of_nonneg hob.1).symm⟩
  obtain ⟨rN, hrN⟩ : ∃ rN : Nat, spec_row_major (s.drop (a + 1)) (idx.drop (a + 1)) = (rN : Int) :=
    ⟨_, (Int.toNat_of_nonneg hrb.1).symm⟩
  obtain ⟨jN, hjN⟩ : ∃ jN : Nat, idx.getD a 0 = (jN : Int) :=
    ⟨_, (Int.toNat_of_nonneg hidxa.1).symm⟩
  have hpos_j : spec_row_major s idx
      = (oN : Int) * (cnt : Int) * (st : Int) + (rN : Int) + (jN : Int) * (st : Int) := by
    rw [spec_row_major_split s idx a ha hlenI, hcnt, hst, hoN, hrN, hjN]
    ring
  have hoN2 : oN < outer := by omega
  have hrN2 : rN < st := by omega
  have hjN2 : jN < cnt := by omega
  have hdiv : (oN * st + rN) / st = oN := by
    rw [Nat.add_comm, Nat.add_mul_div_right _ _ (by omega), Nat.div_eq_of_lt hrN2, Nat.zero_add]
  have hmod : (oN * st + rN) % st = rN := by
    rw [Nat.add_comm, Nat.add_mul_mod_self_right, Nat.mod_eq_of_lt hrN2]
  rw [hprod, hcnt, hst, hinst, hpos_j]
  simp only [Int.toNat_natCast, natCast_tdiv, natCast_tmod]
  refine ⟨oN * st + rN, ⟨?_, jN, hjN2, ?_⟩, ?_⟩
  · have : (oN + 1) * st ≤ outer * st := Nat.mul_le_mul_right st hoN2
    have e : (oN + 1) * st = oN * st + st := by ring
    omega
  · rw [hdiv, hmod]
  · rintro k ⟨_, j, hj, he⟩
    have := slice_disjoint cnt st hst1 (oN * st + rN) k jN j hjN2 hj (by rw [hdiv, hmod]; exact he)
    exact this.1.symm

/-! ## im2col, col2im and Conv2d for every padding -/

/-- The function `memcpy_extended::strided` (both templates): the `count` cells
from `dst` on receive the source elements `src[x * src_stride]`, the other
cells are kept; a count that is not positive copies nothing. -/
theorem details.memcpy_extended_strided_apply {R : Type} (src_stride : Int) (m : Int → R)
    (dst : Int) (srcm : Int → R) (src : Int) (count : Int) (p : Int) :
    details.memcpy_extended_strided src_stride m dst srcm src count p
      = if dst ≤ p ∧ p < dst + count then srcm (src + (p - dst) * src_stride) else m p := by
  unfold details.memcpy_extended_strided
  by_cases h1 : src_stride = 1
  · rw [if_pos h1, h1]
    simp only [memcpy, mul_one]
  · rw [if_neg h1]
    have key := plane_apply (fun (_ : R) (q : Int) => srcm (src + (q - dst) * src_stride)) dst count
      (fun x m =>
        let m := Function.update m (dst + (x + 0)) (srcm (src + (x + 0) * src_stride))
        let m := Function.update m (dst + (x + 1)) (srcm (src + (x + 1) * src_stride))
        let m := Function.update m (dst + (x + 2)) (srcm (src + (x + 2) * src_stride))
        Function.update m (dst + (x + 3)) (srcm (src + (x + 3) * src_stride)))
      (fun x m => Function.update m (dst + x) (srcm (src + x * src_stride)))
      (fun i x p => store4_apply (fun j => srcm (src + j * src_stride)) x dst i p)
      (fun i x p => by
        beta_reduce
        rw [Function.update_apply]
        by_cases h : p = dst + i
        · rw [if_pos h, if_pos h]
          have e : p - dst = i := by omega
          rw [e]
        · rw [if_neg h, if_neg h]) m p
    exact key

/-- One output row of the general template of `im2col_process_row::apply` for an
input row inside the image: zero fill up to `start`, strided copy of the
clipped range, zero fill from `end`.  When `start ≤ outputWidth` and `0 ≤ end`
the `outputWidth` cells of the row receive the input sample or, where the
sample is outside the input row, zero, and nothing else is stored to. -/
theorem im2col_clip_row {R : Type} [Zero R] (W Wo sw : Nat) (hsw : 1 ≤ sw) (pw fwd : Int)
    (hstart : Int.tdiv (pw - fwd + (sw : Int) - 1) (sw : Int) ≤ (Wo : Int))
    (hend : 0 ≤ Int.tdiv ((W : Int) + pw - fwd + (sw : Int) - 1) (sw : Int))
    (m : Int → R) (d : Int) (srcm : Int → R) (s : Int) (p : Int) :
    (if Int.tdiv ((W : Int) + pw - fwd + (sw : Int) - 1) (sw : Int) < (Wo : Int) then
        memset0
          (details.memcpy_extended_strided (sw : Int)
            (if Int.tdiv (pw - fwd + (sw : Int) - 1) (sw : Int) > 0 then
              memset0 m d (Int.tdiv (pw - fwd + (sw : Int) - 1) (sw : Int)) else m)
            (d + max (Int.tdiv (pw - fwd + (sw : Int) - 1) (sw : Int)) 0) srcm
            (s + max (Int.tdiv (pw - fwd + (sw : Int) - 1) (sw : Int)) 0 * (sw : Int) + fwd - pw)
            (min (Int.tdiv ((W : Int) + pw - fwd + (sw : Int) - 1) (sw : Int)) (Wo : Int)
              - max (Int.tdiv (pw - fwd + (sw : Int) - 1) (sw : Int)) 0))
          (d + Int.tdiv ((W : Int) + pw - fwd + (sw : Int) - 1) (sw : Int))
          ((Wo : Int) - Int.tdiv ((W : Int) + pw - fwd + (sw : Int) - 1) (sw : Int))
      else
        details.memcpy_extended_strided (sw : Int)
          (if Int.tdiv (pw - fwd + (sw : Int) - 1) (sw : Int) > 0 then
            memset0 m d (Int.tdiv (pw - fwd + (sw : Int) - 1) (sw : Int)) else m)
          (d + max (Int.tdiv (pw - fwd + (sw : Int) - 1) (sw : Int)) 0) srcm
          (s + max (Int.tdiv (pw - fwd + (sw : Int) - 1) (sw : Int)) 0 * (sw : Int) + fwd - pw)
          (min (Int.tdiv ((W : Int) + pw - fwd + (sw : Int) - 1) (sw : Int)) (Wo : Int)
            - max (Int.tdiv (pw - fwd + (sw : Int) - 1) (sw : Int)) 0)) p
    = if d ≤ p ∧ p < d + (Wo : Int) then
        (if 0 ≤ (p - d) * (sw : Int) + fwd - pw ∧ (p - d) * (sw : Int) + fwd - pw < (W : Int) then
          srcm (s + ((p - d) * (sw : Int) + fwd - pw)) else 0)
      else m p := by
  have r1 := fun x : Nat => tdiv_ceil_le (pw - fwd) sw x hsw
  have r2 := fun x : Nat => tdiv_ceil_le ((W : Int) + pw - fwd) sw x hsw
  generalize Int.tdiv (pw - fwd + (sw : Int) - 1) (sw : Int) = S at hstart r1 ⊢
  generalize Int.tdiv ((W : Int) + pw - fwd + (sw : Int) - 1) (sw : Int) = E at hend r2 ⊢
  have hm1 : ∀ q, (if S > 0 then memset0 m d S else m) q
      = if d ≤ q ∧ q < d + S then 0 else m q := by
    intro q
    by_cases hS : S > 0
    · rw [if_pos hS]; rfl
    · rw [if_neg hS, if_neg (by omega)]
  have hm2 : ∀ q, details.memcpy_extended_strided (sw : Int)
        (if S > 0 then memset0 m d S else m) (d + max S 0) srcm
        (s + max S 0 * (sw : Int) + fwd - pw) (min E (Wo : Int) - max S 0) q
      = if d + max S 0 ≤ q ∧ q < d + min E (Wo : Int) then
          srcm (s + max S 0 * (sw : Int) + fwd - pw + (q - (d + max S 0)) * (sw : Int))
        else if d ≤ q ∧ q < d + S then 0 else m q := by
    intro q
    rw [details.memcpy_extended_strided_apply, hm1]
    by_cases h : d + max S 0 ≤ q ∧ q < d + min E (Wo : Int)
    · rw [if_pos h, if_pos (by omega)]
    · rw [if_neg h, if_neg (by omega)]
  have hm3 : (if E < (Wo : Int) then
        memset0
          (details.memcpy_extended_strided (sw : Int) (if S > 0 then memset0 m d S else m)
            (d + max S 0) srcm (s + max S 0 * (sw : Int) + fwd - pw) (min E (Wo : Int) - max S 0))
          (d + E) ((Wo : Int) - E)
      else
        details.memcpy_extended_strided (sw : Int) (if S > 0 then memset0 m d S else m)
          (d + max S 0) srcm (s + max S 0 * (sw : Int) + fwd - pw) (min E (Wo : Int) - max S 0)) p
      = if d + E ≤ p ∧ p < d + (Wo : Int) then 0
        else if d + max S 0 ≤ p ∧ p < d + min E (Wo : Int) then
          srcm (s + max S 0 * (sw : Int) + fwd - pw + (p - (d + max S 0)) * (sw : Int))
        else if d ≤ p ∧ p < d + S then 0 else m p := by
    by_cases hE : E < (Wo : Int)
    · rw [if_pos hE]
      simp only [memset0]
      rw [hm2]
      by_cases h : d + E ≤ p ∧ p < d + (Wo : Int)
      · rw [if_pos (by omega), if_pos h]
      · rw [if_neg (by omega), if_neg h]
    · rw [if_neg hE, hm2, if_neg (show ¬ (d + E ≤ p ∧ p < d + (Wo : Int)) by omega)]
  rw [hm3]
  by_cases hrow : d ≤ p ∧ p < d + (Wo : Int)
  · rw [if_pos hrow]
    obtain ⟨x, hx⟩ : ∃ x : Nat, p = d + (x : Int) := ⟨(p - d).toNat, by omega⟩
    subst hx
    have e1 : d + (x : Int) - d = (x : Int) := by omega
    rw [e1]
    have q1 := r1 x
    have q2 := r2 x
    by_cases hEx : E ≤ (x : Int)
    · have := q2.1 hEx
      rw [if_pos (by omega), if_neg (by omega)]
    · have hnE : ¬ (W : Int) + pw - fwd ≤ (x : Int) * (sw : Int) := fun h => hEx (q2.2 h)
      rw [if_neg (by omega)]
      by_cases hSx : S ≤ (x : Int)
      · have := q1.1 hSx
        rw [if_pos (by omega), if_pos (by omega)]
        congr 1
        have e2 : d + (x : Int) - (d + max S 0) = (x : Int) - max S 0 := by omega
        rw [e2]
        ring
      · have hnS : ¬ pw - fwd ≤ (x : Int) * (sw : Int) := fun h => hSx (q1.2 h)
        rw [if_neg (by omega), if_pos (by omega), if_neg (by omega)]
  · rw [if_neg hrow, if_neg (by omega), if_neg (by omega), if_neg (by omega)]

/-- A loop over `Ho` rows of `Wo` cells in which iteration `y` stores the values
`G y x` to the cells of its row and keeps the other cells: the values after the
loop, and the cells outside the rows. -/
theorem rows_apply {R : Type} (Ho Wo : Nat) (dst : Int) (G : Nat → Int → R)
    (body : Nat → (Int → R) → (Int → R))
    (hbody : ∀ y, y < Ho → ∀ m p, body y m p
      = if dst + (y : Int) * (Wo : Int) ≤ p ∧ p < dst + (y : Int) * (Wo : Int) + (Wo : Int)
        then G y (p - (dst + (y : Int) * (Wo : Int))) else m p) :
    (∀ (y x : Nat), y < Ho → x < Wo → ∀ m,
      forLoop Ho body m (dst + ((y : Int) * (Wo : Int) + (x : Int))) = G y (x : Int)) ∧
    (∀ m p, (p < dst ∨ dst + (Ho : Int) * (Wo : Int) ≤ p) → forLoop Ho body m p = m p) := by
  have hb := forLoop_block Ho (Wo : Int) (by omega) dst body (by
    intro y hy m p hp
    rw [hbody y hy, if_neg]
    rintro ⟨h1, h2⟩
    rw [add_mul, one_mul] at hp
    omega)
  refine ⟨?_, hb.1⟩
  intro y x hy hx m
  refine hb.2 y hy _ _ (by omega) (by rw [add_mul, one_mul]; omega) ?_ m
  intro m
  rw [hbody y hy, if_pos (by omega)]
  congr 1
  omega

/-- The function `im2col_process_row::apply` (both templates) for one row
`(fh, fw)` of the columns matrix, when the dilated kernel width fits in the
input and `Wo` is the output width of `Conv2d`: the cell `(y, x)` of the row
block receives the input sample at
`(y*stride_h + fh*dilation_h - pad_h, x*stride_w + fw*dilation_w - pad_w)`, or
zero where the sample lies outside the input plane, and no cell outside the
`Ho * Wo` cells of the block is stored to. -/
theorem details.im2col_process_row_spec {R : Type} [Zero R]
    (H W kh kw sh sw ph pw dh dw Ho Wo : Nat) (hsw : 1 ≤ sw)
    (hfitW : (dw : Int) * ((kw : Int) - 1) + 1 ≤ (W : Int))
    (hHo : ((Ho : Int) - 1) * (sh : Int) + (dh : Int) * ((kh : Int) - 1) + 1
      ≤ (H : Int) + 2 * (ph : Int))
    (hWo1 : ((Wo : Int) - 1) * (sw : Int) + (dw : Int) * ((kw : Int) - 1) + 1
      ≤ (W : Int) + 2 * (pw : Int))
    (hWo2 : (W : Int) + 2 * (pw : Int) < (Wo : Int) * (sw : Int) + (dw : Int) * ((kw : Int) - 1) + 1)
    (fh fw : Nat) (hfh : fh < kh) (hfw : fw < kw)
    (dstm : Int → R) (dst : Int) (srcm : Int → R) (src : Int) :
    (∀ (y x : Nat), y < Ho → x < Wo →
      details.im2col_process_row_apply ⟨kh, kw, sh, sw, ph, pw, dh, dw⟩ dstm dst srcm src
          (fh : Int) (fw : Int) (W : Int) (H : Int) (Wo : Int) (Ho : Int)
          (dst + ((y : Int) * (Wo : Int) + (x : Int)))
        = if 0 ≤ (y : Int) * (sh : Int) + (fh : Int) * (dh : Int) - (ph : Int) ∧
              (y : Int) * (sh : Int) + (fh : Int) * (dh : Int) - (ph : Int) < (H : Int) ∧
              0 ≤ (x : Int) * (sw : Int) + (fw : Int) * (dw : Int) - (pw : Int) ∧
              (x : Int) * (sw : Int) + (fw : Int) * (dw : Int) - (pw : Int) < (W : Int) then
            srcm (src + (((y : Int) * (sh : Int) + (fh : Int) * (dh : Int) - (ph : Int)) * (W : Int)
              + ((x : Int) * (sw : Int) + (fw : Int) * (dw : Int) - (pw : Int))))
          else 0) ∧
    (∀ p, (p < dst ∨ dst + (Ho : Int) * (Wo : Int) ≤ p) →
      details.im2col_process_row_apply ⟨kh, kw, sh, sw, ph, pw, dh, dw⟩ dstm dst srcm src
          (fh : Int) (fw : Int) (W : Int) (H : Int) (Wo : Int) (Ho : Int) p = dstm p) := by
  have hfd : (fw : Int) * (dw : Int) ≤ (dw : Int) * ((kw : Int) - 1) := by
    have : (fw : Int) ≤ (kw : Int) - 1 := by omega
    have h2 : (0 : Int) ≤ (dw : Int) := by positivity
    nlinarith
  have hfd0 : (0 : Int) ≤ (fw : Int) * (dw : Int) := by positivity
  have hfh2 : (fh : Int) * (dh : Int) ≤ (dh : Int) * ((kh : Int) - 1) := by
    have : (fh : Int) ≤ (kh : Int) - 1 := by omega
    have h2 : (0 : Int) ≤ (dh : Int) := by positivity
    nlinarith
  have hfh0 : (0 : Int) ≤ (fh : Int) * (dh : Int) := by positivity
  unfold details.im2col_process_row_apply
  simp only []
  by_cases hpad : (ph : Int) = 0 ∧ (pw : Int) = 0
  · rw [if_pos hpad, forInt_zero, Int.toNat_natCast]
    obtain ⟨hp0, hw0⟩ := hpad
    have hr := rows_apply Ho Wo dst
      (fun y x => srcm (src + ((y : Int) * (sh : Int) + (fh : Int) * (dh : Int)) * (W : Int)
        + (fw : Int) * (dw : Int) + x * (sw : Int)))
      (fun y m => details.memcpy_extended_strided (sw : Int) m (dst + (y : Int) * (Wo : Int)) srcm
        (src + ((y : Int) * (sh : Int) + (fh : Int) * (dh : Int)) * (W : Int)
          + (fw : Int) * (dw : Int)) (Wo : Int))
      (fun y _ m p => details.memcpy_extended_strided_apply _ _ _ _ _ _ _)
    refine ⟨?_, fun p hp => hr.2 dstm p hp⟩
    intro y x hy hx
    rw [hr.1 y x hy hx dstm]
    beta_reduce
    have hys : (y : Int) * (sh : Int) ≤ ((Ho : Int) - 1) * (sh : Int) :=
      mul_le_mul_of_nonneg_right (by omega) (by positivity)
    have hxs : (x : Int) * (sw : Int) ≤ ((Wo : Int) - 1) * (sw : Int) :=
      mul_le_mul_of_nonneg_right (by omega) (by positivity)
    have hy0 : (0 : Int) ≤ (y : Int) * (sh : Int) := by positivity
    have hx0 : (0 : Int) ≤ (x : Int) * (sw : Int) := by positivity
    rw [if_pos (by omega), hp0, hw0]
    congr 1
    ring
  · rw [if_neg hpad, forInt_zero, Int.toNat_natCast]
    have hstart : Int.tdiv ((pw : Int) - (fw : Int) * (dw : Int) + (sw : Int) - 1) (sw : Int)
        ≤ (Wo : Int) :=
      (tdiv_ceil_le ((pw : Int) - (fw : Int) * (dw : Int)) sw Wo hsw).2 (by omega)
    have hend : 0 ≤ Int.tdiv ((W : Int) + (pw : Int) - (fw : Int) * (dw : Int) + (sw : Int) - 1)
        (sw : Int) := Int.tdiv_nonneg (by omega) (by omega)
    have hr := rows_apply Ho Wo dst
      (fun y x =>
        if 0 ≤ (y : Int) * (sh : Int) + (fh : Int) * (dh : Int) - (ph : Int) ∧
            (y : Int) * (sh : Int) + (fh : Int) * (dh : Int) - (ph : Int) < (H : Int) then
          (if 0 ≤ x * (sw : Int) + (fw : Int) * (dw : Int) - (pw : Int) ∧
              x * (sw : Int) + (fw : Int) * (dw : Int) - (pw : Int) < (W : Int) then
            srcm (src + ((y : Int) * (sh : Int) + (fh : Int) * (dh : Int) - (ph : Int)) * (W : Int)
              + (x * (sw : Int) + (fw : Int) * (dw : Int) - (pw : Int))) else 0)
        else 0)
      (fun y m =>
        if (y : Int) * (sh : Int) + (fh : Int) * (dh : Int) - (ph : Int) ≥ 0 ∧
            (y : Int) * (sh : Int) + (fh : Int) * (dh : Int) - (ph : Int) < (H : Int) then
          if Int.tdiv ((W : Int) + (pw : Int) - (fw : Int) * (dw : Int) + (sw : Int) - 1) (sw : Int)
              < (Wo : Int) then
            memset0
              (details.memcpy_extended_strided (sw : Int)
                (if Int.tdiv ((pw : Int) - (fw : Int) * (dw : Int) + (sw : Int) - 1) (sw : Int) > 0
                  then memset0 m (dst + (y : Int) * (Wo : Int))
                    (Int.tdiv ((pw : Int) - (fw : Int) * (dw : Int) + (sw : Int) - 1) (sw : Int))
                  else m)
                (dst + (y : Int) * (Wo : Int)
                  + max (Int.tdiv ((pw : Int) - (fw : Int) * (dw : Int) + (sw : Int) - 1) (sw : Int)) 0)
                srcm
                (src + ((y : Int) * (sh : Int) + (fh : Int) * (dh : Int) - (ph : Int)) * (W : Int)
                  + max (Int.tdiv ((pw : Int) - (fw : Int) * (dw : Int) + (sw : Int) - 1) (sw : Int)) 0
                    * (sw : Int) + (fw : Int) * (dw : Int) - (pw : Int))
                (min (Int.tdiv ((W : Int) + (pw : Int) - (fw : Int) * (dw : Int) + (sw : Int) - 1)
                    (sw : Int)) (Wo : Int)
                  - max (Int.tdiv ((pw : Int) - (fw : Int) * (dw : Int) + (sw : Int) - 1) (sw : Int)) 0))
              (dst + (y : Int) * (Wo : Int)
                + Int.tdiv ((W : Int) + (pw : Int) - (fw : Int) * (dw : Int) + (sw : Int) - 1)
                  (sw : Int))
              ((Wo : Int)
                - Int.tdiv ((W : Int) + (pw : Int) - (fw : Int) * (dw : Int) + (sw : Int) - 1)
                  (sw : Int))
          else
            details.memcpy_extended_strided (sw : Int)
              (if Int.tdiv ((pw : Int) - (fw : Int) * (dw : Int) + (sw : Int) - 1) (sw : Int) > 0
                then memset0 m (dst + (y : Int) * (Wo : Int))
                  (Int.tdiv ((pw : Int) - (fw : Int) * (dw : Int) + (sw : Int) - 1) (sw : Int))
                else m)
              (dst + (y : Int) * (Wo : Int)
                + max (Int.tdiv ((pw : Int) - (fw : Int) * (dw : Int) + (sw : Int) - 1) (sw : Int)) 0)
              srcm
              (src + ((y : Int) * (sh : Int) + (fh : Int) * (dh : Int) - (ph : Int)) * (W : Int)
                + max (Int.tdiv ((pw : Int) - (fw : Int) * (dw : Int) + (sw : Int) - 1) (sw : Int)) 0
                  * (sw : Int) + (fw : Int) * (dw : Int) - (pw : Int))
              (min (Int.tdiv ((W : Int) + (pw : Int) - (fw : Int) * (dw : Int) + (sw : Int) - 1)
                  (sw : Int)) (Wo : Int)
                - max (Int.tdiv ((pw : Int) - (fw : Int) * (dw : Int) + (sw : Int) - 1) (sw : Int)) 0)
        else memset0 m (dst + (y : Int) * (Wo : Int)) (Wo : Int))
      (fun y _ m p => by
        beta_reduce
        by_cases hy : (y : Int) * (sh : Int) + (fh : Int) * (dh : Int) - (ph : Int) ≥ 0 ∧
            (y : Int) * (sh : Int) + (fh : Int) * (dh : Int) - (ph : Int) < (H : Int)
        · rw [if_pos hy, if_pos (show 0 ≤ (y : Int) * (sh : Int) + (fh : Int) * (dh : Int)
              - (ph : Int) ∧ (y : Int) * (sh : Int) + (fh : Int) * (dh : Int) - (ph : Int)
                < (H : Int) from ⟨hy.1, hy.2⟩)]
          exact im2col_clip_row W Wo sw hsw (pw : Int) ((fw : Int) * (dw : Int)) hstart hend m
            (dst + (y : Int) * (Wo : Int)) srcm
            (src + ((y : Int) * (sh : Int) + (fh : Int) * (dh : Int) - (ph : Int)) * (W : Int)) p
        · rw [if_neg hy, if_neg (show ¬ (0 ≤ (y : Int) * (sh : Int) + (fh : Int) * (dh : Int)
              - (ph : Int) ∧ (y : Int) * (sh : Int) + (fh : Int) * (dh : Int) - (ph : Int)
                < (H : Int)) from fun h => hy ⟨h.1, h.2⟩)]
          simp only [memset0, ite_self])
    refine ⟨?_, fun p hp => hr.2 dstm p hp⟩
    intro y x hy hx
    rw [hr.1 y x hy hx dstm]
    beta_reduce
    by_cases h1 : 0 ≤ (y : Int) * (sh : Int) + (fh : Int) * (dh : Int) - (ph : Int) ∧
        (y : Int) * (sh : Int) + (fh : Int) * (dh : Int) - (ph : Int) < (H : Int)
    · rw [if_pos h1]
      by_cases h2 : 0 ≤ (x : Int) * (sw : Int) + (fw : Int) * (dw : Int) - (pw : Int) ∧
          (x : Int) * (sw : Int) + (fw : Int) * (dw : Int) - (pw : Int) < (W : Int)
      · rw [if_pos h2, if_pos ⟨h1.1, h1.2, h2.1, h2.2⟩]
        congr 1
        ring
      · rw [if_neg h2, if_neg (fun h => h2 ⟨h.2.2.1, h.2.2.2⟩)]
    · rw [if_neg h1, if_neg (fun h => h1 ⟨h.1, h.2.1⟩)]

/-- The function `details::im2col` when the dilated kernel width fits in the
input and `Ho, Wo` are the output sizes of `Conv2d`: the cell `(y, x)` of the
row `(c, fh, fw)` of the columns matrix is the input sample
`in[c, y*stride_h + fh*dilation_h - pad_h, x*stride_w + fw*dilation_w - pad_w]`,
or zero where the sample lies outside the input plane; cells outside the
columns matrix are not stored to. -/
theorem details.im2col_spec {R : Type} [Zero R]
    (C H W kh kw sh sw ph pw dh dw Ho Wo : Nat) (hsw : 1 ≤ sw)
    (hfitW : (dw : Int) * ((kw : Int) - 1) + 1 ≤ (W : Int))
    (hHo : ((Ho : Int) - 1) * (sh : Int) + (dh : Int) * ((kh : Int) - 1) + 1
      ≤ (H : Int) + 2 * (ph : Int))
    (hWo1 : ((Wo : Int) - 1) * (sw : Int) + (dw : Int) * ((kw : Int) - 1) + 1
      ≤ (W : Int) + 2 * (pw : Int))
    (hWo2 : (W : Int) + 2 * (pw : Int) < (Wo : Int) * (sw : Int) + (dw : Int) * ((kw : Int) - 1) + 1)
    (output input : Int → R) (o i : Int) :
    (∀ (c fh fw y x : Nat), c < C → fh < kh → fw < kw → y < Ho → x < Wo →
      details.im2col ⟨kh, kw, sh, sw, ph, pw, dh, dw⟩ output o input i (C : Int) (W : Int) (H : Int)
          (Wo : Int) (Ho : Int)
          (o + ((((c * kh + fh) * kw + fw : Nat) : Int) * ((Ho : Int) * (Wo : Int))
            + ((y : Int) * (Wo : Int) + (x : Int))))
        = if 0 ≤ (y : Int) * (sh : Int) + (fh : Int) * (dh : Int) - (ph : Int) ∧
              (y : Int) * (sh : Int) + (fh : Int) * (dh : Int) - (ph : Int) < (H : Int) ∧
              0 ≤ (x : Int) * (sw : Int) + (fw : Int) * (dw : Int) - (pw : Int) ∧
              (x : Int) * (sw : Int) + (fw : Int) * (dw : Int) - (pw : Int) < (W : Int) then
            input (i + (c : Int) * ((H : Int) * (W : Int))
              + (((y : Int) * (sh : Int) + (fh : Int) * (dh : Int) - (ph : Int)) * (W : Int)
                + ((x : Int) * (sw : Int) + (fw : Int) * (dw : Int) - (pw : Int))))
          else 0) ∧
    (∀ p, (p < o ∨ o + ((C * kh * kw : Nat) : Int) * ((Ho : Int) * (Wo : Int)) ≤ p) →
      details.im2col ⟨kh, kw, sh, sw, ph, pw, dh, dw⟩ output o input i (C : Int) (W : Int) (H : Int)
          (Wo : Int) (Ho : Int) p = output p) := by
  have hN : ((C : Int) * (kh : Int) * (kw : Int)).toNat = C * kh * kw := by
    rw [← Nat.cast_mul, ← Nat.cast_mul, Int.toNat_natCast]
  have hrow := fun (n : Nat) (hn : n < C * kh * kw) (m : Int → R) =>
    details.im2col_process_row_spec (R := R) H W kh kw sh sw ph pw dh dw Ho Wo hsw hfitW hHo hWo1 hWo2
      ((n / kw) % kh) (n % kw)
      (Nat.mod_lt _ (by
        rcases Nat.eq_zero_or_pos kh with h | h
        · subst h; simp at hn
        · exact h))
      (Nat.mod_lt _ (by
        rcases Nat.eq_zero_or_pos kw with h | h
        · subst h; simp at hn
        · exact h))
      m (o + (n : Int) * ((Ho : Int) * (Wo : Int))) input
      (i + ((n / kh / kw : Nat) : Int) * ((H : Int) * (W : Int)))
  have hS0 : (0 : Int) ≤ (Ho : Int) * (Wo : Int) := by positivity
  have hb := forLoop_block (C * kh * kw) ((Ho : Int) * (Wo : Int)) hS0 o
    (fun n m => details.im2col_process_row_apply ⟨kh, kw, sh, sw, ph, pw, dh, dw⟩ m
      (o + (n : Int) * ((Ho : Int) * (Wo : Int))) input
      (i + (((n : Int)).tdiv (kh : Int)).tdiv (kw : Int) * ((H : Int) * (W : Int)))
      ((((n : Int)).tdiv (kw : Int)).tmod (kh : Int)) (((n : Int)).tmod (kw : Int))
      (W : Int) (H : Int) (Wo : Int) (Ho : Int))
    (by
      intro n hn m p hp
      simp only [natCast_tdiv, natCast_tmod]
      refine (hrow n hn m).2 p ?_
      rw [add_mul, one_mul] at hp
      omega)
  unfold details.im2col
  simp only []
  rw [forInt_zero, hN]
  refine ⟨?_, fun p hp => hb.1 output p (by push_cast at hp ⊢; exact hp)⟩
  intro c fh fw y x hc hfh hfw hy hx
  have hrn : (c * kh + fh) * kw + fw < C * kh * kw := by
    have h1 : c * kh + fh < C * kh := by
      have : (c + 1) * kh ≤ C * kh := Nat.mul_le_mul_right kh hc
      rw [Nat.add_mul, Nat.one_mul] at this
      omega
    have h2 : (c * kh + fh + 1) * kw ≤ C * kh * kw := Nat.mul_le_mul_right kw h1
    rw [Nat.add_mul, Nat.one_mul] at h2
    omega
  have hyx0 : (0 : Int) ≤ (y : Int) * (Wo : Int) + (x : Int) := by positivity
  have hyx1 : (y : Int) * (Wo : Int) + (x : Int) < (Ho : Int) * (Wo : Int) := by
    have : ((y : Int) + 1) * (Wo : Int) ≤ (Ho : Int) * (Wo : Int) :=
      mul_le_mul_of_nonneg_right (by omega) (by omega)
    rw [add_mul, one_mul] at this
    omega
  refine hb.2 _ hrn _ _ (by omega) (by rw [Int.add_mul, Int.one_mul]; omega) ?_ output
  intro m
  obtain ⟨d1, d2, d3⟩ := row_decode c kh fh kw fw hfh hfw
  beta_reduce
  rw [d1, d2, d3]
  have := (details.im2col_process_row_spec (R := R) H W kh kw sh sw ph pw dh dw Ho Wo hsw hfitW
    hHo hWo1 hWo2 fh fw hfh hfw m
    (o + (((c * kh + fh) * kw + fw : Nat) : Int) * ((Ho : Int) * (Wo : Int))) input
    (i + (c : Int) * ((H : Int) * (W : Int)))).1 y x hy hx
  rw [add_assoc] at this
  rw [this]

/-- The output size of `Conv2d` along one axis, `(n + 2*pad - dilation*(k-1) - 1) / stride + 1`
in C arithmetic, when the dilated kernel extent fits in the input: the value
as a natural number `o` and the two bounds that make `o` the number of window
positions. -/
theorem conv_out_size (n k s p d : Nat) (hs : 1 ≤ s) (hk : 1 ≤ k) (hfit : d * (k - 1) + 1 ≤ n) :
    Int.tdiv ((n : Int) + 2 * (p : Int) - (d : Int) * ((k : Int) - 1) - 1) (s : Int) + 1
      = (((n + 2 * p - (d * (k - 1) + 1)) / s + 1 : Nat) : Int) ∧
    ((((n + 2 * p - (d * (k - 1) + 1)) / s + 1 : Nat) : Int) - 1) * (s : Int)
        + (d : Int) * ((k : Int) - 1) + 1 ≤ (n : Int) + 2 * (p : Int) ∧
    (n : Int) + 2 * (p : Int)
      < (((n + 2 * p - (d * (k - 1) + 1)) / s + 1 : Nat) : Int) * (s : Int)
        + (d : Int) * ((k : Int) - 1) + 1 := by
  have e : (d : Int) * ((k : Int) - 1) = ((d * (k - 1) : Nat) : Int) := by
    rw [Nat.cast_mul, Nat.cast_sub hk, Nat.cast_one]
  rw [e]
  generalize d * (k - 1) = t at hfit ⊢
  have hnum : (n : Int) + 2 * (p : Int) - (t : Int) - 1 = ((n + 2 * p - (t + 1) : Nat) : Int) := by
    omega
  rw [hnum, natCast_tdiv]
  generalize hN : n + 2 * p - (t + 1) = N
  have h1 := Nat.div_mul_le_self N s
  have h2 := Nat.div_add_mod N s
  have h3 := Nat.mod_lt N (show 0 < s by omega)
  have hq : ((N / s + 1 : Nat) : Int) = ((N / s : Nat) : Int) + 1 := by push_cast; rfl
  have hm : ((N / s * s : Nat) : Int) = ((N / s : Nat) : Int) * (s : Int) := by push_cast; rfl
  have hm2 : ((s * (N / s) : Nat) : Int) = ((N / s : Nat) : Int) * (s : Int) := by
    push_cast; ring
  refine ⟨by rw [hq], ?_, ?_⟩
  · rw [hq]
    have : ((N / s : Nat) : Int) * (s : Int) ≤ (N : Int) := by rw [← hm]; exact_mod_cast h1
    have e2 : ((N / s : Nat) : Int) + 1 - 1 = ((N / s : Nat) : Int) := by ring
    rw [e2]
    omega
  · rw [hq, add_mul, one_mul]
    have : (N : Int) < ((N / s : Nat) : Int) * (s : Int) + (s : Int) := by
      rw [← hm2]
      have : N < s * (N / s) + s := by omega
      exact_mod_cast this
    omega

/-- One cell of the `gemm_nn` call of `Conv2d` on the columns matrix of `im2col`:
the initial content of the cell plus the direct convolution sum, with samples
outside the input plane counting as zero. -/
theorem conv2d_cell {R : Type} [CommRing R] (C H W K kh kw sh sw ph pw dh dw Ho Wo : Nat)
    (hsw : 1 ≤ sw)
    (hfitW : (dw : Int) * ((kw : Int) - 1) + 1 ≤ (W : Int))
    (hHo : ((Ho : Int) - 1) * (sh : Int) + (dh : Int) * ((kh : Int) - 1) + 1
      ≤ (H : Int) + 2 * (ph : Int))
    (hWo1 : ((Wo : Int) - 1) * (sw : Int) + (dw : Int) * ((kw : Int) - 1) + 1
      ≤ (W : Int) + 2 * (pw : Int))
    (hWo2 : (W : Int) + 2 * (pw : Int) < (Wo : Int) * (sw : Int) + (dw : Int) * ((kw : Int) - 1) + 1)
    (kerm : Int → R) (koff : Int) (inm : Int → R) (ioff : Int)
    (columns_fresh init copy_buffers : Int → R) (sizeofT : Nat) (thread_id : Int → Nat)
    (k y x : Nat) (hk : k < K) (hy : y < Ho) (hx : x < Wo) :
    details.gemm_nn (K : Int) ((Ho : Int) * (Wo : Int)) ((kh : Int) * (kw : Int) * (C : Int))
        kerm koff ((kh : Int) * (kw : Int) * (C : Int))
        (details.im2col ⟨kh, kw, sh, sw, ph, pw, dh, dw⟩ columns_fresh 0 inm ioff (C : Int) (W : Int)
          (H : Int) (Wo : Int) (Ho : Int))
        0 ((Ho : Int) * (Wo : Int)) init 0 ((Ho : Int) * (Wo : Int)) copy_buffers sizeofT thread_id
        ((k : Int) * ((Ho : Int) * (Wo : Int)) + ((y : Int) * (Wo : Int) + (x : Int)))
      = init ((k : Int) * ((Ho : Int) * (Wo : Int)) + ((y : Int) * (Wo : Int) + (x : Int)))
        + ∑ c in Finset.range C, ∑ i in Finset.range kh, ∑ j in Finset.range kw,
            kerm (koff + ((((k : Int) * (C : Int) + (c : Int)) * (kh : Int) + (i : Int)) * (kw : Int)
              + (j : Int)))
              * (if 0 ≤ (y : Int) * (sh : Int) + (i : Int) * (dh : Int) - (ph : Int) ∧
                    (y : Int) * (sh : Int) + (i : Int) * (dh : Int) - (ph : Int) < (H : Int) ∧
                    0 ≤ (x : Int) * (sw : Int) + (j : Int) * (dw : Int) - (pw : Int) ∧
                    (x : Int) * (sw : Int) + (j : Int) * (dw : Int) - (pw : Int) < (W : Int) then
                  inm (ioff + (c : Int) * ((H : Int) * (W : Int))
                    + (((y : Int) * (sh : Int) + (i : Int) * (dh : Int) - (ph : Int)) * (W : Int)
                      + ((x : Int) * (sw : Int) + (j : Int) * (dw : Int) - (pw : Int))))
                else 0) := by
  have hq := row_lt y Ho x Wo hy hx
  have hqn : y * Wo + x < Ho * Wo := by zify; omega
  have hg := details.gemm_nn_cell K (Ho * Wo) (kh * kw * C) (Ho * Wo) le_rfl kerm koff
    ((kh : Int) * (kw : Int) * (C : Int))
    (details.im2col ⟨kh, kw, sh, sw, ph, pw, dh, dw⟩ columns_fresh 0 inm ioff (C : Int) (W : Int)
      (H : Int) (Wo : Int) (Ho : Int)) 0 ((Ho : Int) * (Wo : Int)) init 0 copy_buffers sizeofT
    thread_id k (y * Wo + x) hk hqn
  simp only [Nat.cast_mul, Nat.cast_add, zero_add] at hg
  have ea : (k : Int) * ((Ho : Int) * (Wo : Int)) + ((y : Int) * (Wo : Int) + (x : Int))
      = (y : Int) * (Wo : Int) + (x : Int) + (k : Int) * ((Ho : Int) * (Wo : Int)) := by ring
  rw [ea, hg]
  congr 1
  have hspec := (details.im2col_spec (R := R) C H W kh kw sh sw ph pw dh dw Ho Wo hsw hfitW hHo hWo1
    hWo2 columns_fresh inm 0 ioff).1
  have e1 : kh * kw * C = C * (kh * kw) := by ring
  rw [e1, sum_range_mul]
  refine Finset.sum_congr rfl (fun c hc => ?_)
  rw [sum_range_mul]
  refine Finset.sum_congr rfl (fun i hi => ?_)
  refine Finset.sum_congr rfl (fun j hj => ?_)
  have hc2 := Finset.mem_range.mp hc
  have hi2 := Finset.mem_range.mp hi
  have hj2 := Finset.mem_range.mp hj
  have hs := hspec c i j y x hc2 hi2 hj2 hy hx
  have e2 : (y : Int) * (Wo : Int) + (x : Int)
        + ((c * (kh * kw) + (i * kw + j) : Nat) : Int) * ((Ho : Int) * (Wo : Int))
      = 0 + ((((c * kh + i) * kw + j : Nat) : Int) * ((Ho : Int) * (Wo : Int))
        + ((y : Int) * (Wo : Int) + (x : Int))) := by
    push_cast
    ring
  rw [e2, hs]
  congr 2
  push_cast
  ring

/-- The function `Conv2d` on one image whose dilated kernel width fits in the
input, with `Ho, Wo` the output sizes that the function computes: the call
returns a tensor of shape `[1, K, Ho, Wo]` that holds the direct convolution,
the bias included (or 0 when no bias is given). -/
theorem Conv2d_direct {R : Type} [CommRing R] (C H W K kh kw sh sw ph pw dh dw Ho Wo : Nat)
    (hsw : 1 ≤ sw)
    (hfitW : (dw : Int) * ((kw : Int) - 1) + 1 ≤ (W : Int))
    (hHoe : Int.tdiv ((H : Int) + 2 * (ph : Int) - (dh : Int) * ((kh : Int) - 1) - 1) (sh : Int) + 1
      = (Ho : Int))
    (hWoe : Int.tdiv ((W : Int) + 2 * (pw : Int) - (dw : Int) * ((kw : Int) - 1) - 1) (sw : Int) + 1
      = (Wo : Int))
    (hHo : ((Ho : Int) - 1) * (sh : Int) + (dh : Int) * ((kh : Int) - 1) + 1
      ≤ (H : Int) + 2 * (ph : Int))
    (hWo1 : ((Wo : Int) - 1) * (sw : Int) + (dw : Int) * ((kw : Int) - 1) + 1
      ≤ (W : Int) + 2 * (pw : Int))
    (hWo2 : (W : Int) + 2 * (pw : Int) < (Wo : Int) * (sw : Int) + (dw : Int) * ((kw : Int) - 1) + 1)
    (input kernel bias : tensor R)
    (columns_fresh out_fresh copy_buffers : Int → R) (sizeofT : Nat) (thread_id : Int → Nat)
    (hin : input.m_shape = [1, (C : Int), (H : Int), (W : Int)])
    (hker : kernel.m_shape = [(K : Int), (C : Int), (kh : Int), (kw : Int)]) :
    ∃ out, Conv2d ⟨kh, kw, sh, sw, ph, pw, dh, dw⟩ input kernel bias columns_fresh out_fresh
        copy_buffers sizeofT thread_id = some out ∧
      out.m_shape = [1, (K : Int), (Ho : Int), (Wo : Int)] ∧
      ∀ k y x : Nat, k < K → y < Ho → x < Wo →
        out.get4 0 k y x
          = (if bias.m_null = false then bias.get1 k else 0)
            + ∑ c in Finset.range C, ∑ i in Finset.range kh, ∑ j in Finset.range kw,
                kernel.get4 k c i j
                  * (if 0 ≤ (y : Int) * (sh : Int) + (i : Int) * (dh : Int) - (ph : Int) ∧
                        (y : Int) * (sh : Int) + (i : Int) * (dh : Int) - (ph : Int) < (H : Int) ∧
                        0 ≤ (x : Int) * (sw : Int) + (j : Int) * (dw : Int) - (pw : Int) ∧
                        (x : Int) * (sw : Int) + (j : Int) * (dw : Int) - (pw : Int) < (W : Int) then
                      input.get4 0 c ((y : Int) * (sh : Int) + (i : Int) * (dh : Int) - (ph : Int))
                        ((x : Int) * (sw : Int) + (j : Int) * (dw : Int) - (pw : Int))
                    else 0) := by
  have hsums : ∀ (k y x : Nat),
      (∑ c in Finset.range C, ∑ i in Finset.range kh, ∑ j in Finset.range kw,
        kernel.m_ptr (kernel.m_offset
            + ((((k : Int) * (C : Int) + (c : Int)) * (kh : Int) + (i : Int)) * (kw : Int) + (j : Int)))
          * (if 0 ≤ (y : Int) * (sh : Int) + (i : Int) * (dh : Int) - (ph : Int) ∧
                (y : Int) * (sh : Int) + (i : Int) * (dh : Int) - (ph : Int) < (H : Int) ∧
                0 ≤ (x : Int) * (sw : Int) + (j : Int) * (dw : Int) - (pw : Int) ∧
                (x : Int) * (sw : Int) + (j : Int) * (dw : Int) - (pw : Int) < (W : Int) then
              input.m_ptr (input.m_offset + (c : Int) * ((H : Int) * (W : Int))
                + (((y : Int) * (sh : Int) + (i : Int) * (dh : Int) - (ph : Int)) * (W : Int)
                  + ((x : Int) * (sw : Int) + (j : Int) * (dw : Int) - (pw : Int))))
            else 0))
      = ∑ c in Finset.range C, ∑ i in Finset.range kh, ∑ j in Finset.range kw,
          kernel.get4 k c i j
            * (if 0 ≤ (y : Int) * (sh : Int) + (i : Int) * (dh : Int) - (ph : Int) ∧
                  (y : Int) * (sh : Int) + (i : Int) * (dh : Int) - (ph : Int) < (H : Int) ∧
                  0 ≤ (x : Int) * (sw : Int) + (j : Int) * (dw : Int) - (pw : Int) ∧
                  (x : Int) * (sw : Int) + (j : Int) * (dw : Int) - (pw : Int) < (W : Int) then
                input.get4 0 c ((y : Int) * (sh : Int) + (i : Int) * (dh : Int) - (ph : Int))
                  ((x : Int) * (sw : Int) + (j : Int) * (dw : Int) - (pw : Int))
              else 0) := by
    intro k y x
    refine Finset.sum_congr rfl (fun c _ => ?_)
    refine Finset.sum_congr rfl (fun i _ => ?_)
    refine Finset.sum_congr rfl (fun j _ => ?_)
    simp only [tensor.get4, tensor.Sub2, tensor.Sub, tensor.size, hin, hker, List.tail_cons,
      List.foldl_cons, List.foldl_nil, one_mul, List.getD_cons_succ, List.getD_cons_zero, zero_mul,
      add_zero]
    congr 1
    · congr 1
      ring
    · by_cases hc : 0 ≤ (y : Int) * (sh : Int) + (i : Int) * (dh : Int) - (ph : Int) ∧
          (y : Int) * (sh : Int) + (i : Int) * (dh : Int) - (ph : Int) < (H : Int) ∧
          0 ≤ (x : Int) * (sw : Int) + (j : Int) * (dw : Int) - (pw : Int) ∧
          (x : Int) * (sw : Int) + (j : Int) * (dw : Int) - (pw : Int) < (W : Int)
      · rw [if_pos hc, if_pos hc]
        congr 1
        ring
      · rw [if_neg hc, if_neg hc]
  have hq : ∀ (y x : Nat), y < Ho → x < Wo →
      0 ≤ (y : Int) * (Wo : Int) + (x : Int) ∧
      (y : Int) * (Wo : Int) + (x : Int) < (Ho : Int) * (Wo : Int) := by
    intro y x hy hx
    have := row_lt y Ho x Wo hy hx
    exact ⟨by positivity, by omega⟩
  unfold Conv2d
  simp only [channels, height, width, number, hin, hker]
  simp only [List.length_cons, List.length_nil, List.getD_cons_succ, List.getD_cons_zero, ne_eq,
    not_true_eq_false, if_false, hHoe, hWoe]
  by_cases hnull : bias.m_null = false
  · simp only [hnull, if_true]
    refine ⟨_, rfl, rfl, ?_⟩
    intro k y x hk hy hx
    have hbias := bias_fill_apply 1 K Ho Wo
      (tensor.New [1, (K : Int), (Ho : Int), (Wo : Int)] out_fresh)
      (fun c => bias.m_ptr (bias.m_offset + c)) (by simp [tensor.New]) out_fresh 0 k (by omega) hk
      ((y : Int) * (Wo : Int) + (x : Int)) (hq y x hy hx).1 (hq y x hy hx).2
    have hcell := conv2d_cell C H W K kh kw sh sw ph pw dh dw Ho Wo hsw hfitW hHo hWo1 hWo2
      kernel.m_ptr kernel.m_offset input.m_ptr input.m_offset columns_fresh
      (forInt 0 1 (fun n m => forInt 0 (K : Int) (fun c m =>
        (({ tensor.New [1, (K : Int), (Ho : Int), (Wo : Int)] out_fresh with m_ptr := m }.Sub2 n
          c).Fill (bias.m_ptr (bias.m_offset + c))).m_ptr) m) out_fresh)
      copy_buffers sizeofT thread_id k y x hk hy hx
    rw [← hsums k y x]
    simp only [tensor.get4, tensor.get1, tensor.Sub2, tensor.Sub, tensor.size, tensor.New,
      List.tail_cons, List.foldl_cons, List.foldl_nil, one_mul, List.getD_cons_succ,
      List.getD_cons_zero, zero_mul, add_zero, mul_one, zero_add, Nat.cast_one, Nat.cast_zero]
      at hbias hcell ⊢
    have ea : (k : Int) * ((Ho : Int) * (Wo : Int)) + (y : Int) * (Wo : Int) + (x : Int)
        = (k : Int) * ((Ho : Int) * (Wo : Int)) + ((y : Int) * (Wo : Int) + (x : Int)) := by ring
    rw [ea, hcell, hbias]
  · have hn : bias.m_null = true := by
      cases h : bias.m_null
      · exact absurd h hnull
      · rfl
    simp only [hn, Bool.true_eq_false, if_false]
    refine ⟨_, rfl, rfl, ?_⟩
    intro k y x hk hy hx
    have hcell := conv2d_cell C H W K kh kw sh sw ph pw dh dw Ho Wo hsw hfitW hHo hWo1 hWo2
      kernel.m_ptr kernel.m_offset input.m_ptr input.m_offset columns_fresh
      (tensor.Zeros [1, (K : Int), (Ho : Int), (Wo : Int)] out_fresh).m_ptr
      copy_buffers sizeofT thread_id k y x hk hy hx
    have hk1 : ((k : Int) + 1) * ((Ho : Int) * (Wo : Int)) ≤ (K : Int) * ((Ho : Int) * (Wo : Int)) :=
      mul_le_mul_of_nonneg_right (by omega) (by positivity)
    have hk0 : (0 : Int) ≤ (k : Int) * ((Ho : Int) * (Wo : Int)) := by positivity
    have hz := Zeros_apply [1, (K : Int), (Ho : Int), (Wo : Int)] out_fresh
      ((k : Int) * ((Ho : Int) * (Wo : Int)) + ((y : Int) * (Wo : Int) + (x : Int)))
      (by have := (hq y x hy hx).1; omega)
      (by
        have := (hq y x hy hx).2
        simp only [tensor.New, tensor.size, List.foldl_cons, List.foldl_nil, one_mul]
        rw [add_mul, one_mul] at hk1
        have e : (K : Int) * (Ho : Int) * (Wo : Int) = (K : Int) * ((Ho : Int) * (Wo : Int)) := by
          ring
        rw [e]
        omega)
    rw [← hsums k y x]
    simp only [tensor.get4, tensor.Sub2, tensor.Sub, tensor.size, tensor.Zeros, tensor.New,
      List.tail_cons, List.foldl_cons, List.foldl_nil, one_mul, List.getD_cons_succ,
      List.getD_cons_zero, zero_mul, add_zero, mul_one, zero_add]
      at hz hcell ⊢
    have ea : (k : Int) * ((Ho : Int) * (Wo : Int)) + (y : Int) * (Wo : Int) + (x : Int)
        = (k : Int) * ((Ho : Int) * (Wo : Int)) + ((y : Int) * (Wo : Int) + (x : Int)) := by ring
    rw [ea, hcell, hz, zero_add]

/-- The function `col2im` (rows in program order) applied to the columns matrix
of `im2col`, accumulated into an image buffer `img`: the pixel `(c, oy, ox)` receives its own input
value once for every window position `(y, x)` and kernel tap `(i, j)` that
samples it. -/
theorem col2im_im2col {R : Type} [CommRing R] (C H W kh kw sh sw ph pw dh dw Ho Wo : Nat)
    (hsw : 1 ≤ sw)
    (hfitW : (dw : Int) * ((kw : Int) - 1) + 1 ≤ (W : Int))
    (hHo : ((Ho : Int) - 1) * (sh : Int) + (dh : Int) * ((kh : Int) - 1) + 1
      ≤ (H : Int) + 2 * (ph : Int))
    (hWo1 : ((Wo : Int) - 1) * (sw : Int) + (dw : Int) * ((kw : Int) - 1) + 1
      ≤ (W : Int) + 2 * (pw : Int))
    (hWo2 : (W : Int) + 2 * (pw : Int) < (Wo : Int) * (sw : Int) + (dw : Int) * ((kw : Int) - 1) + 1)
    (img columns_fresh xin : Int → R) (o xo : Int) (c oy ox : Nat) (hc : c < C) (hoy : oy < H)
    (hox : ox < W) :
    details.col2im ⟨kh, kw, sh, sw, ph, pw, dh, dw⟩ img o
        (details.im2col ⟨kh, kw, sh, sw, ph, pw, dh, dw⟩ columns_fresh 0 xin xo (C : Int) (W : Int)
          (H : Int) (Wo : Int) (Ho : Int))
        0 (C : Int) (W : Int) (H : Int) (Wo : Int) (Ho : Int)
        (o + (c : Int) * ((H : Int) * (W : Int)) + ((oy : Int) * (W : Int) + (ox : Int)))
      = img (o + (c : Int) * ((H : Int) * (W : Int)) + ((oy : Int) * (W : Int) + (ox : Int)))
        + ((∑ i in Finset.range kh, ∑ j in Finset.range kw, ∑ y in Finset.range Ho,
            ∑ x in Finset.range Wo,
              if (y : Int) * (sh : Int) + (i : Int) * (dh : Int) - (ph : Int) = (oy : Int) ∧
                  (x : Int) * (sw : Int) + (j : Int) * (dw : Int) - (pw : Int) = (ox : Int)
              then 1 else 0 : Nat) : R)
          * xin (xo + (c : Int) * ((H : Int) * (W : Int)) + ((oy : Int) * (W : Int) + (ox : Int))) := by
  rw [col2im_pixel C H W Ho Wo kh kw sh sw ph pw dh dw hsw img _ o c oy ox hc hoy hox]
  congr 1
  have hspec := (details.im2col_spec (R := R) C H W kh kw sh sw ph pw dh dw Ho Wo hsw hfitW hHo hWo1
    hWo2 columns_fresh xin 0 xo).1
  simp only [Nat.cast_sum, Nat.cast_ite, Nat.cast_one, Nat.cast_zero]
  rw [Finset.sum_mul]
  refine Finset.sum_congr rfl (fun i hi => ?_)
  rw [Finset.sum_mul]
  refine Finset.sum_congr rfl (fun j hj => ?_)
  rw [Finset.sum_mul]
  refine Finset.sum_congr rfl (fun y hy => ?_)
  rw [Finset.sum_mul]
  refine Finset.sum_congr rfl (fun x hx => ?_)
  have hs := hspec c i j y x hc (Finset.mem_range.1 hi) (Finset.mem_range.1 hj)
    (Finset.mem_range.1 hy) (Finset.mem_range.1 hx)
  rw [zero_add] at hs
  by_cases hcond : (y : Int) * (sh : Int) + (i : Int) * (dh : Int) - (ph : Int) = (oy : Int) ∧
      (x : Int) * (sw : Int) + (j : Int) * (dw : Int) - (pw : Int) = (ox : Int)
  · rw [if_pos hcond, if_pos hcond, one_mul, hs, if_pos (by omega), hcond.1, hcond.2]
  · rw [if_neg hcond, if_neg hcond, zero_mul]

/-- The function `details::col2im` is its parallel loop over the rows with the
body `col2im_row`. -/
theorem details.col2im_rows {R : Type} [Add R] (hp : conv_params) (output : Int → R) (o : Int)
    (input : Int → R) (i : Int) (channels inputWidth inputHeight outputWidth outputHeight : Int) :
    details.col2im hp output o input i channels inputWidth inputHeight outputWidth outputHeight
      = forInt 0 (channels * hp.kernel_h * hp.kernel_w) (fun row m =>
          details.col2im_row hp o input i inputWidth inputHeight outputWidth outputHeight row m)
          output := rfl

/-! ## The two templates of `im2col_process_row`: lemmas -/

/-- The dispatch between the two templates of `im2col_process_row`: the
partial specialisation is chosen exactly when both paddings are 0. -/
theorem details.im2col_process_row_apply_dispatch {R : Type} [Zero R] (hp : conv_params)
    (dstm : Int → R) (dst : Int) (srcm : Int → R) (src : Int)
    (fh fw inputWidth inputHeight outputWidth outputHeight : Int) :
    details.im2col_process_row_apply hp dstm dst srcm src fh fw inputWidth inputHeight outputWidth
        outputHeight
      = if hp.pad_h = 0 ∧ hp.pad_w = 0 then
          details.im2col_process_row_zero_pad hp dstm dst srcm src fh fw inputWidth inputHeight
            outputWidth outputHeight
        else
          details.im2col_process_row_primary hp dstm dst srcm src fh fw inputWidth inputHeight
            outputWidth outputHeight := rfl

/-- With both paddings 0 and output sizes within the bounds of the `Conv2d`
formula, the primary template of `im2col_process_row` is the strided copy of
the specialisation: no row is outside the image and nothing is clipped. -/
theorem details.im2col_primary_eq_zero_pad {R : Type} [Zero R]
    (H W kh kw sh sw dh dw Ho Wo : Nat) (hsw : 1 ≤ sw)
    (hHo : ((Ho : Int) - 1) * (sh : Int) + (dh : Int) * ((kh : Int) - 1) + 1 ≤ (H : Int))
    (hWo : ((Wo : Int) - 1) * (sw : Int) + (dw : Int) * ((kw : Int) - 1) + 1 ≤ (W : Int))
    (fh fw : Nat) (hfh : fh < kh) (hfw : fw < kw)
    (dstm : Int → R) (dst : Int) (srcm : Int → R) (src : Int) :
    details.im2col_process_row_primary ⟨kh, kw, sh, sw, 0, 0, dh, dw⟩ dstm dst srcm src
        (fh : Int) (fw : Int) (W : Int) (H : Int) (Wo : Int) (Ho : Int)
      = details.im2col_process_row_zero_pad ⟨kh, kw, sh, sw, 0, 0, dh, dw⟩ dstm dst srcm src
        (fh : Int) (fw : Int) (W : Int) (H : Int) (Wo : Int) (Ho : Int) := by
  unfold details.im2col_process_row_primary details.im2col_process_row_zero_pad forInt
  simp only
  apply forLoop_congr
  intro k hk m
  have hk2 : k < Ho := by
    have : ((Ho : Int) - 0).toNat = Ho := by simp
    omega
  have hfd : (fw : Int) * (dw : Int) ≤ (dw : Int) * ((kw : Int) - 1) := by
    have : (fw : Int) ≤ (kw : Int) - 1 := by omega
    rw [mul_comm]
    exact mul_le_mul_of_nonneg_left this (Int.natCast_nonneg dw)
  have hfdh : (fh : Int) * (dh : Int) ≤ (dh : Int) * ((kh : Int) - 1) := by
    have : (fh : Int) ≤ (kh : Int) - 1 := by omega
    rw [mul_comm]
    exact mul_le_mul_of_nonneg_left this (Int.natCast_nonneg dh)
  have hks : (k : Int) * (sh : Int) ≤ ((Ho : Int) - 1) * (sh : Int) := by
    have : (k : Int) ≤ (Ho : Int) - 1 := by omega
    exact mul_le_mul_of_nonneg_right this (Int.natCast_nonneg sh)
  have h0 : (0 : Int) ≤ (k : Int) * (sh : Int) := by positivity
  have h0b : (0 : Int) ≤ (fh : Int) * (dh : Int) := by positivity
  have h0c : (0 : Int) ≤ (fw : Int) * (dw : Int) := by positivity
  have hstart : Int.tdiv ((0 : Int) - (fw : Int) * (dw : Int) + (sw : Int) - 1) (sw : Int) ≤ 0 := by
    have := (tdiv_ceil_le ((0 : Int) - (fw : Int) * (dw : Int)) sw 0 hsw).2 (by
      simp only [Nat.cast_zero, zero_mul]; omega)
    simpa using this
  have hWo1 : 1 ≤ Wo ∨ Wo = 0 := by omega
  have hend : ¬ (Int.tdiv ((W : Int) + 0 - (fw : Int) * (dw : Int) + (sw : Int) - 1) (sw : Int)
      < (Wo : Int)) := by
    rcases hWo1 with h1 | h1
    · intro hlt
      have hle : Int.tdiv ((W : Int) + 0 - (fw : Int) * (dw : Int) + (sw : Int) - 1) (sw : Int)
          ≤ ((Wo - 1 : Nat) : Int) := by
        rw [Nat.cast_sub h1, Nat.cast_one]; omega
      have := (tdiv_ceil_le ((W : Int) + 0 - (fw : Int) * (dw : Int)) sw (Wo - 1) hsw).1 hle
      rw [Nat.cast_sub h1, Nat.cast_one] at this
      linarith
    · subst h1
      intro hlt
      have hnum : (0 : Int) ≤ (W : Int) + 0 - (fw : Int) * (dw : Int) + (sw : Int) - 1 := by
        have hs : (1 : Int) ≤ (sw : Int) := by exact_mod_cast hsw
        simp only [Nat.cast_zero, zero_sub, neg_mul, one_mul] at hWo
        linarith
      have := Int.tdiv_nonneg hnum (Int.natCast_nonneg sw)
      simp only [Nat.cast_zero] at hlt
      omega
  have hy : (0 + (k : Int)) * (sh : Int) + (fh : Int) * (dh : Int) - 0 ≥ 0 ∧
      (0 + (k : Int)) * (sh : Int) + (fh : Int) * (dh : Int) - 0 < (H : Int) := by
    constructor
    · rw [zero_add]; linarith
    · rw [zero_add]; linarith
  rw [if_pos hy, if_neg hend, if_neg (by omega), max_eq_right hstart, min_eq_right (by omega)]
  simp only [add_zero, sub_zero, zero_mul]

/-! ## Output sizes of ConvTranspose2d -/

/-- The number of iterations of the six-way loop of `GlobalAveragePool2d` on a
row of width `W`, and the bound that keeps the loop inside the row: the loop
runs `ceil(((W-6)/6) / 6)` times and six times that count is at most `W`. -/
theorem gap_main_count (W : Nat) :
    (Int.tdiv ((W : Int) - 6) 6).toNat = (W - 6) / 6 ∧
    6 * (((Int.tdiv ((W : Int) - 6) 6).toNat + 6 - 1) / 6) ≤ W := by
  have h1 : (Int.tdiv ((W : Int) - 6) 6).toNat = (W - 6) / 6 := by
    by_cases h : 6 ≤ W
    · have e : (W : Int) - 6 = ((W - 6 : Nat) : Int) := by omega
      rw [e]
      have := natCast_tdiv (W - 6) 6
      simp only [Nat.cast_ofNat] at this
      rw [this, Int.toNat_natCast]
    · have e : (W - 6) / 6 = 0 := by omega
      rw [e]
      have hneg : Int.tdiv ((W : Int) - 6) 6 ≤ 0 := by
        have h2 : (W : Int) - 6 = -((6 - W : Nat) : Int) := by omega
        rw [h2, Int.neg_tdiv]
        have := natCast_tdiv (6 - W) 6
        simp only [Nat.cast_ofNat] at this
        rw [this]
        omega
      omega
  refine ⟨h1, ?_⟩
  rw [h1]
  omega

/-- One row of `GlobalAveragePool2d`: the six-way loop followed by the tail
loop adds every element `f 0, ..., f (W - 1)` of the row once. -/
theorem gap_row_sum {R : Type} [AddCommMonoid R] (W : Nat) (f : Int → R) (s : R) :
    forInt (forStepEnd 6 (Int.tdiv ((W : Int) - 6) 6)) (W : Int) (fun j sum => sum + f j)
        (forStep 6 (Int.tdiv ((W : Int) - 6) 6) (fun j sum =>
          sum + (f (j + 0) + f (j + 1) + f (j + 2) + f (j + 3) + f (j + 4) + f (j + 5))) s)
      = s + ∑ j in Finset.range W, f (j : Int) := by
  obtain ⟨_, hc⟩ := gap_main_count W
  unfold forStep forStepEnd forInt
  generalize (((Int.tdiv ((W : Int) - 6) 6).toNat + 6 - 1) / 6) = c at hc
  have hmain : forLoop c (fun jb sum =>
      sum + (f (((6 : Nat) : Int) * (jb : Int) + 0) + f (((6 : Nat) : Int) * (jb : Int) + 1)
        + f (((6 : Nat) : Int) * (jb : Int) + 2) + f (((6 : Nat) : Int) * (jb : Int) + 3)
        + f (((6 : Nat) : Int) * (jb : Int) + 4) + f (((6 : Nat) : Int) * (jb : Int) + 5))) s
      = s + ∑ j in Finset.range (c * 6), f (j : Int) := by
    rw [forLoop_sum (fun jb : Nat =>
      (f (((6 : Nat) : Int) * (jb : Int) + 0) + f (((6 : Nat) : Int) * (jb : Int) + 1)
        + f (((6 : Nat) : Int) * (jb : Int) + 2) + f (((6 : Nat) : Int) * (jb : Int) + 3)
        + f (((6 : Nat) : Int) * (jb : Int) + 4) + f (((6 : Nat) : Int) * (jb : Int) + 5))) c s,
      sum_range_mul c 6 (fun j : Nat => f (j : Int))]
    congr 1
    apply Finset.sum_congr rfl
    intro jb _
    simp only [Finset.sum_range_succ, Finset.sum_range_zero, zero_add, Nat.cast_add, Nat.cast_mul,
      Nat.cast_ofNat, Nat.cast_one, Nat.cast_zero, add_zero]
    rw [mul_comm (jb : Int) 6]
  rw [hmain]
  have htail : ((W : Int) - ((6 : Nat) : Int) * (c : Int)).toNat = W - c * 6 := by omega
  rw [htail, forLoop_sum (fun k : Nat => f (((6 : Nat) : Int) * (c : Int) + (k : Int))) (W - c * 6)
    (s + ∑ j in Finset.range (c * 6), f (j : Int)), add_assoc]
  congr 1
  have hW : W = c * 6 + (W - c * 6) := by omega
  conv_rhs => rw [hW, Finset.sum_range_add]
  congr 1
  apply Finset.sum_congr rfl
  intro k _
  congr 1
  push_cast
  ring

/-- Two nested loops that store one value per `(n, c)` at cell `n * C + c`. -/
theorem nest2_store {R : Type} (N C : Nat) (v : Nat → Nat → R) (m : Int → R) :
    (∀ n c : Nat, n < N → c < C →
      forLoop N (fun n m => forLoop C (fun c m =>
        Function.update m ((n : Int) * (C : Int) + (c : Int)) (v n c)) m) m
        ((n : Int) * (C : Int) + (c : Int)) = v n c) ∧
    (∀ p : Int, (p < 0 ∨ (N : Int) * (C : Int) ≤ p) →
      forLoop N (fun n m => forLoop C (fun c m =>
        Function.update m ((n : Int) * (C : Int) + (c : Int)) (v n c)) m) m p = m p) := by
  have hinner : ∀ (n : Nat) (m : Int → R),
      (∀ c : Nat, c < C → forLoop C (fun c m =>
        Function.update m ((n : Int) * (C : Int) + (c : Int)) (v n c)) m
          ((n : Int) * (C : Int) + (c : Int)) = v n c) ∧
      (∀ p : Int, (p < (n : Int) * (C : Int) ∨ (n : Int) * (C : Int) + (C : Int) ≤ p) →
        forLoop C (fun c m =>
          Function.update m ((n : Int) * (C : Int) + (c : Int)) (v n c)) m p = m p) := by
    intro n m
    have h := forLoop_store_strided (v n) ((n : Int) * (C : Int)) 1 (by decide) C m
    simp only [mul_one] at h
    refine ⟨h.1, ?_⟩
    intro p hp
    apply h.2
    intro j hj
    omega
  have hblock := forLoop_block (R := R) N (C : Int) (Int.natCast_nonneg C) 0
    (fun n m => forLoop C (fun c m =>
      Function.update m ((n : Int) * (C : Int) + (c : Int)) (v n c)) m)
    (by
      intro n _ m p hp
      apply (hinner n m).2
      rcases hp with hp | hp
      · left; omega
      · right
        have : ((n : Int) + 1) * (C : Int) = (n : Int) * (C : Int) + (C : Int) := by ring
        omega)
  constructor
  · intro n c hn hc
    apply hblock.2 n hn
    · omega
    · have : ((n : Int) + 1) * (C : Int) = (n : Int) * (C : Int) + (C : Int) := by ring
      omega
    · intro m2
      exact (hinner n m2).1 c hc
  · intro p hp
    apply hblock.1
    rcases hp with hp | hp
    · left; omega
    · right; omega

/-- The function `GlobalAveragePool2d` on `in[N,C,H,W]`: the shape of the
result, the value of every cell `(n, c)` as the sum over the plane divided by
`H * W`, and the frame condition on the new buffer. -/
theorem GlobalAveragePool2d_apply {R : Type} [Field R] (N C H W : Nat) (input : tensor R)
    (fresh : Int → R)
    (hin : input.m_shape = [(N : Int), (C : Int), (H : Int), (W : Int)]) :
    (GlobalAveragePool2d input fresh).m_shape = [(N : Int), (C : Int), 1, 1] ∧
    (∀ n c : Nat, n < N → c < C →
      (GlobalAveragePool2d input fresh).get4 n c 0 0
        = (∑ h in Finset.range H, ∑ w in Finset.range W, input.get4 n c h w)
          / (((H : Int) * (W : Int) : Int) : R)) ∧
    (∀ p : Int, (p < 0 ∨ (N : Int) * (C : Int) ≤ p) →
      (GlobalAveragePool2d input fresh).m_ptr p = fresh p) := by
  obtain ⟨mp, s, mo, mn⟩ := input
  simp only at hin
  subst hin
  have hG : GlobalAveragePool2d (R := R)
      ⟨mp, [(N : Int), (C : Int), (H : Int), (W : Int)], mo, mn⟩ fresh
      = { m_ptr := forLoop N (fun n m => forLoop C (fun c m =>
            Function.update m ((n : Int) * (C : Int) + (c : Int))
              ((∑ h in Finset.range H, ∑ w in Finset.range W,
                  (⟨mp, [(N : Int), (C : Int), (H : Int), (W : Int)], mo, mn⟩ : tensor R).get4
                    n c h w) / (((H : Int) * (W : Int) : Int) : R))) m) fresh,
          m_shape := [(N : Int), (C : Int), 1, 1], m_offset := 0, m_null := false } := by
    unfold GlobalAveragePool2d
    simp only [number, channels, height, width, tensor.New, tensor.Sub2, tensor.size,
      List.length_cons, List.length_nil, List.getD_cons_succ, List.getD_cons_zero, List.tail_cons,
      List.foldl_cons, List.foldl_nil]
    rw [forInt_zero, Int.toNat_natCast]
    congr 1
    apply forLoop_congr
    intro n _ m
    rw [forInt_zero, Int.toNat_natCast]
    apply forLoop_congr
    intro c _ m
    simp only [Nat.cast_ofNat, Int.toNat_ofNat, tensor.get4, tensor.Sub2, tensor.Sub, tensor.size, List.tail_cons, List.foldl_cons, List.foldl_nil, List.getD_cons_succ, List.getD_cons_zero]
    have haddr : (0 : Int) + (n : Int) * (1 * 1 * 1) * (C : Int) + (c : Int) * (1 * 1 * 1)
        = (n : Int) * (C : Int) + (c : Int) := by ring
    rw [haddr]
    rw [forInt_zero, Int.toNat_natCast]
    rw [forLoop_congr H _ (fun i sum => sum + ∑ j in Finset.range W,
      mp (mo + (n : Int) * (1 * (H : Int) * (W : Int)) * (C : Int)
        + (c : Int) * (1 * (H : Int) * (W : Int)) + (i : Int) * (W : Int) + (j : Int)))
      (fun i _ sum => gap_row_sum W (fun j => mp (mo + (n : Int) * (1 * (H : Int) * (W : Int))
        * (C : Int) + (c : Int) * (1 * (H : Int) * (W : Int)) + (i : Int) * (W : Int) + j)) sum)]
    rw [forLoop_sum, zero_add]
    refine congrArg (fun v => Function.update m _ (v / _)) ?_
    apply Finset.sum_congr rfl
    intro h _
    apply Finset.sum_congr rfl
    intro w _
    simp only [one_mul]
  rw [hG]
  refine ⟨rfl, ?_, ?_⟩
  · intro n c hn hc
    have h := (nest2_store N C (fun n c => (∑ h in Finset.range H, ∑ w in Finset.range W,
      (⟨mp, [(N : Int), (C : Int), (H : Int), (W : Int)], mo, mn⟩ : tensor R).get4
        n c h w) / (((H : Int) * (W : Int) : Int) : R)) fresh).1 n c hn hc
    simp only [tensor.get4, tensor.Sub2, tensor.Sub, tensor.size, List.tail_cons, List.foldl_cons,
      List.foldl_nil, List.getD_cons_succ, List.getD_cons_zero] at h ⊢
    have haddr : (0 : Int) + (n : Int) * (1 * 1 * 1) * (C : Int) + (c : Int) * (1 * 1 * 1)
        + 0 * (1 * 1) + 0 = (n : Int) * (C : Int) + (c : Int) := by ring
    rw [haddr]
    exact h
  · intro p hp
    exact (nest2_store N C _ fresh).2 p hp

/-! ## Weight file lemmas: `save` followed by `load` -/

/-- The name loop of `load` on a NUL-free name followed by its NUL. -/
theorem read_name_append (name rest : List Nat) (h : 0 ∉ name) (acc : List Nat) :
    read_name (name ++ 0 :: rest) acc = some (acc ++ name, rest) := by
  induction name generalizing acc with
  | nil => simp [read_name]
  | cons b bs ih =>
    have hb : b ≠ 0 := fun e => h (by simp [e])
    have hbs : 0 ∉ bs := fun e => h (by simp [e])
    simp only [List.cons_append, read_name, ne_eq, hb, not_false_eq_true, if_true]
    show read_name (bs ++ 0 :: rest) (acc ++ [b]) = _
    rw [ih hbs]
    simp

/-- The number of bytes of `le_bytes n v`. -/
theorem le_bytes_length (n v : Nat) : (le_bytes n v).length = n := by
  induction n generalizing v with
  | zero => rfl
  | succ n ih => simp [le_bytes, ih]

/-- Reading back the `n` little-endian bytes of `v` gives `v` modulo `256 ^ n`. -/
theorem le_value_le_bytes (n v : Nat) : le_value (le_bytes n v) = v % 256 ^ n := by
  induction n generalizing v with
  | zero => simp [le_bytes, le_value, Nat.mod_one]
  | succ n ih =>
    simp only [le_bytes, le_value, ih]
    rw [pow_succ', Nat.mod_mul]

/-- The call `fread` of exactly the bytes at the front of the file. -/
theorem fread_append (n : Nat) (a rest : List Nat) (h : a.length = n) :
    fread n (a ++ rest) = (a, rest) := by
  unfold fread
  rw [List.take_left' h, List.drop_left' h]

/-- The shape loop of `save` appends its blocks behind the file written so far. -/
theorem save_shape_loop (g : Nat → List Nat) (n : Nat) (file : List Nat) :
    forLoop n (fun i (file : List Nat) => file ++ g i) file
      = file ++ forLoop n (fun i (file : List Nat) => file ++ g i) [] := by
  induction n with
  | zero => simp [forLoop]
  | succ n ih =>
    simp only [forLoop]
    rw [ih, List.append_assoc]

/-- The shape loop of `load` on the blocks written by the shape loop of `save`:
entry `i < n` of the array becomes the value that was written. -/
theorem load_shape_loop (s : Nat → Nat) (hs : ∀ i, s i < 2 ^ 32) (n : Nat) (init rest : List Nat) :
    forLoop n (fun i (st : List Nat × List Nat) =>
        (st.1.set i (le_value ((fread 4 st.2).1
          ++ (le_bytes 4 (st.1.getD i 0)).drop (fread 4 st.2).1.length)), (fread 4 st.2).2))
      (init, forLoop n (fun i (file : List Nat) => file ++ le_bytes 4 (s i)) [] ++ rest)
    = (forLoop n (fun i (sh : List Nat) => sh.set i (s i)) init, rest) := by
  induction n generalizing rest with
  | zero => simp [forLoop]
  | succ n ih =>
    simp only [forLoop]
    rw [List.append_assoc, ih]
    simp only
    rw [fread_append 4 _ _ (le_bytes_length 4 (s n))]
    simp only [le_bytes_length, List.drop_of_length_le (le_of_eq (le_bytes_length 4 _)),
      List.append_nil, le_value_le_bytes]
    have : s n % 256 ^ 4 = s n := Nat.mod_eq_of_lt (by have := hs n; omega)
    rw [this]

/-- Assigning a key behind all keys of the map appends the entry. -/
theorem model_dict.map_assign_append (name : List Nat) (e : Entry)
    (m : List (List Nat × Entry)) (h : ∀ q ∈ m, q.1 < name) :
    model_dict.map_assign name e m = m ++ [(name, e)] := by
  induction m with
  | nil => rfl
  | cons q m ih =>
    obtain ⟨k, v⟩ := q
    have hk : k < name := h (k, v) (by simp)
    have h1 : ¬ name < k := lt_asymm hk
    have h2 : ¬ name = k := fun e => (ne_of_lt hk) e.symm
    simp only [model_dict.map_assign, h1, h2, if_false, List.cons_append]
    rw [ih (fun q hq => h q (by simp [hq]))]

/-- The four type tags have 5 characters, none of them NUL. -/
theorem type_tag_facts (type : List Nat)
    (h : type = chars "float" ∨ type = chars "doubl" ∨ type = chars "int32"
      ∨ type = chars "int16") :
    type.length = 5 ∧ type.takeWhile (fun b => decide (b ≠ 0)) = type ∧
      1 ≤ data_loading.get_size type := by
  rcases h with rfl | rfl | rfl | rfl <;> decide

/-- The shape array after the shape loop of `load`: the first `ndim` entries
are the recorded ones, the others keep the initial value 1. -/
theorem load_shape_result (shape : List Nat) (ndim : Nat) (hnd : ndim ≤ 4)
    (hlen : shape.length = 4) (htrail : ∀ i, ndim ≤ i → i < 4 → shape.getD i 0 = 1) :
    forLoop ndim (fun i (sh : List Nat) => sh.set i (shape.getD i 0)) [1, 1, 1, 1] = shape := by
  match shape, hlen with
  | [a, b, c, d], _ =>
    have h0 := htrail 0
    have h1 := htrail 1
    have h2 := htrail 2
    have h3 := htrail 3
    simp only [List.getD_cons_zero, List.getD_cons_succ] at h0 h1 h2 h3
    interval_cases ndim
    · rw [h0 (le_refl _) (by decide), h1 (by decide) (by decide), h2 (by decide) (by decide),
        h3 (by decide) (by decide)]
      rfl
    · rw [h1 (le_refl _) (by decide), h2 (by decide) (by decide), h3 (by decide) (by decide)]
      rfl
    · rw [h2 (le_refl _) (by decide), h3 (by decide) (by decide)]
      rfl
    · rw [h3 (le_refl _) (by decide)]
      rfl
    · rfl

/-! ## col2im: the pixels of one row -/

/-- One iteration of the parallel loop of `col2im`, read at an arbitrary
address: the row adds to the address the column elements whose target it is.
The sums run over the output rows `y` and the positions `start + t` of the
clipped range `[start, end)`. -/
theorem details.col2im_row_apply {R : Type} [AddCommMonoid R] (hp : conv_params) (o : Int)
    (input : Int → R) (i : Int) (inputWidth inputHeight outputWidth outputHeight : Int)
    (row ch fh fw start end_ : Int)
    (hch : ch = (row.tdiv hp.kernel_h).tdiv hp.kernel_w)
    (hfh : fh = (row.tdiv hp.kernel_w).tmod hp.kernel_h)
    (hfw : fw = row.tmod hp.kernel_w)
    (hstart : start
      = max (Int.tdiv (hp.pad_w - fw * hp.dilation_w + hp.stride_w - 1) hp.stride_w) 0)
    (hend : end_
      = min (Int.tdiv (inputWidth + hp.pad_w - fw * hp.dilation_w + hp.stride_w - 1)
          hp.stride_w) outputWidth)
    (m : Int → R) (p : Int) :
    details.col2im_row hp o input i inputWidth inputHeight outputWidth outputHeight row m p
      = m p + ∑ y in Finset.range outputHeight.toNat,
          if (y : Int) * hp.stride_h + fh * hp.dilation_h - hp.pad_h ≥ 0 ∧
              (y : Int) * hp.stride_h + fh * hp.dilation_h - hp.pad_h < inputHeight then
            ∑ t in Finset.range (end_ - start).toNat,
              if p = o + ch * (inputHeight * inputWidth)
                  + (((y : Int) * hp.stride_h + fh * hp.dilation_h - hp.pad_h) * inputWidth
                    + ((start + (t : Int)) * hp.stride_w + fw * hp.dilation_w - hp.pad_w))
              then input (i + row * (outputHeight * outputWidth)
                + ((y : Int) * outputWidth + (start + (t : Int))))
              else 0
          else 0 := by
  subst hstart hend
  subst hch hfh hfw
  unfold details.col2im_row
  simp only [forInt_zero]
  refine forLoop_accum (fun m : Int → R => m) _ (fun y p =>
      if (y : Int) * hp.stride_h + (row.tdiv hp.kernel_w).tmod hp.kernel_h * hp.dilation_h
            - hp.pad_h ≥ 0 ∧
          (y : Int) * hp.stride_h + (row.tdiv hp.kernel_w).tmod hp.kernel_h * hp.dilation_h
            - hp.pad_h < inputHeight then
        ∑ t in Finset.range
            (min (Int.tdiv (inputWidth + hp.pad_w - row.tmod hp.kernel_w * hp.dilation_w
                + hp.stride_w - 1) hp.stride_w) outputWidth
              - max (Int.tdiv (hp.pad_w - row.tmod hp.kernel_w * hp.dilation_w + hp.stride_w - 1)
                hp.stride_w) 0).toNat,
          if p = o + (row.tdiv hp.kernel_h).tdiv hp.kernel_w * (inputHeight * inputWidth)
              + (((y : Int) * hp.stride_h
                  + (row.tdiv hp.kernel_w).tmod hp.kernel_h * hp.dilation_h - hp.pad_h)
                  * inputWidth
                + ((max (Int.tdiv (hp.pad_w - row.tmod hp.kernel_w * hp.dilation_w
                    + hp.stride_w - 1) hp.stride_w) 0 + (t : Int)) * hp.stride_w
                  + row.tmod hp.kernel_w * hp.dilation_w - hp.pad_w))
          then input (i + row * (outputHeight * outputWidth)
            + ((y : Int) * outputWidth
              + (max (Int.tdiv (hp.pad_w - row.tmod hp.kernel_w * hp.dilation_w
                  + hp.stride_w - 1) hp.stride_w) 0 + (t : Int))))
          else 0
      else 0) _ ?_ m p
  intro y _ m r
  simp only
  split_ifs with hv
  · unfold forInt
    refine forLoop_accum (fun m : Int → R => m) _ (fun t p =>
          if p = o + (row.tdiv hp.kernel_h).tdiv hp.kernel_w * (inputHeight * inputWidth)
              + (((y : Int) * hp.stride_h
                  + (row.tdiv hp.kernel_w).tmod hp.kernel_h * hp.dilation_h - hp.pad_h)
                  * inputWidth
                + ((max (Int.tdiv (hp.pad_w - row.tmod hp.kernel_w * hp.dilation_w
                    + hp.stride_w - 1) hp.stride_w) 0 + (t : Int)) * hp.stride_w
                  + row.tmod hp.kernel_w * hp.dilation_w - hp.pad_w))
          then input (i + row * (outputHeight * outputWidth)
            + ((y : Int) * outputWidth
              + (max (Int.tdiv (hp.pad_w - row.tmod hp.kernel_w * hp.dilation_w
                  + hp.stride_w - 1) hp.stride_w) 0 + (t : Int))))
          else 0) _ ?_ m r
    intro t _ m u
    simp only
    rw [update_accum_apply]
  · simp

/-- The pixels one row of `col2im` stores to, for natural hyperparameters and
a stride of at least 1: when the row `(c * kh + i) * kw + j` changes the
address `q`, then `q` is the pixel `(c, y*stride_h + i*dilation_h - pad_h,
x*stride_w + j*dilation_w - pad_w)` of the image for a window position
`(y, x)`, and the pixel is inside the plane. -/
theorem col2im_row_footprint {R : Type} [AddCommMonoid R] (H W kh kw sh sw ph pw dh dw Ho Wo : Nat)
    (hsw : 1 ≤ sw) (c i j : Nat) (hi : i < kh) (hj : j < kw) (o io : Int)
    (cols m : Int → R) (q : Int)
    (hq : details.col2im_row ⟨kh, kw, sh, sw, ph, pw, dh, dw⟩ o cols io (W : Int) (H : Int)
      (Wo : Int) (Ho : Int) (((c * kh + i) * kw + j : Nat) : Int) m q ≠ m q) :
    ∃ y x : Nat, y < Ho ∧ x < Wo ∧
      0 ≤ (y : Int) * (sh : Int) + (i : Int) * (dh : Int) - (ph : Int) ∧
      (y : Int) * (sh : Int) + (i : Int) * (dh : Int) - (ph : Int) < (H : Int) ∧
      0 ≤ (x : Int) * (sw : Int) + (j : Int) * (dw : Int) - (pw : Int) ∧
      (x : Int) * (sw : Int) + (j : Int) * (dw : Int) - (pw : Int) < (W : Int) ∧
      q = o + (c : Int) * ((H : Int) * (W : Int))
        + (((y : Int) * (sh : Int) + (i : Int) * (dh : Int) - (ph : Int)) * (W : Int)
          + ((x : Int) * (sw : Int) + (j : Int) * (dw : Int) - (pw : Int))) := by
  obtain ⟨d1, d2, d3⟩ := row_decode c kh i kw j hi hj
  rw [details.col2im_row_apply ⟨kh, kw, sh, sw, ph, pw, dh, dw⟩ o cols io (W : Int) (H : Int)
    (Wo : Int) (Ho : Int) _ (c : Int) (i : Int) (j : Int)
    (max (Int.tdiv ((pw : Int) - (j : Int) * (dw : Int) + (sw : Int) - 1) (sw : Int)) 0)
    (min (Int.tdiv ((W : Int) + (pw : Int) - (j : Int) * (dw : Int) + (sw : Int) - 1) (sw : Int))
      (Wo : Int))
    d1.symm d2.symm d3.symm rfl rfl m q] at hq
  have hsum : (∑ y in Finset.range (Ho : Int).toNat,
      if (y : Int) * (sh : Int) + (i : Int) * (dh : Int) - (ph : Int) ≥ 0 ∧
          (y : Int) * (sh : Int) + (i : Int) * (dh : Int) - (ph : Int) < (H : Int) then
        ∑ t in Finset.range
            (min (Int.tdiv ((W : Int) + (pw : Int) - (j : Int) * (dw : Int) + (sw : Int) - 1)
                (sw : Int)) (Wo : Int)
              - max (Int.tdiv ((pw : Int) - (j : Int) * (dw : Int) + (sw : Int) - 1) (sw : Int))
                0).toNat,
          if q = o + (c : Int) * ((H : Int) * (W : Int))
              + (((y : Int) * (sh : Int) + (i : Int) * (dh : Int) - (ph : Int)) * (W : Int)
                + ((max (Int.tdiv ((pw : Int) - (j : Int) * (dw : Int) + (sw : Int) - 1)
                    (sw : Int)) 0 + (t : Int)) * (sw : Int) + (j : Int) * (dw : Int) - (pw : Int)))
          then cols (io + (((c * kh + i) * kw + j : Nat) : Int) * ((Ho : Int) * (Wo : Int))
            + ((y : Int) * (Wo : Int)
              + (max (Int.tdiv ((pw : Int) - (j : Int) * (dw : Int) + (sw : Int) - 1) (sw : Int))
                  0 + (t : Int))))
          else 0
      else 0) ≠ 0 := by
    intro h0
    apply hq
    simp only at h0 ⊢
    rw [h0, add_zero]
  obtain ⟨y, hy, hty⟩ := Finset.exists_ne_zero_of_sum_ne_zero hsum
  rw [Int.toNat_natCast] at hy
  split_ifs at hty with hv
  · obtain ⟨t, ht, htt⟩ := Finset.exists_ne_zero_of_sum_ne_zero hty
    split_ifs at htt with hqe
    · have ht2 := Finset.mem_range.mp ht
      generalize hS : max (Int.tdiv ((pw : Int) - (j : Int) * (dw : Int) + (sw : Int) - 1)
        (sw : Int)) 0 = S at hqe ht2
      generalize hE : min (Int.tdiv ((W : Int) + (pw : Int) - (j : Int) * (dw : Int)
        + (sw : Int) - 1) (sw : Int)) (Wo : Int) = E at ht2
      have hS0 : 0 ≤ S := by rw [← hS]; exact le_max_right _ _
      have hx : S + (t : Int) = (((S + (t : Int)).toNat : Nat) : Int) := by omega
      have hlt : S + (t : Int) < E := by omega
      have r1 := tdiv_ceil_le ((pw : Int) - (j : Int) * (dw : Int)) sw (S + (t : Int)).toNat hsw
      have r2 := tdiv_ceil_le ((W : Int) + (pw : Int) - (j : Int) * (dw : Int)) sw
        (S + (t : Int)).toNat hsw
      rw [← hx] at r1 r2
      have b1 : Int.tdiv ((pw : Int) - (j : Int) * (dw : Int) + (sw : Int) - 1) (sw : Int)
          ≤ S + (t : Int) := by
        have := le_max_left (Int.tdiv ((pw : Int) - (j : Int) * (dw : Int) + (sw : Int) - 1)
          (sw : Int)) 0
        omega
      have b2 : ¬ Int.tdiv ((W : Int) + (pw : Int) - (j : Int) * (dw : Int) + (sw : Int) - 1)
          (sw : Int) ≤ S + (t : Int) := by
        have := min_le_left (Int.tdiv ((W : Int) + (pw : Int) - (j : Int) * (dw : Int)
          + (sw : Int) - 1) (sw : Int)) (Wo : Int)
        omega
      have b3 : E ≤ (Wo : Int) := by rw [← hE]; exact min_le_right _ _
      have c1 := r1.mp b1
      have c2 : ¬ (W : Int) + (pw : Int) - (j : Int) * (dw : Int) ≤ (S + (t : Int)) * (sw : Int) :=
        fun h => b2 (r2.mpr h)
      refine ⟨y, (S + (t : Int)).toNat, Finset.mem_range.mp hy, by omega, hv.1, hv.2, ?_, ?_, ?_⟩
      · rw [← hx]; omega
      · rw [← hx]; omega
      · rw [← hx]; exact hqe
    · exact absurd rfl htt
  · exact absurd rfl hty

/-- A row index below `C * kh * kw` is `(c * kh + i) * kw + j` for a channel
`c`, a kernel row `i < kh` and a kernel column `j < kw`. -/
theorem row_split (C kh kw r : Nat) (hr : r < C * kh * kw) :
    ∃ c i j : Nat, i < kh ∧ j < kw ∧ r = (c * kh + i) * kw + j := by
  have hkw : 0 < kw := by
    rcases Nat.eq_zero_or_pos kw with h | h
    · subst h; simp at hr
    · exact h
  have hkh : 0 < kh := by
    rcases Nat.eq_zero_or_pos kh with h | h
    · subst h; simp at hr
    · exact h
  refine ⟨r / kw / kh, (r / kw) % kh, r % kw, Nat.mod_lt _ hkh, Nat.mod_lt _ hkw, ?_⟩
  have e1 : r / kw / kh * kh + r / kw % kh = r / kw := by
    rw [Nat.mul_comm]; exact Nat.div_add_mod _ _
  rw [e1, Nat.mul_comm]
  exact (Nat.div_add_mod _ _).symm

/-- Two rows of `col2im` store to disjoint sets of pixels when no position of
the image is sampled by two different kernel taps: an address that one row
changes, for some columns and some image, is left as it is by every other
row, for all columns and images. -/
theorem col2im_rows_disjoint {R : Type} [AddCommMonoid R]
    (C H W kh kw sh sw ph pw dh dw Ho Wo : Nat) (hsw : 1 ≤ sw)
    (htaps : ∀ i i2 j j2 y y2 x x2 : Nat, i < kh → i2 < kh → j < kw → j2 < kw → y < Ho →
      y2 < Ho → x < Wo → x2 < Wo → y * sh + i * dh = y2 * sh + i2 * dh →
      x * sw + j * dw = x2 * sw + j2 * dw → i = i2 ∧ j = j2)
    (r1 r2 : Nat) (h1 : r1 < C * kh * kw) (h2 : r2 < C * kh * kw) (hne : r1 ≠ r2)
    (o io1 io2 : Int) (cols1 cols2 m1 m2 : Int → R) (q : Int)
    (hq : details.col2im_row ⟨kh, kw, sh, sw, ph, pw, dh, dw⟩ o cols1 io1 (W : Int) (H : Int)
      (Wo : Int) (Ho : Int) (r1 : Int) m1 q ≠ m1 q) :
    details.col2im_row ⟨kh, kw, sh, sw, ph, pw, dh, dw⟩ o cols2 io2 (W : Int) (H : Int)
      (Wo : Int) (Ho : Int) (r2 : Int) m2 q = m2 q := by
  obtain ⟨c1, i1, j1, hi1, hj1, e1⟩ := row_split C kh kw r1 h1
  obtain ⟨c2, i2, j2, hi2, hj2, e2⟩ := row_split C kh kw r2 h2
  by_contra hcon
  subst e1 e2
  obtain ⟨y1, x1, hy1, hx1, a1, a2, a3, a4, a5⟩ := col2im_row_footprint H W kh kw sh sw ph pw dh dw
    Ho Wo hsw c1 i1 j1 hi1 hj1 o io1 cols1 m1 q hq
  obtain ⟨y2, x2, hy2, hx2, b1, b2, b3, b4, b5⟩ := col2im_row_footprint H W kh kw sh sw ph pw dh dw
    Ho Wo hsw c2 i2 j2 hi2 hj2 o io2 cols2 m2 q hcon
  have e : ((c1 : Int) * (H : Int)
        + ((y1 : Int) * (sh : Int) + (i1 : Int) * (dh : Int) - (ph : Int))) * (W : Int)
        + ((x1 : Int) * (sw : Int) + (j1 : Int) * (dw : Int) - (pw : Int))
      = ((c2 : Int) * (H : Int)
        + ((y2 : Int) * (sh : Int) + (i2 : Int) * (dh : Int) - (ph : Int))) * (W : Int)
        + ((x2 : Int) * (sw : Int) + (j2 : Int) * (dw : Int) - (pw : Int)) := by
    have := a5.symm.trans b5
    linarith
  obtain ⟨e3, e4⟩ := addr_inj_int _ _ _ _ _ a3 a4 b3 b4 e
  obtain ⟨e5, e6⟩ := addr_inj_int _ _ _ _ _ a1 a2 b1 b2 e3
  have n1 : y1 * sh + i1 * dh = y2 * sh + i2 * dh := by
    have : ((y1 * sh + i1 * dh : Nat) : Int) = ((y2 * sh + i2 * dh : Nat) : Int) := by
      push_cast; linarith
    exact_mod_cast this
  have n2 : x1 * sw + j1 * dw = x2 * sw + j2 * dw := by
    have : ((x1 * sw + j1 * dw : Nat) : Int) = ((x2 * sw + j2 * dw : Nat) : Int) := by
      push_cast; linarith
    exact_mod_cast this
  obtain ⟨f1, f2⟩ := htaps i1 i2 j1 j2 y1 y2 x1 x2 hi1 hi2 hj1 hj2 hy1 hy2 hx1 hx2 n1 n2
  have f3 : c1 = c2 := by exact_mod_cast e5
  apply hne
  rw [f1, f2, f3]

/-- The number of pairs of a window position and a kernel tap that sample one
position, when no position is sampled by two different taps and the strides
are at least 1: it is 1 when there is such a pair and 0 when there is none. -/
theorem sample_count_le_one (kh kw sh sw dh dw Ho Wo : Nat) (hsh : 1 ≤ sh) (hsw : 1 ≤ sw)
    (htaps : ∀ i i2 j j2 y y2 x x2 : Nat, i < kh → i2 < kh → j < kw → j2 < kw → y < Ho →
      y2 < Ho → x < Wo → x2 < Wo → y * sh + i * dh = y2 * sh + i2 * dh →
      x * sw + j * dw = x2 * sw + j2 * dw → i = i2 ∧ j = j2)
    (ph pw oy ox : Int) :
    ((∃ i j y x : Nat, i < kh ∧ j < kw ∧ y < Ho ∧ x < Wo ∧
        (y : Int) * (sh : Int) + (i : Int) * (dh : Int) - ph = oy ∧
        (x : Int) * (sw : Int) + (j : Int) * (dw : Int) - pw = ox) →
      (∑ i in Finset.range kh, ∑ j in Finset.range kw, ∑ y in Finset.range Ho,
        ∑ x in Finset.range Wo,
          if (y : Int) * (sh : Int) + (i : Int) * (dh : Int) - ph = oy ∧
              (x : Int) * (sw : Int) + (j : Int) * (dw : Int) - pw = ox
          then 1 else 0 : Nat) = 1) ∧
    ((¬ ∃ i j y x : Nat, i < kh ∧ j < kw ∧ y < Ho ∧ x < Wo ∧
        (y : Int) * (sh : Int) + (i : Int) * (dh : Int) - ph = oy ∧
        (x : Int) * (sw : Int) + (j : Int) * (dw : Int) - pw = ox) →
      (∑ i in Finset.range kh, ∑ j in Finset.range kw, ∑ y in Finset.range Ho,
        ∑ x in Finset.range Wo,
          if (y : Int) * (sh : Int) + (i : Int) * (dh : Int) - ph = oy ∧
              (x : Int) * (sw : Int) + (j : Int) * (dw : Int) - pw = ox
          then 1 else 0 : Nat) = 0) := by
  have huniq : ∀ i j y x i2 j2 y2 x2 : Nat, i < kh → j < kw → y < Ho → x < Wo → i2 < kh →
      j2 < kw → y2 < Ho → x2 < Wo →
      ((y : Int) * (sh : Int) + (i : Int) * (dh : Int) - ph = oy ∧
        (x : Int) * (sw : Int) + (j : Int) * (dw : Int) - pw = ox) →
      ((y2 : Int) * (sh : Int) + (i2 : Int) * (dh : Int) - ph = oy ∧
        (x2 : Int) * (sw : Int) + (j2 : Int) * (dw : Int) - pw = ox) →
      i = i2 ∧ j = j2 ∧ y = y2 ∧ x = x2 := by
    intro i j y x i2 j2 y2 x2 hi hj hy hx hi2 hj2 hy2 hx2 hc hc2
    have n1 : y * sh + i * dh = y2 * sh + i2 * dh := by
      have : ((y * sh + i * dh : Nat) : Int) = ((y2 * sh + i2 * dh : Nat) : Int) := by
        push_cast; linarith [hc.1, hc2.1]
      exact_mod_cast this
    have n2 : x * sw + j * dw = x2 * sw + j2 * dw := by
      have : ((x * sw + j * dw : Nat) : Int) = ((x2 * sw + j2 * dw : Nat) : Int) := by
        push_cast; linarith [hc.2, hc2.2]
      exact_mod_cast this
    obtain ⟨f1, f2⟩ := htaps i i2 j j2 y y2 x x2 hi hi2 hj hj2 hy hy2 hx hx2 n1 n2
    subst f1 f2
    have g1 : y * sh = y2 * sh := by omega
    have g2 : x * sw = x2 * sw := by omega
    exact ⟨rfl, rfl, Nat.eq_of_mul_eq_mul_right (by omega) g1,
      Nat.eq_of_mul_eq_mul_right (by omega) g2⟩
  constructor
  · rintro ⟨i0, j0, y0, x0, hi0, hj0, hy0, hx0, hc0⟩
    rw [Finset.sum_eq_single i0, Finset.sum_eq_single j0, Finset.sum_eq_single y0,
      Finset.sum_eq_single x0, if_pos hc0]
    · intro x hx hne
      rw [if_neg]
      intro hc
      exact hne (huniq i0 j0 y0 x i0 j0 y0 x0 hi0 hj0 hy0 (Finset.mem_range.mp hx) hi0 hj0 hy0
        hx0 hc hc0).2.2.2
    · intro h; exact absurd (Finset.mem_range.mpr hx0) h
    · intro y hy hne
      refine Finset.sum_eq_zero (fun x hx => ?_)
      rw [if_neg]
      intro hc
      exact hne (huniq i0 j0 y x i0 j0 y0 x0 hi0 hj0 (Finset.mem_range.mp hy)
        (Finset.mem_range.mp hx) hi0 hj0 hy0 hx0 hc hc0).2.2.1
    · intro h; exact absurd (Finset.mem_range.mpr hy0) h
    · intro j hj hne
      refine Finset.sum_eq_zero (fun y hy => Finset.sum_eq_zero (fun x hx => ?_))
      rw [if_neg]
      intro hc
      exact hne (huniq i0 j y x i0 j0 y0 x0 hi0 (Finset.mem_range.mp hj) (Finset.mem_range.mp hy)
        (Finset.mem_range.mp hx) hi0 hj0 hy0 hx0 hc hc0).2.1
    · intro h; exact absurd (Finset.mem_range.mpr hj0) h
    · intro i hi hne
      refine Finset.sum_eq_zero (fun j hj => Finset.sum_eq_zero (fun y hy =>
        Finset.sum_eq_zero (fun x hx => ?_)))
      rw [if_neg]
      intro hc
      exact hne (huniq i j y x i0 j0 y0 x0 (Finset.mem_range.mp hi) (Finset.mem_range.mp hj)
        (Finset.mem_range.mp hy) (Finset.mem_range.mp hx) hi0 hj0 hy0 hx0 hc hc0).1
    · intro h; exact absurd (Finset.mem_range.mpr hi0) h
  · intro hno
    refine Finset.sum_eq_zero (fun i hi => Finset.sum_eq_zero (fun j hj =>
      Finset.sum_eq_zero (fun y hy => Finset.sum_eq_zero (fun x hx => ?_))))
    rw [if_neg]
    intro hc
    exact hno ⟨i, j, y, x, Finset.mem_range.mp hi, Finset.mem_range.mp hj, Finset.mem_range.mp hy,
      Finset.mem_range.mp hx, hc⟩

/-- A sum over a list of consecutive indices is the sum over the range. -/
theorem list_range_map_sum {R : Type} [AddCommMonoid R] (g : Nat → R) (n : Nat) :
    ((List.range n).map g).sum = ∑ r in Finset.range n, g r := by
  induction n with
  | zero => simp
  | succ n ih =>
    rw [List.range_succ, List.map_append, List.sum_append, ih, Finset.sum_range_succ]
    simp

/-- The rows of `col2im` run one after the other in any order give the image
that the program order gives: every row adds to an address an amount that
does not depend on the image it finds. -/
theorem col2im_rows_any_order {R : Type} [AddCommMonoid R] (hp : conv_params) (output : Int → R)
    (o : Int) (input : Int → R) (i : Int)
    (channels inputWidth inputHeight outputWidth outputHeight : Int) (order : List Nat)
    (horder : order.Perm (List.range (channels * hp.kernel_h * hp.kernel_w).toNat)) (p : Int) :
    order.foldl (fun m (row : Nat) => details.col2im_row hp o input i inputWidth inputHeight
        outputWidth outputHeight (row : Int) m) output p
      = details.col2im hp output o input i channels inputWidth inputHeight outputWidth
          outputHeight p := by
  have hrow : ∃ δ : Nat → Int → R, ∀ (row : Nat) (m : Int → R) (q : Int),
      details.col2im_row hp o input i inputWidth inputHeight outputWidth outputHeight (row : Int)
        m q = m q + δ row q :=
    ⟨_, fun row m q => details.col2im_row_apply hp o input i inputWidth inputHeight outputWidth
      outputHeight (row : Int) _ _ _ _ _ rfl rfl rfl rfl rfl m q⟩
  obtain ⟨δ, hδ⟩ := hrow
  have hfold : ∀ (l : List Nat) (m : Int → R),
      l.foldl (fun m (row : Nat) => details.col2im_row hp o input i inputWidth inputHeight
          outputWidth outputHeight (row : Int) m) m p
        = m p + (l.map (fun row => δ row p)).sum := by
    intro l
    induction l with
    | nil => intro m; simp
    | cons r l ih =>
      intro m
      rw [List.foldl_cons, ih, hδ, List.map_cons, List.sum_cons, add_assoc]
  rw [hfold, (horder.map _).sum_eq, list_range_map_sum, details.col2im_rows, forInt_zero]
  exact (forLoop_accum (fun m : Int → R => m) _ δ _ (fun r _ m q => hδ r m q) output p).symm

/-- One record: what `save` writes for a well-formed uncompressed entry is
parsed back by the body of the loop of `load`, whatever follows it. -/
theorem save_load_record (name : List Nat) (e : Entry) (hname : 0 ∉ name)
    (hc : e.compressed_size = 0)
    (htype : e.type = chars "float" ∨ e.type = chars "doubl" ∨ e.type = chars "int32"
      ∨ e.type = chars "int16")
    (hnd : e.ndim ≤ 4) (hlen : e.shape.length = 4)
    (hdim4 : ∀ i, i < 4 → e.shape.getD i 0 < 2 ^ 32)
    (htrail : ∀ i, e.ndim ≤ i → i < 4 → e.shape.getD i 0 = 1)
    (hptr : e.ptr.length = data_loading.get_size e.type * e.shape.getD 0 0 * e.shape.getD 1 0
      * e.shape.getD 2 0 * e.shape.getD 3 0)
    (hsz : e.ptr.length < 2 ^ 64) (file : List Nat) :
    ∃ bytes : List Nat, save_entry (name, e) file = some (file ++ bytes) ∧ 1 ≤ bytes.length ∧
      ∀ (rest : List Nat) (md : model_dict), load_record (bytes ++ rest) md
        = some (md.add_parameter name e.type e.ndim e.shape e.ptr.length 0 e.ptr, rest) := by
  obtain ⟨ht1, ht2, ht3⟩ := type_tag_facts e.type htype
  have hdim : ∀ i, e.shape.getD i 0 < 2 ^ 32 := by
    intro i
    by_cases hi : i < 4
    · exact hdim4 i hi
    · rw [List.getD_eq_default _ _ (by omega)]
      decide
  have hps : (data_loading.get_size e.type * e.shape.getD 0 0 * e.shape.getD 1 0
      * e.shape.getD 2 0 * e.shape.getD 3 0) % 2 ^ 64 = e.ptr.length := by
    rw [← hptr]; exact Nat.mod_eq_of_lt hsz
  have hndm : e.ndim % 256 = e.ndim := Nat.mod_eq_of_lt (by omega)
  refine ⟨name ++ 0 :: (e.type ++ (e.ndim :: (forLoop e.ndim (fun i (file : List Nat) =>
      file ++ le_bytes 4 (e.shape.getD i 0)) [] ++ (le_bytes 8 e.ptr.length
        ++ (le_bytes 8 0 ++ e.ptr))))), ?_, ?_, ?_⟩
  · unfold save_entry
    simp only [ht1, ne_eq, not_true_eq_false, if_false, hps, hc, if_true, hndm, List.take_length]
    rw [save_shape_loop]
    simp only [List.append_assoc, List.singleton_append, List.cons_append, List.nil_append]
  · simp only [List.length_append, List.length_cons]
    omega
  · intro rest md
    have hfile : (name ++ 0 :: (e.type ++ (e.ndim :: (forLoop e.ndim (fun i (file : List Nat) =>
        file ++ le_bytes 4 (e.shape.getD i 0)) [] ++ (le_bytes 8 e.ptr.length
          ++ (le_bytes 8 0 ++ e.ptr)))))) ++ rest
        = name ++ 0 :: (e.type ++ (e.ndim :: (forLoop e.ndim (fun i (file : List Nat) =>
          file ++ le_bytes 4 (e.shape.getD i 0)) [] ++ (le_bytes 8 e.ptr.length
            ++ (le_bytes 8 0 ++ (e.ptr ++ rest)))))) := by
      simp only [List.append_assoc, List.cons_append]
    rw [hfile]
    unfold load_record
    rw [read_name_append name _ hname []]
    simp only [Option.some_bind, List.nil_append]
    rw [fread_append 5 e.type _ ht1]
    simp only [ht1, lt_self_iff_false, false_and, if_false, ht2]
    have hf1 : ∀ X : List Nat, fread 1 (e.ndim :: X) = ([e.ndim], X) := fun X => rfl
    simp only [hf1, List.headD_cons, gt_iff_lt, not_lt.mpr hnd, if_false]
    rw [load_shape_loop (fun i => e.shape.getD i 0) hdim e.ndim [1, 1, 1, 1],
      load_shape_result e.shape e.ndim hnd hlen htrail]
    simp only
    rw [fread_append 8 _ _ (le_bytes_length 8 _)]
    simp only
    rw [fread_append 8 _ _ (le_bytes_length 8 _)]
    simp only [le_bytes_length, lt_self_iff_false, and_false, if_false, le_value_le_bytes, hps]
    have h256 : e.ptr.length % 256 ^ 8 = e.ptr.length := Nat.mod_eq_of_lt (by
      have : (256 : Nat) ^ 8 = 2 ^ 64 := by norm_num
      omega)
    simp only [h256, ne_eq, not_true_eq_false, if_false, Nat.zero_mod, if_true, gt_iff_lt,
      lt_self_iff_false]
    rw [fread_append e.ptr.length e.ptr rest rfl]
    simp only [lt_self_iff_false, if_false]

/-- The loop of `save` and the loop of `load`: the bytes written for a list of
well-formed entries with increasing names are read back, entry by entry, into
the map (the fuel of one unit per entry is enough). -/
theorem save_load_loop (es : List (List Nat × Entry))
    (hvalid : ∀ p ∈ es, 0 ∉ p.1 ∧ p.2.compressed_size = 0 ∧
      (p.2.type = chars "float" ∨ p.2.type = chars "doubl" ∨ p.2.type = chars "int32"
        ∨ p.2.type = chars "int16") ∧
      p.2.ndim ≤ 4 ∧ p.2.shape.length = 4 ∧ (∀ i, i < 4 → p.2.shape.getD i 0 < 2 ^ 32) ∧
      (∀ i, p.2.ndim ≤ i → i < 4 → p.2.shape.getD i 0 = 1) ∧
      p.2.ptr.length = data_loading.get_size p.2.type * p.2.shape.getD 0 0 * p.2.shape.getD 1 0
        * p.2.shape.getD 2 0 * p.2.shape.getD 3 0 ∧
      p.2.ptr.length < 2 ^ 64)
    (hsorted : es.Pairwise (fun p q => p.1 < q.1)) (file : List Nat) :
    ∃ bytes : List Nat, save_loop es file = some (file ++ bytes) ∧ es.length ≤ bytes.length ∧
      (es = [] → bytes = []) ∧
      (es ≠ [] → ∀ (md : model_dict) (fuel : Nat),
        (∀ q ∈ md.m_parameters, ∀ p ∈ es, q.1 < p.1) → es.length ≤ fuel →
        load_loop fuel bytes md = some ⟨md.m_parameters ++ es.map (fun p =>
          (p.1, ({ type := p.2.type, ndim := p.2.ndim,
                   shape := [p.2.shape.getD 0 0, p.2.shape.getD 1 0, p.2.shape.getD 2 0,
                     p.2.shape.getD 3 0],
                   size := p.2.ptr.length, compressed_size := 0, ptr := p.2.ptr } : Entry)))⟩) := by
  induction es generalizing file with
  | nil =>
    exact ⟨[], by simp [save_loop], by simp, fun _ => rfl, fun h => absurd rfl h⟩
  | cons p es ih =>
    obtain ⟨v1, v2, v3, v4, v5, v6, v7, v8, v9⟩ := hvalid p (by simp)
    obtain ⟨b1, hs1, hl1, hload1⟩ := save_load_record p.1 p.2 v1 v2 v3 v4 v5 v6 v7 v8 v9 file
    have hsorted2 := List.pairwise_cons.1 hsorted
    obtain ⟨B, hsB, hlB, hnilB, hloadB⟩ := ih (fun q hq => hvalid q (by simp [hq])) hsorted2.2
      (file ++ b1)
    refine ⟨b1 ++ B, ?_, ?_, ?_, ?_⟩
    · show (save_entry (p.1, p.2) file).bind (save_loop es) = _
      rw [hs1, Option.some_bind, hsB, List.append_assoc]
    · simp only [List.length_cons, List.length_append]
      omega
    · intro h
      exact absurd h (by simp)
    · intro _ md fuel hkeys hfuel
      obtain ⟨f, rfl⟩ : ∃ f, fuel = f + 1 := ⟨fuel - 1, by
        simp only [List.length_cons] at hfuel; omega⟩
      simp only [List.length_cons, Nat.add_le_add_iff_right] at hfuel
      show (load_record (b1 ++ B) md).bind _ = _
      rw [hload1 B md, Option.some_bind]
      have hmd1 : md.add_parameter p.1 p.2.type p.2.ndim p.2.shape p.2.ptr.length 0 p.2.ptr
          = ⟨md.m_parameters ++ [(p.1, (⟨p.2.type, p.2.ndim,
                   [p.2.shape.getD 0 0, p.2.shape.getD 1 0, p.2.shape.getD 2 0,
                     p.2.shape.getD 3 0], p.2.ptr.length, 0, p.2.ptr⟩ : Entry))]⟩ := by
        unfold model_dict.add_parameter
        rw [model_dict.map_assign_append _ _ _ (fun q hq => hkeys q hq p (by simp))]
      by_cases hes : es = []
      · subst hes
        rw [hnilB rfl]
        simp only [if_true, hmd1, List.map_cons, List.map_nil]
      · have hB : B ≠ [] := by
          intro hB
          rw [hB, List.length_nil, Nat.le_zero, List.length_eq_zero] at hlB
          exact hes hlB
        simp only [hB, if_false]
        rw [hloadB hes _ f (by
          intro q hq r hr
          rw [hmd1] at hq
          simp only [List.mem_append, List.mem_singleton] at hq
          rcases hq with hq | hq
          · exact hkeys q hq r (by simp [hr])
          · rw [hq]
            exact hsorted2.1 r hr) hfuel, hmd1]
        simp only [List.map_cons, List.append_assoc, List.singleton_append]

/-! ## The adjoint identity of im2col and col2im -/

/-- The innermost of three nested finite sums moved to the front. -/
theorem sum_swap3 {R : Type} [AddCommMonoid R] (s t u : Finset Nat) (G : Nat → Nat → Nat → R) :
    ∑ i in s, ∑ j in t, ∑ k in u, G i j k = ∑ k in u, ∑ i in s, ∑ j in t, G i j k := by
  calc ∑ i in s, ∑ j in t, ∑ k in u, G i j k
      = ∑ i in s, ∑ k in u, ∑ j in t, G i j k :=
        Finset.sum_congr rfl (fun i _ => Finset.sum_comm)
    _ = ∑ k in u, ∑ i in s, ∑ j in t, G i j k := Finset.sum_comm

/-- Two outer sums moved behind four inner ones. -/
theorem sum_swap_2_4 {R : Type} [AddCommMonoid R] (a b c d e f : Nat)
    (G : Nat → Nat → Nat → Nat → Nat → Nat → R) :
    ∑ i in Finset.range a, ∑ j in Finset.range b, ∑ k in Finset.range c, ∑ l in Finset.range d,
        ∑ m in Finset.range e, ∑ n in Finset.range f, G i j k l m n
      = ∑ k in Finset.range c, ∑ l in Finset.range d, ∑ m in Finset.range e,
          ∑ n in Finset.range f, ∑ i in Finset.range a, ∑ j in Finset.range b, G i j k l m n := by
  rw [sum_swap3 (Finset.range a) (Finset.range b) (Finset.range c)
    (fun i j k => ∑ l in Finset.range d, ∑ m in Finset.range e, ∑ n in Finset.range f,
      G i j k l m n)]
  refine Finset.sum_congr rfl (fun k _ => ?_)
  rw [sum_swap3 (Finset.range a) (Finset.range b) (Finset.range d)
    (fun i j l => ∑ m in Finset.range e, ∑ n in Finset.range f, G i j k l m n)]
  refine Finset.sum_congr rfl (fun l _ => ?_)
  rw [sum_swap3 (Finset.range a) (Finset.range b) (Finset.range e)
    (fun i j m => ∑ n in Finset.range f, G i j k l m n)]
  refine Finset.sum_congr rfl (fun m _ => ?_)
  rw [sum_swap3 (Finset.range a) (Finset.range b) (Finset.range f)
    (fun i j n => G i j k l m n)]

/-- A double sum against the indicator of one position `(iy, ix)` keeps the
term of that position when it lies in the range, and is 0 otherwise. -/
theorem sum_indicator_collapse {R : Type} [CommRing R] (H W : Nat) (iy ix : Int)
    (f : Int → Int → R) (v : R) :
    ∑ oy in Finset.range H, ∑ ox in Finset.range W,
        f (oy : Int) (ox : Int) * (if iy = (oy : Int) ∧ ix = (ox : Int) then v else 0)
      = (if 0 ≤ iy ∧ iy < (H : Int) ∧ 0 ≤ ix ∧ ix < (W : Int) then f iy ix else 0) * v := by
  by_cases hr : 0 ≤ iy ∧ iy < (H : Int) ∧ 0 ≤ ix ∧ ix < (W : Int)
  · rw [if_pos hr]
    obtain ⟨r1, r2, r3, r4⟩ := hr
    obtain ⟨a, rfl⟩ : ∃ a : Nat, iy = (a : Int) := ⟨_, (Int.toNat_of_nonneg r1).symm⟩
    obtain ⟨b, rfl⟩ : ∃ b : Nat, ix = (b : Int) := ⟨_, (Int.toNat_of_nonneg r3).symm⟩
    rw [Finset.sum_eq_single a]
    · rw [Finset.sum_eq_single b]
      · rw [if_pos ⟨rfl, rfl⟩]
      · intro ox _ hne
        rw [if_neg (by omega), mul_zero]
      · intro hb
        exact absurd (Finset.mem_range.2 (by omega)) hb
    · intro oy _ hne
      apply Finset.sum_eq_zero
      intro ox _
      rw [if_neg (by omega), mul_zero]
    · intro ha
      exact absurd (Finset.mem_range.2 (by omega)) ha
  · rw [if_neg hr, zero_mul]
    apply Finset.sum_eq_zero
    intro oy hoy
    apply Finset.sum_eq_zero
    intro ox hox
    have := Finset.mem_range.1 hoy
    have := Finset.mem_range.1 hox
    rw [if_neg (by omega), mul_zero]

/-- The functions `im2col` and `col2im` are adjoint when the rows of `col2im`
run in program order: the columns of an image paired with a columns buffer
give the same sum as the image paired with `col2im` of the buffer, accumulated
into a zero image. -/
theorem im2col_col2im_adjoint {R : Type} [CommRing R] (C H W kh kw sh sw ph pw dh dw Ho Wo : Nat)
    (hsw : 1 ≤ sw)
    (hfitW : (dw : Int) * ((kw : Int) - 1) + 1 ≤ (W : Int))
    (hHo : ((Ho : Int) - 1) * (sh : Int) + (dh : Int) * ((kh : Int) - 1) + 1
      ≤ (H : Int) + 2 * (ph : Int))
    (hWo1 : ((Wo : Int) - 1) * (sw : Int) + (dw : Int) * ((kw : Int) - 1) + 1
      ≤ (W : Int) + 2 * (pw : Int))
    (hWo2 : (W : Int) + 2 * (pw : Int) < (Wo : Int) * (sw : Int) + (dw : Int) * ((kw : Int) - 1) + 1)
    (columns_fresh xin cols : Int → R) (xo : Int) :
    ∑ row in Finset.range (C * kh * kw), ∑ p in Finset.range (Ho * Wo),
        details.im2col ⟨kh, kw, sh, sw, ph, pw, dh, dw⟩ columns_fresh 0 xin xo (C : Int) (W : Int)
            (H : Int) (Wo : Int) (Ho : Int) (((row * (Ho * Wo) + p : Nat) : Int))
          * cols (((row * (Ho * Wo) + p : Nat) : Int))
      = ∑ q in Finset.range (C * (H * W)),
          xin (xo + (q : Int))
            * details.col2im ⟨kh, kw, sh, sw, ph, pw, dh, dw⟩ (fun _ => 0) 0 cols 0 (C : Int)
                (W : Int) (H : Int) (Wo : Int) (Ho : Int) (q : Int) := by
  have hspec := (details.im2col_spec (R := R) C H W kh kw sh sw ph pw dh dw Ho Wo hsw hfitW hHo hWo1
    hWo2 columns_fresh xin 0 xo).1
  -- the left side, by channel, tap and window
  have hL : ∑ row in Finset.range (C * kh * kw), ∑ p in Finset.range (Ho * Wo),
        details.im2col ⟨kh, kw, sh, sw, ph, pw, dh, dw⟩ columns_fresh 0 xin xo (C : Int) (W : Int)
            (H : Int) (Wo : Int) (Ho : Int) (((row * (Ho * Wo) + p : Nat) : Int))
          * cols (((row * (Ho * Wo) + p : Nat) : Int))
      = ∑ c in Finset.range C, ∑ fh in Finset.range kh, ∑ fw in Finset.range kw,
          ∑ y in Finset.range Ho, ∑ x in Finset.range Wo,
            (if 0 ≤ (y : Int) * (sh : Int) + (fh : Int) * (dh : Int) - (ph : Int) ∧
                (y : Int) * (sh : Int) + (fh : Int) * (dh : Int) - (ph : Int) < (H : Int) ∧
                0 ≤ (x : Int) * (sw : Int) + (fw : Int) * (dw : Int) - (pw : Int) ∧
                (x : Int) * (sw : Int) + (fw : Int) * (dw : Int) - (pw : Int) < (W : Int) then
              xin (xo + (c : Int) * ((H : Int) * (W : Int))
                + (((y : Int) * (sh : Int) + (fh : Int) * (dh : Int) - (ph : Int)) * (W : Int)
                  + ((x : Int) * (sw : Int) + (fw : Int) * (dw : Int) - (pw : Int))))
            else 0)
            * cols ((((c * kh + fh) * kw + fw : Nat) : Int) * ((Ho : Int) * (Wo : Int))
                + ((y : Int) * (Wo : Int) + (x : Int))) := by
    rw [sum_range_mul (C * kh) kw, sum_range_mul C kh]
    refine Finset.sum_congr rfl (fun c hc => ?_)
    refine Finset.sum_congr rfl (fun fh hfh => ?_)
    refine Finset.sum_congr rfl (fun fw hfw => ?_)
    rw [sum_range_mul Ho Wo]
    refine Finset.sum_congr rfl (fun y hy => ?_)
    refine Finset.sum_congr rfl (fun x hx => ?_)
    have hs := hspec c fh fw y x (Finset.mem_range.1 hc) (Finset.mem_range.1 hfh)
      (Finset.mem_range.1 hfw) (Finset.mem_range.1 hy) (Finset.mem_range.1 hx)
    rw [zero_add] at hs
    have e : (((((c * kh + fh) * kw + fw) * (Ho * Wo) + (y * Wo + x) : Nat)) : Int)
        = (((c * kh + fh) * kw + fw : Nat) : Int) * ((Ho : Int) * (Wo : Int))
          + ((y : Int) * (Wo : Int) + (x : Int)) := by
      simp only [Nat.cast_add, Nat.cast_mul]
    rw [e, hs]
  -- the right side, by channel and pixel
  have hR : ∑ q in Finset.range (C * (H * W)),
          xin (xo + (q : Int))
            * details.col2im ⟨kh, kw, sh, sw, ph, pw, dh, dw⟩ (fun _ => 0) 0 cols 0 (C : Int)
                (W : Int) (H : Int) (Wo : Int) (Ho : Int) (q : Int)
      = ∑ c in Finset.range C, ∑ oy in Finset.range H, ∑ ox in Finset.range W,
          ∑ fh in Finset.range kh, ∑ fw in Finset.range kw, ∑ y in Finset.range Ho,
            ∑ x in Finset.range Wo,
              xin (xo + (c : Int) * ((H : Int) * (W : Int)) + ((oy : Int) * (W : Int) + (ox : Int)))
                * (if (y : Int) * (sh : Int) + (fh : Int) * (dh : Int) - (ph : Int) = (oy : Int) ∧
                      (x : Int) * (sw : Int) + (fw : Int) * (dw : Int) - (pw : Int) = (ox : Int) then
                    cols ((((c * kh + fh) * kw + fw : Nat) : Int) * ((Ho : Int) * (Wo : Int))
                      + ((y : Int) * (Wo : Int) + (x : Int)))
                  else 0) := by
    rw [sum_range_mul C (H * W)]
    refine Finset.sum_congr rfl (fun c hc => ?_)
    rw [sum_range_mul H W]
    refine Finset.sum_congr rfl (fun oy hoy => ?_)
    refine Finset.sum_congr rfl (fun ox hox => ?_)
    have e : (((c * (H * W) + (oy * W + ox) : Nat)) : Int)
        = 0 + (c : Int) * ((H : Int) * (W : Int)) + ((oy : Int) * (W : Int) + (ox : Int)) := by
      simp only [Nat.cast_add, Nat.cast_mul, zero_add]
    rw [e, col2im_pixel C H W Ho Wo kh kw sh sw ph pw dh dw hsw (fun _ => 0) cols 0 c oy ox
      (Finset.mem_range.1 hc) (Finset.mem_range.1 hoy) (Finset.mem_range.1 hox)]
    simp only [zero_add]
    rw [Finset.mul_sum]
    refine Finset.sum_congr rfl (fun fh _ => ?_)
    rw [Finset.mul_sum]
    refine Finset.sum_congr rfl (fun fw _ => ?_)
    rw [Finset.mul_sum]
    refine Finset.sum_congr rfl (fun y _ => ?_)
    rw [Finset.mul_sum]
    refine Finset.sum_congr rfl (fun x _ => ?_)
    congr 2
    ring
  rw [hL, hR]
  refine Finset.sum_congr rfl (fun c _ => ?_)
  rw [sum_swap_2_4 H W kh kw Ho Wo]
  refine Finset.sum_congr rfl (fun fh _ => ?_)
  refine Finset.sum_congr rfl (fun fw _ => ?_)
  refine Finset.sum_congr rfl (fun y _ => ?_)
  refine Finset.sum_congr rfl (fun x _ => ?_)
  rw [sum_indicator_collapse H W ((y : Int) * (sh : Int) + (fh : Int) * (dh : Int) - (ph : Int))
    ((x : Int) * (sw : Int) + (fw : Int) * (dw : Int) - (pw : Int))
    (fun oy ox => xin (xo + (c : Int) * ((H : Int) * (W : Int)) + (oy * (W : Int) + ox)))]

/-! ## Claims -/

/-- C1: `gemm_nn` equals the naive triple loop in exact arithmetic.  For all
sizes `M`, `N`, `K` (multiples of the block size 128 or not) and leading
dimensions with `N ≤ LDC`, every entry `i < M`, `j < N` of the result is
`C[i*LDC+j] + ∑ l < K, A[i*LDA+l] * B[l*LDB+j]`, and every address that is not
such an entry keeps its value.  The bounds `K ≤ LDA` and `N ≤ LDB` of the claim
are not needed. -/
theorem C1_gemm_nn_naive {R : Type} [CommRing R] (M N K LDA LDB LDC : Nat) (hC : N ≤ LDC)
    (A B C copy_buffers : Int → R) (sizeofT : Nat) (thread_id : Int → Nat) :
    (∀ i j : Nat, i < M → j < N →
      details.gemm_nn M N K A 0 LDA B 0 LDB C 0 LDC copy_buffers sizeofT thread_id
          ((i : Int) * (LDC : Int) + (j : Int))
        = C ((i : Int) * (LDC : Int) + (j : Int))
          + ∑ l in Finset.range K,
              A ((i : Int) * (LDA : Int) + (l : Int)) * B ((l : Int) * (LDB : Int) + (j : Int))) ∧
    (∀ p : Int, (∀ i j : Nat, i < M → j < N → p ≠ (i : Int) * (LDC : Int) + (j : Int)) →
      details.gemm_nn M N K A 0 LDA B 0 LDB C 0 LDC copy_buffers sizeofT thread_id p = C p) := by
  constructor
  · intro i j hi hj
    have h := details.gemm_nn_cell M N K LDC hC A 0 LDA B 0 LDB C 0 copy_buffers sizeofT
      thread_id i j hi hj
    have e : (i : Int) * (LDC : Int) + (j : Int) = 0 + ((j : Int) + (i : Int) * (LDC : Int)) := by ring
    rw [e, h]
    congr 1
    refine Finset.sum_congr rfl (fun l _ => ?_)
    congr 2 <;> ring
  · intro p hp
    refine details.gemm_nn_frame M N K A 0 LDA B 0 LDB C 0 LDC copy_buffers sizeofT thread_id p ?_
    intro i j hi hj
    have := hp i j hi hj
    intro h
    apply this
    rw [h]; ring

/-- C1 at a concrete input: a `2 × 3` by `3 × 1`... product with `K = 1`. -/
theorem C1_gemm_nn_naive_witness :
    (3 ≤ 3) ∧
    details.gemm_nn (2 : Nat) (3 : Nat) (1 : Nat) (fun p : Int => p + 1) 0 (1 : Nat)
        (fun p : Int => 2 * p + 1) 0 (3 : Nat) (fun p : Int => p) 0 (3 : Nat) (fun _ => 0) 4
        (fun _ => 0) (((1 : Nat) : Int) * ((3 : Nat) : Int) + ((2 : Nat) : Int))
      = (fun p : Int => p) (((1 : Nat) : Int) * ((3 : Nat) : Int) + ((2 : Nat) : Int))
        + ∑ l in Finset.range 1,
            (fun p : Int => p + 1) (((1 : Nat) : Int) * ((1 : Nat) : Int) + (l : Int))
              * (fun p : Int => 2 * p + 1) ((l : Int) * ((3 : Nat) : Int) + ((2 : Nat) : Int)) :=
  ⟨le_refl 3, (C1_gemm_nn_naive 2 3 1 1 3 3 (le_refl 3) (fun p : Int => p + 1)
    (fun p : Int => 2 * p + 1) (fun p : Int => p) (fun _ => 0) 4 (fun _ => 0)).1 1 2
    (by decide) (by decide)⟩

/-- Linear with a bias for `T = float` (the store of `do_block_nt` keeps the
value): the result has shape `[N, O]` and entry `(n, o)` is
`bias[o] + ∑ i, in[n,i] * weight[o,i]`. -/
theorem Linear_spec {R : Type} [CommRing R] (N O I : Nat) (input weight bias : tensor R)
    (fresh : Int → R) (hin : input.m_shape = [(N : Int), (I : Int)])
    (hw : weight.m_shape = [(O : Int), (I : Int)]) (hb : bias.m_shape = [(O : Int)])
    (hnull : bias.m_null = false) :
    ∃ out, Linear id input weight bias fresh = some out ∧ out.m_shape = [(N : Int), (O : Int)] ∧
      ∀ n o : Nat, n < N → o < O →
        out.get2 n o = bias.get1 o + ∑ i in Finset.range I, input.get2 n i * weight.get2 o i := by
  unfold Linear
  simp only [width, height, number, hin, hw, hb, hnull]
  simp
  refine ⟨rfl, ?_⟩
  intro n o hn ho
  simp only [tensor.New, tensor.get2, tensor.get1, tensor.Sub, tensor.Assign, tensor.size, hin,
    hw, List.tail_cons, List.foldl_cons, List.foldl_nil, one_mul]
  have e : (0 : Int) + (n : Int) * (O : Int) + (o : Int) = 0 + ((o : Int) + (n : Int) * (O : Int)) := by
    ring
  rw [e, details.gemm_nt_cell N O I O le_rfl _ _ _ _ _ _ _ _ n o hn ho]
  congr 1
  rw [forInt_zero, Int.toNat_natCast]
  refine forLoop_last_writer (fun m : Int → R => m (0 + ((o : Int) + (n : Int) * (O : Int)))) _ N n hn _
    ?_ ?_ _
  · intro m
    have h1 : (0 : Int) + (n : Int) * (O : Int) ≤ 0 + ((o : Int) + (n : Int) * (O : Int)) := by omega
    have h2 : (0 : Int) + ((o : Int) + (n : Int) * (O : Int)) < 0 + (n : Int) * (O : Int) + (O : Int) := by
      omega
    simp only [memcpy, if_pos (And.intro h1 h2)]
    congr 1; ring
  · intro k hk _ m
    have h := row_lt n k o O hk ho
    have h1 : ¬ ((0 : Int) + (k : Int) * (O : Int) ≤ 0 + ((o : Int) + (n : Int) * (O : Int)) ∧
        (0 : Int) + ((o : Int) + (n : Int) * (O : Int)) < 0 + (k : Int) * (O : Int) + (O : Int)) := by
      omega
    simp only [memcpy, if_neg h1]

/-- The product `gemm_nt` by a transposed-stored `B` for `T = float` (the store
of `do_block_nt` keeps the value).  For all sizes and `N ≤ LDC` every entry `i < M`, `j < N` of the result is
`C[i*LDC+j] + ∑ l < K, A[i*LDA+l] * B[j*LDB+l]`, whatever the number of 128-wide
blocks `K` splits into; and `Linear` with a bias of shape `[O]`, an input of
shape `[Nb, I]` and a weight of shape `[O, I]` succeeds with a result of shape
`[Nb, O]` whose entry `(n, o)` is `bias[o] + ∑ i < I, in[n,i] * weight[o,i]`. -/
theorem gemm_nt_Linear_float {R : Type} [CommRing R] (M N K LDA LDB LDC : Nat) (hC : N ≤ LDC)
    (A B C : Int → R) (Nb O I : Nat) (input weight bias : tensor R) (fresh : Int → R)
    (hin : input.m_shape = [(Nb : Int), (I : Int)])
    (hw : weight.m_shape = [(O : Int), (I : Int)]) (hb : bias.m_shape = [(O : Int)])
    (hnull : bias.m_null = false) :
    (∀ i j : Nat, i < M → j < N →
      details.gemm_nt id M N K A 0 LDA B 0 LDB C 0 LDC ((i : Int) * (LDC : Int) + (j : Int))
        = C ((i : Int) * (LDC : Int) + (j : Int))
          + ∑ l in Finset.range K,
              A ((i : Int) * (LDA : Int) + (l : Int)) * B ((j : Int) * (LDB : Int) + (l : Int))) ∧
    (∃ out, Linear id input weight bias fresh = some out ∧ out.m_shape = [(Nb : Int), (O : Int)] ∧
      ∀ n o : Nat, n < Nb → o < O →
        out.get2 n o = bias.get1 o + ∑ i in Finset.range I, input.get2 n i * weight.get2 o i) := by
  refine ⟨?_, Linear_spec Nb O I input weight bias fresh hin hw hb hnull⟩
  intro i j hi hj
  have h := details.gemm_nt_cell M N K LDC hC A 0 LDA B 0 LDB C 0 i j hi hj
  have e : (i : Int) * (LDC : Int) + (j : Int) = 0 + ((j : Int) + (i : Int) * (LDC : Int)) := by ring
  rw [e, h]
  congr 1
  refine Finset.sum_congr rfl (fun l _ => ?_)
  congr 2 <;> ring

/-- C2 (failing input): `gemm_nt` and `Linear` on an element type other than
`float`.  `do_block_nt` holds the sum in a `float` and stores it by
`memcpy(C + j + i * LDC, &cij, sizeof(T))`; `float_as_T` is what that store
leaves in the cell for a sum.  For `A = (1, 2)`, `B = (3, 4)` stored transposed
and `C = 100`, and for `Linear` on the input `(1, 2)`, the weight `(3, 4)` and
the bias `100`, the cell holds `float_as_T 111` and not `111`, whatever
`float_as_T` is, while `gemm_nn`, whose `do_block` assigns `C[j + i*LDC] = cij`,
gives `100 + (1 * 3 + 2 * 4) = 111` on the same operands. -/
theorem C2_gemm_nt_store_through_float (float_as_T : Int → Int) :
    details.gemm_nt float_as_T 1 1 2 (fun p => p + 1) 0 2 (fun p => p + 3) 0 2
      (fun _ => 100) 0 1 0 = float_as_T 111 ∧
    (Linear float_as_T
        { m_ptr := fun p => p + 1, m_shape := [1, 2], m_offset := 0, m_null := false }
        { m_ptr := fun p => p + 3, m_shape := [1, 2], m_offset := 0, m_null := false }
        { m_ptr := fun _ => 100, m_shape := [1], m_offset := 0, m_null := false }
        (fun _ => 0)).map (fun out => (out.m_shape, out.get2 0 0))
      = some ([1, 1], float_as_T 111) ∧
    details.gemm_nn (R := Int) 1 1 2 (fun p => p + 1) 0 2 (fun p => p + 3) 0 1
      (fun _ => 100) 0 1 (fun _ => 0) 4 (fun _ => 0) 0 = 111 ∧
    (100 : Int) + (1 * 3 + 2 * 4) = 111 := by
  refine ⟨rfl, rfl, by decide, by decide⟩

/-- C3 (failing input): a batch of two `1 × 1` images `5` and `6`, one `1 × 1`
kernel `3`, no bias.  `Conv2d` returns shape `[2, 1, 1, 1]` with
`out[0,0,0,0] = 15` but `out[1,0,0,0] = 0`, while the convolution of the second
image is `3 * 6 = 18`: only the first image is convolved. -/
theorem C3_conv2d_batch_second_image :
    (Conv2d (R := Int) ⟨1, 1, 1, 1, 0, 0, 1, 1⟩
        { m_ptr := fun p => p + 5, m_shape := [2, 1, 1, 1], m_offset := 0, m_null := false }
        { m_ptr := fun _ => 3, m_shape := [1, 1, 1, 1], m_offset := 0, m_null := false }
        { m_ptr := fun _ => 0, m_shape := [0], m_offset := 0, m_null := true }
        (fun _ => 0) (fun _ => 0) (fun _ => 0) 4 (fun _ => 0)).map
      (fun out => (out.m_shape, out.get4 0 0 0 0, out.get4 1 0 0 0)) = some ([2, 1, 1, 1], 15, 0) ∧
    (tensor.get4 (R := Int)
        { m_ptr := fun _ => 3, m_shape := [1, 1, 1, 1], m_offset := 0, m_null := false } 0 0 0 0)
      * (tensor.get4 (R := Int)
        { m_ptr := fun p => p + 5, m_shape := [2, 1, 1, 1], m_offset := 0, m_null := false } 1 0 0 0)
      = 18 := by
  decide

/-- C5 (failing input): `ConvTranspose2d<2,1,1,1,0,0,1,1>` on the `2 × 1` image
`(2, 3)` with the `2 × 1` kernel `(5, 7)` and the bias `100`.  The columns
matrix handed to `col2im` is `(10, 15 ; 14, 21)` and the output is initialised
to `(100, 100, 100)`.  Run in program order the rows give `(110, 129, 121)`,
the value of the claim with `129 = 100 + 5 * 3 + 7 * 2`.  The rows are the
iterations of a `parallel_for`: row 0 run on the initialised output gives
`(110, 115, 100)` and row 1 gives `(100, 114, 121)`, so both add to pixel 1,
and a run in which each of them reads that pixel before the other stores it
ends with `115` or `114` there. -/
theorem C5_conv_transpose2d_rows_share_pixel :
    (ConvTranspose2d (R := Int) ⟨2, 1, 1, 1, 0, 0, 1, 1⟩
        { m_ptr := fun p => p + 2, m_shape := [1, 1, 2, 1], m_offset := 0, m_null := false }
        { m_ptr := fun p => 2 * p + 5, m_shape := [1, 1, 2, 1], m_offset := 0, m_null := false }
        { m_ptr := fun _ => 100, m_shape := [1], m_offset := 0, m_null := false }
        (fun _ => 0) (fun _ => 0) (fun _ => 0) (fun _ => 0) 4 (fun _ => 0)).map
      (fun out => (out.m_shape, out.get4 0 0 0 0, out.get4 0 0 1 0, out.get4 0 0 2 0))
      = some ([1, 1, 3, 1], 110, 129, 121) ∧
    (List.range 4).map (fun (q : Nat) => details.gemm_nn (R := Int) 2 2 1 (fun p => 2 * p + 5) 0 1
      (fun p => p + 2) 0 2 (fun _ => 0) 0 2 (fun _ => 0) 4 (fun _ => 0) (q : Int))
      = [10, 15, 14, 21] ∧
    (List.range 3).map (fun (q : Nat) => details.col2im (R := Int) ⟨2, 1, 1, 1, 0, 0, 1, 1⟩
      (fun _ => 100) 0 (fun p => [10, 15, 14, 21].getD p.toNat 0) 0 1 1 3 1 2 (q : Int))
      = [110, 129, 121] ∧
    (List.range 3).map (fun (q : Nat) => details.col2im_row (R := Int) ⟨2, 1, 1, 1, 0, 0, 1, 1⟩
      0 (fun p => [10, 15, 14, 21].getD p.toNat 0) 0 1 3 1 2 0 (fun _ => 100) (q : Int))
      = [110, 115, 100] ∧
    (List.range 3).map (fun (q : Nat) => details.col2im_row (R := Int) ⟨2, 1, 1, 1, 0, 0, 1, 1⟩
      0 (fun p => [10, 15, 14, 21].getD p.toNat 0) 0 1 3 1 2 1 (fun _ => 100) (q : Int))
      = [100, 114, 121] ∧
    (100 : Int) + 5 * 3 + 7 * 2 = 129 := by
  decide

/-- A `1 × 1` convolution is a per-pixel `Linear` layer for `T = float` (the
store of `do_block_nt` keeps the value).  For `in[1,C,H,W]`,
`kernel[K,C,1,1]` and `bias[K]`, with `X` the `[H*W, C]` matrix
`X[y*W+x, c] = in[0,c,y,x]` and `Wk` the kernel as a `[K, C]` matrix, `Conv2d`
with kernel 1, stride 1, padding 0, dilation 1 and `Linear(X, Wk, bias)` both
succeed and `out[0,k,y,x] = Linear(X, Wk, bias)[y*W+x, k]`. -/
theorem Conv2d_1x1_Linear_float {R : Type} [CommRing R] (C H W K : Nat)
    (input kernel bias X Wk : tensor R)
    (columns_fresh out_fresh copy_buffers lin_fresh : Int → R) (sizeofT : Nat)
    (thread_id : Int → Nat)
    (hin : input.m_shape = [1, (C : Int), (H : Int), (W : Int)])
    (hker : kernel.m_shape = [(K : Int), (C : Int), 1, 1])
    (hb : bias.m_shape = [(K : Int)]) (hnull : bias.m_null = false)
    (hX : X.m_shape = [((H * W : Nat) : Int), (C : Int)])
    (hWk : Wk.m_shape = [(K : Int), (C : Int)])
    (hXv : ∀ c y x : Nat, c < C → y < H → x < W →
      X.get2 ((y * W + x : Nat) : Int) c = input.get4 0 c y x)
    (hWv : ∀ k c : Nat, k < K → c < C → Wk.get2 k c = kernel.get4 k c 0 0) :
    ∃ out lin,
      Conv2d ⟨1, 1, 1, 1, 0, 0, 1, 1⟩ input kernel bias columns_fresh out_fresh copy_buffers
        sizeofT thread_id = some out ∧
      Linear id X Wk bias lin_fresh = some lin ∧
      ∀ k y x : Nat, k < K → y < H → x < W →
        out.get4 0 k y x = lin.get2 ((y * W + x : Nat) : Int) k := by
  obtain ⟨out, hout, _, hov⟩ := Conv2d_1x1 C H W K input kernel bias columns_fresh out_fresh
    copy_buffers sizeofT thread_id hin hker hnull
  obtain ⟨lin, hlin, _, hlv⟩ := Linear_spec (H * W) K C X Wk bias lin_fresh hX hWk hb hnull
  refine ⟨out, lin, hout, hlin, ?_⟩
  intro k y x hk hy hx
  have hq : y * W + x < H * W := by
    have h := row_lt y H x W hy hx
    zify; omega
  rw [hov k y x hk hy hx, hlv (y * W + x) k hq hk]
  congr 1
  refine Finset.sum_congr rfl (fun c hc => ?_)
  have hc2 := Finset.mem_range.mp hc
  rw [hXv c y x hc2 hy hx, hWv k c hk hc2, mul_comm]

/-- C6 (failing input): a `1 × 1` convolution against `Linear` on an element
type other than `float`.  One channel, the `1 × 2` image `(2, 3)`, the kernel
`5` and the bias `100`: `Conv2d` with kernel 1, stride 1, padding 0,
dilation 1 gives `(110, 115)`, and `Linear` on the matrix `X = (2 ; 3)` with
the weight `5` and the same bias gives `(float_as_T 110, float_as_T 115)`,
where `float_as_T` is what the store
`memcpy(C + j + i * LDC, &cij, sizeof(T))` of the `float cij` in `do_block_nt`
leaves in the cell. -/
theorem C6_conv1x1_linear_store_through_float (float_as_T : Int → Int) :
    (Conv2d (R := Int) ⟨1, 1, 1, 1, 0, 0, 1, 1⟩
        { m_ptr := fun p => p + 2, m_shape := [1, 1, 1, 2], m_offset := 0, m_null := false }
        { m_ptr := fun _ => 5, m_shape := [1, 1, 1, 1], m_offset := 0, m_null := false }
        { m_ptr := fun _ => 100, m_shape := [1], m_offset := 0, m_null := false }
        (fun _ => 0) (fun _ => 0) (fun _ => 0) 4 (fun _ => 0)).map
      (fun out => (out.get4 0 0 0 0, out.get4 0 0 0 1)) = some (110, 115) ∧
    (Linear float_as_T
        { m_ptr := fun p => p + 2, m_shape := [2, 1], m_offset := 0, m_null := false }
        { m_ptr := fun _ => 5, m_shape := [1, 1], m_offset := 0, m_null := false }
        { m_ptr := fun _ => 100, m_shape := [1], m_offset := 0, m_null := false }
        (fun _ => 0)).map (fun lin => (lin.get2 0 0, lin.get2 1 0))
      = some (float_as_T 110, float_as_T 115) := by
  refine ⟨by decide, rfl⟩

/-- C7 (failing input): one channel, a `1 × 1` input holding `1`, kernel
`1 × 3`, `stride_w = 2`, `pad_w = 4`, `dilation_w = 4`, so `Hout = Wout = 1` and
the columns buffer has three rows of one cell.  The cell of row 1 (`fw = 1`)
gathers input column `0*2 + 1*4 - 4 = 0` and has to be `1`, but `im2col` leaves
`0` there: row 2 zero-fills from `dst + end` with `end = -1`.  Row 0 alone
already writes the cell of row 1 (address 1), outside its own cell. -/
theorem C7_im2col_narrow_input :
    details.im2col (R := Int) ⟨1, 3, 1, 2, 0, 4, 1, 4⟩ (fun _ => 77) 0 (fun _ => 1) 0 1 1 1 1 1 1 = 0 ∧
    details.im2col_process_row_apply (R := Int) ⟨1, 3, 1, 2, 0, 4, 1, 4⟩ (fun _ => 77) 0
      (fun _ => 1) 0 0 0 1 1 1 1 1 = 0 ∧
    Int.tdiv (1 + 2 * 4 - 4 * (3 - 1) - 1) 2 + 1 = 1 := by
  decide

/-- C8: the broadcasting path of every binary op.  `Add`, `Sub`, `Mul` and
`Div` are `POINT_WISE_BINARY` with `OP` the sum, difference, product and
quotient; for every `OP` and rank 4 tensors `a`, `b` with different,
broadcast-compatible shapes of positive sizes the call succeeds, the result has
shape `s[i] = max(sa[i], sb[i])` and
`result[n,c,h,w] = OP a[n',c',h',w'] b[n'',c'',h'',w'']`, where an operand index
is the result index on an axis where the operand has the full size and 0 on an
axis where it has size 1. -/
theorem C8_binary_broadcast {R : Type} (OP : R → R → R) (a b : tensor R) (fresh : Int → R)
    (a0 a1 a2 a3 b0 b1 b2 b3 : Nat)
    (ha : a.m_shape = [(a0 : Int), (a1 : Int), (a2 : Int), (a3 : Int)])
    (hb : b.m_shape = [(b0 : Int), (b1 : Int), (b2 : Int), (b3 : Int)])
    (hpos : 1 ≤ a0 ∧ 1 ≤ a1 ∧ 1 ≤ a2 ∧ 1 ≤ a3 ∧ 1 ≤ b0 ∧ 1 ≤ b1 ∧ 1 ≤ b2 ∧ 1 ≤ b3)
    (hne : a.m_shape ≠ b.m_shape)
    (h0 : a0 = b0 ∨ a0 = 1 ∨ b0 = 1) (h1 : a1 = b1 ∨ a1 = 1 ∨ b1 = 1)
    (h2 : a2 = b2 ∨ a2 = 1 ∨ b2 = 1) (h3 : a3 = b3 ∨ a3 = 1 ∨ b3 = 1) :
    ∃ out, POINT_WISE_BINARY OP a b fresh = some out ∧
      out.m_shape = [((max a0 b0 : Nat) : Int), ((max a1 b1 : Nat) : Int),
        ((max a2 b2 : Nat) : Int), ((max a3 b3 : Nat) : Int)] ∧
      ∀ n c h w : Nat, n < max a0 b0 → c < max a1 b1 → h < max a2 b2 → w < max a3 b3 →
        out.get4 n c h w
          = OP (a.get4 (if a0 = 1 then 0 else n) (if a1 = 1 then 0 else c)
                  (if a2 = 1 then 0 else h) (if a3 = 1 then 0 else w))
               (b.get4 (if b0 = 1 then 0 else n) (if b1 = 1 then 0 else c)
                  (if b2 = 1 then 0 else h) (if b3 = 1 then 0 else w)) :=
  binary_broadcast OP a b fresh a0 a1 a2 a3 b0 b1 b2 b3 ha hb hpos hne h0 h1 h2 h3

/-- C8 at the shapes `[2,3,4,4]` and `[2,1,1,4]` with `Add`: the result has
shape `[2,3,4,4]` and element `(1,2,3,1)` is `a[1,2,3,1] + b[1,0,0,1]`. -/
theorem C8_binary_broadcast_witness :
    (pointwise.Add (R := Int)
        { m_ptr := fun p => p, m_shape := [2, 3, 4, 4], m_offset := 0, m_null := false }
        { m_ptr := fun p => 1000 * p, m_shape := [2, 1, 1, 4], m_offset := 0, m_null := false }
        (fun _ => 0)).map (fun out => (out.m_shape, out.get4 1 2 3 1))
      = some ([2, 3, 4, 4], 93 + 5000) := by
  obtain ⟨out, h1, h2, h3⟩ := C8_binary_broadcast (R := Int) (fun a b => a + b)
    { m_ptr := fun p => p, m_shape := [2, 3, 4, 4], m_offset := 0, m_null := false }
    { m_ptr := fun p => 1000 * p, m_shape := [2, 1, 1, 4], m_offset := 0, m_null := false }
    (fun _ => 0) 2 3 4 4 2 1 1 4 rfl rfl (by decide) (by decide) (by decide) (by decide)
    (by decide) (by decide)
  have e := h3 1 2 3 1 (by decide) (by decide) (by decide) (by decide)
  have h1b : pointwise.Add (R := Int)
      { m_ptr := fun p => p, m_shape := [2, 3, 4, 4], m_offset := 0, m_null := false }
      { m_ptr := fun p => 1000 * p, m_shape := [2, 1, 1, 4], m_offset := 0, m_null := false }
      (fun _ => 0) = some out := h1
  simp only [Nat.cast_ofNat, Nat.cast_one, Nat.cast_zero] at h2 e
  rw [h1b, Option.map_some', h2, e]
  decide

/-- C9: `BroadCastShape` fails exactly on incompatible shapes.  For shapes `a`,
`b` of equal rank it returns `none` (the failed `assert`) if and only if some
axis has `a[i] ≠ b[i]`, `a[i] ≠ 1` and `b[i] ≠ 1`; otherwise it returns the
per-axis maximum; and `Add`, `Sub`, `Mul`, `Div` on tensors with these
(different) shapes fail under exactly the same condition. -/
theorem C9_broadcast_check {R : Type} [Field R] (a b : List Int) (h : a.length = b.length) :
    (BroadCastShape a b = none ↔
      ∃ i, i < a.length ∧ a.getD i 0 ≠ b.getD i 0 ∧ a.getD i 0 ≠ 1 ∧ b.getD i 0 ≠ 1) ∧
    ((¬ ∃ i, i < a.length ∧ a.getD i 0 ≠ b.getD i 0 ∧ a.getD i 0 ≠ 1 ∧ b.getD i 0 ≠ 1) →
      BroadCastShape a b = some (List.zipWith max a b)) ∧
    (∀ (ta tb : tensor R) (fresh : Int → R), ta.m_shape = a → tb.m_shape = b → a ≠ b →
      ((pointwise.Add ta tb fresh = none ↔
          ∃ i, i < a.length ∧ a.getD i 0 ≠ b.getD i 0 ∧ a.getD i 0 ≠ 1 ∧ b.getD i 0 ≠ 1) ∧
        (pointwise.Sub ta tb fresh = none ↔
          ∃ i, i < a.length ∧ a.getD i 0 ≠ b.getD i 0 ∧ a.getD i 0 ≠ 1 ∧ b.getD i 0 ≠ 1) ∧
        (pointwise.Mul ta tb fresh = none ↔
          ∃ i, i < a.length ∧ a.getD i 0 ≠ b.getD i 0 ∧ a.getD i 0 ≠ 1 ∧ b.getD i 0 ≠ 1) ∧
        (pointwise.Div ta tb fresh = none ↔
          ∃ i, i < a.length ∧ a.getD i 0 ≠ b.getD i 0 ∧ a.getD i 0 ≠ 1 ∧ b.getD i 0 ≠ 1))) := by
  have key : ∀ (OP : R → R → R) (ta tb : tensor R) (fresh : Int → R), ta.m_shape = a →
      tb.m_shape = b → a ≠ b →
      (POINT_WISE_BINARY OP ta tb fresh = none ↔
        ∃ i, i < a.length ∧ a.getD i 0 ≠ b.getD i 0 ∧ a.getD i 0 ≠ 1 ∧ b.getD i 0 ≠ 1) := by
    intro OP ta tb fresh hta htb hab
    rw [← BroadCastShape_none_iff a b h]
    unfold POINT_WISE_BINARY
    rw [hta, htb, if_neg hab]
    cases BroadCastShape a b <;> simp
  refine ⟨BroadCastShape_none_iff a b h, ?_, ?_⟩
  · intro hno
    cases hr : BroadCastShape a b with
    | none => exact absurd ((BroadCastShape_none_iff a b h).mp hr) hno
    | some r => rw [BroadCastShape_some a b h r hr]
  · intro ta tb fresh hta htb hab
    exact ⟨key _ ta tb fresh hta htb hab, key _ ta tb fresh hta htb hab,
      key _ ta tb fresh hta htb hab, key _ ta tb fresh hta htb hab⟩

/-- C9 at concrete shapes: `[2,3,4,4]` against `[2,1,1,4]` gives the maximum. -/
theorem C9_broadcast_check_witness :
    ([2, 3, 4, 4] : List Int).length = ([2, 1, 1, 4] : List Int).length ∧
    BroadCastShape [2, 3, 4, 4] [2, 1, 1, 4]
      = some (List.zipWith max ([2, 3, 4, 4] : List Int) [2, 1, 1, 4]) :=
  ⟨rfl, (C9_broadcast_check (R := ℚ) [2, 3, 4, 4] [2, 1, 1, 4] rfl).2.1 (by decide)⟩

/-- C10 (failing input): a tensor of five elements `-1` and `alpha = 2`.
`LeakyReluInplace` leaves `-4` in the first four elements (the tail loop
starts again at index `4 * ((5 - 4) / 4) = 0` and applies the function a second
time) and `-2` in the last one, while the copy variant `LeakyRelu` gives `-2`
everywhere. -/
theorem C10_leaky_relu_inplace_twice :
    (List.range 5).map (fun p => (LeakyReluInplace (R := Int)
        { m_ptr := fun _ => -1, m_shape := [5], m_offset := 0, m_null := false } 2).m_ptr p)
      = [-4, -4, -4, -4, -2] ∧
    (List.range 5).map (fun p => (LeakyRelu (R := Int)
        { m_ptr := fun _ => -1, m_shape := [5], m_offset := 0, m_null := false } 2 (fun _ => 0)).m_ptr p)
      = [-2, -2, -2, -2, -2] := by
  decide

/-- C11: every copy-variant unary operation (`Relu`, `LeakyRelu`, `Neg`, and
`Mul`, `Add`, `Div` by a scalar) on a tensor `t` with at least one element
returns a tensor of the shape of `t` on a new block, whose element `i` is `f`
of element `i` of `t` for every `0 ≤ i < l` and every `l`; the loops store to
no other cell of the new block, and every block in use before the call, the
one of the input among them, keeps its content. -/
theorem C11_unary_copy {R : Type} [LinearOrderedField R] (alpha x : R) (h : heap R)
    (t : handle) (ht : t.alloc < h.count) (hl : 1 ≤ (h.view t).size) :
    ∀ op ∈ ([(Relu, fun v => if v > 0 then v else 0),
        (fun a fresh => LeakyRelu a alpha fresh, fun v => if v < 0 then alpha * v else v),
        (Neg, fun v => -v),
        (fun a fresh => scalar.Mul a x fresh, fun v => v * x),
        (fun a fresh => scalar.Add a x fresh, fun v => v + x),
        (fun a fresh => scalar.Div a x fresh, fun v => v / x)] :
          List ((tensor R → (Int → R) → tensor R) × (R → R))),
      (h.create (op.1 (h.view t))).2.alloc = h.count ∧
      (h.create (op.1 (h.view t))).2.m_shape = t.m_shape ∧
      (∀ i : Int, 0 ≤ i → i < (h.view t).size →
        ((h.create (op.1 (h.view t))).1.view (h.create (op.1 (h.view t))).2).get1 i
          = op.2 ((h.view t).get1 i)) ∧
      (∀ p : Int, ¬ (0 ≤ p ∧ p < (h.view t).size) →
        (h.create (op.1 (h.view t))).1.cells h.count p = h.cells h.count p) ∧
      (∀ a : Nat, a < h.count → (h.create (op.1 (h.view t))).1.cells a = h.cells a) ∧
      (h.create (op.1 (h.view t))).1.view t = h.view t := by
  have key : ∀ OP : R → R,
      (h.create (POINT_WISE OP (h.view t))).2.alloc = h.count ∧
      (h.create (POINT_WISE OP (h.view t))).2.m_shape = t.m_shape ∧
      (∀ i : Int, 0 ≤ i → i < (h.view t).size →
        ((h.create (POINT_WISE OP (h.view t))).1.view
            (h.create (POINT_WISE OP (h.view t))).2).get1 i
          = OP ((h.view t).get1 i)) ∧
      (∀ p : Int, ¬ (0 ≤ p ∧ p < (h.view t).size) →
        (h.create (POINT_WISE OP (h.view t))).1.cells h.count p = h.cells h.count p) ∧
      (∀ a : Nat, a < h.count → (h.create (POINT_WISE OP (h.view t))).1.cells a = h.cells a) ∧
      (h.create (POINT_WISE OP (h.view t))).1.view t = h.view t := by
    intro OP
    refine ⟨rfl, rfl, ?_, ?_, ?_, ?_⟩
    · intro i h0 h1
      have e := POINT_WISE_apply OP (h.view t) (h.cells h.count) hl i
      rw [if_pos ⟨h0, h1⟩] at e
      simp only [heap.create, heap.view, tensor.get1, Function.update_same] at e ⊢
      rw [(POINT_WISE_shape OP _ _).2, zero_add]
      exact e
    · intro p hp
      have e := POINT_WISE_apply OP (h.view t) (h.cells h.count) hl p
      rw [if_neg hp] at e
      simp only [heap.create, Function.update_same]
      exact e
    · intro a ha
      simp only [heap.create]
      exact Function.update_noteq (by omega) _ _
    · simp only [heap.create, heap.view]
      rw [Function.update_noteq (by omega)]
  intro op hop
  simp only [List.mem_cons, List.mem_singleton, List.not_mem_nil, or_false] at hop
  rcases hop with rfl | rfl | rfl | rfl | rfl | rfl
  · exact key _
  · exact key _
  · exact key _
  · exact key _
  · exact key _
  · exact key _

/-- C11 at a concrete input: `Neg` (the third operation) on a block holding
`1, 2, 3, 4, 5` gives `-5` at index 4, on block number 1. -/
theorem C11_unary_copy_witness :
    (({ cells := fun _ i => (i : ℚ) + 1, count := 1 } : heap ℚ).create
        (Neg (({ cells := fun _ i => (i : ℚ) + 1, count := 1 } : heap ℚ).view
          { alloc := 0, m_shape := [5], m_offset := 0 }))).2.alloc = 1 ∧
    ((({ cells := fun _ i => (i : ℚ) + 1, count := 1 } : heap ℚ).create
        (Neg (({ cells := fun _ i => (i : ℚ) + 1, count := 1 } : heap ℚ).view
          { alloc := 0, m_shape := [5], m_offset := 0 }))).1.view
      (({ cells := fun _ i => (i : ℚ) + 1, count := 1 } : heap ℚ).create
        (Neg (({ cells := fun _ i => (i : ℚ) + 1, count := 1 } : heap ℚ).view
          { alloc := 0, m_shape := [5], m_offset := 0 }))).2).get1 4 = -5 := by
  have hl : (1 : Int) ≤ (({ cells := fun _ i => (i : ℚ) + 1, count := 1 } : heap ℚ).view
      { alloc := 0, m_shape := [5], m_offset := 0 }).size := by decide
  have h := C11_unary_copy (0 : ℚ) 0 ({ cells := fun _ i => (i : ℚ) + 1, count := 1 } : heap ℚ)
    { alloc := 0, m_shape := [5], m_offset := 0 } (by decide) hl (Neg, fun v => -v)
    (by simp)
  refine ⟨h.1, ?_⟩
  rw [h.2.2.1 4 (by decide) (by decide)]
  simp only [heap.view, tensor.get1]
  norm_num

/-- C12: writing through a `Sub` view changes exactly the slice of the parent.
For a tensor `x` of shape `s0 :: rest`, after `x.Sub(n).Fill(v)` the element
`k :: idx` of `x` is `v` when `k = n` and is unchanged otherwise, for every
`idx` in range; for a shape `s0 :: s1 :: rest` and `0 ≤ n2 < s1`, after
`x.Sub(n1, n2).Fill(v)` the element `k1 :: k2 :: idx` with `0 ≤ k2 < s1` is
`v` when `(k1, k2) = (n1, n2)` and is unchanged otherwise. -/
theorem C12_sub_fill_slice {R : Type} (m : Int → R) (s0 s1 : Int) (rest : List Int) (o : Int)
    (nl : Bool) (n n1 n2 : Int) (v : R) (hn2 : 0 ≤ n2 ∧ n2 < s1) :
    (∀ (k : Int) (idx : List Int), in_range rest idx = true →
      (tensor.mk (((tensor.mk m (s0 :: rest) o nl).Sub n).Fill v).m_ptr (s0 :: rest) o nl).elem
          (k :: idx)
        = if k = n then v else (tensor.mk m (s0 :: rest) o nl).elem (k :: idx)) ∧
    (∀ (k1 k2 : Int) (idx : List Int), 0 ≤ k2 → k2 < s1 → in_range rest idx = true →
      (tensor.mk (((tensor.mk m (s0 :: s1 :: rest) o nl).Sub2 n1 n2).Fill v).m_ptr
          (s0 :: s1 :: rest) o nl).elem (k1 :: k2 :: idx)
        = if k1 = n1 ∧ k2 = n2 then v
          else (tensor.mk m (s0 :: s1 :: rest) o nl).elem (k1 :: k2 :: idx)) := by
  constructor
  · intro k idx hidx
    obtain ⟨h0, h1⟩ := spec_row_major_bounds rest idx hidx
    simp only [tensor.elem, spec_row_major]
    rw [tensor.Fill_apply]
    simp only [tensor.Sub, tensor.size_eq_prod, List.tail_cons]
    generalize spec_row_major rest idx = r at h0 h1
    generalize rest.prod = P at h1
    have hiff := block_mem_iff P k n r h0 h1
    by_cases hk : k = n
    · rw [if_pos hk, if_pos]
      have := hiff.2 hk
      constructor <;> linarith [this.1, this.2]
    · rw [if_neg hk, if_neg]
      intro hc
      exact hk (hiff.1 ⟨by linarith [hc.1], by linarith [hc.2]⟩)
  · intro k1 k2 idx hk0 hk1 hidx
    obtain ⟨h0, h1⟩ := spec_row_major_bounds rest idx hidx
    simp only [tensor.elem, spec_row_major, List.prod_cons]
    rw [tensor.Fill_apply]
    simp only [tensor.Sub2, tensor.size_eq_prod, List.tail_cons, List.getD_cons_succ,
      List.getD_cons_zero]
    generalize spec_row_major rest idx = r at h0 h1
    generalize rest.prod = P at h1
    have hiff := block_mem_iff P (k1 * s1 + k2) (n1 * s1 + n2) r h0 h1
    have hiff2 : k1 * s1 + k2 = n1 * s1 + n2 ↔ (k1 = n1 ∧ k2 = n2) := by
      constructor
      · intro he
        have := (block_mem_iff s1 k1 n1 k2 hk0 hk1).1 ⟨by linarith [hn2.1], by linarith [hn2.2]⟩
        subst this
        exact ⟨rfl, by linarith⟩
      · rintro ⟨rfl, rfl⟩; rfl
    by_cases hk : k1 = n1 ∧ k2 = n2
    · rw [if_pos hk, if_pos]
      have := hiff.2 (hiff2.2 hk)
      constructor <;> nlinarith [this.1, this.2]
    · rw [if_neg hk, if_neg]
      intro hc
      refine hk (hiff2.1 (hiff.1 ⟨?_, ?_⟩))
      · nlinarith [hc.1]
      · nlinarith [hc.2]

/-- C12 at a concrete input: a `2 × 2 × 2` tensor holding `0, ..., 7`; after
`Sub(0, 1).Fill(9)` the element `(0, 1, 1)` is `9` and the element `(1, 1, 1)`
is still `7`. -/
theorem C12_sub_fill_slice_witness :
    ((0 : Int) ≤ 1 ∧ (1 : Int) < 2) ∧
    (tensor.mk (((tensor.mk (fun i : Int => i) [2, 2, 2] 0 false).Sub2 0 1).Fill 9).m_ptr
        [2, 2, 2] 0 false).elem [0, 1, 1] = 9 ∧
    (tensor.mk (((tensor.mk (fun i : Int => i) [2, 2, 2] 0 false).Sub2 0 1).Fill 9).m_ptr
        [2, 2, 2] 0 false).elem [1, 1, 1] = 7 := by
  have h := (C12_sub_fill_slice (fun i : Int => i) 2 2 [2] 0 false 0 0 1 9 (by decide)).2
  refine ⟨by decide, ?_, ?_⟩
  · rw [h 0 1 [1] (by decide) (by decide) (by decide)]
    decide
  · rw [h 1 1 [1] (by decide) (by decide) (by decide)]
    decide

/-- C13: `Sub` views address the parent row-major.  For a tensor of shape
`s0 :: rest` and offset `o`, `Sub(n)` has shape `rest` and offset
`o + n * prod rest`, and its element at `idx` is the element `n :: idx` of the
parent; for a shape `s0 :: s1 :: rest`, `Sub(n1, n2)` has shape `rest` and
offset `o + (n1 * s1 + n2) * prod rest`, and it is the view
`Sub(n1).Sub(n2)`. -/
theorem C13_sub_row_major {R : Type} (m : Int → R) (s0 s1 : Int) (rest : List Int) (o : Int)
    (nl : Bool) (n n1 n2 : Int) :
    ((tensor.mk m (s0 :: rest) o nl).Sub n).m_shape = rest ∧
    ((tensor.mk m (s0 :: rest) o nl).Sub n).m_offset = o + n * rest.prod ∧
    ((tensor.mk m (s0 :: rest) o nl).Sub n).m_ptr = m ∧
    (∀ idx : List Int,
      ((tensor.mk m (s0 :: rest) o nl).Sub n).elem idx
        = (tensor.mk m (s0 :: rest) o nl).elem (n :: idx)) ∧
    ((tensor.mk m (s0 :: s1 :: rest) o nl).Sub2 n1 n2).m_shape = rest ∧
    ((tensor.mk m (s0 :: s1 :: rest) o nl).Sub2 n1 n2).m_offset
      = o + (n1 * s1 + n2) * rest.prod ∧
    (tensor.mk m (s0 :: s1 :: rest) o nl).Sub2 n1 n2
      = ((tensor.mk m (s0 :: s1 :: rest) o nl).Sub n1).Sub n2 := by
  refine ⟨rfl, ?_, rfl, ?_, rfl, ?_, ?_⟩
  · simp only [tensor.Sub, tensor.size_eq_prod, List.tail_cons]
  · intro idx
    simp only [tensor.elem, tensor.Sub, tensor.size_eq_prod, List.tail_cons, spec_row_major]
    congr 1
    ring
  · simp only [tensor.Sub2, tensor.size_eq_prod, List.tail_cons, List.getD_cons_succ,
      List.getD_cons_zero]
    ring
  · simp only [tensor.Sub2, tensor.Sub, tensor.size_eq_prod, List.tail_cons, List.getD_cons_succ,
      List.getD_cons_zero, List.prod_cons, tensor.mk.injEq, true_and, and_true]
    ring

/-- C15 (counterexample): `Flatten` converts the two products to `int`.  For a
tensor of shape `[4294967296, 0]` (no element) and `d = 1` the products are
`4294967296` and `0`, and the shape of `x.Flatten(1)` is `[0, 0]`, because
`(int)4294967296 = 0`. -/
theorem C15_flatten_shape_narrowed :
    ((tensor.mk (fun i : Int => i) [4294967296, 0] 0 false).Flatten 1 (fun _ => 0)).m_shape
      = [0, 0] ∧
    [(List.take 1 [(4294967296 : Int), 0]).prod, (List.drop 1 [(4294967296 : Int), 0]).prod]
      = [4294967296, 0] ∧
    tensor.cast_int 4294967296 = 0 := by
  decide

/-- C15 (amended): `Reshape` undoes `Flatten` and `Contiguous` when the two
products of `Flatten` are in the range of `int`.  For a tensor `x` whose shape
`s` has no negative size, a shape tensor holding `s`, `0 ≤ d ≤ D` and
`prod_{i<d} s_i < 2^31`, `prod_{i≥d} s_i < 2^31`:
`Reshape<D>(x.Contiguous(), s)` and `Reshape<D>(x.Flatten(d), s)` both succeed,
have the shape `s`, and hold the element of `x` at every multi-index in range;
`x.Flatten(d)` has the shape `[prod_{i<d} s_i, prod_{i≥d} s_i]`,
`x.Contiguous()` the shape `[size(x)]`, and the `k`-th element of each is the
`k`-th element of `x`. -/
theorem C15_reshape_undoes_flatten_in_int_range {R : Type} (x : tensor R) (shape : tensor Int)
    (d : Nat) (fresh : Int → R) (hs : ∀ e ∈ x.m_shape, 0 ≤ e)
    (hshape : ∀ i : Nat, i < x.m_shape.length →
      shape.m_ptr (shape.m_offset + (i : Int)) = x.m_shape.getD i 0)
    (hd : d ≤ x.m_shape.length)
    (hA : (x.m_shape.take d).prod < 2 ^ 31) (hB : (x.m_shape.drop d).prod < 2 ^ 31) :
    (∃ out, Reshape x.m_shape.length x.Contiguous shape = some out ∧
      out.m_shape = x.m_shape ∧
      ∀ idx, in_range x.m_shape idx = true → out.elem idx = x.elem idx) ∧
    (∃ out, Reshape x.m_shape.length (x.Flatten (d : Int) fresh) shape = some out ∧
      out.m_shape = x.m_shape ∧
      ∀ idx, in_range x.m_shape idx = true → out.elem idx = x.elem idx) ∧
    (x.Flatten (d : Int) fresh).m_shape
      = [(x.m_shape.take d).prod, (x.m_shape.drop d).prod] ∧
    x.Contiguous.m_shape = [x.size] ∧
    (∀ k : Int, 0 ≤ k → k < x.size →
      (x.Flatten (d : Int) fresh).get1 k = x.m_ptr (x.m_offset + k) ∧
      x.Contiguous.get1 k = x.m_ptr (x.m_offset + k)) := by
  have hA0 : (0 : Int) ≤ (x.m_shape.take d).prod :=
    List.prod_nonneg (fun e he => hs e (List.mem_of_mem_take he))
  have hB0 : (0 : Int) ≤ (x.m_shape.drop d).prod :=
    List.prod_nonneg (fun e he => hs e (List.mem_of_mem_drop he))
  have hA2 : -2 ^ 31 ≤ (x.m_shape.take d).prod ∧ (x.m_shape.take d).prod < 2 ^ 31 :=
    ⟨by omega, hA⟩
  have hB2 : -2 ^ 31 ≤ (x.m_shape.drop d).prod ∧ (x.m_shape.drop d).prod < 2 ^ 31 :=
    ⟨by omega, hB⟩
  refine ⟨⟨_, Reshape_same_size x.Contiguous x.m_shape shape hs hshape ?_, rfl, ?_⟩,
    ⟨_, Reshape_same_size (x.Flatten (d : Int) fresh) x.m_shape shape hs hshape ?_, rfl, ?_⟩,
    tensor.Flatten_shape x d hd hA2 hB2 fresh, rfl, ?_⟩
  · rw [tensor.size_eq_prod]
    simp [tensor.Contiguous, tensor.size_eq_prod]
  · intro idx _
    rfl
  · rw [tensor.Flatten_size x d hd hA2 hB2, tensor.size_eq_prod]
  · intro idx hidx
    obtain ⟨h0, h1⟩ := spec_row_major_bounds _ _ hidx
    simp only [tensor.elem, tensor.NewShared]
    have eo : (x.Flatten (d : Int) fresh).m_offset = 0 := rfl
    rw [eo, zero_add, tensor.Flatten_apply x d hd hA2 hB2,
      if_pos ⟨h0, by rw [tensor.size_eq_prod]; exact h1⟩]
  · intro k h0 h1
    refine ⟨?_, rfl⟩
    have eo : (x.Flatten (d : Int) fresh).m_offset = 0 := rfl
    simp only [tensor.get1]
    rw [eo, zero_add, tensor.Flatten_apply x d hd hA2 hB2, if_pos ⟨h0, h1⟩]

/-- C15 (amended) at a concrete input: the `2 × 3` tensor holding `0, ..., 5`,
flattened at `d = 1` and reshaped back with the shape tensor `(2, 3)`. -/
theorem C15_reshape_undoes_flatten_in_int_range_witness :
    ((tensor.mk (fun i : Int => i) [2, 3] 0 false).Flatten 1 (fun _ => 0)).m_shape = [2, 3] ∧
    ∃ out, Reshape 2 ((tensor.mk (fun i : Int => i) [2, 3] 0 false).Flatten 1 (fun _ => 0))
        (tensor.mk (fun i : Int => if i = 0 then 2 else 3) [2] 0 false) = some out ∧
      out.m_shape = [2, 3] ∧ out.elem [1, 2] = 5 := by
  have h := C15_reshape_undoes_flatten_in_int_range (tensor.mk (fun i : Int => i) [2, 3] 0 false)
    (tensor.mk (fun i : Int => if i = 0 then 2 else 3) [2] 0 false) 1 (fun _ => 0)
    (by decide) (by decide) (by decide) (by decide) (by decide)
  refine ⟨by simpa using h.2.2.1, ?_⟩
  obtain ⟨out, h1, h2, h3⟩ := h.2.1
  refine ⟨out, by simpa using h1, h2, ?_⟩
  rw [h3 [1, 2] (by decide)]
  decide

/-- C16: `Reshape` resolves one wildcard axis from the total size.  For a
tensor `x` (of size `≥ 0`) and a requested shape with one entry `-1`, at `u`,
and all other entries positive with product `p`, `Reshape` succeeds if and only
if `p` divides `x.size()`, and then returns the view of the buffer of `x` at
the offset of `x` whose axis `u` is `x.size() / p` and whose other axes are as
requested; a requested shape without `-1` succeeds if and only if its product is
`x.size()`, and then returns the view with the requested shape. -/
theorem C16_reshape_wildcard {R : Type} (x : tensor R) (shape : tensor Int) (req : List Int)
    (hreq : ∀ i : Nat, i < req.length → shape.m_ptr (shape.m_offset + (i : Int)) = req.getD i 0)
    (hx : 0 ≤ x.size) :
    (∀ u : Nat, u < req.length → req.getD u 0 = -1 →
      (∀ i : Nat, i < req.length → i ≠ u → 0 < req.getD i 0) →
      ((Reshape req.length x shape).isSome = true ↔ (req.eraseIdx u).prod ∣ x.size) ∧
      ∀ out, Reshape req.length x shape = some out →
        out = tensor.NewShared (req.set u (x.size / (req.eraseIdx u).prod)) x.m_ptr x.m_offset) ∧
    ((∀ e ∈ req, e ≠ -1) →
      ((Reshape req.length x shape).isSome = true ↔ req.prod = x.size) ∧
      ∀ out, Reshape req.length x shape = some out →
        out = tensor.NewShared req x.m_ptr x.m_offset) := by
  constructor
  · intro u hu h1 hpos
    rw [Reshape_one_wildcard x shape req hreq u hu h1 hpos]
    have hp := prod_eraseIdx_pos req u hpos
    have hdiv : x.size.tdiv (req.eraseIdx u).prod = x.size / (req.eraseIdx u).prod :=
      Int.tdiv_eq_ediv hx (by omega)
    by_cases hrem : x.size.tmod (req.eraseIdx u).prod ≠ 0
    · rw [if_pos hrem]
      refine ⟨⟨fun hc => by simp at hc, fun hd => ?_⟩, fun out hc => by simp at hc⟩
      exact absurd (Int.tmod_eq_zero_of_dvd hd) hrem
    · rw [if_neg hrem]
      refine ⟨⟨fun _ => Int.dvd_of_tmod_eq_zero (not_not.1 hrem), fun _ => rfl⟩, ?_⟩
      intro out hc
      rw [← hdiv]
      exact (Option.some.inj hc).symm
  · intro h
    rw [Reshape_plain x shape req hreq hx h]
    by_cases hne : req.prod ≠ x.size
    · rw [if_pos hne]
      exact ⟨⟨fun hc => by simp at hc, fun hd => absurd hd hne⟩, fun out hc => by simp at hc⟩
    · rw [if_neg hne]
      exact ⟨⟨fun _ => not_not.1 hne, fun _ => rfl⟩, fun out hc => (Option.some.inj hc).symm⟩

/-- C16 at a concrete input: a tensor of 12 elements and the request
`(3, -1)`; the result has the shape `[3, 4]`. -/
theorem C16_reshape_wildcard_witness :
    (Reshape 2 (tensor.mk (fun i : Int => i) [12] 0 false)
      (tensor.mk (fun i : Int => if i = 0 then 3 else -1) [2] 0 false)).isSome = true ∧
    ∀ out, Reshape 2 (tensor.mk (fun i : Int => i) [12] 0 false)
        (tensor.mk (fun i : Int => if i = 0 then 3 else -1) [2] 0 false) = some out →
      out.m_shape = [3, 4] := by
  have h := (C16_reshape_wildcard (tensor.mk (fun i : Int => i) [12] 0 false)
    (tensor.mk (fun i : Int => if i = 0 then 3 else -1) [2] 0 false) [3, -1]
    (by decide) (by decide)).1 1 (by decide) (by decide) (by decide)
  refine ⟨h.1.2 (by decide), fun out ho => ?_⟩
  rw [h.2 out ho]
  decide

/-- C17 (counterexample): on a tensor of 6 elements the request `(-2, -3)` is
returned as the shape `[-2, -3]`, which has negative axis sizes. -/
theorem C17_reshape_negative_axes :
    ∃ out, Reshape 2 (tensor.mk (fun i : Int => i) [6] 0 false)
        (tensor.mk (fun i : Int => if i = 0 then -2 else -3) [2] 0 false) = some out ∧
      out.m_shape = [-2, -3] ∧ ¬ (∀ e ∈ out.m_shape, 0 ≤ e) := by
  refine ⟨tensor.NewShared [-2, -3] (fun i : Int => i) 0, ?_, rfl, by decide⟩
  have h := Reshape_plain (tensor.mk (fun i : Int => i) [6] 0 false)
    (tensor.mk (fun i : Int => if i = 0 then -2 else -3) [2] 0 false) [-2, -3]
    (by decide) (by decide) (by decide)
  rw [if_neg (by decide)] at h
  exact h

/-- C17 (amended): every view `Reshape` returns has axis sizes whose product is
`x.size()`; its axis sizes are all non-negative when no requested size is
negative, and also when `x.size() ≥ 0`, one requested size is `-1` and the
others are positive. -/
theorem C17_reshape_invariant {R : Type} (x : tensor R) (shape : tensor Int) (req : List Int)
    (hreq : ∀ i : Nat, i < req.length → shape.m_ptr (shape.m_offset + (i : Int)) = req.getD i 0)
    (out : tensor R) (hout : Reshape req.length x shape = some out) :
    out.m_shape.prod = x.size ∧
    ((∀ e ∈ req, 0 ≤ e) → ∀ e ∈ out.m_shape, 0 ≤ e) ∧
    (0 ≤ x.size → ∀ u : Nat, u < req.length → req.getD u 0 = -1 →
      (∀ i : Nat, i < req.length → i ≠ u → 0 < req.getD i 0) → ∀ e ∈ out.m_shape, 0 ≤ e) := by
  refine ⟨?_, ?_, ?_⟩
  · rw [← tensor.size_eq_prod]
    exact (Reshape_size _ x shape out hout).1
  · intro h0
    rw [Reshape_no_wildcard req.length x shape
      (fun i hi => by
        rw [hreq i hi, List.getD_eq_getElem _ _ hi]
        have := h0 _ (List.getElem_mem hi)
        omega),
      reqs_eq shape req hreq] at hout
    have hp : 0 ≤ req.prod := List.prod_nonneg h0
    rw [if_neg (by omega)] at hout
    by_cases hne : req.prod ≠ x.size
    · rw [if_pos hne] at hout
      exact absurd hout (by simp)
    · rw [if_neg hne] at hout
      have := Option.some.inj hout
      subst this
      exact h0
  · intro hx u hu h1 hpos
    rw [Reshape_one_wildcard x shape req hreq u hu h1 hpos] at hout
    by_cases hrem : x.size.tmod (req.eraseIdx u).prod ≠ 0
    · rw [if_pos hrem] at hout
      exact absurd hout (by simp)
    · rw [if_neg hrem] at hout
      have := Option.some.inj hout
      subst this
      intro e he
      simp only [tensor.NewShared] at he
      obtain ⟨j, hj, rfl⟩ := List.getElem_of_mem he
      rw [List.getElem_set]
      have hp := prod_eraseIdx_pos req u hpos
      by_cases huj : u = j
      · rw [if_pos huj]
        exact Int.tdiv_nonneg hx (by omega)
      · rw [if_neg huj]
        have hj2 : j < req.length := by simpa using hj
        have := hpos j hj2 (by omega)
        rw [List.getD_eq_getElem _ _ hj2] at this
        omega

/-- C17 (amended) at a concrete input: a tensor of 12 elements and the
request `(3, -1)`. -/
theorem C17_reshape_invariant_witness :
    Reshape 2 (tensor.mk (fun i : Int => i) [12] 0 false)
        (tensor.mk (fun i : Int => if i = 0 then 3 else -1) [2] 0 false)
      = some (tensor.NewShared [3, 4] (fun i : Int => i) 0) ∧
    (tensor.NewShared [3, 4] (fun i : Int => i) 0).m_shape.prod
      = (tensor.mk (fun i : Int => i) [12] 0 false).size ∧
    ∀ e ∈ (tensor.NewShared [3, 4] (fun i : Int => i) 0).m_shape, 0 ≤ e := by
  have hr : Reshape 2 (tensor.mk (fun i : Int => i) [12] 0 false)
      (tensor.mk (fun i : Int => if i = 0 then 3 else -1) [2] 0 false)
      = some (tensor.NewShared [3, 4] (fun i : Int => i) 0) := by
    have h := Reshape_one_wildcard (tensor.mk (fun i : Int => i) [12] 0 false)
      (tensor.mk (fun i : Int => if i = 0 then 3 else -1) [2] 0 false) [3, -1]
      (by decide) 1 (by decide) (by decide) (by decide)
    rw [if_neg (by decide)] at h
    exact h
  have h := C17_reshape_invariant (tensor.mk (fun i : Int => i) [12] 0 false)
    (tensor.mk (fun i : Int => if i = 0 then 3 else -1) [2] 0 false) [3, -1] (by decide)
    (tensor.NewShared [3, 4] (fun i : Int => i) 0) hr
  exact ⟨hr, h.1, h.2.2 (by decide) 1 (by decide) (by decide) (by decide)⟩

/-- C18 (counterexample): a destination of 2 elements `(0, 0)` and a source of
1 element `(7)` whose buffer continues with `8`.  `Assign` returns with the
destination changed to `(7, 8)`: the counts differ, the destination is not left
as it was, and its element 1 was read from behind the only element of the
source. -/
theorem C18_assign_unchecked :
    (tensor.mk (fun i : Int => i + 7) [1] 0 false).size
      ≠ (tensor.mk (fun _ : Int => (0 : Int)) [2] 0 false).size ∧
    (tensor.mk (fun _ : Int => (0 : Int)) [2] 0 false).get1 0 = 0 ∧
    ((tensor.mk (fun _ : Int => (0 : Int)) [2] 0 false).Assign
      (tensor.mk (fun i : Int => i + 7) [1] 0 false)).get1 0 = 7 ∧
    ((tensor.mk (fun _ : Int => (0 : Int)) [2] 0 false).Assign
      (tensor.mk (fun i : Int => i + 7) [1] 0 false)).get1 1 = 8 := by
  decide

/-- C18 (amended): `Assign` makes no check of the element count.  For every
destination `t` and source `src` it copies `t.size()` elements, from the first
element of `src` on, into the elements of `t` and stores nowhere else; the shape
and offset of `t` stay.  With equal counts the element sequence of `t` becomes
the one of `src`. -/
theorem C18_assign_copies {R : Type} (t src : tensor R) :
    (t.Assign src).m_shape = t.m_shape ∧
    (t.Assign src).m_offset = t.m_offset ∧
    (∀ k : Int, 0 ≤ k → k < t.size → (t.Assign src).get1 k = src.get1 k) ∧
    (∀ p : Int, ¬ (t.m_offset ≤ p ∧ p < t.m_offset + t.size) →
      (t.Assign src).m_ptr p = t.m_ptr p) := by
  refine ⟨rfl, rfl, ?_, ?_⟩
  · intro k h0 h1
    simp only [tensor.Assign, tensor.get1, memcpy]
    rw [if_pos (by omega)]
    congr 1
    omega
  · intro p hp
    simp only [tensor.Assign, memcpy]
    rw [if_neg hp]

/-- C19: `Softmax` normalises every slice.  For a tensor whose axis sizes are
all positive and an axis `a` (given as `a` itself, or as `-1` when `a` is the
last axis), the result has the shape of the input and its element at every
multi-index `idx` in range is `exp_f(x[idx])` divided by the sum of
`exp_f(x[idx'])` over the multi-indices `idx'` that differ from `idx` at most
on the axis `a`; when `exp_f` is positive every output is non-negative and the
outputs of every slice sum to 1. -/
theorem C19_softmax_normalises {R : Type} [LinearOrderedField R] (exp_f : R → R)
    (hexp : ∀ v, 0 < exp_f v) (axis : Int) (a : Nat) (input : tensor R) (fresh : Int → R)
    (hpos : ∀ e ∈ input.m_shape, 1 ≤ e) (ha : a < input.m_shape.length)
    (haxis : axis = (a : Int) ∨ (axis = -1 ∧ a + 1 = input.m_shape.length)) :
    (Softmax exp_f axis input fresh).m_shape = input.m_shape ∧
    ∀ idx : List Int, in_range input.m_shape idx = true →
      (Softmax exp_f axis input fresh).elem idx
        = exp_f (input.elem idx)
          / ∑ k in Finset.range (input.m_shape.getD a 0).toNat,
              exp_f (input.elem (idx.set a (k : Int))) ∧
      0 ≤ (Softmax exp_f axis input fresh).elem idx ∧
      ∑ k in Finset.range (input.m_shape.getD a 0).toNat,
        (Softmax exp_f axis input fresh).elem (idx.set a (k : Int)) = 1 := by
  refine ⟨rfl, ?_⟩
  intro idx hidx
  have hsa : 1 ≤ input.m_shape.getD a 0 := by
    rw [List.getD_eq_getElem _ _ ha]; exact hpos _ (List.getElem_mem ha)
  have hne : (Finset.range (input.m_shape.getD a 0).toNat).Nonempty := by
    rw [Finset.nonempty_range_iff]; omega
  have hS : ∀ idx' : List Int, 0 < ∑ k in Finset.range (input.m_shape.getD a 0).toNat,
      exp_f (input.elem (idx'.set a (k : Int))) :=
    fun idx' => Finset.sum_pos (fun k _ => hexp _) hne
  have h1 := Softmax_apply exp_f axis a input fresh hpos ha haxis idx hidx
  refine ⟨h1, ?_, ?_⟩
  · rw [h1]
    exact div_nonneg (le_of_lt (hexp _)) (le_of_lt (hS idx))
  · have hk : ∀ k ∈ Finset.range (input.m_shape.getD a 0).toNat,
        (Softmax exp_f axis input fresh).elem (idx.set a (k : Int))
          = exp_f (input.elem (idx.set a (k : Int)))
            / ∑ l in Finset.range (input.m_shape.getD a 0).toNat,
                exp_f (input.elem (idx.set a (l : Int))) := by
      intro k hk
      have hk' := Finset.mem_range.1 hk
      rw [Softmax_apply exp_f axis a input fresh hpos ha haxis (idx.set a (k : Int))
        (in_range_set _ idx a k hidx ⟨by omega, by omega⟩)]
      simp only [List.set_set]
    rw [Finset.sum_congr rfl hk, ← Finset.sum_div]
    exact div_self (ne_of_gt (hS idx))

/-- C19 at a concrete input: the `2 × 2` tensor `(0, 1, 2, 3)`, the positive
function `v * v + 1` in the place of the exponential, and the axis 0; the
element `(1, 0)` is `5 / (1 + 5)`. -/
theorem C19_softmax_normalises_witness :
    (Softmax (fun v : ℚ => v * v + 1) 0 (tensor.mk (fun p : Int => (p : ℚ)) [2, 2] 0 false)
      (fun _ => 0)).elem [1, 0] = 5 / 6 := by
  have h := (C19_softmax_normalises (fun v : ℚ => v * v + 1) (fun v => by show (0 : ℚ) < v * v + 1; nlinarith [mul_self_nonneg v]) 0 0
    (tensor.mk (fun p : Int => (p : ℚ)) [2, 2] 0 false) (fun _ => 0) (by decide) (by decide)
    (Or.inl rfl)).2 [1, 0] (by decide)
  rw [h.1]
  have e : Int.toNat 2 = 2 := rfl
  simp only [tensor.elem, spec_row_major, List.getD_cons_zero, e, Finset.sum_range_succ,
    Finset.sum_range_zero, List.set_cons_zero, List.prod_cons, List.prod_nil]
  norm_num

/-- C20: `BatchNormalization` is the fused per-channel affine map on every
batch element.  For `in[N,C,H,W]` and all `n, c, h, w` in range,
`out[n,c,h,w] = in[n,c,h,w] * (weight[c] * invstd_c)
  + (bias[c] - mean[c] * weight[c] * invstd_c)` with
`invstd_c = 1 / sqrtf(var[c] + eps)`, which is
`(in[n,c,h,w] - mean[c]) * invstd_c * weight[c] + bias[c]`; the copy variant
stores only to the `N * C * H * W` cells of its new buffer and leaves every block
in use, the one of the input among them, as it was; `BatchNormalizationInplace`
leaves the same values in the buffer of the input and changes no cell outside
the view. -/
theorem C20_batch_normalization {R : Type} [Field R] (sqrtf : R → R) (N C H W : Nat)
    (input weight bias running_mean running_var : tensor R) (epsilon : R) (fresh : Int → R)
    (hin : input.m_shape = [(N : Int), (C : Int), (H : Int), (W : Int)]) :
    (BatchNormalization sqrtf input weight bias running_mean running_var epsilon fresh).m_shape
      = input.m_shape ∧
    (∀ n c h w : Nat, n < N → c < C → h < H → w < W →
      (BatchNormalization sqrtf input weight bias running_mean running_var epsilon fresh).get4
          n c h w
        = input.get4 n c h w * (weight.get1 c * (1 / sqrtf (running_var.get1 c + epsilon)))
          + (bias.get1 c
            - running_mean.get1 c * weight.get1 c * (1 / sqrtf (running_var.get1 c + epsilon))) ∧
      (BatchNormalization sqrtf input weight bias running_mean running_var epsilon fresh).get4
          n c h w
        = (input.get4 n c h w - running_mean.get1 c)
            * (1 / sqrtf (running_var.get1 c + epsilon)) * weight.get1 c + bias.get1 c ∧
      (BatchNormalizationInplace sqrtf input weight bias running_mean running_var epsilon).get4
          n c h w
        = input.get4 n c h w * (weight.get1 c * (1 / sqrtf (running_var.get1 c + epsilon)))
          + (bias.get1 c
            - running_mean.get1 c * weight.get1 c * (1 / sqrtf (running_var.get1 c + epsilon)))) ∧
    (∀ p : Int, (p < 0 ∨ (N : Int) * (C : Int) * ((H : Int) * (W : Int)) ≤ p) →
      (BatchNormalization sqrtf input weight bias running_mean running_var epsilon fresh).m_ptr p
        = fresh p) ∧
    (∀ (h : heap R) (t : handle), t.alloc < h.count →
      (h.create (BatchNormalization sqrtf (h.view t) weight bias running_mean running_var
        epsilon)).1.view t = h.view t) ∧
    (BatchNormalizationInplace sqrtf input weight bias running_mean running_var epsilon).m_shape
      = input.m_shape ∧
    (BatchNormalizationInplace sqrtf input weight bias running_mean running_var epsilon).m_offset
      = input.m_offset ∧
    (∀ p : Int, (p < input.m_offset
        ∨ input.m_offset + (N : Int) * (C : Int) * ((H : Int) * (W : Int)) ≤ p) →
      (BatchNormalizationInplace sqrtf input weight bias running_mean running_var epsilon).m_ptr p
        = input.m_ptr p) := by
  have hc := BatchNormalization_apply sqrtf N C H W input weight bias running_mean running_var
    epsilon fresh hin
  have hi := BatchNormalizationInplace_apply sqrtf N C H W input weight bias running_mean
    running_var epsilon hin
  have hsh : (BatchNormalization sqrtf input weight bias running_mean running_var epsilon
      fresh).m_shape = [(N : Int), (C : Int), (H : Int), (W : Int)] := hin
  have hoff : (BatchNormalization sqrtf input weight bias running_mean running_var epsilon
      fresh).m_offset = 0 := rfl
  have hshi : (BatchNormalizationInplace sqrtf input weight bias running_mean running_var
      epsilon).m_shape = [(N : Int), (C : Int), (H : Int), (W : Int)] := hin
  have hoffi : (BatchNormalizationInplace sqrtf input weight bias running_mean running_var
      epsilon).m_offset = input.m_offset := rfl
  refine ⟨rfl, ?_, ?_, ?_, rfl, rfl, hi.2⟩
  · intro n c h w hn hcc hh hw
    have hq0 : (0 : Int) ≤ (h : Int) * (W : Int) + (w : Int) := by positivity
    have hq1 : (h : Int) * (W : Int) + (w : Int) < (H : Int) * (W : Int) := by
      have := row_lt h H w W hh hw
      linarith
    have e1 := hc.1 n c hn hcc _ hq0 hq1
    have e2 := hi.1 n c hn hcc _ hq0 hq1
    simp only [tensor.get4, tensor.Sub2, tensor.Sub, tensor.size, hsh, hoff, hshi, hoffi, hin,
      List.tail_cons, List.foldl_cons, List.foldl_nil, one_mul, List.getD_cons_succ,
      List.getD_cons_zero]
    have ea : (0 : Int) + (n : Int) * ((H : Int) * (W : Int)) * (C : Int)
        + (c : Int) * ((H : Int) * (W : Int)) + (h : Int) * (W : Int) + (w : Int)
        = 0 + (((n : Int) * (C : Int) + (c : Int)) * ((H : Int) * (W : Int))
          + ((h : Int) * (W : Int) + (w : Int))) := by ring
    have eb : input.m_offset + (n : Int) * ((H : Int) * (W : Int)) * (C : Int)
        + (c : Int) * ((H : Int) * (W : Int)) + (h : Int) * (W : Int) + (w : Int)
        = input.m_offset + (((n : Int) * (C : Int) + (c : Int)) * ((H : Int) * (W : Int))
          + ((h : Int) * (W : Int) + (w : Int))) := by ring
    rw [ea, eb, e1, e2]
    refine ⟨?_, ?_, ?_⟩ <;> ring
  · intro p hp
    exact hc.2 p (by rw [zero_add]; exact hp)
  · intro h t ht
    simp only [heap.create, heap.view]
    rw [Function.update_noteq (by omega)]

/-- C20 at a concrete input: a `1 × 1 × 1 × 2` tensor `(1, 2)`, weight 2,
bias 3, mean 1, variance 3 and epsilon 1, with a `sqrtf` that maps 4 to 2: the
second output is `2 * (2 * (1 / 2)) + (3 - 1 * 2 * (1 / 2)) = 4`. -/
theorem C20_batch_normalization_witness :
    (BatchNormalization (fun v : ℚ => v / 2) (tensor.mk (fun p : Int => (p : ℚ) + 1) [1, 1, 1, 2] 0 false)
      (tensor.mk (fun _ => 2) [1] 0 false) (tensor.mk (fun _ => 3) [1] 0 false)
      (tensor.mk (fun _ => 1) [1] 0 false) (tensor.mk (fun _ => 3) [1] 0 false) 1
      (fun _ => 0)).get4 0 0 0 1 = 4 := by
  have h := (C20_batch_normalization (fun v : ℚ => v / 2) 1 1 1 2
    (tensor.mk (fun p : Int => (p : ℚ) + 1) [1, 1, 1, 2] 0 false)
    (tensor.mk (fun _ => 2) [1] 0 false) (tensor.mk (fun _ => 3) [1] 0 false)
    (tensor.mk (fun _ => 1) [1] 0 false) (tensor.mk (fun _ => 3) [1] 0 false) 1
    (fun _ => 0) rfl).2.1 0 0 0 1 (by decide) (by decide) (by decide) (by decide)
  simp only [Nat.cast_ofNat, Nat.cast_one, Nat.cast_zero] at h
  rw [h.1]
  simp only [tensor.get4, tensor.get1, tensor.Sub2, tensor.Sub, tensor.size, List.tail_cons,
    List.foldl_cons, List.foldl_nil, List.getD_cons_succ, List.getD_cons_zero]
  norm_num

/-- C21: `Concat` along an explicit axis.  For tensors `a`, `b` of the same
rank with positive sizes that agree on every axis but `ax` (`0 ≤ ax < D`),
`Concat<ax>(a, b)` returns a tensor with the shape of `a` except for the size
`a.shape[ax] + b.shape[ax]` on the axis; its element at a multi-index is the
element of `a` when the index on the axis is below `a.shape[ax]`, and otherwise
the element of `b` at the index reduced by `a.shape[ax]` on the axis.  A second
operand that differs from `a` on another axis fails the `assert`. -/
theorem C21_concat_explicit_axis {R : Type} (ax : Nat) (a b : tensor R) (fresh : Int → R)
    (hax : ax < a.m_shape.length) (hlen : b.m_shape.length = a.m_shape.length)
    (hpa : ∀ e ∈ a.m_shape, 1 ≤ e) (hpb : ∀ e ∈ b.m_shape, 1 ≤ e)
    (hagree : ∀ i, i ≠ ax → b.m_shape.getD i 0 = a.m_shape.getD i 0) :
    (∃ out : tensor R, Concat (ax : Int) a b fresh = some out ∧
      out.m_shape = a.m_shape.set ax (a.m_shape.getD ax 0 + b.m_shape.getD ax 0) ∧
      ∀ idx, in_range out.m_shape idx = true →
        out.elem idx = if idx.getD ax 0 < a.m_shape.getD ax 0 then a.elem idx
          else b.elem (idx.set ax (idx.getD ax 0 - a.m_shape.getD ax 0))) ∧
    (∀ b2 : tensor R,
      (∃ i, i < a.m_shape.length ∧ i ≠ ax ∧ a.m_shape.getD i 0 ≠ b2.m_shape.getD i 0) →
      Concat (ax : Int) a b2 fresh = none) := by
  refine ⟨Concat_explicit ax a b fresh hax hlen hpa hpb hagree, ?_⟩
  rintro b2 ⟨i, hi, hne, hd⟩
  exact Concat_mismatch (ax : Int) a b2 fresh ⟨i, hi, by exact_mod_cast hne, hd⟩

/-- C21 at a concrete input: the `2 × 2` tensor `(0, 1 ; 2, 3)` and the `2 × 1`
tensor `(10 ; 11)` along the axis 1 give a `2 × 3` tensor whose second row is
`(2, 3, 11)`; a second operand of shape `[3, 1]` fails the `assert`. -/
theorem C21_concat_explicit_axis_witness :
    (∃ out : tensor Int, Concat ((1 : Nat) : Int)
        ⟨fun p => p, [2, 2], 0, false⟩ ⟨fun p => 10 + p, [2, 1], 0, false⟩ (fun _ => 0)
          = some out ∧
      out.m_shape = [2, 3] ∧
      out.elem [1, 1] = 3 ∧ out.elem [1, 2] = 11) ∧
    Concat ((1 : Nat) : Int) (⟨fun p => p, [2, 2], 0, false⟩ : tensor Int)
      ⟨fun p => 10 + p, [3, 1], 0, false⟩ (fun _ => 0) = none := by
  have h := C21_concat_explicit_axis (R := Int) 1 ⟨fun p => p, [2, 2], 0, false⟩
    ⟨fun p => 10 + p, [2, 1], 0, false⟩ (fun _ => 0) (by decide) (by decide) (by decide)
    (by decide) (by
      intro i hi
      rcases i with _ | _ | i
      · rfl
      · exact absurd rfl hi
      · rfl)
  obtain ⟨⟨out, h1, h2, h3⟩, h4⟩ := h
  refine ⟨⟨out, h1, h2, ?_, ?_⟩, ?_⟩
  · rw [h3 [1, 1] (by rw [h2]; decide)]; decide
  · rw [h3 [1, 2] (by rw [h2]; decide)]; decide
  · exact h4 ⟨fun p => 10 + p, [3, 1], 0, false⟩ ⟨0, by decide, by decide, by decide⟩

/-- C22: `Gather` is a lookup along one axis.  For `x` of rank `q`, an index
tensor `idx` of rank `r ≥ 1` whose entries lie in `[0, x.shape[ax])` and
`0 ≤ ax < q`, the result has rank `q + r - 1` and the shape
`idx.shape[0..r-1) ++ x.shape[0..ax) ++ [idx.shape[r-1]] ++ x.shape(ax..q)`, and
for index tuples `I` over the leading axes of `idx`, `J` over the axes of `x`
before `ax`, `k < idx.shape[r-1]` and `B` over the axes of `x` after `ax`,
`(J, idx[I,k], B)` is an index of `x` and
`result[I, J, k, B] = x[J, idx[I,k], B]`. -/
theorem C22_gather_lookup {R : Type} (x : tensor R) (idx : tensor Int) (ax : Nat)
    (fresh : Int → R) (hax : ax < x.m_shape.length) (hr : 1 ≤ idx.m_shape.length)
    (hent : ∀ L, in_range idx.m_shape L = true →
      0 ≤ idx.elem L ∧ idx.elem L < x.m_shape.getD ax 0) :
    (Gather x idx (ax : Int) fresh).m_shape.length
      = x.m_shape.length + idx.m_shape.length - 1 ∧
    (Gather x idx (ax : Int) fresh).m_shape
      = idx.m_shape.take (idx.m_shape.length - 1)
        ++ (x.m_shape.take ax
          ++ idx.m_shape.getD (idx.m_shape.length - 1) 0 :: x.m_shape.drop (ax + 1)) ∧
    ∀ (I J B : List Int) (k : Int),
      in_range (idx.m_shape.take (idx.m_shape.length - 1)) I = true →
      in_range (x.m_shape.take ax) J = true →
      0 ≤ k → k < idx.m_shape.getD (idx.m_shape.length - 1) 0 →
      in_range (x.m_shape.drop (ax + 1)) B = true →
      in_range x.m_shape (J ++ idx.elem (I ++ [k]) :: B) = true ∧
      (Gather x idx (ax : Int) fresh).elem (I ++ (J ++ k :: B))
        = x.elem (J ++ idx.elem (I ++ [k]) :: B) := by
  obtain ⟨hs, he⟩ := Gather_apply x idx ax fresh hax hr
  refine ⟨?_, hs, ?_⟩
  · rw [hs]
    simp only [List.length_append, List.length_take, List.length_cons, List.length_drop]
    omega
  · intro I J B k hI hJ hk0 hk1 hB
    obtain ⟨hIk, hv⟩ := he I J B k hI hJ hk0 hk1 hB
    refine ⟨?_, hv⟩
    have hrange := hent _ hIk
    have hcons : in_range (x.m_shape.getD ax 0 :: x.m_shape.drop (ax + 1))
        (idx.elem (I ++ [k]) :: B) = true := by
      simp only [in_range, Bool.and_eq_true, decide_eq_true_eq]
      exact ⟨hrange, hB⟩
    have := in_range_append _ _ _ _ hJ hcons
    rw [← shape_split x.m_shape ax hax] at this
    exact this

/-- C22 at a concrete input: `x` is the `2 × 3` tensor `(10 .. 15)`, `idx` the
rank 1 tensor `(2, 0)` and the axis is 1; the result is `2 × 2` and its second
row is `(x[1,2], x[1,0]) = (15, 13)`. -/
theorem C22_gather_lookup_witness :
    (Gather (R := Int) ⟨fun p => 10 + p, [2, 3], 0, false⟩
        ⟨fun p => if p = 0 then 2 else 0, [2], 0, false⟩ ((1 : Nat) : Int) (fun _ => 0)).m_shape
      = [2, 2] ∧
    (Gather (R := Int) ⟨fun p => 10 + p, [2, 3], 0, false⟩
        ⟨fun p => if p = 0 then 2 else 0, [2], 0, false⟩ ((1 : Nat) : Int) (fun _ => 0)).elem
        [1, 0] = 15 ∧
    (Gather (R := Int) ⟨fun p => 10 + p, [2, 3], 0, false⟩
        ⟨fun p => if p = 0 then 2 else 0, [2], 0, false⟩ ((1 : Nat) : Int) (fun _ => 0)).elem
        [1, 1] = 13 := by
  have h := C22_gather_lookup (R := Int) ⟨fun p => 10 + p, [2, 3], 0, false⟩
    ⟨fun p => if p = 0 then 2 else 0, [2], 0, false⟩ 1 (fun _ => 0) (by decide) (by decide)
    (by
      intro L _
      show (0 : Int) ≤ (if _ then (2 : Int) else 0) ∧ (if _ then (2 : Int) else 0) < (3 : Int)
      split <;> decide)
  obtain ⟨_, h2, h3⟩ := h
  refine ⟨h2, ?_, ?_⟩
  · exact (h3 [] [1] [] 0 (by decide) (by decide) (by decide) (by decide) (by decide)).2
  · exact (h3 [] [1] [] 1 (by decide) (by decide) (by decide) (by decide) (by decide)).2

/-- The method `Argsort` returns a sorting permutation per slice when the
scratch cells of every iteration lie in the arena.  `sort_f` is the
sorting function behind `std::sort`, with its contract for the comparisons
`key i1 < key i2`: the result is a permutation of the input in which no entry
compares below an earlier one.  For a tensor with positive axis sizes and the
axis `a` (given as `a`, or as `-1` for the last axis) the call returns a tensor
of the same shape; along the axis, every slice of the result is a permutation
of `0 .. count - 1`, reading the input slice in that order is non-decreasing,
and the cell of every multi-index lies in the slice of exactly one iteration
`k` of the loop over the `size / count` slices (the cells
`(k / stride) * count * stride + k % stride + j * stride`).  The hypothesis
`harena` holds for an element type of 8 bytes and thread ids below
`threads_n`; for `float` it fails from the thread id `threads_n / 2` on. -/
theorem Argsort_sorting_permutation {R : Type} [LinearOrder R]
    (sort_f : (Int → Int → Bool) → List Int → List Int)
    (hsort : ∀ (key : Int → R) (l : List Int),
      (sort_f (fun i1 i2 => decide (key i1 < key i2)) l).Perm l ∧
      (sort_f (fun i1 i2 => decide (key i1 < key i2)) l).Pairwise (fun u v => ¬ key v < key u))
    (t : tensor R) (axis : Int) (a : Nat)
    (fresh copy_buffers : Int → Int) (threads_n sizeofT : Nat) (thread_id : Int → Nat)
    (hpos : ∀ e ∈ t.m_shape, 1 ≤ e) (ha : a < t.m_shape.length)
    (haxis : axis = (a : Int) ∨ (axis = -1 ∧ a + 1 = t.m_shape.length))
    (harena : ∀ i : Nat,
      0 ≤ tensor.Argsort_copy_buff (t.m_shape.getD a 0) sizeofT (thread_id (i : Int)) ∧
      8 * (tensor.Argsort_copy_buff (t.m_shape.getD a 0) sizeofT (thread_id (i : Int))
          + t.m_shape.getD a 0)
        ≤ (threads_n : Int) * tensor.Argsort_size_per_thr (t.m_shape.getD a 0)) :
    ∃ out : tensor Int,
      t.Argsort sort_f axis fresh copy_buffers threads_n sizeofT thread_id = some out ∧
      out.m_shape = t.m_shape ∧
      ∀ idx, in_range t.m_shape idx = true →
        ((List.range (t.m_shape.getD a 0).toNat).map
            (fun (j : Nat) => out.elem (idx.set a (j : Int)))).Perm
          ((List.range (t.m_shape.getD a 0).toNat).map (fun (j : Nat) => (j : Int))) ∧
        (∀ j1 j2 : Nat, j1 ≤ j2 → j2 < (t.m_shape.getD a 0).toNat →
          t.elem (idx.set a (out.elem (idx.set a (j1 : Int))))
            ≤ t.elem (idx.set a (out.elem (idx.set a (j2 : Int))))) ∧
        (∃! k : Nat, k < (t.size.tdiv (t.m_shape.getD a 0)).toNat ∧
          ∃ j : Nat, j < (t.m_shape.getD a 0).toNat ∧
            spec_row_major t.m_shape idx
              = ((k : Int)).tdiv (t.m_shape.drop (a + 1)).prod * t.m_shape.getD a 0
                  * (t.m_shape.drop (a + 1)).prod
                + ((k : Int)).tmod (t.m_shape.drop (a + 1)).prod
                + (j : Int) * (t.m_shape.drop (a + 1)).prod) := by
  have hlen : ∀ (key : Int → R) (n : Nat),
      (sort_f (fun i1 i2 => decide (key i1 < key i2))
        ((List.range n).map (fun (j : Nat) => (j : Int)))).length = n := by
    intro key n
    rw [(hsort key _).1.length_eq, List.length_map, List.length_range]
  obtain ⟨out, h1, h2, h3⟩ := Argsort_apply sort_f t axis a fresh copy_buffers threads_n sizeofT
    thread_id harena hlen hpos ha haxis
  refine ⟨out, h1, h2, ?_⟩
  intro idx hidx
  obtain ⟨hperm, hsorted⟩ := hsort (fun i => t.elem (idx.set a i))
    ((List.range (t.m_shape.getD a 0).toNat).map (fun (j : Nat) => (j : Int)))
  have hL := hlen (fun i => t.elem (idx.set a i)) (t.m_shape.getD a 0).toNat
  have hmap : (List.range (t.m_shape.getD a 0).toNat).map
        (fun (j : Nat) => out.elem (idx.set a (j : Int)))
      = sort_f (fun i1 i2 => decide (t.elem (idx.set a i1) < t.elem (idx.set a i2)))
          ((List.range (t.m_shape.getD a 0).toNat).map (fun (j : Nat) => (j : Int))) := by
    refine Eq.trans (List.map_congr_left (fun j hj => h3 idx hidx j (List.mem_range.1 hj))) ?_
    have := map_getD_range (sort_f (fun i1 i2 => decide (t.elem (idx.set a i1)
      < t.elem (idx.set a i2)))
      ((List.range (t.m_shape.getD a 0).toNat).map (fun (j : Nat) => (j : Int))))
    rw [hL] at this
    exact this
  refine ⟨?_, ?_, ?_⟩
  · rw [hmap]
    exact hperm
  · intro j1 j2 h12 hj2
    have h3a := h3 idx hidx
    generalize sort_f (fun i1 i2 => decide (t.elem (idx.set a i1) < t.elem (idx.set a i2)))
      ((List.range (t.m_shape.getD a 0).toNat).map (fun (j : Nat) => (j : Int))) = L
      at hsorted hL h3a
    rw [h3a j1 (by omega), h3a j2 hj2]
    rcases Nat.lt_or_eq_of_le h12 with hlt | heq
    · have hp := List.pairwise_iff_getElem.1 hsorted j1 j2 (by omega) (by omega) hlt
      have e1 : L.getD j1 0 = L[j1] := List.getD_eq_getElem L 0 (by omega)
      have e2 : L.getD j2 0 = L[j2] := List.getD_eq_getElem L 0 (by omega)
      rw [e1, e2]
      exact not_lt.1 hp
    · subst heq
      exact le_refl _
  · rw [tensor.size_eq_prod]
    exact slice_unique t.m_shape idx a hpos ha hidx

/-- C23 (failing input): `Argsort` on a `float` tensor with two threads.  The
tensor `(30, 10 ; 20, 40)` of shape `[2, 2]` is sorted along the last axis, with
insertion sort in the place of `std::sort`, `threads_n = 2`, iteration 0 run
by thread 0 and iteration 1 by thread 1.  For `sizeof(T) = 4` the scratch of
thread 1 starts at cell `4096 / 4 * 1 = 1024` of the `int64` arena, which has
`2 * 4096 / 8 = 1024` cells: the iteration stores behind the arena and the
call has no defined result.  For `sizeof(T) = 8` the same call returns the
sorting permutations `(1, 0 ; 0, 1)`, and so does the `float` call when both
iterations are run by thread 0. -/
theorem C23_argsort_float_scratch_behind_arena :
    tensor.Argsort (R := Int) (fun cmp l => l.insertionSort (fun u v => cmp v u = false))
      ⟨fun p => if p = 0 then 30 else if p = 1 then 10 else if p = 2 then 20 else 40,
        [2, 2], 0, false⟩ (-1) (fun _ => 0) (fun _ => 0) 2 4 (fun i => i.toNat) = none ∧
    tensor.Argsort_copy_buff 2 4 1 = 1024 ∧
    2 * tensor.Argsort_size_per_thr 2 = 8 * 1024 ∧
    (tensor.Argsort (R := Int) (fun cmp l => l.insertionSort (fun u v => cmp v u = false))
      ⟨fun p => if p = 0 then 30 else if p = 1 then 10 else if p = 2 then 20 else 40,
        [2, 2], 0, false⟩ (-1) (fun _ => 0) (fun _ => 0) 2 8 (fun i => i.toNat)).map
      (fun out => (out.m_shape, [out.elem [0, 0], out.elem [0, 1], out.elem [1, 0],
        out.elem [1, 1]])) = some ([2, 2], [1, 0, 0, 1]) ∧
    (tensor.Argsort (R := Int) (fun cmp l => l.insertionSort (fun u v => cmp v u = false))
      ⟨fun p => if p = 0 then 30 else if p = 1 then 10 else if p = 2 then 20 else 40,
        [2, 2], 0, false⟩ (-1) (fun _ => 0) (fun _ => 0) 2 4 (fun _ => 0)).map
      (fun out => (out.m_shape, [out.elem [0, 0], out.elem [0, 1], out.elem [1, 0],
        out.elem [1, 1]])) = some ([2, 2], [1, 0, 0, 1]) := by
  refine ⟨by rfl, by decide, by decide, by decide, by decide⟩

/-- C24 (failing input): `Flip` rejects axis 0.  On the rank 1 tensor
`(1, 2, 3)` the default call `Flip()` has `axis = -1 + 1 = 0` and fails
`assert(axis > 0 && axis < ndim)`; on the `2 × 2` tensor `(1, 2 ; 3, 4)` the
calls `Flip(0)` and `Flip(-2)` fail the same way, while `Flip(1)` returns the
rows reversed, `(2, 1 ; 4, 3)`. -/
theorem C24_flip_axis_zero :
    tensor.Flip (R := Int) ⟨fun p => p + 1, [3], 0, false⟩ (-1) (fun _ => 0) = none ∧
    tensor.Flip (R := Int) ⟨fun p => p + 1, [2, 2], 0, false⟩ 0 (fun _ => 0) = none ∧
    tensor.Flip (R := Int) ⟨fun p => p + 1, [2, 2], 0, false⟩ (-2) (fun _ => 0) = none ∧
    (tensor.Flip (R := Int) ⟨fun p => p + 1, [2, 2], 0, false⟩ 1 (fun _ => 0)).map
      (fun out => (out.m_shape, [out.elem [0, 0], out.elem [0, 1], out.elem [1, 0],
        out.elem [1, 1]])) = some ([2, 2], [2, 1, 4, 3]) := by
  refine ⟨rfl, rfl, rfl, ?_⟩
  decide

/-- C25 (failing input): a well-formed file with a `doubl` record is not loaded.
A file with the one record `a / float / rank 4 / [1,1,1,2] / size 8` loads, and
the rank 4 request returns the view `[1,1,1,2]` over the 8 payload bytes (the
elements are shown as their 4 bytes).  A file with the record
`a / float / [1] / size 4` followed by the record `b / doubl / [2] / size 16`
and its 16 payload bytes fails `assert(param_size == size)`: `get_size` gives
the width 6 for `doubl`, so `param_size` is 12. -/
theorem C25_double_record_not_loaded :
    load ([97, 0] ++ chars "float" ++ [4] ++ le_bytes 4 1 ++ le_bytes 4 1 ++ le_bytes 4 1
        ++ le_bytes 4 2 ++ le_bytes 8 8 ++ le_bytes 8 0 ++ [1, 2, 3, 4, 5, 6, 7, 8])
      = some ⟨[([97], ⟨chars "float", 4, [1, 1, 1, 2], 8, 0, [1, 2, 3, 4, 5, 6, 7, 8]⟩)]⟩ ∧
    (model_dict.load (R := List Nat) data_loading.check_type_float
        (fun bytes i => (bytes.drop (4 * i.toNat)).take 4)
        ⟨[([97], ⟨chars "float", 4, [1, 1, 1, 2], 8, 0, [1, 2, 3, 4, 5, 6, 7, 8]⟩)]⟩
        [97] 1 1 1 2).map (fun t => (t.m_shape, t.m_ptr 0, t.m_ptr 1))
      = some ([1, 1, 1, 2], [1, 2, 3, 4], [5, 6, 7, 8]) ∧
    load ([97, 0] ++ chars "float" ++ [1] ++ le_bytes 4 1 ++ le_bytes 8 4 ++ le_bytes 8 0
      ++ [1, 2, 3, 4]
      ++ [98, 0] ++ chars "doubl" ++ [1] ++ le_bytes 4 2 ++ le_bytes 8 16 ++ le_bytes 8 0
      ++ [1, 2, 3, 4, 5, 6, 7, 8, 9, 10, 11, 12, 13, 14, 15, 16]) = none := by
  refine ⟨by decide, by decide, by decide⟩

/-- C26 (failing input): the width of `doubl` is 6 in `get_size`.  The record
`d / doubl / rank 1 / [1]` with the declared size 8 and 8 payload bytes fails
`assert(param_size == size)`, and the same record with the declared size 6 and
6 payload bytes is accepted; the widths of the other three tags are 4, 4
and 2. -/
theorem C26_double_width_six :
    data_loading.get_size (chars "doubl") = 6 ∧
    data_loading.get_size (chars "float") = 4 ∧
    data_loading.get_size (chars "int32") = 4 ∧
    data_loading.get_size (chars "int16") = 2 ∧
    load ([100, 0] ++ chars "doubl" ++ [1] ++ le_bytes 4 1 ++ le_bytes 8 8 ++ le_bytes 8 0
      ++ [1, 2, 3, 4, 5, 6, 7, 8]) = none ∧
    load ([100, 0] ++ chars "doubl" ++ [1] ++ le_bytes 4 1 ++ le_bytes 8 6 ++ le_bytes 8 0
      ++ [1, 2, 3, 4, 5, 6])
      = some ⟨[([100], ⟨chars "doubl", 1, [1, 1, 1, 1], 6, 0, [1, 2, 3, 4, 5, 6]⟩)]⟩ := by
  decide

/-- C27 (failing input): two rows of the parallel loop of `col2im` update the
same pixel.  Kernel `1 × 2`, stride 1, no padding, dilation 1, one channel, an
image of width 3 and a columns matrix of 2 rows of 2 cells holding 1: on the
zero image, the iteration `row = 0` (`fw = 0`) updates the pixels 0 and 1 and
the iteration `row = 1` (`fw = 1`) updates the pixels 1 and 2, so both add to
pixel 1, which ends as 2 after the loop. -/
theorem C27_col2im_rows_overlap :
    (List.range 3).map (fun (q : Nat) => details.col2im_row (R := Int) ⟨1, 2, 1, 1, 0, 0, 1, 1⟩
      0 (fun _ => 1) 0 3 1 2 1 0 (fun _ => 0) (q : Int)) = [1, 1, 0] ∧
    (List.range 3).map (fun (q : Nat) => details.col2im_row (R := Int) ⟨1, 2, 1, 1, 0, 0, 1, 1⟩
      0 (fun _ => 1) 0 3 1 2 1 1 (fun _ => 0) (q : Int)) = [0, 1, 1] ∧
    (List.range 3).map (fun (q : Nat) => details.col2im (R := Int) ⟨1, 2, 1, 1, 0, 0, 1, 1⟩
      (fun _ => 0) 0 (fun _ => 1) 0 1 3 1 2 1 (q : Int)) = [1, 2, 1] := by
  decide

/-- C28 (failing input): the scratch of thread 1 of `Argsort` on a `float`
tensor lies outside the arena.  With `count = 1` the per-thread size is 4096
bytes, so two threads have an arena of 8192 bytes, 1024 cells of `int64`.  The
pointer of thread 1 is `copy_buffers + 4096 / sizeof(float) * 1`, the cell
1024, byte 8192: the first cell behind the arena.  With an 8-byte element type
the pointer is the cell 512 and the cell stays inside. -/
theorem C28_argsort_scratch_outside_arena :
    tensor.Argsort_size_per_thr 1 = 4096 ∧
    tensor.Argsort_copy_buff 1 4 1 = 1024 ∧
    8 * tensor.Argsort_copy_buff 1 4 1 = 2 * tensor.Argsort_size_per_thr 1 ∧
    tensor.Argsort_copy_buff 1 8 1 = 512 ∧
    8 * tensor.Argsort_copy_buff 1 8 1 + 8 * 1 ≤ 2 * tensor.Argsort_size_per_thr 1 := by
  decide

/-- C29 (counterexample): one channel, the `1 × 3` image `(5, 6, 7)`, kernel
`1 × 2`, stride 1, no padding, dilation 1, so `Hout = 1` and `Wout = 2`.  The
columns matrix of `im2col` is `(5, 6 ; 6, 7)`, and `col2im` accumulated into a
zero image gives `(5, 12, 7)`: the middle pixel lies in both windows and ends
as `12`, not as its input value `6`. -/
theorem C29_col2im_overlapping_windows :
    Int.tdiv (3 + 2 * 0 - 1 * (2 - 1) - 1) 1 + 1 = 2 ∧
    (List.range 4).map (fun (q : Nat) => details.im2col (R := Int) ⟨1, 2, 1, 1, 0, 0, 1, 1⟩
      (fun _ => 0) 0 (fun p => p + 5) 0 1 3 1 2 1 (q : Int)) = [5, 6, 6, 7] ∧
    (List.range 3).map (fun (q : Nat) => details.col2im (R := Int) ⟨1, 2, 1, 1, 0, 0, 1, 1⟩
      (fun _ => 0) 0
      (details.im2col ⟨1, 2, 1, 1, 0, 0, 1, 1⟩ (fun _ => 0) 0 (fun p => p + 5) 0 1 3 1 2 1)
      0 1 3 1 2 1 (q : Int)) = [5, 12, 7] := by
  decide

/-- C29 (amended): `col2im` undoes `im2col` where no position is sampled by two
different kernel taps.  For strides of at least 1, a dilated kernel extent
that fits in the image, the output sizes `Ho, Wo` of the `Conv2d` formula and
hyperparameters for which two samples `(y, x, i, j)`, `(y2, x2, i2, j2)` of the
same position always belong to the same tap (`htaps`; a stride of at least the
dilated kernel extent is such a case, or a `1 × 1` kernel): the iterations of
the parallel loop of `col2im` store to pairwise disjoint sets of pixels (an
address changed by one row is left as it is by every other row), the rows run
one after the other in any order give the image of the program order, and
`col2im` accumulated into a zero image gives the input value at every pixel
`(c, oy, ox)` that a window samples and 0 at every pixel that no window
samples. -/
theorem C29_col2im_undoes_im2col_disjoint_taps {R : Type} [CommRing R]
    (C H W kh kw sh sw ph pw dh dw Ho Wo : Nat)
    (hsh : 1 ≤ sh) (hsw : 1 ≤ sw) (hkh : 1 ≤ kh) (hkw : 1 ≤ kw)
    (hfitH : dh * (kh - 1) + 1 ≤ H) (hfitW : dw * (kw - 1) + 1 ≤ W)
    (hHo : (Ho : Int)
      = Int.tdiv ((H : Int) + 2 * (ph : Int) - (dh : Int) * ((kh : Int) - 1) - 1) (sh : Int) + 1)
    (hWo : (Wo : Int)
      = Int.tdiv ((W : Int) + 2 * (pw : Int) - (dw : Int) * ((kw : Int) - 1) - 1) (sw : Int) + 1)
    (htaps : ∀ i i2 j j2 y y2 x x2 : Nat, i < kh → i2 < kh → j < kw → j2 < kw → y < Ho →
      y2 < Ho → x < Wo → x2 < Wo → y * sh + i * dh = y2 * sh + i2 * dh →
      x * sw + j * dw = x2 * sw + j2 * dw → i = i2 ∧ j = j2)
    (columns_fresh xin : Int → R) (xo : Int) :
    (∀ r1 r2 : Nat, r1 < C * kh * kw → r2 < C * kh * kw → r1 ≠ r2 →
      ∀ (cols1 cols2 m1 m2 : Int → R) (q : Int),
        details.col2im_row ⟨kh, kw, sh, sw, ph, pw, dh, dw⟩ 0 cols1 0 (W : Int) (H : Int)
            (Wo : Int) (Ho : Int) (r1 : Int) m1 q ≠ m1 q →
        details.col2im_row ⟨kh, kw, sh, sw, ph, pw, dh, dw⟩ 0 cols2 0 (W : Int) (H : Int)
            (Wo : Int) (Ho : Int) (r2 : Int) m2 q = m2 q) ∧
    (∀ order : List Nat, order.Perm (List.range (C * kh * kw)) → ∀ q : Int,
      order.foldl (fun m (row : Nat) =>
          details.col2im_row ⟨kh, kw, sh, sw, ph, pw, dh, dw⟩ 0
            (details.im2col ⟨kh, kw, sh, sw, ph, pw, dh, dw⟩ columns_fresh 0 xin xo (C : Int)
              (W : Int) (H : Int) (Wo : Int) (Ho : Int))
            0 (W : Int) (H : Int) (Wo : Int) (Ho : Int) (row : Int) m) (fun _ => 0) q
        = details.col2im ⟨kh, kw, sh, sw, ph, pw, dh, dw⟩ (fun _ => 0) 0
            (details.im2col ⟨kh, kw, sh, sw, ph, pw, dh, dw⟩ columns_fresh 0 xin xo (C : Int)
              (W : Int) (H : Int) (Wo : Int) (Ho : Int))
            0 (C : Int) (W : Int) (H : Int) (Wo : Int) (Ho : Int) q) ∧
    (∀ c oy ox : Nat, c < C → oy < H → ox < W →
      ((∃ i j y x : Nat, i < kh ∧ j < kw ∧ y < Ho ∧ x < Wo ∧
          (y : Int) * (sh : Int) + (i : Int) * (dh : Int) - (ph : Int) = (oy : Int) ∧
          (x : Int) * (sw : Int) + (j : Int) * (dw : Int) - (pw : Int) = (ox : Int)) →
        details.col2im ⟨kh, kw, sh, sw, ph, pw, dh, dw⟩ (fun _ => 0) 0
            (details.im2col ⟨kh, kw, sh, sw, ph, pw, dh, dw⟩ columns_fresh 0 xin xo (C : Int)
              (W : Int) (H : Int) (Wo : Int) (Ho : Int))
            0 (C : Int) (W : Int) (H : Int) (Wo : Int) (Ho : Int)
            ((c : Int) * ((H : Int) * (W : Int)) + ((oy : Int) * (W : Int) + (ox : Int)))
          = xin (xo + (c : Int) * ((H : Int) * (W : Int))
              + ((oy : Int) * (W : Int) + (ox : Int)))) ∧
      ((¬ ∃ i j y x : Nat, i < kh ∧ j < kw ∧ y < Ho ∧ x < Wo ∧
          (y : Int) * (sh : Int) + (i : Int) * (dh : Int) - (ph : Int) = (oy : Int) ∧
          (x : Int) * (sw : Int) + (j : Int) * (dw : Int) - (pw : Int) = (ox : Int)) →
        details.col2im ⟨kh, kw, sh, sw, ph, pw, dh, dw⟩ (fun _ => 0) 0
            (details.im2col ⟨kh, kw, sh, sw, ph, pw, dh, dw⟩ columns_fresh 0 xin xo (C : Int)
              (W : Int) (H : Int) (Wo : Int) (Ho : Int))
            0 (C : Int) (W : Int) (H : Int) (Wo : Int) (Ho : Int)
            ((c : Int) * ((H : Int) * (W : Int)) + ((oy : Int) * (W : Int) + (ox : Int)))
          = 0)) := by
  obtain ⟨eH, bH1, _⟩ := conv_out_size H kh sh ph dh hsh hkh hfitH
  obtain ⟨eW, bW1, bW2⟩ := conv_out_size W kw sw pw dw hsw hkw hfitW
  have hfW : (dw : Int) * ((kw : Int) - 1) + 1 ≤ (W : Int) := by
    have e : (dw : Int) * ((kw : Int) - 1) = ((dw * (kw - 1) : Nat) : Int) := by
      rw [Nat.cast_mul, Nat.cast_sub hkw, Nat.cast_one]
    rw [e]
    exact_mod_cast hfitW
  have hHo2 : Ho = (H + 2 * ph - (dh * (kh - 1) + 1)) / sh + 1 := by
    have := hHo.trans eH
    exact_mod_cast this
  have hWo2 : Wo = (W + 2 * pw - (dw * (kw - 1) + 1)) / sw + 1 := by
    have := hWo.trans eW
    exact_mod_cast this
  rw [← hHo2] at bH1
  rw [← hWo2] at bW1 bW2
  refine ⟨?_, ?_, ?_⟩
  · intro r1 r2 h1 h2 hne cols1 cols2 m1 m2 q hq
    exact col2im_rows_disjoint C H W kh kw sh sw ph pw dh dw Ho Wo hsw htaps r1 r2 h1 h2 hne 0 0 0
      cols1 cols2 m1 m2 q hq
  · intro order horder q
    have hK : ((C : Int) * (kh : Int) * (kw : Int)).toNat = C * kh * kw := by
      rw [show (C : Int) * (kh : Int) * (kw : Int) = ((C * kh * kw : Nat) : Int) by
        push_cast; ring]
      exact Int.toNat_natCast _
    exact col2im_rows_any_order ⟨kh, kw, sh, sw, ph, pw, dh, dw⟩ (fun _ => 0) 0 _ 0 (C : Int)
      (W : Int) (H : Int) (Wo : Int) (Ho : Int) order (by rw [hK]; exact horder) q
  · intro c oy ox hc hoy hox
    have key := col2im_im2col (R := R) C H W kh kw sh sw ph pw dh dw Ho Wo hsw hfW bH1 bW1 bW2
      (fun _ => 0) columns_fresh xin 0 xo c oy ox hc hoy hox
    simp only [zero_add] at key
    obtain ⟨k1, k0⟩ := sample_count_le_one kh kw sh sw dh dw Ho Wo hsh hsw htaps (ph : Int)
      (pw : Int) (oy : Int) (ox : Int)
    refine ⟨fun hex => ?_, fun hno => ?_⟩
    · rw [key, k1 hex, Nat.cast_one, one_mul]
    · rw [key, k0 hno, Nat.cast_zero, zero_mul]

/-- C29 (amended) at a concrete input: one channel, the `1 × 5` image
`(5, 6, 7, 8, 9)`, kernel `1 × 2`, stride 2 along the row, no padding,
dilation 1, so `Ho = 1` and `Wo = 2`: the two windows sample the pixels
`0, 1` and `2, 3`; pixel 3 ends as `8` and pixel 4, which no window samples,
as `0`; row 0 changes pixel 0 and row 1 leaves it as it is. -/
theorem C29_col2im_undoes_im2col_disjoint_taps_witness :
    details.col2im_row (R := Int) ⟨((1 : Nat) : Int), ((2 : Nat) : Int), ((1 : Nat) : Int),
        ((2 : Nat) : Int), ((0 : Nat) : Int), ((0 : Nat) : Int), ((1 : Nat) : Int),
        ((1 : Nat) : Int)⟩ 0 (fun _ => 1) 0 ((5 : Nat) : Int) ((1 : Nat) : Int)
        ((2 : Nat) : Int) ((1 : Nat) : Int) ((1 : Nat) : Int) (fun _ => 0) 0
      = (fun _ : Int => (0 : Int)) 0 ∧
    details.col2im (R := Int) ⟨((1 : Nat) : Int), ((2 : Nat) : Int), ((1 : Nat) : Int),
        ((2 : Nat) : Int), ((0 : Nat) : Int), ((0 : Nat) : Int), ((1 : Nat) : Int),
        ((1 : Nat) : Int)⟩ (fun _ => 0) 0
        (details.im2col ⟨((1 : Nat) : Int), ((2 : Nat) : Int), ((1 : Nat) : Int),
          ((2 : Nat) : Int), ((0 : Nat) : Int), ((0 : Nat) : Int), ((1 : Nat) : Int),
          ((1 : Nat) : Int)⟩ (fun _ => 0) 0 (fun p => p + 5) 0 ((1 : Nat) : Int)
          ((5 : Nat) : Int) ((1 : Nat) : Int) ((2 : Nat) : Int) ((1 : Nat) : Int))
        0 ((1 : Nat) : Int) ((5 : Nat) : Int) ((1 : Nat) : Int) ((2 : Nat) : Int)
        ((1 : Nat) : Int)
        (((0 : Nat) : Int) * ((((1 : Nat) : Int)) * ((5 : Nat) : Int))
          + (((0 : Nat) : Int) * ((5 : Nat) : Int) + ((3 : Nat) : Int)))
      = (fun p : Int => p + 5) (0 + ((0 : Nat) : Int) * ((((1 : Nat) : Int))
          * ((5 : Nat) : Int)) + (((0 : Nat) : Int) * ((5 : Nat) : Int) + ((3 : Nat) : Int))) ∧
    details.col2im (R := Int) ⟨((1 : Nat) : Int), ((2 : Nat) : Int), ((1 : Nat) : Int),
        ((2 : Nat) : Int), ((0 : Nat) : Int), ((0 : Nat) : Int), ((1 : Nat) : Int),
        ((1 : Nat) : Int)⟩ (fun _ => 0) 0
        (details.im2col ⟨((1 : Nat) : Int), ((2 : Nat) : Int), ((1 : Nat) : Int),
          ((2 : Nat) : Int), ((0 : Nat) : Int), ((0 : Nat) : Int), ((1 : Nat) : Int),
          ((1 : Nat) : Int)⟩ (fun _ => 0) 0 (fun p => p + 5) 0 ((1 : Nat) : Int)
          ((5 : Nat) : Int) ((1 : Nat) : Int) ((2 : Nat) : Int) ((1 : Nat) : Int))
        0 ((1 : Nat) : Int) ((5 : Nat) : Int) ((1 : Nat) : Int) ((2 : Nat) : Int)
        ((1 : Nat) : Int)
        (((0 : Nat) : Int) * ((((1 : Nat) : Int)) * ((5 : Nat) : Int))
          + (((0 : Nat) : Int) * ((5 : Nat) : Int) + ((4 : Nat) : Int)))
      = 0 := by
  have h := C29_col2im_undoes_im2col_disjoint_taps (R := Int) 1 1 5 1 2 1 2 0 0 1 1 1 2
    (by decide) (by decide) (by decide) (by decide) (by decide) (by decide) (by decide)
    (by decide)
    (by
      intro i i2 j j2 y y2 x x2 hi hi2 hj hj2 hy hy2 hx hx2 e1 e2
      omega)
    (fun _ => 0) (fun p => p + 5) 0
  refine ⟨h.1 0 1 (by decide) (by decide) (by decide) (fun _ => 1) (fun _ => 1) (fun _ => 0)
      (fun _ => 0) 0 (by decide),
    (h.2.2 0 0 3 (by decide) (by decide) (by decide)).1
      ⟨0, 1, 0, 1, by decide, by decide, by decide, by decide, by decide, by decide⟩,
    (h.2.2 0 0 4 (by decide) (by decide) (by decide)).2 ?_⟩
  rintro ⟨i, j, y, x, hi, hj, hy, hx, e1, e2⟩
  omega

/-- C30: `Conv2d` on a single image is the direct convolution for every
padding.  For `in[1,C,H,W]`, `kernel[K,C,kh,kw]`, strides of at least 1 and a
dilated kernel extent that fits (`dilation*(k-1)+1 ≤ H` and `≤ W`), the call
returns `out[1,K,Ho,Wo]` with the sizes `Ho, Wo` of the source formula and
`out[0,k,y,x] = b_k + ∑ c i j, kernel[k,c,i,j]
  * in[0,c, y*stride_h + i*dilation_h - pad_h, x*stride_w + j*dilation_w - pad_w]`,
where a sample outside `[0,H) × [0,W)` counts as 0 and `b_k` is 0 without a
bias.  The columns matrix of `im2col` is the same for every input buffer that
agrees with `in` on the `C*H*W` cells of the image (no other cell is read into
it), and the blocks of the input and the kernel keep their content: the call
stores to the new blocks only (the call returns, so the default of `getD` is
not used). -/
theorem C30_conv2d_direct_convolution {R : Type} [CommRing R]
    (C H W K kh kw sh sw ph pw dh dw : Nat)
    (hsh : 1 ≤ sh) (hsw : 1 ≤ sw) (hkh : 1 ≤ kh) (hkw : 1 ≤ kw)
    (hfitH : dh * (kh - 1) + 1 ≤ H) (hfitW : dw * (kw - 1) + 1 ≤ W)
    (input kernel bias : tensor R)
    (columns_fresh out_fresh copy_buffers : Int → R) (sizeofT : Nat) (thread_id : Int → Nat)
    (hin : input.m_shape = [1, (C : Int), (H : Int), (W : Int)])
    (hker : kernel.m_shape = [(K : Int), (C : Int), (kh : Int), (kw : Int)]) :
    ∃ (out : tensor R) (Ho Wo : Nat),
      (Ho : Int)
        = Int.tdiv ((H : Int) + 2 * (ph : Int) - (dh : Int) * ((kh : Int) - 1) - 1) (sh : Int) + 1 ∧
      (Wo : Int)
        = Int.tdiv ((W : Int) + 2 * (pw : Int) - (dw : Int) * ((kw : Int) - 1) - 1) (sw : Int) + 1 ∧
      Conv2d ⟨kh, kw, sh, sw, ph, pw, dh, dw⟩ input kernel bias columns_fresh out_fresh
        copy_buffers sizeofT thread_id = some out ∧
      out.m_shape = [1, (K : Int), (Ho : Int), (Wo : Int)] ∧
      (∀ k y x : Nat, k < K → y < Ho → x < Wo →
        out.get4 0 k y x
          = (if bias.m_null = false then bias.get1 k else 0)
            + ∑ c in Finset.range C, ∑ i in Finset.range kh, ∑ j in Finset.range kw,
                kernel.get4 k c i j
                  * (if 0 ≤ (y : Int) * (sh : Int) + (i : Int) * (dh : Int) - (ph : Int) ∧
                        (y : Int) * (sh : Int) + (i : Int) * (dh : Int) - (ph : Int) < (H : Int) ∧
                        0 ≤ (x : Int) * (sw : Int) + (j : Int) * (dw : Int) - (pw : Int) ∧
                        (x : Int) * (sw : Int) + (j : Int) * (dw : Int) - (pw : Int) < (W : Int) then
                      input.get4 0 c ((y : Int) * (sh : Int) + (i : Int) * (dh : Int) - (ph : Int))
                        ((x : Int) * (sw : Int) + (j : Int) * (dw : Int) - (pw : Int))
                    else 0)) ∧
      (∀ in2 : Int → R,
        (∀ c y x : Nat, c < C → y < H → x < W →
          in2 (input.m_offset + (c : Int) * ((H : Int) * (W : Int))
              + ((y : Int) * (W : Int) + (x : Int)))
            = input.m_ptr (input.m_offset + (c : Int) * ((H : Int) * (W : Int))
              + ((y : Int) * (W : Int) + (x : Int)))) →
        ∀ c i j y x : Nat, c < C → i < kh → j < kw → y < Ho → x < Wo →
          details.im2col ⟨kh, kw, sh, sw, ph, pw, dh, dw⟩ columns_fresh 0 in2 input.m_offset
              (C : Int) (W : Int) (H : Int) (Wo : Int) (Ho : Int)
              (0 + ((((c * kh + i) * kw + j : Nat) : Int) * ((Ho : Int) * (Wo : Int))
                + ((y : Int) * (Wo : Int) + (x : Int))))
            = details.im2col ⟨kh, kw, sh, sw, ph, pw, dh, dw⟩ columns_fresh 0 input.m_ptr
              input.m_offset (C : Int) (W : Int) (H : Int) (Wo : Int) (Ho : Int)
              (0 + ((((c * kh + i) * kw + j : Nat) : Int) * ((Ho : Int) * (Wo : Int))
                + ((y : Int) * (Wo : Int) + (x : Int))))) ∧
      (∀ (h : heap R) (tin tk : handle), tin.alloc < h.count → tk.alloc < h.count →
        (h.create (fun fresh => (Conv2d ⟨kh, kw, sh, sw, ph, pw, dh, dw⟩ (h.view tin) (h.view tk)
            bias columns_fresh fresh copy_buffers sizeofT thread_id).getD (h.view tin))).1.view tin
          = h.view tin ∧
        (h.create (fun fresh => (Conv2d ⟨kh, kw, sh, sw, ph, pw, dh, dw⟩ (h.view tin) (h.view tk)
            bias columns_fresh fresh copy_buffers sizeofT thread_id).getD (h.view tin))).1.view tk
          = h.view tk) := by
  obtain ⟨eH, bH1, _⟩ := conv_out_size H kh sh ph dh hsh hkh hfitH
  obtain ⟨eW, bW1, bW2⟩ := conv_out_size W kw sw pw dw hsw hkw hfitW
  have hfW : (dw : Int) * ((kw : Int) - 1) + 1 ≤ (W : Int) := by
    have e : (dw : Int) * ((kw : Int) - 1) = ((dw * (kw - 1) : Nat) : Int) := by
      rw [Nat.cast_mul, Nat.cast_sub hkw, Nat.cast_one]
    rw [e]
    exact_mod_cast hfitW
  obtain ⟨out, h1, h2, h3⟩ := Conv2d_direct C H W K kh kw sh sw ph pw dh dw
    ((H + 2 * ph - (dh * (kh - 1) + 1)) / sh + 1) ((W + 2 * pw - (dw * (kw - 1) + 1)) / sw + 1)
    hsw hfW eH eW bH1 bW1 bW2 input kernel bias columns_fresh out_fresh copy_buffers sizeofT
    thread_id hin hker
  refine ⟨out, _, _, eH.symm, eW.symm, h1, h2, h3, ?_, ?_⟩
  · intro in2 hagree c i j y x hc hi hj hy hx
    rw [(details.im2col_spec (R := R) C H W kh kw sh sw ph pw dh dw _ _ hsw hfW bH1 bW1 bW2
        columns_fresh in2 0 input.m_offset).1 c i j y x hc hi hj hy hx,
      (details.im2col_spec (R := R) C H W kh kw sh sw ph pw dh dw _ _ hsw hfW bH1 bW1 bW2
        columns_fresh input.m_ptr 0 input.m_offset).1 c i j y x hc hi hj hy hx]
    by_cases hr : 0 ≤ (y : Int) * (sh : Int) + (i : Int) * (dh : Int) - (ph : Int) ∧
        (y : Int) * (sh : Int) + (i : Int) * (dh : Int) - (ph : Int) < (H : Int) ∧
        0 ≤ (x : Int) * (sw : Int) + (j : Int) * (dw : Int) - (pw : Int) ∧
        (x : Int) * (sw : Int) + (j : Int) * (dw : Int) - (pw : Int) < (W : Int)
    · rw [if_pos hr, if_pos hr]
      obtain ⟨r1, r2, r3, r4⟩ := hr
      obtain ⟨iy, hiy⟩ : ∃ iy : Nat,
          (y : Int) * (sh : Int) + (i : Int) * (dh : Int) - (ph : Int) = (iy : Int) :=
        ⟨_, (Int.toNat_of_nonneg r1).symm⟩
      obtain ⟨ix, hix⟩ : ∃ ix : Nat,
          (x : Int) * (sw : Int) + (j : Int) * (dw : Int) - (pw : Int) = (ix : Int) :=
        ⟨_, (Int.toNat_of_nonneg r3).symm⟩
      rw [hiy, hix]
      exact hagree c iy ix hc (by omega) (by omega)
    · rw [if_neg hr, if_neg hr]
  · intro h tin tk htin htk
    constructor
    · simp only [heap.create, heap.view]
      rw [Function.update_noteq (by omega)]
    · simp only [heap.create, heap.view]
      rw [Function.update_noteq (by omega)]

/-- C30 at a concrete input: one channel, the `1 × 2` image `(5, 6)`, the
`1 × 2` kernel `(2, 3)`, the bias 100, stride 1, `pad_w = 1`, dilation 1; the
output is `1 × 3` and its middle element is `100 + 2 * 5 + 3 * 6 = 128`. -/
theorem C30_conv2d_direct_convolution_witness :
    ∃ out : tensor Int,
      Conv2d ⟨1, 2, 1, 1, 0, 1, 1, 1⟩
        ⟨fun p => p + 5, [1, 1, 1, 2], 0, false⟩ ⟨fun p => p + 2, [1, 1, 1, 2], 0, false⟩
        ⟨fun _ => 100, [1], 0, false⟩ (fun _ => 0) (fun _ => 0) (fun _ => 0) 4 (fun _ => 0)
        = some out ∧
      out.m_shape = [1, 1, 1, 3] ∧ out.get4 0 0 0 1 = 128 := by
  obtain ⟨out, _, _, _, _, h, _⟩ := C30_conv2d_direct_convolution (R := Int) 1 1 2 1 1 2 1 1 0 1 1 1
    (by decide) (by decide) (by decide) (by decide) (by decide) (by decide)
    ⟨fun p => p + 5, [1, 1, 1, 2], 0, false⟩ ⟨fun p => p + 2, [1, 1, 1, 2], 0, false⟩
    ⟨fun _ => 100, [1], 0, false⟩ (fun _ => 0) (fun _ => 0) (fun _ => 0) 4 (fun _ => 0) rfl rfl
  have h2 : Conv2d (R := Int) ⟨1, 2, 1, 1, 0, 1, 1, 1⟩
      ⟨fun p => p + 5, [1, 1, 1, 2], 0, false⟩ ⟨fun p => p + 2, [1, 1, 1, 2], 0, false⟩
      ⟨fun _ => 100, [1], 0, false⟩ (fun _ => 0) (fun _ => 0) (fun _ => 0) 4 (fun _ => 0)
      = some out := h
  have hd : (Conv2d (R := Int) ⟨1, 2, 1, 1, 0, 1, 1, 1⟩
        ⟨fun p => p + 5, [1, 1, 1, 2], 0, false⟩ ⟨fun p => p + 2, [1, 1, 1, 2], 0, false⟩
        ⟨fun _ => 100, [1], 0, false⟩ (fun _ => 0) (fun _ => 0) (fun _ => 0) 4 (fun _ => 0)).map
      (fun out => (out.m_shape, out.get4 0 0 0 1)) = some ([1, 1, 1, 3], 128) := by
    decide
  rw [h2, Option.map_some', Option.some.injEq, Prod.mk.injEq] at hd
  exact ⟨out, h2, hd.1, hd.2⟩

/-- C31: the two templates of `im2col_process_row` agree for zero padding.  For
strides of at least 1, every dilation, a dilated kernel extent that fits in
the image and the output sizes `Ho, Wo` of the `Conv2d` formula with
`pad = 0`, the primary template evaluated with `pad_h = pad_w = 0` leaves the
destination buffer exactly as the zero-padding specialisation does (which is
what `im2col` calls for these parameters), for every tap `fh < kh`, `fw < kw`.
The specialisation stays inside the input plane:
`(Ho-1)*stride_h + (kh-1)*dilation_h ≤ H-1`, the same for `W`, and every
element `(y*stride_h + fh*dilation_h) * W + fw*dilation_w + x*stride_w` it
reads lies in `[0, H*W)`. -/
theorem C31_im2col_paths_agree {R : Type} [Zero R] (H W kh kw sh sw dh dw : Nat)
    (hsh : 1 ≤ sh) (hsw : 1 ≤ sw) (hkh : 1 ≤ kh) (hkw : 1 ≤ kw)
    (hfitH : dh * (kh - 1) + 1 ≤ H) (hfitW : dw * (kw - 1) + 1 ≤ W)
    (fh fw : Nat) (hfh : fh < kh) (hfw : fw < kw)
    (dstm : Int → R) (dst : Int) (srcm : Int → R) (src : Int) :
    ∃ Ho Wo : Nat,
      (Ho : Int)
        = Int.tdiv ((H : Int) + 2 * 0 - (dh : Int) * ((kh : Int) - 1) - 1) (sh : Int) + 1 ∧
      (Wo : Int)
        = Int.tdiv ((W : Int) + 2 * 0 - (dw : Int) * ((kw : Int) - 1) - 1) (sw : Int) + 1 ∧
      details.im2col_process_row_primary ⟨kh, kw, sh, sw, 0, 0, dh, dw⟩ dstm dst srcm src
          (fh : Int) (fw : Int) (W : Int) (H : Int) (Wo : Int) (Ho : Int)
        = details.im2col_process_row_zero_pad ⟨kh, kw, sh, sw, 0, 0, dh, dw⟩ dstm dst srcm src
          (fh : Int) (fw : Int) (W : Int) (H : Int) (Wo : Int) (Ho : Int) ∧
      details.im2col_process_row_apply ⟨kh, kw, sh, sw, 0, 0, dh, dw⟩ dstm dst srcm src
          (fh : Int) (fw : Int) (W : Int) (H : Int) (Wo : Int) (Ho : Int)
        = details.im2col_process_row_zero_pad ⟨kh, kw, sh, sw, 0, 0, dh, dw⟩ dstm dst srcm src
          (fh : Int) (fw : Int) (W : Int) (H : Int) (Wo : Int) (Ho : Int) ∧
      ((Ho : Int) - 1) * (sh : Int) + ((kh : Int) - 1) * (dh : Int) ≤ (H : Int) - 1 ∧
      ((Wo : Int) - 1) * (sw : Int) + ((kw : Int) - 1) * (dw : Int) ≤ (W : Int) - 1 ∧
      (∀ y x : Nat, y < Ho → x < Wo →
        0 ≤ ((y : Int) * (sh : Int) + (fh : Int) * (dh : Int)) * (W : Int)
            + (fw : Int) * (dw : Int) + (x : Int) * (sw : Int) ∧
        ((y : Int) * (sh : Int) + (fh : Int) * (dh : Int)) * (W : Int)
            + (fw : Int) * (dw : Int) + (x : Int) * (sw : Int) < (H : Int) * (W : Int)) := by
  obtain ⟨eH, bH1, _⟩ := conv_out_size H kh sh 0 dh hsh hkh hfitH
  obtain ⟨eW, bW1, _⟩ := conv_out_size W kw sw 0 dw hsw hkw hfitW
  generalize ((H + 2 * 0 - (dh * (kh - 1) + 1)) / sh + 1) = Ho at eH bH1
  generalize ((W + 2 * 0 - (dw * (kw - 1) + 1)) / sw + 1) = Wo at eW bW1
  simp only [Nat.cast_zero] at eH eW
  simp only [Nat.cast_zero, mul_zero, add_zero] at bH1 bW1
  refine ⟨Ho, Wo, eH.symm, eW.symm, ?_, ?_, ?_, ?_, ?_⟩
  · exact details.im2col_primary_eq_zero_pad H W kh kw sh sw dh dw Ho Wo hsw bH1 bW1 fh fw hfh hfw
      dstm dst srcm src
  · simp only [details.im2col_process_row_apply_dispatch, and_self, if_true]
  · linarith
  · linarith
  · intro y x hy hx
    have hfd : (fw : Int) * (dw : Int) ≤ (dw : Int) * ((kw : Int) - 1) := by
      have : (fw : Int) ≤ (kw : Int) - 1 := by omega
      rw [mul_comm]
      exact mul_le_mul_of_nonneg_left this (Int.natCast_nonneg dw)
    have hfdh : (fh : Int) * (dh : Int) ≤ (dh : Int) * ((kh : Int) - 1) := by
      have : (fh : Int) ≤ (kh : Int) - 1 := by omega
      rw [mul_comm]
      exact mul_le_mul_of_nonneg_left this (Int.natCast_nonneg dh)
    have hys : (y : Int) * (sh : Int) ≤ ((Ho : Int) - 1) * (sh : Int) := by
      have : (y : Int) ≤ (Ho : Int) - 1 := by omega
      exact mul_le_mul_of_nonneg_right this (Int.natCast_nonneg sh)
    have hxs : (x : Int) * (sw : Int) ≤ ((Wo : Int) - 1) * (sw : Int) := by
      have : (x : Int) ≤ (Wo : Int) - 1 := by omega
      exact mul_le_mul_of_nonneg_right this (Int.natCast_nonneg sw)
    have hrow : (y : Int) * (sh : Int) + (fh : Int) * (dh : Int) ≤ (H : Int) - 1 := by linarith
    have hcol : (fw : Int) * (dw : Int) + (x : Int) * (sw : Int) ≤ (W : Int) - 1 := by linarith
    constructor
    · positivity
    · have hW0 : (0 : Int) ≤ (W : Int) := Int.natCast_nonneg W
      have h1 := mul_le_mul_of_nonneg_right hrow hW0
      linarith

/-- C31 at a concrete input: a `3 × 5` plane, kernel `2 × 2`, stride 2 along
the width, dilation 1, the tap `(1, 1)`; both templates write the two rows
`(7, 9)` and `(12, 14)` of the columns matrix. -/
theorem C31_im2col_paths_agree_witness :
    (List.range 4).map (fun (q : Nat) =>
        details.im2col_process_row_primary (R := Int) ⟨2, 2, 1, 2, 0, 0, 1, 1⟩ (fun _ => 0) 0
          (fun p => p + 1) 0 1 1 5 3 2 2 (q : Int)) = [7, 9, 12, 14] ∧
    (List.range 4).map (fun (q : Nat) =>
        details.im2col_process_row_zero_pad (R := Int) ⟨2, 2, 1, 2, 0, 0, 1, 1⟩ (fun _ => 0) 0
          (fun p => p + 1) 0 1 1 5 3 2 2 (q : Int)) = [7, 9, 12, 14] ∧
    details.im2col_process_row_primary (R := Int) ⟨2, 2, 1, 2, 0, 0, 1, 1⟩ (fun _ => 0) 0
        (fun p => p + 1) 0 1 1 5 3 2 2
      = details.im2col_process_row_zero_pad (R := Int) ⟨2, 2, 1, 2, 0, 0, 1, 1⟩ (fun _ => 0) 0
        (fun p => p + 1) 0 1 1 5 3 2 2 := by
  obtain ⟨Ho, Wo, h1, h2, h3, _⟩ := C31_im2col_paths_agree (R := Int) 3 5 2 2 1 2 1 1 (by decide)
    (by decide) (by decide) (by decide) (by decide) (by decide) 1 1 (by decide) (by decide)
    (fun _ => 0) 0 (fun p => p + 1) 0
  have e1 : Ho = 2 := by
    have : (Ho : Int) = 2 := by rw [h1]; decide
    omega
  have e2 : Wo = 2 := by
    have : (Wo : Int) = 2 := by rw [h2]; decide
    omega
  subst e1 e2
  exact ⟨by decide, by decide, h3⟩

/-- C32 (failing input): the adjoint identity with overlapping windows.  One
channel, the `1 × 4` image `x = (5, 6, 7, 8)`, kernel `1 × 2`, stride 1, no
padding, dilation 1 (`Hout = 1`, `Wout = 3`) and the columns buffer
`c = (1, 2, 3 ; 4, 5, 6)`.  The columns of `x` are `(5, 6, 7 ; 6, 7, 8)` and the
left sum is `145`.  Run in program order the two rows of `col2im` give
`(1, 6, 8, 6)` and the right sum is `145` as well.  The rows are the iterations
of a `parallel_for`: row 0 run on the zero image gives `(1, 2, 3, 0)` and row 1
gives `(0, 4, 5, 6)`, so both add to the pixels 1 and 2, and a run in which
row 1 reads them before row 0 stores them and stores after it ends with
`(1, 4, 5, 6)`, for which the right sum is `5 + 24 + 35 + 48 = 112`. -/
theorem C32_col2im_adjoint_rows_share_pixels :
    (List.range 6).map (fun (q : Nat) => details.im2col (R := Int) ⟨1, 2, 1, 1, 0, 0, 1, 1⟩
      (fun _ => 0) 0 (fun p => p + 5) 0 1 4 1 3 1 (q : Int)) = [5, 6, 7, 6, 7, 8] ∧
    ∑ row in Finset.range (1 * 1 * 2), ∑ p in Finset.range (1 * 3),
        details.im2col (R := Int) ⟨1, 2, 1, 1, 0, 0, 1, 1⟩ (fun _ => 0) 0 (fun p => p + 5) 0 1 4 1
            3 1 (((row * (1 * 3) + p : Nat) : Int))
          * (fun p : Int => p + 1) (((row * (1 * 3) + p : Nat) : Int)) = 145 ∧
    (List.range 4).map (fun (q : Nat) => details.col2im (R := Int) ⟨1, 2, 1, 1, 0, 0, 1, 1⟩
      (fun _ => 0) 0 (fun p => p + 1) 0 1 4 1 3 1 (q : Int)) = [1, 6, 8, 6] ∧
    ∑ q in Finset.range (1 * (1 * 4)),
        (fun p : Int => p + 5) (0 + (q : Int))
          * details.col2im (R := Int) ⟨1, 2, 1, 1, 0, 0, 1, 1⟩ (fun _ => 0) 0 (fun p => p + 1) 0
              1 4 1 3 1 (q : Int) = 145 ∧
    (List.range 4).map (fun (q : Nat) => details.col2im_row (R := Int) ⟨1, 2, 1, 1, 0, 0, 1, 1⟩
      0 (fun p => p + 1) 0 4 1 3 1 0 (fun _ => 0) (q : Int)) = [1, 2, 3, 0] ∧
    (List.range 4).map (fun (q : Nat) => details.col2im_row (R := Int) ⟨1, 2, 1, 1, 0, 0, 1, 1⟩
      0 (fun p => p + 1) 0 4 1 3 1 1 (fun _ => 0) (q : Int)) = [0, 4, 5, 6] ∧
    (5 : Int) * 1 + 6 * 4 + 7 * 5 + 8 * 6 = 112 := by
  decide

/-- C33 (failing input): `ExpandShape` pads on the right.  The loop assigns
`out[D - i - 1] = x[D - i - 1]`, the entries `0, ..., D - 1`, so the entries of
`x` come first and the ones behind them: `ExpandShape([18, 512])` is
`[18, 512, 1, 1]`, not `[1, 1, 18, 512]`; likewise for the ranks 1 and 3, and
a rank 4 shape is returned as it is.  The broadcasting loops of
`POINT_WISE_BINARY` index the operand shapes as `sa[1], sa[2], sa[3]` and
`sb[1], sb[2], sb[3]` for every rank. -/
theorem C33_expand_shape_pads_right :
    ExpandShape [18, 512] = [18, 512, 1, 1] ∧
    ExpandShape [18, 512] ≠ [1, 1, 18, 512] ∧
    ExpandShape [5] = [5, 1, 1, 1] ∧
    ExpandShape [2, 3, 4] = [2, 3, 4, 1] ∧
    ExpandShape [2, 3, 4, 5] = [2, 3, 4, 5] := by
  decide

/-- C34 (failing input): `Concat` with the default axis `-1` does not
concatenate.  On the rank 1 tensors `(1, 2)` and `(3, 4)` the call
`Concat<-1>` returns the shape `[2]` of `a`, a buffer of 2 elements, and copies
`size(a) + size(b) = 4` elements to the cells `0, ..., 3` of it, while
`Concat<0>` returns the shape `[4]`.  On `(1, 2)` and `(3, 4, 5)`, which agree
on all axes but the last, `Concat<-1>` fails the `assert` on the last axis and
`Concat<0>` returns the shape `[5]`. -/
theorem C34_concat_default_axis :
    (Concat (R := Int) (-1) ⟨fun p => p + 1, [2], 0, false⟩ ⟨fun p => p + 3, [2], 0, false⟩
        (fun _ => 0)).map
      (fun out => (out.m_shape, out.size, (List.range 5).map (fun (q : Nat) => out.m_ptr (q : Int))))
      = some ([2], 2, [1, 2, 3, 4, 0]) ∧
    (Concat (R := Int) 0 ⟨fun p => p + 1, [2], 0, false⟩ ⟨fun p => p + 3, [2], 0, false⟩
        (fun _ => 0)).map
      (fun out => (out.m_shape, out.size, (List.range 5).map (fun (q : Nat) => out.m_ptr (q : Int))))
      = some ([4], 4, [1, 2, 3, 4, 0]) ∧
    Concat (R := Int) (-1) ⟨fun p => p + 1, [2], 0, false⟩ ⟨fun p => p + 3, [3], 0, false⟩
        (fun _ => 0) = none ∧
    (Concat (R := Int) 0 ⟨fun p => p + 1, [2], 0, false⟩ ⟨fun p => p + 3, [3], 0, false⟩
        (fun _ => 0)).map (fun out => out.m_shape) = some [5] := by
  refine ⟨by decide, by decide, rfl, by decide⟩

/-- C35 (failing input): the rank 3 overload of `model_dict::load` returns the
shape `[w, 0, 0]`.  For the stored `float` entry `a` of rank 3 and shape
`[1, 1, 2]` (the unused fourth dimension is 1) with 8 payload bytes, the rank 3
request `(1, 1, 2)` passes the `assert`s and returns a view of shape
`[2, 0, 0]` with 0 elements, while the rank 4 request `(1, 1, 2, 1)` on the
same entry returns the shape `[1, 1, 2, 1]` with 2 elements, as the rank 2 and
rank 1 overloads return `[1, 1]` and `[1]` for the requests `(1, 1)` and
`(1)`. -/
theorem C35_load_rank3_shape :
    (model_dict.load_rank3 (R := List Nat) data_loading.check_type_float
        (fun bytes i => (bytes.drop (4 * i.toNat)).take 4)
        ⟨[([97], ⟨chars "float", 3, [1, 1, 2, 1], 8, 0, [1, 2, 3, 4, 5, 6, 7, 8]⟩)]⟩
        [97] 1 1 2).map (fun t => (t.m_shape, t.size))
      = some ([2, 0, 0], 0) ∧
    (model_dict.load (R := List Nat) data_loading.check_type_float
        (fun bytes i => (bytes.drop (4 * i.toNat)).take 4)
        ⟨[([97], ⟨chars "float", 3, [1, 1, 2, 1], 8, 0, [1, 2, 3, 4, 5, 6, 7, 8]⟩)]⟩
        [97] 1 1 2 1).map (fun t => (t.m_shape, t.size))
      = some ([1, 1, 2, 1], 2) ∧
    (model_dict.load_rank2 (R := List Nat) data_loading.check_type_float
        (fun bytes i => (bytes.drop (4 * i.toNat)).take 4)
        ⟨[([97], ⟨chars "float", 3, [1, 1, 2, 1], 8, 0, [1, 2, 3, 4, 5, 6, 7, 8]⟩)]⟩
        [97] 1 1).map (fun t => (t.m_shape, t.size))
      = some ([1, 1], 1) ∧
    (model_dict.load_rank1 (R := List Nat) data_loading.check_type_float
        (fun bytes i => (bytes.drop (4 * i.toNat)).take 4)
        ⟨[([97], ⟨chars "float", 3, [1, 1, 2, 1], 8, 0, [1, 2, 3, 4, 5, 6, 7, 8]⟩)]⟩
        [97] 1).map (fun t => (t.m_shape, t.size))
      = some ([1], 1) ∧
    model_dict.load_rank3 (R := List Nat) data_loading.check_type_float
        (fun bytes i => (bytes.drop (4 * i.toNat)).take 4)
        ⟨[([97], ⟨chars "float", 3, [1, 1, 2, 1], 8, 0, [1, 2, 3, 4, 5, 6, 7, 8]⟩)]⟩
        [97] 1 2 1 = none := by
  refine ⟨by decide, by decide, by decide, by decide, rfl⟩

/-- C36 (failing input): the tail loop of the pointwise kernels on an empty
tensor.  For `l = 0` the tail loop starts at `4 * ((0 - 4) / 4) = -4` and runs
while `i < 0`.  On the empty view of shape `[0]` at offset 4 of a buffer
holding 7, with `OP = v + 1`: `POINT_WISE` stores 8 to the cells `-4, ..., -1`
of the new buffer (shown are the cells `-5, ..., 0`), `POINT_INPLACE` reads and
overwrites the cells `0, ..., 3` of the buffer, which lie before the view
(shown are the cells `-1, ..., 4`), and the equal-shape path of
`POINT_WISE_BINARY` with `OP = a + b` stores `7 + 5` to the cells `-4, ..., -1`.
The result keeps the shape `[0]`. -/
theorem C36_pointwise_empty_tensor_tail :
    tensor.size (R := Int) ⟨fun _ => 7, [0], 4, false⟩ = 0 ∧
    4 * Int.tdiv ((0 : Int) - 4) 4 = -4 ∧
    (POINT_WISE (fun v => v + 1) (⟨fun _ => 7, [0], 4, false⟩ : tensor Int)
      (fun _ => 0)).m_shape = [0] ∧
    (List.range 6).map (fun (q : Nat) =>
      (POINT_WISE (fun v => v + 1) (⟨fun _ => 7, [0], 4, false⟩ : tensor Int) (fun _ => 0)).m_ptr
        ((q : Int) - 5)) = [0, 8, 8, 8, 8, 0] ∧
    (List.range 6).map (fun (q : Nat) =>
      (POINT_INPLACE (fun v => v + 1) (⟨fun _ => 7, [0], 4, false⟩ : tensor Int)).m_ptr
        ((q : Int) - 1)) = [7, 8, 8, 8, 8, 7] ∧
    (POINT_WISE_BINARY (fun a b => a + b) (⟨fun _ => 7, [0], 4, false⟩ : tensor Int)
        ⟨fun _ => 5, [0], 4, false⟩ (fun _ => 0)).map
      (fun out => (out.m_shape, (List.range 6).map (fun (q : Nat) => out.m_ptr ((q : Int) - 5))))
      = some ([0], [0, 12, 12, 12, 12, 0]) := by
  refine ⟨by decide, by decide, by decide, by decide, by decide, by decide⟩

/-- C37: `save` and `load` round-trip.  For every non-empty `model_dict` (the
map holds its entries by increasing name) whose entries are uncompressed, have
one of the type tags `float`, `doubl`, `int32`, `int16`, a rank of at most 4
with the unused trailing dimensions equal to 1 (the four dimensions are
`uint32_t`), a NUL-free name and a payload of
`get_size(type) * shape[0] * shape[1] * shape[2] * shape[3]` bytes (a size that
fits `uint64_t`), `save` writes a file and `load` of that file returns the
dictionary with the same names in the same order and, for each, the same type,
rank, shape, compressed size and payload; the field `size` is the payload
size, so a dictionary whose `size` fields hold the payload sizes comes back
unchanged. -/
theorem C37_save_load_round_trip (md : model_dict) (hne : md.m_parameters ≠ [])
    (hkeys : md.m_parameters.Pairwise (fun p q => p.1 < q.1))
    (hentries : ∀ p ∈ md.m_parameters, 0 ∉ p.1 ∧ p.2.compressed_size = 0 ∧
      (p.2.type = chars "float" ∨ p.2.type = chars "doubl" ∨ p.2.type = chars "int32"
        ∨ p.2.type = chars "int16") ∧
      p.2.ndim ≤ 4 ∧ p.2.shape.length = 4 ∧ (∀ i, i < 4 → p.2.shape.getD i 0 < 2 ^ 32) ∧
      (∀ i, p.2.ndim ≤ i → i < 4 → p.2.shape.getD i 0 = 1) ∧
      p.2.ptr.length = data_loading.get_size p.2.type * p.2.shape.getD 0 0 * p.2.shape.getD 1 0
        * p.2.shape.getD 2 0 * p.2.shape.getD 3 0 ∧
      p.2.ptr.length < 2 ^ 64) :
    ∃ file : List Nat, save md = some file ∧
      load file = some ⟨md.m_parameters.map (fun p =>
        (p.1, { p.2 with size := p.2.ptr.length }))⟩ ∧
      ((∀ p ∈ md.m_parameters, p.2.size = p.2.ptr.length) → load file = some md) := by
  obtain ⟨B, hs, hlen, _, hload⟩ := save_load_loop md.m_parameters hentries hkeys []
  rw [List.nil_append] at hs
  have hl : load B = some ⟨md.m_parameters.map (fun p =>
      (p.1, { p.2 with size := p.2.ptr.length }))⟩ := by
    have h := hload hne ⟨[]⟩ (B.length + 1) (by simp) (by omega)
    unfold load
    rw [h, List.nil_append]
    congr 2
    apply List.map_congr_left
    intro p hp
    obtain ⟨_, v2, _, _, v5, _⟩ := hentries p hp
    obtain ⟨name, ty, nd, sh, sz, cs, pt⟩ := p
    simp only at v2 v5 ⊢
    subst v2
    match sh, v5 with
    | [a, b, c, d], _ => rfl
  refine ⟨B, hs, hl, ?_⟩
  intro hsize
  rw [hl]
  congr 1
  obtain ⟨ps⟩ := md
  simp only [model_dict.mk.injEq]
  simp only at hsize
  conv_rhs => rw [← List.map_id ps]
  apply List.map_congr_left
  intro p hp
  have := hsize p hp
  obtain ⟨name, ty, nd, sh, sz, cs, pt⟩ := p
  simp only at this ⊢
  rw [this]
  rfl

/-- C37 at a concrete dictionary: the entries `a` (`float`, rank 1, shape
`[2]`, 8 bytes) and `b` (`int16`, rank 2, shape `[1, 2]`, 4 bytes). -/
theorem C37_save_load_round_trip_witness :
    ∃ file : List Nat,
      save ⟨[([97], ⟨chars "float", 1, [2, 1, 1, 1], 8, 0, [1, 2, 3, 4, 5, 6, 7, 8]⟩),
          ([98], ⟨chars "int16", 2, [1, 2, 1, 1], 4, 0, [9, 10, 11, 12]⟩)]⟩ = some file ∧
      load file = some ⟨[([97], ⟨chars "float", 1, [2, 1, 1, 1], 8, 0, [1, 2, 3, 4, 5, 6, 7, 8]⟩),
          ([98], ⟨chars "int16", 2, [1, 2, 1, 1], 4, 0, [9, 10, 11, 12]⟩)]⟩ := by
  obtain ⟨file, h1, _, h3⟩ := C37_save_load_round_trip
    ⟨[([97], ⟨chars "float", 1, [2, 1, 1, 1], 8, 0, [1, 2, 3, 4, 5, 6, 7, 8]⟩),
      ([98], ⟨chars "int16", 2, [1, 2, 1, 1], 4, 0, [9, 10, 11, 12]⟩)]⟩
    (by decide) (by decide) (by decide)
  exact ⟨file, h1, h3 (by decide)⟩

/-- C38 (failing input): `AveragePool2d` with a dilation above 1 divides by the
extent of the window, not by the number of samples.  On the `3 × 3` plane
`1, ..., 9` with kernel `2 × 2`, stride 1, no padding and dilation 2, the one
output position samples the four corners `1, 3, 7, 9`, all in bounds, and the
code returns `(1 + 3 + 7 + 9) / 3 / 3 = 20 / 9`; the average of the four
samples is 5.  With dilation 1 the first output is `(1 + 2 + 4 + 5) / 2 / 2`,
the average 3. -/
theorem C38_average_pool_dilated_divisor :
    (AveragePool2d (R := ℚ) ⟨2, 2, 1, 1, 0, 0, 2, 2⟩
      ⟨fun p => ([1, 2, 3, 4, 5, 6, 7, 8, 9] : List ℚ).getD p.toNat 0, [1, 1, 3, 3], 0, false⟩
      (fun _ => 0)).m_shape = [1, 1, 1, 1] ∧
    (AveragePool2d (R := ℚ) ⟨2, 2, 1, 1, 0, 0, 2, 2⟩
      ⟨fun p => ([1, 2, 3, 4, 5, 6, 7, 8, 9] : List ℚ).getD p.toNat 0, [1, 1, 3, 3], 0, false⟩
      (fun _ => 0)).m_ptr 0 = (0 + 1 + 3 + 7 + 9) / ((3 : Int) : ℚ) / ((3 : Int) : ℚ) ∧
    (0 + 1 + 3 + 7 + 9) / ((3 : Int) : ℚ) / ((3 : Int) : ℚ) = 20 / 9 ∧
    ((1 : ℚ) + 3 + 7 + 9) / 4 = 5 ∧
    (AveragePool2d (R := ℚ) ⟨2, 2, 1, 1, 0, 0, 1, 1⟩
      ⟨fun p => ([1, 2, 3, 4, 5, 6, 7, 8, 9] : List ℚ).getD p.toNat 0, [1, 1, 3, 3], 0, false⟩
      (fun _ => 0)).m_ptr 0 = (0 + 1 + 2 + 4 + 5) / ((2 : Int) : ℚ) / ((2 : Int) : ℚ) ∧
    (0 + 1 + 2 + 4 + 5) / ((2 : Int) : ℚ) / ((2 : Int) : ℚ) = 3 := by
  refine ⟨by decide, rfl, by norm_num, by norm_num, rfl, by norm_num⟩

/-- C39: `GlobalAveragePool2d` sums every element exactly once.  For every
`in[N,C,H,W]` with `H, W ≥ 1` (every width, below 6 or not a multiple of 6
included) the result has the shape `[N,C,1,1]` and, for every `n < N` and
`c < C`, `out[n,c,0,0]` is the sum of `in[n,c,h,w]` over all `h < H`, `w < W`
divided by `H * W`; no other cell of the new buffer is written.  In a row the
six-way loop runs `ceil(((W-6)/6) / 6)` times: its iteration `jb` reads the
indices `6*jb, ..., 6*jb + 5`, all below `W`, and the tail loop starts at an
index of at most `W`. -/
theorem C39_global_average_pool_sums_once {R : Type} [Field R] (N C H W : Nat)
    (hH : 1 ≤ H) (hW : 1 ≤ W) (input : tensor R) (fresh : Int → R)
    (hin : input.m_shape = [(N : Int), (C : Int), (H : Int), (W : Int)]) :
    (0 : Int) < (H : Int) * (W : Int) ∧
    (GlobalAveragePool2d input fresh).m_shape = [(N : Int), (C : Int), 1, 1] ∧
    (∀ n c : Nat, n < N → c < C →
      (GlobalAveragePool2d input fresh).get4 n c 0 0
        = (∑ h in Finset.range H, ∑ w in Finset.range W, input.get4 n c h w)
          / (((H : Int) * (W : Int) : Int) : R)) ∧
    (∀ p : Int, (p < 0 ∨ (N : Int) * (C : Int) ≤ p) →
      (GlobalAveragePool2d input fresh).m_ptr p = fresh p) ∧
    (∀ jb : Nat, jb < ((Int.tdiv ((W : Int) - 6) 6).toNat + 6 - 1) / 6 → 6 * jb + 5 < W) ∧
    forStepEnd 6 (Int.tdiv ((W : Int) - 6) 6) ≤ (W : Int) := by
  obtain ⟨h1, h2, h3⟩ := GlobalAveragePool2d_apply N C H W input fresh hin
  obtain ⟨_, hc⟩ := gap_main_count W
  refine ⟨by positivity, h1, h2, h3, ?_, ?_⟩
  · intro jb hjb
    omega
  · unfold forStepEnd
    omega

/-- C39 at a concrete input: the `2 × 7` plane `1, ..., 14` (a width that is
not a multiple of 6); the result is `105 / 14`. -/
theorem C39_global_average_pool_sums_once_witness :
    (GlobalAveragePool2d (R := ℚ) ⟨fun p => ((p + 1 : Int) : ℚ), [1, 1, 2, 7], 0, false⟩
        (fun _ => 0)).m_shape = [1, 1, 1, 1] ∧
    (GlobalAveragePool2d (R := ℚ) ⟨fun p => ((p + 1 : Int) : ℚ), [1, 1, 2, 7], 0, false⟩
        (fun _ => 0)).get4 0 0 0 0 = 105 / 14 := by
  obtain ⟨_, h1, h2, _⟩ := C39_global_average_pool_sums_once (R := ℚ) 1 1 2 7 (by decide)
    (by decide) ⟨fun p => ((p + 1 : Int) : ℚ), [1, 1, 2, 7], 0, false⟩ (fun _ => 0) rfl
  refine ⟨h1, ?_⟩
  have h := h2 0 0 (by decide) (by decide)
  simp only [Nat.cast_zero] at h
  rw [h]
  simp only [tensor.get4, tensor.Sub2, tensor.Sub, tensor.size, List.tail_cons, List.foldl_cons,
    List.foldl_nil, List.getD_cons_succ, List.getD_cons_zero, Finset.sum_range_succ,
    Finset.sum_range_zero]
  norm_num

end t4
